import Mathlib

/-!
GraphLab: scope-lock manager and sub-task futures.

A verification development over two parts of the repository:

* `src/graphlab/distributed2/graph/graph_lock.hpp`: the two families of
  continuations that complete a distributed scope lock;
* `src/graphlab/engine/gl3engine.hpp`: the fan-out / combine protocol of
  sub-tasks (`spawn_task`, `rpc_receive_task`, `exec_subtasks`, `task_reply`).

Machine integers are natural numbers; the two integer types whose width is
declared outside the sources are parameters: `vmax` is `(vertex_id_t)(-1)`,
the largest vertex id, and `pmod` is the number of values of `procid_t`.
-/

namespace graphlab

/-! ## Scope kinds and lock types -/

/-- Modelled from the spec: the scope kinds of `scope_range::scope_range_enum`
(`graphlab/scope/iscope.hpp` is not part of the sources), as enumerated in the
table of scope kinds. -/
inductive scope_range_enum where
  | NULL
  | VERTEX_CONSISTENCY
  | VERTEX_READ_CONSISTENCY
  | READ_CONSISTENCY
  | EDGE_CONSISTENCY
  | FULL_CONSISTENCY
  deriving DecidableEq, Repr

/-- Modelled from the spec: the lock types of `scope_range::lock_type_enum`
(`graphlab/scope/iscope.hpp` is not part of the sources): none, read, write. -/
inductive lock_type_enum where
  | NO_LOCK
  | READ_LOCK
  | WRITE_LOCK
  deriving DecidableEq, Repr

open scope_range_enum lock_type_enum

/-- Modelled from the spec: `central_vertex_lock_type` of
`graphlab/scope/iscope.hpp` (not part of the sources), the column
"Center lock" of the table of scope kinds. -/
def central_vertex_lock_type : scope_range_enum → lock_type_enum
  | NULL => NO_LOCK
  | VERTEX_CONSISTENCY => WRITE_LOCK
  | VERTEX_READ_CONSISTENCY => READ_LOCK
  | READ_CONSISTENCY => READ_LOCK
  | EDGE_CONSISTENCY => WRITE_LOCK
  | FULL_CONSISTENCY => WRITE_LOCK

/-- Modelled from the spec: `adjacent_vertex_lock_type` of
`graphlab/scope/iscope.hpp` (not part of the sources), the column
"Adjacent lock" of the table of scope kinds. -/
def adjacent_vertex_lock_type : scope_range_enum → lock_type_enum
  | NULL => NO_LOCK
  | VERTEX_CONSISTENCY => NO_LOCK
  | VERTEX_READ_CONSISTENCY => NO_LOCK
  | READ_CONSISTENCY => READ_LOCK
  | EDGE_CONSISTENCY => READ_LOCK
  | FULL_CONSISTENCY => WRITE_LOCK

/-! ## The distributed graph as one machine sees it -/

/-- The part of `distributed_graph` that `graph_lock` reads on one machine:
the local store (`in_edge_ids`, `out_edge_ids`, `source`, `target`), the ghost
test, the map from global to local ids and the replica list of a local
vertex. -/
structure distributed_graph where
  in_edge_ids : Nat → List Nat
  out_edge_ids : Nat → List Nat
  source : Nat → Nat
  target : Nat → Nat
  localvid_is_ghost : Nat → Bool
  global2localvid : Nat → Option Nat
  localvid_to_replicas : Nat → List Nat

/-- The sources of the in-edges of `v`, in the order of `in_edge_ids(v)`. -/
def distributed_graph.in_sources (g : distributed_graph) (v : Nat) : List Nat :=
  (g.in_edge_ids v).map g.source

/-- The targets of the out-edges of `v`, in the order of `out_edge_ids(v)`. -/
def distributed_graph.out_targets (g : distributed_graph) (v : Nat) : List Nat :=
  (g.out_edge_ids v).map g.target

/-! ## Continuation records -/

/-- The record `scopelock_cont_params`; the handler is not stored, its
invocation is an event of the run. -/
structure scopelock_cont_params where
  globalvid : Nat
  localvid : Nat
  nextowneridx : Nat
  scopetype : scope_range_enum
  deriving DecidableEq, Repr

/-- The record `partiallock_cont_params`; the embedded request `req` carries
only the tag of the record itself and is left out. -/
structure partiallock_cont_params where
  inidx : Nat
  outidx : Nat
  localvid : Nat
  srcproc : Nat
  src_tag : Nat
  scopetype : scope_range_enum
  curlocked : Bool
  deriving DecidableEq, Repr

/-- One call `issue_deferred_lock(id, req, locktype)`. -/
structure lock_call where
  id : Nat
  locktype : lock_type_enum
  deriving DecidableEq, Repr

/-- How one call of `continue_partial_lock` ends: it returns early at a lock
call that answered `false` (`suspended`), or it reaches the end, reports the
completion to `srcproc` and erases its record (`completed`). `out_of_fuel` is
the loop bound of the embedding running out. -/
inductive partial_outcome where
  | suspended (at_call : lock_call)
  | completed
  | out_of_fuel
  deriving DecidableEq, Repr

/-- The result of one call of `continue_partial_lock`: the record as the call
leaves it, the lock calls it made, in order, and how it ended. -/
structure partial_result where
  params : partiallock_cont_params
  calls : List lock_call
  outcome : partial_outcome
  deriving DecidableEq, Repr

/-! ## `issue_deferred_lock` and the partial-lock walk -/

/-- The function `issue_deferred_lock`. The deferred locks (`readlock` with
`complete_release` watching the request, `writelock`) come from
`deferred_rwlock.hpp`, which is not part of the sources: `granted` is their
answer, `true` when the request is granted at once and `false` when it is
queued. A lock type that is neither read nor write answers `false`. -/
def issue_deferred_lock (granted : Bool) (locktype : lock_type_enum) : Bool :=
  match locktype with
  | READ_LOCK => granted
  | WRITE_LOCK => granted
  | NO_LOCK => false

/-- The guard
`localvid_is_ghost(id) == false && issue_deferred_lock(id, req, locktype) == false`:
whether the walk returns here, and the lock calls made (none for a ghost). -/
def lock_guard (g : distributed_graph) (granted : Bool) (id : Nat)
    (locktype : lock_type_enum) : Bool × List lock_call :=
  if g.localvid_is_ghost id = false then
    (issue_deferred_lock granted locktype = false, [⟨id, locktype⟩])
  else (false, [])

/-- The expression
`(inedges.size() > inidx) ? source(inedges[inidx]) : (vertex_id_t)(-1)`. -/
def next_inv (g : distributed_graph) (vmax curv inidx : Nat) : Nat :=
  if (g.in_edge_ids curv).length > inidx then
    g.source ((g.in_edge_ids curv).getD inidx 0) else vmax

/-- The expression
`(outedges.size() > outidx) ? target(outedges[outidx]) : (vertex_id_t)(-1)`. -/
def next_outv (g : distributed_graph) (vmax curv outidx : Nat) : Nat :=
  if (g.out_edge_ids curv).length > outidx then
    g.target ((g.out_edge_ids curv).getD outidx 0) else vmax

/-- Continue a walk after a lock guard: return at once when the guard says so,
else go on with `rest`, which receives the number of lock calls made. -/
def after_guard (p : partiallock_cont_params) (gd : Bool × List lock_call)
    (rest : Nat → partial_result) : partial_result :=
  if gd.1 then
    ⟨p, gd.2, partial_outcome.suspended (gd.2.headD ⟨0, NO_LOCK⟩)⟩
  else
    let r := rest gd.2.length
    ⟨r.params, gd.2 ++ r.calls, r.outcome⟩

/-- The end of `continue_partial_lock`, after the merge loop: lock the centre
if that has not happened yet, then complete. -/
def finish_partial_lock (g : distributed_graph) (grant : Nat → Bool)
    (p : partiallock_cont_params) : partial_result :=
  if p.curlocked = false then
    let p1 := { p with curlocked := true }
    after_guard p1
      (lock_guard g (grant 0) p.localvid (central_vertex_lock_type p.scopetype))
      (fun _ => ⟨p1, [], partial_outcome.completed⟩)
  else ⟨p, [], partial_outcome.completed⟩

/-- The merge loop of `continue_partial_lock`, one iteration per unit of
`fuel`; `inv` and `outv` are the two local variables of the function and
`grant i` is the answer of the deferred lock to the `i`-th lock call made from
here on. -/
def walk_loop (g : distributed_graph) (vmax : Nat) :
    Nat → (Nat → Bool) → partiallock_cont_params → Nat → Nat → partial_result
  | 0, _, p, _, _ => ⟨p, [], partial_outcome.out_of_fuel⟩
  | fuel + 1, grant, p, inv, outv =>
    let curv := p.localvid
    if p.inidx < (g.in_edge_ids curv).length ∨ p.outidx < (g.out_edge_ids curv).length then
      if p.curlocked = false ∧ curv < inv ∧ curv < outv then
        let p1 := { p with curlocked := true }
        after_guard p1
          (lock_guard g (grant 0) curv (central_vertex_lock_type p.scopetype))
          (fun n => walk_loop g vmax fuel (fun i => grant (i + n)) p1 inv outv)
      else if inv < outv then
        let p1 := { p with inidx := p.inidx + 1 }
        after_guard p1
          (lock_guard g (grant 0) inv (adjacent_vertex_lock_type p.scopetype))
          (fun n => walk_loop g vmax fuel (fun i => grant (i + n)) p1
            (next_inv g vmax curv p1.inidx) outv)
      else if outv < inv then
        let p1 := { p with outidx := p.outidx + 1 }
        after_guard p1
          (lock_guard g (grant 0) outv (adjacent_vertex_lock_type p.scopetype))
          (fun n => walk_loop g vmax fuel (fun i => grant (i + n)) p1
            inv (next_outv g vmax curv p1.outidx))
      else if inv = outv then
        let p1 := { p with inidx := p.inidx + 1, outidx := p.outidx + 1 }
        after_guard p1
          (lock_guard g (grant 0) outv (adjacent_vertex_lock_type p.scopetype))
          (fun n => walk_loop g vmax fuel (fun i => grant (i + n)) p1
            (next_inv g vmax curv p1.inidx) (next_outv g vmax curv p1.outidx))
      else walk_loop g vmax fuel grant p inv outv
    else finish_partial_lock g grant p

/-- A number of iterations that the merge loop started from `p` cannot
exceed: the remaining in-edges, the remaining out-edges, the centre and the
final test. -/
def walk_fuel (g : distributed_graph) (p : partiallock_cont_params) : Nat :=
  ((g.in_edge_ids p.localvid).length - p.inidx)
    + ((g.out_edge_ids p.localvid).length - p.outidx) + 2

/-- The function `continue_partial_lock`: one call, from the record `p`. -/
def continue_partial_lock (g : distributed_graph) (vmax : Nat) (grant : Nat → Bool)
    (p : partiallock_cont_params) : partial_result :=
  walk_loop g vmax (walk_fuel g p) grant p
    (next_inv g vmax p.localvid p.inidx) (next_outv g vmax p.localvid p.outidx)

/-- The function `partial_lock_request_impl`, up to the call of
`continue_partial_lock`: the fresh record, or `none` when the assertion that
the vertex is in the local fragment fails. -/
def partial_lock_request_impl (g : distributed_graph) (vmax srcproc globalvid : Nat)
    (scopetype : scope_range_enum) (src_tag : Nat) : Option partiallock_cont_params :=
  let idx := if adjacent_vertex_lock_type scopetype = NO_LOCK then vmax else 0
  match g.global2localvid globalvid with
  | none => none
  | some lv => some
      { inidx := idx, outidx := idx, localvid := lv, srcproc := srcproc,
        src_tag := src_tag, scopetype := scopetype, curlocked := false }

/-- The life of one partial lock after `partial_lock_request_impl` has built
its record: `continue_partial_lock` runs; when it returns early at a read or
write request, the request sits in the queue of a deferred lock, is granted
later, and `complete_release` calls `continue_partial_lock` on the record
again. A call with `NO_LOCK` queues nothing, so nothing resumes the record.
`grant i` is the answer to the `i`-th lock call of the partial lock. -/
def resume_partial_lock (g : distributed_graph) (vmax : Nat) :
    Nat → (Nat → Bool) → partiallock_cont_params → partial_result
  | 0, _, p => ⟨p, [], partial_outcome.out_of_fuel⟩
  | fuel + 1, grant, p =>
    let r := continue_partial_lock g vmax grant p
    match r.outcome with
    | partial_outcome.suspended c =>
      if c.locktype = NO_LOCK then r
      else
        let r2 := resume_partial_lock g vmax fuel (fun i => grant (i + r.calls.length)) r.params
        ⟨r2.params, r.calls ++ r2.calls, r2.outcome⟩
    | _ => r

/-- The partial lock of the fresh record `p`, run to its end. -/
def partial_lock_run (g : distributed_graph) (vmax : Nat) (grant : Nat → Bool)
    (p : partiallock_cont_params) : partial_result :=
  resume_partial_lock g vmax (walk_fuel g p) grant p

/-! ## The scope-lock continuation -/

/-- What one call of `continue_scope_lock` does besides updating its record:
it sends a partial-lock request to a machine, or it is done, calls the handler
on the global vertex id and erases the record. -/
inductive scope_action where
  | request (destproc : Nat)
  | done
  deriving DecidableEq, Repr

/-- The function `continue_scope_lock`, on the machine `procid` whose graph is
`g`; `nextowneridx` is a `procid_t` and its increment wraps at `pmod`. -/
def continue_scope_lock (g : distributed_graph) (procid pmod : Nat)
    (params : scopelock_cont_params) : scopelock_cont_params × scope_action :=
  if adjacent_vertex_lock_type params.scopetype ≠ NO_LOCK then
    let procs := g.localvid_to_replicas params.localvid
    let curidx := params.nextowneridx
    if curidx < procs.length then
      ({ params with nextowneridx := (params.nextowneridx + 1) % pmod },
        scope_action.request (procs.getD curidx 0))
    else (params, scope_action.done)
  else
    if params.nextowneridx = 0 then
      ({ params with nextowneridx := (params.nextowneridx + 1) % pmod },
        scope_action.request procid)
    else (params, scope_action.done)

/-- What can be observed of one scope request. -/
inductive scope_event where
  | partial_lock_request (destproc globalvid : Nat) (scopetype : scope_range_enum)
  | lock (proc : Nat) (call : lock_call)
  | partial_lock_completion (proc : Nat)
  | handler (globalvid : Nat)
  | erase_scopelock
  deriving DecidableEq, Repr

/-- How a scope request stands when nothing more can happen: the handler was
called and the record erased (`finished`); a partial lock on `proc` stopped at
a lock call that nothing will ever resume (`blocked`); the assertion of
`partial_lock_request_impl` failed on `proc`; or the bound of the embedding ran
out. -/
inductive scope_outcome where
  | finished
  | blocked (proc : Nat) (at_call : lock_call)
  | assertion_failed (proc : Nat)
  | out_of_fuel
  deriving DecidableEq, Repr

/-- The result of a scope request: the record, the events in order, and the
outcome. -/
structure scope_result where
  params : scopelock_cont_params
  events : List scope_event
  outcome : scope_outcome
  deriving DecidableEq, Repr

/-- The function `partial_lock_request`: the source machine that the
destination is told, in the local fast track and in the remote call. -/
def partial_lock_request_srcproc (procid destproc : Nat) : Nat :=
  if destproc = procid then destproc else procid

/-- The scope-lock continuation from `continue_scope_lock` on: each
partial-lock request runs `partial_lock_request_impl` on its destination
(directly when local, by remote call otherwise), and the completion of the
partial lock runs `partial_lock_completion`, hence `continue_scope_lock`, on
the requesting machine `me`. `cl q` is the graph of machine `q`, `tag` the
address of the scope record and `grant j i` the answer of the deferred lock to
the `i`-th lock call of the partial lock requested at replica index `j`. -/
def scope_lock_run (cl : Nat → distributed_graph) (me vmax pmod tag : Nat)
    (grant : Nat → Nat → Bool) : Nat → scopelock_cont_params → scope_result
  | 0, sp => ⟨sp, [], scope_outcome.out_of_fuel⟩
  | fuel + 1, sp =>
    match continue_scope_lock (cl me) me pmod sp with
    | (sp1, scope_action.done) =>
      ⟨sp1, [scope_event.handler sp1.globalvid, scope_event.erase_scopelock],
        scope_outcome.finished⟩
    | (sp1, scope_action.request dest) =>
      let ev := scope_event.partial_lock_request dest sp1.globalvid sp1.scopetype
      match partial_lock_request_impl (cl dest) vmax (partial_lock_request_srcproc me dest)
          sp1.globalvid sp1.scopetype tag with
      | none => ⟨sp1, [ev], scope_outcome.assertion_failed dest⟩
      | some pp =>
        let r := partial_lock_run (cl dest) vmax (grant sp.nextowneridx) pp
        let evs := ev :: r.calls.map (scope_event.lock dest)
        match r.outcome with
        | partial_outcome.completed =>
          let s := scope_lock_run cl me vmax pmod tag grant fuel sp1
          ⟨s.params, evs ++ scope_event.partial_lock_completion dest :: s.events, s.outcome⟩
        | partial_outcome.suspended c => ⟨sp1, evs, scope_outcome.blocked dest c⟩
        | partial_outcome.out_of_fuel => ⟨sp1, evs, scope_outcome.out_of_fuel⟩

/-- The function `scope_request` on machine `me`, followed to the end of the
scope-lock continuation it starts. The assertion that the vertex is known
locally is the `none` case. -/
def scope_request (cl : Nat → distributed_graph) (me vmax pmod tag : Nat)
    (grant : Nat → Nat → Bool) (globalvid : Nat) (scopetype : scope_range_enum) :
    Option scope_result :=
  match (cl me).global2localvid globalvid with
  | none => none
  | some lv =>
    some (scope_lock_run cl me vmax pmod tag grant
      (((cl me).localvid_to_replicas lv).length + 2)
      { globalvid := globalvid, localvid := lv, nextowneridx := 0, scopetype := scopetype })

/-! ## Specification of the walk

The order in which the merge loop visits the closed neighbourhood of a vertex,
written over lists; the theorems below relate `continue_partial_lock` to it. -/

/-- The union merge of two lists of ids: the smaller head first, a common head once. -/
def umerge : List Nat → List Nat → List Nat
  | [], ro => ro
  | a :: s, [] => a :: s
  | a :: s, b :: t =>
    if a < b then a :: umerge s (b :: t)
    else if b < a then b :: umerge (a :: s) t
    else a :: umerge s t
termination_by ri ro => ri.length + ro.length

/-- The ids of `m` as adjacent lock calls, with the centre `c` put in front of
the first id above it (at the end when there is none) unless it is locked
already. -/
def with_center (c : Nat) (tc ta : lock_type_enum) : List Nat → Bool → List lock_call
  | [], true => []
  | [], false => [⟨c, tc⟩]
  | x :: m, true => ⟨x, ta⟩ :: with_center c tc ta m true
  | x :: m, false =>
    if c < x then ⟨c, tc⟩ :: ⟨x, ta⟩ :: with_center c tc ta m true
    else ⟨x, ta⟩ :: with_center c tc ta m false

/-- The vertices that the walk has still to visit from the record `p`, ghosts
included, each with the lock type it is to be locked with. -/
def visits (g : distributed_graph) (p : partiallock_cont_params) : List lock_call :=
  with_center p.localvid (central_vertex_lock_type p.scopetype)
    (adjacent_vertex_lock_type p.scopetype)
    (umerge ((g.in_sources p.localvid).drop p.inidx) ((g.out_targets p.localvid).drop p.outidx))
    p.curlocked

/-- One call of the walk over a list of visits: ghosts are passed over, each
other vertex gets a lock call, and the call stops at the first one answered
`false`. The result is the calls made, the visits left and the outcome. -/
def visit_call (ghost : Nat → Bool) :
    (Nat → Bool) → List lock_call → List lock_call × List lock_call × partial_outcome
  | _, [] => ([], [], partial_outcome.completed)
  | grant, v :: vs =>
    if ghost v.id then visit_call ghost grant vs
    else if issue_deferred_lock (grant 0) v.locktype = false then
      ([v], vs, partial_outcome.suspended v)
    else
      let r := visit_call ghost (fun i => grant (i + 1)) vs
      (v :: r.1, r.2.1, r.2.2)

/-- What bounds the number of loop iterations left from `p`. -/
def walk_measure (g : distributed_graph) (p : partiallock_cont_params) : Nat :=
  ((g.in_edge_ids p.localvid).length - p.inidx)
    + ((g.out_edge_ids p.localvid).length - p.outidx) + (if p.curlocked then 0 else 1)

/-- The ids of the neighbours of local vertex `v` fit the type `vertex_id_t`. -/
def ids_in_range (g : distributed_graph) (vmax v : Nat) : Prop :=
  (∀ x ∈ g.in_sources v, x ≤ vmax) ∧ (∀ x ∈ g.out_targets v, x ≤ vmax)

/-- The fields of the record that the walk never writes. -/
def same_request (p q : partiallock_cont_params) : Prop :=
  q.localvid = p.localvid ∧ q.scopetype = p.scopetype ∧ q.srcproc = p.srcproc
    ∧ q.src_tag = p.src_tag

/-- The whole life of a partial lock over a list of visits: every vertex that
is not a ghost gets one lock call, up to and including the first call with
`NO_LOCK`, which stops the partial lock for good. -/
def visit_run (ghost : Nat → Bool) : List lock_call → List lock_call × partial_outcome
  | [] => ([], partial_outcome.completed)
  | v :: vs =>
    if ghost v.id then visit_run ghost vs
    else if v.locktype = NO_LOCK then ([v], partial_outcome.suspended v)
    else (v :: (visit_run ghost vs).1, (visit_run ghost vs).2)

/-- The visits that are not ghosts. -/
def owned_visits (ghost : Nat → Bool) (vs : List lock_call) : List lock_call :=
  vs.filter (fun v => !ghost v.id)

/-- Whether an event is a lock call of a partial lock. -/
def scope_event.is_lock : scope_event → Bool
  | scope_event.lock _ _ => true
  | _ => false

/-- Whether an event is a call of the handler. -/
def scope_event.is_handler : scope_event → Bool
  | scope_event.handler _ => true
  | _ => false

/-- Whether an event is a partial-lock request. -/
def scope_event.is_request : scope_event → Bool
  | scope_event.partial_lock_request _ _ _ => true
  | _ => false

/-- Every replica of the vertex `globalvid` holds it, with neighbour ids that
fit the type `vertex_id_t`. -/
def replicas_hold (cl : Nat → distributed_graph) (vmax globalvid : Nat)
    (procs : List Nat) : Prop :=
  ∀ q ∈ procs, ∃ lq, (cl q).global2localvid globalvid = some lq ∧ ids_in_range (cl q) vmax lq

/-- A local graph for examples, with the edges `0 → 5`, `7 → 5`, `5 → 3`,
`5 → 7`, `1 → 1`, `1 → 7`, `2 → 2`, `4 → 6`, `6 → 9`, `4 → 3` and `4 → 3` again,
numbered from 0 in this order; the in-edges of a vertex are listed by
ascending source and its out-edges by ascending target. Vertex 1 and vertex 2
have a self-loop, vertex 3 two parallel in-edges; the vertices from 8 on are
ghosts, global and local ids coincide and every vertex is replicated on the
machines 0 and 2. -/
def example_graph : distributed_graph :=
  { in_edge_ids := fun v =>
      [[], [4], [6], [9, 10, 2], [], [0, 1], [7], [5, 3], [], [8]].getD v [],
    out_edge_ids := fun v =>
      [[0], [4, 5], [6], [], [9, 10, 7], [2, 3], [8], [1]].getD v [],
    source := fun e => [0, 7, 5, 5, 1, 1, 2, 4, 6, 4, 4].getD e 0,
    target := fun e => [5, 5, 3, 7, 1, 7, 2, 6, 9, 3, 3].getD e 0,
    localvid_is_ghost := fun v => decide (8 ≤ v),
    global2localvid := fun v => some v,
    localvid_to_replicas := fun _ => [0, 2] }

/-! ## Sub-tasks of the engine (`gl3engine.hpp`)

A value of type `any` is empty or holds a value: it is an `Option`. The task
descriptors (`gl3task.hpp`) are not part of the sources: their `exec` and
`combine` are parameters. An entry of the table `task_types` is `some d` once
a statement has assigned the descriptor `d` to it, and `none` as long as none
has. Each function of the engine runs here from its
first statement to its last; the spin lock of a future makes `task_reply`
atomic, and the order in which replies arrive is left open. -/

/-- Where the embedding of the engine stops: at a failed `ASSERT`, and at a
call through an entry of `task_types` that no statement has assigned. The
source makes that call with no test of the entry, and it has no defined
behaviour. -/
inductive engine_fault where
  | assertion_failed
  | undefined_call (task_id : Nat)
  deriving DecidableEq, Repr

/-- The two virtual functions of a task descriptor that the engine calls:
`exec`, which reads the vertex data of the local graph, and `combine`, which
updates its first argument in place and here returns the new content. -/
structure task_descriptor (δ α : Type) where
  exec : (Nat → δ) → Nat → Option α → Option α
  combine : Option α → Option α → Option α → Option α

/-- The record `task` of an inbound sub-task queue. -/
structure task (α : Type) where
  vid : Nat
  param : Option α
  task_id : Nat
  origin : Nat
  handle : Nat
  deriving DecidableEq, Repr

/-- The record `future_combiner`; `future_handle` is the content of the `any`
that the handle points to, the value of the future. -/
structure future_combiner (α : Type) where
  param : Option α
  future_handle : Option α
  count_down : Nat
  task_id : Nat
  deriving DecidableEq, Repr

/-- What one call of `task_reply` does to the future: it assigns the value,
or calls `combine`, and it may signal the waiting fiber. -/
inductive reply_event where
  | assigned
  | combined
  | signalled
  deriving DecidableEq, Repr

/-- The arguments of one remote call of `rpc_receive_task`; `vdata` is the
`conditional_serialize`, holding the vertex data when `hasval` is set. -/
structure receive_task_call (δ α : Type) where
  task_id : Nat
  vid : Nat
  vdata : Option δ
  param : Option α
  caller : Nat
  handle : Nat
  deriving DecidableEq, Repr

/-- The arguments of one remote call of `task_reply_rpc`, with the machine it
is sent to. -/
structure task_reply_call (α : Type) where
  dest : Nat
  handle : Nat
  val : Option α
  deriving DecidableEq, Repr

/-- The state of the engine on one machine, as far as sub-tasks use it: the
vertex data of the local graph, the cached hashes `vdata_hash`, the inbound
queues `local_tasks` (oldest task first), the counter `tasks_completed` and
the number of calls of `consensus->cancel()`. -/
structure engine_state (δ α : Type) where
  procid : Nat
  ncpus : Nat
  vdata : Nat → δ
  vdata_hash : Nat → Nat
  local_tasks : Nat → List (task α)
  tasks_completed : Nat
  consensus_cancels : Nat

/-- The part of the distributed graph that the sub-task functions read: the
mirrors of a local vertex, its global id, and the local id of a global id. -/
structure graph_view where
  mirrors : Nat → List Nat
  global_id : Nat → Nat
  local_vid : Nat → Nat

/-- The function `task_reply`, under the lock of the future. -/
def task_reply {δ α : Type} (task_types : Nat → Option (task_descriptor δ α))
    (combiner : future_combiner α) (val : Option α) :
    Except engine_fault (future_combiner α × List reply_event) :=
  if combiner.count_down > 0 then
    let c1 := { combiner with count_down := combiner.count_down - 1 }
    let signal := if c1.count_down = 0 then [reply_event.signalled] else []
    if c1.future_handle.isSome then
      match task_types c1.task_id with
      | none => Except.error (engine_fault.undefined_call c1.task_id)
      | some d =>
        Except.ok ({ c1 with future_handle := d.combine c1.future_handle val c1.param },
          reply_event.combined :: signal)
    else
      Except.ok ({ c1 with future_handle := val }, reply_event.assigned :: signal)
  else Except.error engine_fault.assertion_failed

/-- The calls `task_reply(combiner, v)` for the values of a list, one after
the other, with the events of all of them. -/
def task_replies {δ α : Type} (task_types : Nat → Option (task_descriptor δ α)) :
    future_combiner α → List (Option α) →
      Except engine_fault (future_combiner α × List reply_event)
  | c, [] => Except.ok (c, [])
  | c, v :: vs =>
    match task_reply task_types c v with
    | Except.error e => Except.error e
    | Except.ok (c1, e1) =>
      match task_replies task_types c1 vs with
      | Except.error e => Except.error e
      | Except.ok (c2, e2) => Except.ok (c2, e1 ++ e2)

/-- The first part of `spawn_task`, up to the remote call: the fresh future
(the count-down is a `procid_t`), the engine state with the cached hash
brought up to date, and the calls of `rpc_receive_task` sent, one to each
mirror. `handle` is the address of the combiner. -/
def spawn_task_send {δ α : Type} (gv : graph_view) (hash : δ → Nat) (pmod : Nat)
    (st : engine_state δ α) (lvid task_id : Nat) (task_param : Option α) (handle : Nat) :
    future_combiner α × engine_state δ α × List (Nat × receive_task_call δ α) :=
  let combiner : future_combiner α :=
    { param := task_param, future_handle := none,
      count_down := ((gv.mirrors lvid).length + 1) % pmod, task_id := task_id }
  let newhash := hash (st.vdata lvid)
  let changed : Bool := newhash ≠ st.vdata_hash lvid
  let cs : Option δ := if changed then some (st.vdata lvid) else none
  let st1 : engine_state δ α :=
    if changed then
      { st with vdata_hash := fun i => if i = lvid then newhash else st.vdata_hash i }
    else st
  (combiner, st1,
    (gv.mirrors lvid).map (fun q =>
      (q, { task_id := task_id, vid := gv.global_id lvid, vdata := cs, param := task_param,
            caller := st.procid, handle := handle })))

/-- The function `rpc_receive_task` on a mirror. -/
def rpc_receive_task {δ α : Type} (gv : graph_view) (st : engine_state δ α)
    (c : receive_task_call δ α) : engine_state δ α :=
  let lvid := gv.local_vid c.vid
  let vdata1 : Nat → δ :=
    match c.vdata with
    | some d => fun i => if i = lvid then d else st.vdata i
    | none => st.vdata
  let t : task α :=
    { vid := c.vid, param := c.param, task_id := c.task_id, origin := c.caller,
      handle := c.handle }
  let w := lvid % st.ncpus
  { st with
    vdata := vdata1
    local_tasks := fun i => if i = w then st.local_tasks i ++ [t] else st.local_tasks i
    consensus_cancels := st.consensus_cancels + 1 }

/-- The loop of `exec_subtasks` over the dequeued tasks: each is executed and
answered by one remote call of `task_reply_rpc` to its origin. -/
def exec_task_list {δ α : Type} (task_types : Nat → Option (task_descriptor δ α))
    (vdata : Nat → δ) : List (task α) → Except engine_fault (List (task_reply_call α))
  | [] => Except.ok []
  | cur :: rest =>
    match task_types cur.task_id with
    | none => Except.error (engine_fault.undefined_call cur.task_id)
    | some d =>
      match exec_task_list task_types vdata rest with
      | Except.error e => Except.error e
      | Except.ok rs =>
        Except.ok (⟨cur.origin, cur.handle, d.exec vdata cur.vid cur.param⟩ :: rs)

/-- The function `exec_subtasks`; `got_lock` is the answer of
`worker_mutex[worker].try_lock()`. -/
def exec_subtasks {δ α : Type} (task_types : Nat → Option (task_descriptor δ α))
    (st : engine_state δ α) (worker : Nat) (got_lock : Bool) :
    Except engine_fault (engine_state δ α × List (task_reply_call α)) :=
  if got_lock then
    let tasks := st.local_tasks worker
    match exec_task_list task_types st.vdata tasks with
    | Except.error e => Except.error e
    | Except.ok rs =>
      Except.ok
        ({ st with
            local_tasks := fun i => if i = worker then [] else st.local_tasks i
            tasks_completed := st.tasks_completed + tasks.length }, rs)
  else Except.ok (st, [])

/-- The local part of `spawn_task` after the remote call: the sub-task is
executed in place and its value goes to the future by `task_reply`. -/
def spawn_task_local {δ α : Type} (task_types : Nat → Option (task_descriptor δ α))
    (gv : graph_view) (st : engine_state δ α) (lvid task_id : Nat) (task_param : Option α)
    (combiner : future_combiner α) :
    Except engine_fault (future_combiner α × List reply_event) :=
  match task_types task_id with
  | none => Except.error (engine_fault.undefined_call task_id)
  | some d =>
    task_reply task_types combiner (d.exec st.vdata (gv.global_id lvid) task_param)

/-- A task descriptor for examples, over natural numbers: the execution
returns 1 and `combine` adds the value to the accumulator. -/
def sum_task : task_descriptor Nat Nat :=
  { exec := fun _ _ _ => some 1,
    combine := fun acc val _ =>
      match acc, val with
      | some a, some b => some (a + b)
      | some a, none => some a
      | none, _ => none }

/-- A table of task types for examples: `sum_task` under the id 0, nothing
else. -/
def example_task_types : Nat → Option (task_descriptor Nat Nat) :=
  fun id => if id = 0 then some sum_task else none

/-- A graph view for examples: every vertex has its mirrors on the machines
1, 3 and 5, and global and local ids coincide. -/
def example_graph_view : graph_view :=
  { mirrors := fun _ => [1, 3, 5], global_id := fun v => v, local_vid := fun v => v }

/-- An engine state for examples, on machine `procid` with two workers: every
vertex holds the data 0, the cached hashes are 0 and the queues are empty. -/
def example_engine (procid : Nat) : engine_state Nat Nat :=
  { procid := procid, ncpus := 2, vdata := fun _ => 0, vdata_hash := fun _ => 0,
    local_tasks := fun _ => [], tasks_completed := 0, consensus_cancels := 0 }

/-- A task descriptor for examples, over natural numbers, whose `combine`
adds its two arguments and counts an empty one as 1: it is associative and
commutative and never returns an empty value. -/
def count_task : task_descriptor Nat Nat :=
  { exec := fun _ _ _ => some 1,
    combine := fun acc val _ => some (acc.getD 1 + val.getD 1) }

/-- A table of task types for examples with `count_task` under every id. -/
def count_task_types : Nat → Option (task_descriptor Nat Nat) :=
  fun _ => some count_task

/-- How a call of `spawn_task` ends: `future.wait()` returns once the fiber
has been signalled, and the call returns the value of the future; or the fiber
stays parked, waiting for replies. -/
inductive spawn_outcome (α : Type) where
  | returned (val : Option α)
  | waiting
  deriving DecidableEq, Repr

/-- What a call of `spawn_task` leaves: the engine state, the calls of
`rpc_receive_task` it sent, the combiner, the events of the replies and the
outcome. -/
structure spawn_result (δ α : Type) where
  state : engine_state δ α
  calls : List (Nat × receive_task_call δ α)
  combiner : future_combiner α
  events : List reply_event
  outcome : spawn_outcome α

/-- The function `spawn_task` from its first statement to its return. The
replies of the mirrors come in by `task_reply_rpc` while the function runs:
`early` are the values that arrive before the local reply and `late` the ones
that arrive after it, in order of arrival. The spin mutex of the vertex, which
the function releases before the local execution and takes again before it
returns, is not part of the state. -/
def spawn_task {δ α : Type} (task_types : Nat → Option (task_descriptor δ α))
    (gv : graph_view) (hash : δ → Nat) (pmod : Nat) (st : engine_state δ α)
    (lvid task_id : Nat) (task_param : Option α) (handle : Nat)
    (early late : List (Option α)) : Except engine_fault (spawn_result δ α) :=
  let sent := spawn_task_send gv hash pmod st lvid task_id task_param handle
  match task_replies task_types sent.1 early with
  | Except.error e => Except.error e
  | Except.ok (c1, e1) =>
    match spawn_task_local task_types gv sent.2.1 lvid task_id task_param c1 with
    | Except.error e => Except.error e
    | Except.ok (c2, e2) =>
      match task_replies task_types c2 late with
      | Except.error e => Except.error e
      | Except.ok (c3, e3) =>
        Except.ok
          { state := sent.2.1, calls := sent.2.2, combiner := c3,
            events := e1 ++ e2 ++ e3,
            outcome :=
              if reply_event.signalled ∈ e1 ++ e2 ++ e3 then
                spawn_outcome.returned c3.future_handle
              else spawn_outcome.waiting }

/-- The mirrors' side of a spawn. The calls of `rpc_receive_task` are
delivered in order, each on the machine it is addressed to, and after each
delivery a fiber of the worker of that machine whose queue got the task calls
`exec_subtasks`, as `vthread_start` and `task_exec_start` do at the start of
every round of their loops, and gets the lock of the worker. `gviews q` and
`states q` are the graph view and the engine state of the machine `q`. The
result is the states of the machines afterwards and the calls of
`task_reply_rpc` that the machines sent, in order. -/
def mirrors_answer {δ α : Type} (task_types : Nat → Option (task_descriptor δ α))
    (gviews : Nat → graph_view) :
    (Nat → engine_state δ α) → List (Nat × receive_task_call δ α) →
      Except engine_fault ((Nat → engine_state δ α) × List (task_reply_call α))
  | states, [] => Except.ok (states, [])
  | states, (q, c) :: rest =>
    match exec_subtasks task_types (rpc_receive_task (gviews q) (states q) c)
        ((gviews q).local_vid c.vid % (states q).ncpus) true with
    | Except.error e => Except.error e
    | Except.ok (s2, rs) =>
      match mirrors_answer task_types gviews (fun i => if i = q then s2 else states i) rest with
      | Except.error e => Except.error e
      | Except.ok (states1, rs1) => Except.ok (states1, rs ++ rs1)

/-- The reply values that reach the future with the handle `handle` on the
machine `origin`: the values of the calls of `task_reply_rpc` that are sent to
`origin` with that handle, in order. -/
def replies_reaching {α : Type} (origin handle : Nat) (calls : List (task_reply_call α)) :
    List (Option α) :=
  (calls.filter (fun r => decide (r.dest = origin ∧ r.handle = handle))).map (fun r => r.val)

/-- The events of the replies that are calls of `task_reply`: each call
assigns or combines once. -/
def reply_event.is_reply : reply_event → Bool
  | reply_event.assigned => true
  | reply_event.combined => true
  | reply_event.signalled => false

/-! ## The fiber main loop and `start` (`gl3engine.hpp`)

Fibers are cooperative: between two yields a fiber runs alone. A fiber is
followed here from the top of its loop to the point where it leaves the loop,
spins on a vertex lock or parks in a future; what other machines send in the
meantime (replies to sub-tasks, the answers of the consensus) is a parameter. -/

/-- Modelled from the spec: the scheduler as the engine uses it
(`graphlab/scheduler/ischeduler.hpp` is not part of the sources), with the
operations `start`, `schedule(local_vid, message)`, `get_next(worker)`,
`empty()` and `approx_size()` on a scheduler state; `get_next` answers `none`
for the status EMPTY. -/
structure ischeduler (σ μ : Type) where
  start : σ → σ
  schedule : σ → Nat → μ → σ
  get_next : σ → Nat → Option (Nat × μ) × σ
  empty : σ → Bool
  approx_size : σ → Nat

/-- What the fiber loop asks the distributed graph about a local vertex besides
the `graph_view`: `l_is_master(lvid)` and `l_get_vertex_record(lvid).owner`. -/
structure ownership where
  l_is_master : Nat → Bool
  owner : Nat → Nat

/-- An update program, as far as the engine sees it: it returns, or it writes
the data of its vertex and goes on, or it calls `context.spawn` and goes on
with the value returned. -/
inductive program (δ α : Type) where
  | done
  | write (d : δ) (next : program δ α)
  | spawn (task_id : Nat) (param : Option α) (next : Option α → program δ α)

/-- A remote call sent by the engine, with its destination: `task_reply_rpc`,
`rpc_signal`, `rpc_receive_task` or `sync_vdata`. -/
inductive engine_rpc (δ α μ : Type) where
  | task_reply_rpc (c : task_reply_call α)
  | rpc_signal (dest gvid : Nat) (msg : μ)
  | rpc_receive_task (dest : Nat) (c : receive_task_call δ α)
  | sync_vdata (dest gvid : Nat) (vdata : δ)

/-- What the other machines contribute to the calls of `spawn_task` of one
program: for the `k`-th call the address of its combiner and the replies of
the mirrors that arrive before and after the local reply. -/
structure spawn_env (α : Type) where
  handle : Nat → Nat
  early : Nat → List (Option α)
  late : Nat → List (Option α)

/-- What a run of an update program leaves: the engine state, the calls of
`rpc_receive_task` it sent through `spawn_task`, the number of spawns, and
whether it ran to its end (`false` when a spawn stays parked). -/
structure program_result (δ α : Type) where
  state : engine_state δ α
  calls : List (Nat × receive_task_call δ α)
  spawns : Nat
  finished : Bool

/-- The number of values of `size_t`, the type of the atomic counters. -/
def size_mod : Nat := 18446744073709551616

/-- The new value of an `atomic<size_t>` after `inc()`: one more, wrapping
around to zero. -/
def atomic_inc (c : Nat) : Nat := if c + 1 = size_mod then 0 else c + 1

/-- The new value of an `atomic<size_t>` after `dec()`: one less, wrapping
around from zero. -/
def atomic_dec (c : Nat) : Nat := if c = 0 then size_mod - 1 else c - 1

/-- The vertex data of the local graph with the data of `lvid` replaced. -/
def set_vdata {δ : Type} (vdata : Nat → δ) (lvid : Nat) (d : δ) : Nat → δ :=
  fun i => if i = lvid then d else vdata i

/-- The call `active_function(context, vertex, msg)` for a program on the
local vertex `lvid`; `k` counts the spawns made so far. -/
def run_program {δ α : Type} (task_types : Nat → Option (task_descriptor δ α))
    (gv : graph_view) (hash : δ → Nat) (pmod : Nat) (env : spawn_env α) (lvid : Nat) :
    program δ α → Nat → engine_state δ α → Except engine_fault (program_result δ α)
  | program.done, k, st => Except.ok ⟨st, [], k, true⟩
  | program.write d next, k, st =>
    run_program task_types gv hash pmod env lvid next k
      { st with vdata := set_vdata st.vdata lvid d }
  | program.spawn task_id param next, k, st =>
    match spawn_task task_types gv hash pmod st lvid task_id param (env.handle k)
        (env.early k) (env.late k) with
    | Except.error e => Except.error e
    | Except.ok r =>
      match r.outcome with
      | spawn_outcome.waiting => Except.ok ⟨r.state, r.calls, k + 1, false⟩
      | spawn_outcome.returned v =>
        match run_program task_types gv hash pmod env lvid (next v) (k + 1) r.state with
        | Except.error e => Except.error e
        | Except.ok r2 => Except.ok ⟨r2.state, r.calls ++ r2.calls, r2.spawns, r2.finished⟩

/-- The function `sync_vdata` on a mirror. -/
def sync_vdata {δ α : Type} (gv : graph_view) (st : engine_state δ α) (vid : Nat) (vdata : δ) :
    engine_state δ α :=
  { st with vdata := set_vdata st.vdata (gv.local_vid vid) vdata }

/-- The state of one machine that the fibers share: the engine state of the
sub-tasks, the scheduler, the spin mutexes `vlocks` (`true` when held), the
counters `programs_completed` and `active_vthread_count`, and the flag
`finished`. -/
structure vthread_state (δ α σ : Type) where
  engine : engine_state δ α
  scheduler : σ
  vlocks : Nat → Bool
  programs_completed : Nat
  active_vthread_count : Nat
  finished : Bool

/-- The function `rpc_signal` on the owner: `internal_signal` schedules the
local vertex, and the consensus is cancelled. -/
def rpc_signal {δ α σ μ : Type} (sched : ischeduler σ μ) (gv : graph_view)
    (s : vthread_state δ α σ) (gvid : Nat) (message : μ) : vthread_state δ α σ :=
  { s with
    scheduler := sched.schedule s.scheduler (gv.local_vid gvid) message
    engine := { s.engine with consensus_cancels := s.engine.consensus_cancels + 1 } }

/-- How one pass through the body of the loop of `vthread_start` ends: the
loop goes on (`next`, also after `continue`), the scheduler was empty and the
loop is left (`left`), the fiber yields because the spin mutex of the vertex
is held (`spinning`), or it stays parked in a spawn (`parked`). -/
inductive iteration_outcome where
  | next
  | left
  | spinning
  | parked
  deriving DecidableEq, Repr

/-- What one pass through the body of the loop leaves: the state, the remote
calls sent, in order, the calls of the update function as pairs of local
vertex and message, and the outcome. -/
structure iteration_result (δ α σ μ : Type) where
  state : vthread_state δ α σ
  rpcs : List (engine_rpc δ α μ)
  updates : List (Nat × μ)
  outcome : iteration_outcome

/-- One pass through the body of the loop of `vthread_start`, for a fiber
with `qthread_id() % ncpus = worker` and `qthread_worker(NULL) = cpu`;
`got_lock` is the answer of `worker_mutex[worker].try_lock()` inside
`exec_subtasks`. -/
def vthread_iteration {δ α σ μ : Type} (task_types : Nat → Option (task_descriptor δ α))
    (gv : graph_view) (own : ownership) (hash : δ → Nat) (pmod : Nat)
    (sched : ischeduler σ μ) (active_function : δ → μ → program δ α) (env : spawn_env α)
    (worker cpu : Nat) (got_lock : Bool) (s : vthread_state δ α σ) :
    Except engine_fault (iteration_result δ α σ μ) :=
  match exec_subtasks task_types s.engine worker got_lock with
  | Except.error e => Except.error e
  | Except.ok (eng1, replies) =>
    let out0 : List (engine_rpc δ α μ) := replies.map engine_rpc.task_reply_rpc
    let got := sched.get_next s.scheduler cpu
    match got.1 with
    | none =>
      Except.ok ⟨{ s with engine := eng1, scheduler := got.2 }, out0, [],
        iteration_outcome.left⟩
    | some (lvid, msg) =>
      if own.l_is_master lvid = false then
        Except.ok ⟨{ s with engine := eng1, scheduler := got.2 },
          out0 ++ [engine_rpc.rpc_signal (own.owner lvid) (gv.global_id lvid) msg], [],
          iteration_outcome.next⟩
      else if s.vlocks lvid = true then
        Except.ok ⟨{ s with engine := eng1, scheduler := got.2 }, out0, [],
          iteration_outcome.spinning⟩
      else
        match run_program task_types gv hash pmod env lvid
            (active_function (eng1.vdata lvid) msg) 0 eng1 with
        | Except.error e => Except.error e
        | Except.ok r =>
          let sent : List (engine_rpc δ α μ) :=
            r.calls.map (fun qc => engine_rpc.rpc_receive_task qc.1 qc.2)
          if r.finished = false then
            Except.ok ⟨{ s with engine := r.state, scheduler := got.2 }, out0 ++ sent,
              [(lvid, msg)], iteration_outcome.parked⟩
          else
            let newhash := hash (r.state.vdata lvid)
            let changed : Bool := newhash ≠ r.state.vdata_hash lvid
            let eng2 : engine_state δ α :=
              if changed then
                { r.state with
                  vdata_hash := fun i => if i = lvid then newhash else r.state.vdata_hash i }
              else r.state
            let sync : List (engine_rpc δ α μ) :=
              if changed then
                (gv.mirrors lvid).map
                  (fun q => engine_rpc.sync_vdata q (gv.global_id lvid) (r.state.vdata lvid))
              else []
            Except.ok ⟨{ s with engine := eng2, scheduler := got.2,
                                programs_completed := atomic_inc s.programs_completed },
              out0 ++ sent ++ sync, [(lvid, msg)], iteration_outcome.next⟩

/-- The delivery of one remote call on the mirror `q`: `rpc_receive_task` and
`sync_vdata` addressed to `q` run there, the other calls do not concern it. -/
def deliver_to_mirror {δ α μ : Type} (gq : graph_view) (q : Nat) (sq : engine_state δ α) :
    engine_rpc δ α μ → engine_state δ α
  | engine_rpc.rpc_receive_task dest c => if dest = q then rpc_receive_task gq sq c else sq
  | engine_rpc.sync_vdata dest gvid vdata => if dest = q then sync_vdata gq sq gvid vdata else sq
  | _ => sq

/-- The delivery of a list of remote calls on the mirror `q`, in order. -/
def deliver_all {δ α μ : Type} (gq : graph_view) (q : Nat) (sq : engine_state δ α)
    (rpcs : List (engine_rpc δ α μ)) : engine_state δ α :=
  rpcs.foldl (deliver_to_mirror gq q) sq

/-- The value of `execution_status::status_enum` that `start` returns. -/
inductive execution_status where
  | TASK_DEPLETION
  deriving DecidableEq, Repr

/-- How a fiber ends: its function returned (`exited`), or it stays where one
pass through the loop left it, spinning or parked (`stuck`), or the bound of
the embedding ran out. -/
inductive fiber_outcome where
  | exited
  | stuck (at_pass : iteration_outcome)
  | out_of_fuel
  deriving DecidableEq, Repr

/-- What one fiber, or a group of fibers, leaves: the state, the remote calls
sent, the calls of the update function, and the outcome. -/
structure fiber_result (δ α σ μ : Type) where
  state : vthread_state δ α σ
  rpcs : List (engine_rpc δ α μ)
  updates : List (Nat × μ)
  outcome : fiber_outcome

/-- What the run-time system and the other machines give one fiber: its
`qthread_id() % ncpus`, its `qthread_worker(NULL)`, the answer of
`worker_mutex[worker].try_lock()` in each pass, the spawn environment of the
program of each pass, and a bound on the passes. -/
structure fiber_params (α : Type) where
  worker : Nat
  cpu : Nat
  got_lock : Nat → Bool
  envs : Nat → spawn_env α
  fuel : Nat

/-- The loop `while(!finished)` of `vthread_start`; `pass` counts the passes
made. -/
def vthread_loop {δ α σ μ : Type} (task_types : Nat → Option (task_descriptor δ α))
    (gv : graph_view) (own : ownership) (hash : δ → Nat) (pmod : Nat)
    (sched : ischeduler σ μ) (active_function : δ → μ → program δ α) (f : fiber_params α) :
    Nat → Nat → vthread_state δ α σ → Except engine_fault (fiber_result δ α σ μ)
  | 0, _, s => Except.ok ⟨s, [], [], fiber_outcome.out_of_fuel⟩
  | fuel + 1, pass, s =>
    if s.finished = true then Except.ok ⟨s, [], [], fiber_outcome.exited⟩
    else
      match vthread_iteration task_types gv own hash pmod sched active_function (f.envs pass)
          f.worker f.cpu (f.got_lock pass) s with
      | Except.error e => Except.error e
      | Except.ok it =>
        match it.outcome with
        | iteration_outcome.next =>
          match vthread_loop task_types gv own hash pmod sched active_function f fuel
              (pass + 1) it.state with
          | Except.error e => Except.error e
          | Except.ok r =>
            Except.ok ⟨r.state, it.rpcs ++ r.rpcs, it.updates ++ r.updates, r.outcome⟩
        | iteration_outcome.left =>
          Except.ok ⟨it.state, it.rpcs, it.updates, fiber_outcome.exited⟩
        | o => Except.ok ⟨it.state, it.rpcs, it.updates, fiber_outcome.stuck o⟩

/-- The function `vthread_start`: the loop, then
`active_vthread_count.dec()`. -/
def vthread_start {δ α σ μ : Type} (task_types : Nat → Option (task_descriptor δ α))
    (gv : graph_view) (own : ownership) (hash : δ → Nat) (pmod : Nat)
    (sched : ischeduler σ μ) (active_function : δ → μ → program δ α) (f : fiber_params α)
    (s : vthread_state δ α σ) : Except engine_fault (fiber_result δ α σ μ) :=
  match vthread_loop task_types gv own hash pmod sched active_function f f.fuel 0 s with
  | Except.error e => Except.error e
  | Except.ok r =>
    match r.outcome with
    | fiber_outcome.exited =>
      Except.ok
        { r with
          state := { r.state with
            active_vthread_count := atomic_dec r.state.active_vthread_count } }
    | _ => Except.ok r

/-- The loop of `task_exec_start`: `exec_subtasks`, then the test
`!finished && active_vthread_count > 0`. The ping of another machine every
0.05 seconds and the progress line are left out. -/
def task_exec_start {δ α σ μ : Type} (task_types : Nat → Option (task_descriptor δ α))
    (f : fiber_params α) :
    Nat → Nat → vthread_state δ α σ → Except engine_fault (fiber_result δ α σ μ)
  | 0, _, s => Except.ok ⟨s, [], [], fiber_outcome.out_of_fuel⟩
  | fuel + 1, pass, s =>
    match exec_subtasks task_types s.engine f.worker (f.got_lock pass) with
    | Except.error e => Except.error e
    | Except.ok (eng1, replies) =>
      let s1 : vthread_state δ α σ := { s with engine := eng1 }
      let out : List (engine_rpc δ α μ) := replies.map engine_rpc.task_reply_rpc
      if s1.finished = false ∧ s1.active_vthread_count > 0 then
        match task_exec_start task_types f fuel (pass + 1) s1 with
        | Except.error e => Except.error e
        | Except.ok r => Except.ok ⟨r.state, out ++ r.rpcs, r.updates, r.outcome⟩
      else Except.ok ⟨s1, out, [], fiber_outcome.exited⟩

/-- A group of fibers run to their ends one after the other; the group stops
at the first fiber that does not return. -/
def run_fibers {δ α σ μ : Type}
    (run : fiber_params α → vthread_state δ α σ → Except engine_fault (fiber_result δ α σ μ)) :
    List (fiber_params α) → vthread_state δ α σ → Except engine_fault (fiber_result δ α σ μ)
  | [], s => Except.ok ⟨s, [], [], fiber_outcome.exited⟩
  | f :: fs, s =>
    match run f s with
    | Except.error e => Except.error e
    | Except.ok r =>
      match r.outcome with
      | fiber_outcome.exited =>
        match run_fibers run fs r.state with
        | Except.error e => Except.error e
        | Except.ok r2 =>
          Except.ok ⟨r2.state, r.rpcs ++ r2.rpcs, r.updates ++ r2.updates, r2.outcome⟩
      | _ => Except.ok r

/-- What `start` leaves: the state, the remote calls sent, the calls of the
update function, the number of rounds of the loop `while(1)` that were begun,
and the status returned (`none` when `start` does not return: a fiber never
joins, or the bound of the embedding ran out). -/
structure start_result (δ α σ μ : Type) where
  state : vthread_state δ α σ
  rpcs : List (engine_rpc δ α μ)
  updates : List (Nat × μ)
  rounds : Nat
  status : Option execution_status

/-- The test `local_tasks[i]->empty()` for every worker `i`. -/
def taskqueues_empty {δ α : Type} (st : engine_state δ α) : Bool :=
  (List.range st.ncpus).all (fun i => (st.local_tasks i).isEmpty)

/-- The loop `while(1)` of `start`. In each round the `num_to_spawn` program
fibers are run, then the `ncpus` sub-task executors, and after the join the
consensus is asked. `fibers round` gives the parameters of the fibers of a
round, program fibers first, and `consensus round` is the answer of
`end_done_critical_section` in that round. -/
def start_rounds {δ α σ μ : Type} (task_types : Nat → Option (task_descriptor δ α))
    (gv : graph_view) (own : ownership) (hash : δ → Nat) (pmod : Nat)
    (sched : ischeduler σ μ) (active_function : δ → μ → program δ α)
    (num_vthreads : Nat) (fibers : Nat → Nat → fiber_params α) (consensus : Nat → Bool) :
    Nat → Nat → Nat → vthread_state δ α σ → Except engine_fault (start_result δ α σ μ)
  | 0, round, _, s => Except.ok ⟨s, [], [], round, none⟩
  | fuel + 1, round, num_to_spawn, s =>
    let launched : vthread_state δ α σ :=
      { s with
        active_vthread_count := Nat.iterate atomic_inc num_to_spawn s.active_vthread_count }
    match run_fibers
        (vthread_start task_types gv own hash pmod sched active_function)
        ((List.range num_to_spawn).map (fibers round)) launched with
    | Except.error e => Except.error e
    | Except.ok r1 =>
      match r1.outcome with
      | fiber_outcome.exited =>
        match run_fibers (fun f s1 => task_exec_start task_types f f.fuel 0 s1)
            ((List.range s.engine.ncpus).map (fun i => fibers round (num_to_spawn + i)))
            r1.state with
        | Except.error e => Except.error e
        | Except.ok r2 =>
          match r2.outcome with
          | fiber_outcome.exited =>
            let scheduler_empty := sched.empty r2.state.scheduler
            if (scheduler_empty && taskqueues_empty r2.state.engine) = true
                ∧ consensus round = true then
              Except.ok ⟨{ r2.state with finished := true }, r1.rpcs ++ r2.rpcs,
                r1.updates ++ r2.updates, round + 1, some execution_status.TASK_DEPLETION⟩
            else
              match start_rounds task_types gv own hash pmod sched active_function
                  num_vthreads fibers consensus fuel (round + 1)
                  (min num_vthreads (sched.approx_size r2.state.scheduler)) r2.state with
              | Except.error e => Except.error e
              | Except.ok r3 =>
                Except.ok ⟨r3.state, r1.rpcs ++ r2.rpcs ++ r3.rpcs,
                  r1.updates ++ r2.updates ++ r3.updates, r3.rounds, r3.status⟩
          | _ => Except.ok ⟨r2.state, r1.rpcs ++ r2.rpcs, r1.updates ++ r2.updates,
                  round + 1, none⟩
      | _ => Except.ok ⟨r1.state, r1.rpcs, r1.updates, round + 1, none⟩

/-- The function `start`: the counters are reset, the cached hash of each of
the `num_local_vertices` local vertices is set to the hash of its data, the
scheduler is started, and the rounds run; `fuel` bounds the rounds. -/
def start {δ α σ μ : Type} (task_types : Nat → Option (task_descriptor δ α))
    (gv : graph_view) (own : ownership) (hash : δ → Nat) (pmod : Nat)
    (sched : ischeduler σ μ) (num_vthreads num_local_vertices : Nat)
    (fibers : Nat → Nat → fiber_params α) (consensus : Nat → Bool) (fuel : Nat)
    (uf : δ → μ → program δ α) (s : vthread_state δ α σ) :
    Except engine_fault (start_result δ α σ μ) :=
  let s0 : vthread_state δ α σ :=
    { s with
      finished := false
      programs_completed := 0
      active_vthread_count := 0
      scheduler := sched.start s.scheduler
      engine := { s.engine with
        tasks_completed := 0
        vdata_hash := fun i =>
          if i < num_local_vertices then hash (s.engine.vdata i) else s.engine.vdata_hash i } }
  start_rounds task_types gv own hash pmod sched uf num_vthreads fibers consensus fuel 0
    num_vthreads s0

/-- The function `num_updates`. -/
def num_updates {δ α σ : Type} (s : vthread_state δ α σ) : Nat :=
  s.programs_completed

/-- A scheduler for examples: a first-in first-out queue of pairs of local
vertex and message. -/
def fifo_scheduler (μ : Type) : ischeduler (List (Nat × μ)) μ :=
  { start := fun q => q,
    schedule := fun q lvid msg => q ++ [(lvid, msg)],
    get_next := fun q _ =>
      match q with
      | [] => (none, [])
      | x :: rest => (some x, rest),
    empty := fun q => q.isEmpty,
    approx_size := fun q => q.length }

/-- A machine state for examples: the example engine of machine `procid`, the
first-in first-out queue `queue`, no spin mutex held, counters at zero. -/
def example_machine (procid : Nat) (queue : List (Nat × Nat)) :
    vthread_state Nat Nat (List (Nat × Nat)) :=
  { engine := example_engine procid, scheduler := queue, vlocks := fun _ => false,
    programs_completed := 0, active_vthread_count := 0, finished := false }

/-- Fiber parameters for examples: worker and cpu 0, the worker mutex always
free, no mirror replies, at most 8 passes. -/
def example_fiber : fiber_params Nat :=
  { worker := 0, cpu := 0, got_lock := fun _ => true,
    envs := fun _ => { handle := fun _ => 1000, early := fun _ => [], late := fun _ => [] },
    fuel := 8 }

/-- An ownership for examples: the local vertices below 8 are mastered here,
the others belong to machine 2. -/
def example_ownership : ownership :=
  { l_is_master := fun lvid => decide (lvid < 8), owner := fun lvid => if lvid < 8 then 0 else 2 }

/-- Whether a remote call is a call of `rpc_signal`. -/
def engine_rpc.is_rpc_signal {δ α μ : Type} : engine_rpc δ α μ → Bool
  | engine_rpc.rpc_signal _ _ _ => true
  | _ => false

/-- An update function for examples: the program stores the message as the
data of the vertex. -/
def store_message : Nat → Nat → program Nat Nat :=
  fun _ msg => program.write msg program.done

/-- A hash for examples, over natural numbers as vertex data: the low machine
word of the number. -/
def word_hash : Nat → Nat := fun x => x % size_mod

/-- A machine with nothing to do: the scheduler is empty, every inbound queue
of sub-tasks is empty, the engine is not finished, and no update has
completed. -/
def quiescent {δ α σ μ : Type} (sched : ischeduler σ μ) (s : vthread_state δ α σ) : Prop :=
  sched.empty s.scheduler = true ∧ (∀ i, s.engine.local_tasks i = []) ∧ s.finished = false
    ∧ s.programs_completed = 0

/-! ## Construction of the engine (`gl3engine.hpp`)

The constructor reads the engine options and makes the default registration
in the table `task_types`. The options map and the logger are not part of the
sources: the keys and the values of the options are parameters. -/

/-- Modelled from the spec: the macro `logstream(LOG_FATAL)` is not part of the
sources; by the error table of the spec an invalid configuration is fatal and
aborts with a message. The abort carries the text streamed into the log. -/
def log_fatal {β : Type} (message : String) : Except String β :=
  Except.error message

/-- The loop over the option keys in the constructor `gl3engine`:
`get_option` gives the value stored for a key when it can be read as a
`size_t`, and the second argument is `num_vthreads` so far. -/
def read_engine_options (get_option : String → Option Nat) :
    List String → Nat → Except String Nat
  | [], num_vthreads => Except.ok num_vthreads
  | opt :: keys, num_vthreads =>
    if opt = "num_vthreads" then
      read_engine_options get_option keys ((get_option "num_vthreads").getD num_vthreads)
    else log_fatal ("Unexpected Engine Option: " ++ opt)

/-- The engine options part of the constructor `gl3engine`: `num_vthreads`
starts at 1000 and the option keys are read; the result is the value of
`num_vthreads` of the constructed engine. -/
def gl3engine_options (keys : List String) (get_option : String → Option Nat) :
    Except String Nat :=
  read_engine_options get_option keys 1000

/-- The table `task_types` when the constructor returns. The member array
`task_types[256]` is not initialised and the constructor assigns one entry,
`GL3_BROADCAST_TASK_ID`: no statement has assigned any other entry. -/
def initial_task_types {δ α : Type} (broadcast_task_id : Nat)
    (broadcast : task_descriptor δ α) : Nat → Option (task_descriptor δ α) :=
  fun id => if id = broadcast_task_id then some broadcast else none

/-- The function `register_map_reduce`: the entry `id` of the table is set to
the descriptor made from the map and combine functions. -/
def register_map_reduce {δ α : Type} (task_types : Nat → Option (task_descriptor δ α))
    (id : Nat) (d : task_descriptor δ α) : Nat → Option (task_descriptor δ α) :=
  fun i => if i = id then some d else task_types i

/-- The table after the constructor and a list of calls of
`register_map_reduce`, in order. -/
def registered_task_types {δ α : Type} (broadcast_task_id : Nat)
    (broadcast : task_descriptor δ α)
    (registrations : List (Nat × task_descriptor δ α)) : Nat → Option (task_descriptor δ α) :=
  registrations.foldl (fun t r => register_map_reduce t r.1 r.2)
    (initial_task_types broadcast_task_id broadcast)

/-! ## Clustering distances (`distance.cpp`)

A `sparse_vec` is the list of its stored entries, pairs of index and value in
storage order, and a `vec` is the list of its entries. The arithmetic of
`double` is taken exact: the functions are written over a commutative ring. -/

/-- The function `sum_sqr` on a dense vector: the sum of the squares of the
entries. -/
def sum_sqr {R : Type} [CommRing R] (v : List R) : R :=
  (v.map (fun x => x * x)).sum

/-- The entry `i` of a sparse vector: the stored value, or zero when the index
is not stored. -/
def sparse_get {R : Type} [CommRing R] (d : List (Nat × R)) (i : Nat) : R :=
  match d with
  | [] => 0
  | nz :: rest => if nz.1 = i then nz.2 else sparse_get rest i

/-- The function `calc_euclidian_distance(sparse_vec&, vec&)`: `dist` starts
at `sum_sqr(cluster)`, the loop over the stored entries of the data point adds
`(val - cluster[pos]) * (val - cluster[pos]) - cluster[pos] * cluster[pos]`,
and `dist` is returned. -/
def calc_euclidian_distance {R : Type} [CommRing R] (datapoint : List (Nat × R))
    (cluster : List R) : R :=
  datapoint.foldl
    (fun dist nz =>
      dist + ((nz.2 - cluster.getD nz.1 0) * (nz.2 - cluster.getD nz.1 0)
        - cluster.getD nz.1 0 * cluster.getD nz.1 0))
    (sum_sqr cluster)

/-! ## Shortest path updater (`shortest_path.cpp`)

The updater reads a JSON invocation and writes a JSON answer; the fields it
reads and writes are the fields of the records below, states being strings.
The numbers are of type `double`: the conversion `atof`, the addition, the
comparison `<`, the output to a string stream and the constant `1e+99` are
parameters, over any type of numbers; nothing is assumed of the comparison, so
that a value that compares with nothing (NaN) is not excluded. -/

/-- What the updater uses of `double`: `atof`, `+`, `<`, the output `<<` to a
string stream, and the value of the literal `1e+99`. -/
structure double_model (R : Type) where
  atof : String → R
  add : R → R → R
  lt : R → R → Bool
  out : R → String
  huge : R

/-- An element of `in_edges` of the invocation: `state` and
`source.state`. -/
structure in_edge where
  state : String
  source_state : String
  deriving DecidableEq, Repr

/-- An element of `out_edges` of the invocation: `state`, `target.id` and
`target.state`. -/
structure out_edge where
  state : String
  target_id : Int
  target_state : String
  deriving DecidableEq, Repr

/-- The object `params.context` of an invocation: `vertex.state`, `in_edges`
and `out_edges`. -/
structure invocation where
  vertex_state : String
  in_edges : List in_edge
  out_edges : List out_edge
  deriving DecidableEq, Repr

/-- The answer `return_json`: the member `vertex` and the members `updater`
and `vertices` of `schedule`. The member `vertex` is `none` when the code
gives it no defined value. -/
structure return_json where
  vertex : Option String
  updater : String
  vertices : List Int
  deriving DecidableEq, Repr

/-- The C string that a `const char *` to the characters of a JSON string
denotes: the characters before the first NUL. The functions `strlen` and
`atof` read nothing else of the string. -/
def c_str (s : String) : String :=
  String.mk (s.data.takeWhile (fun ch => ch != Char.ofNat 0))

/-- The function `stof`: a string with `strlen(str) == 0` is `1e+99`, any
other string goes through `atof`. Only the test of the length against 0 is
made, so the characters are counted here, not the bytes. -/
def stof {R : Type} (m : double_model R) (str : String) : R :=
  if 0 = (c_str str).length then m.huge else m.atof (c_str str)

/-- The function `std::min`: the second argument when it is less than the
first, else the first. -/
def std_min {R : Type} (m : double_model R) (a b : R) : R :=
  if m.lt b a then b else a

/-- The loop of `shortest_path_update` over the incoming edges, from the
distance so far. -/
def relax_in_edges {R : Type} (m : double_model R) :
    List in_edge → R → R
  | [], vertex_dist => vertex_dist
  | edge :: rest, vertex_dist =>
    let edge_dist := m.atof (c_str edge.state)
    let nbr_dist := stof m edge.source_state
    relax_in_edges m rest (std_min m vertex_dist (m.add nbr_dist edge_dist))

/-- The loop of `shortest_path_update` over the outgoing edges: the ids pushed
to `vertices`, in order. The test `nbr_dist > (vertex_dist + edge_dist)` is the
comparison `<` with the sides exchanged. -/
def schedule_out_edges {R : Type} (m : double_model R) (vertex_dist : R) :
    List out_edge → List Int
  | [] => []
  | edge :: rest =>
    let nbr_dist := stof m edge.target_state
    let edge_dist := m.atof (c_str edge.state)
    if m.lt (m.add vertex_dist edge_dist) nbr_dist then
      edge.target_id :: schedule_out_edges m vertex_dist rest
    else schedule_out_edges m vertex_dist rest

/-- The value of `vertex_dist` in `shortest_path_update` after the loop over
the incoming edges. -/
def shortest_path_dist {R : Type} (m : double_model R) (inv : invocation) : R :=
  relax_in_edges m inv.in_edges (stof m inv.vertex_state)

/-- The statement `const char *double_str = double_stream.str().c_str();` and
the later read of `double_str`: the pointer goes into the temporary string
that `str()` returns, and the temporary is destroyed at the end of the
statement, so the read through the pointer in `json::Value vertex(double_str,
allocator)` has no defined result, whatever the temporary held. -/
def destroyed_temporary_c_str (_temporary : String) : Option String :=
  none

/-- The function `shortest_path_update`: the distance is computed and written
to `double_stream`, the member `vertex` of the answer is copied from
`double_str`, and the targets to schedule are collected. -/
def shortest_path_update {R : Type} (m : double_model R) (inv : invocation) :
    return_json :=
  let vertex_dist := relax_in_edges m inv.in_edges (stof m inv.vertex_state)
  let double_stream : String := m.out vertex_dist
  let double_str := destroyed_temporary_c_str double_stream
  { vertex := double_str, updater := "self",
    vertices := schedule_out_edges m vertex_dist inv.out_edges }

/-- The distance that a state string denotes according to the description of
the updater: infinity, `1e+99`, for the empty string, and the number written
in it otherwise. A state string is a C string here, as the program reads
it. -/
def state_distance {R : Type} (m : double_model R) (state : String) : R :=
  if c_str state = "" then m.huge else m.atof (c_str state)

/-- The numbers of the line graph example, as natural numbers with exact
addition: `atof` and the stream output on the five values that occur there,
the distances 0 to 3 and `1e+99`. -/
def line_double : double_model Nat :=
  { atof := fun s =>
      if s = "0" then 0 else if s = "1" then 1 else if s = "2" then 2
      else if s = "3" then 3 else if s = "1e+99" then 10 ^ 99 else 0,
    add := fun a b => a + b,
    lt := fun a b => decide (a < b),
    out := fun n =>
      if n = 0 then "0" else if n = 1 then "1" else if n = 2 then "2"
      else if n = 3 then "3" else "1e+99",
    huge := 10 ^ 99 }

/-- A state of the run on the line graph `0 -> 1 -> 2 -> 3`: the state strings
of the four vertices and the set of scheduled vertices. -/
structure line_state where
  states : List String
  schedule : List Nat
  deriving DecidableEq, Repr

/-- Modelled from the spec: the engine that calls the updater is not part of
the sources. The invocation for the vertex `v` of the line graph
`0 -> 1 -> 2 -> 3` with every edge of weight 1: the state of `v`, the edge
from `v - 1` with the state of its source, and the edge to `v + 1` with the
state of its target. -/
def line_invocation (states : List String) (v : Nat) : invocation :=
  { vertex_state := states.getD v "",
    in_edges := if v = 0 then [] else [⟨"1", states.getD (v - 1) ""⟩],
    out_edges := if v + 1 < 4 then [⟨"1", ((v + 1 : Nat) : Int), states.getD (v + 1) ""⟩] else [] }

/-- Modelled from the spec: one run of the updater on the scheduled vertex
`v`: the vertex leaves the schedule, its state becomes the member `vertex` of
the answer, and the vertices of the answer are scheduled (a vertex is
scheduled at most once). When the member `vertex` of the answer has no defined
value, the state after the run has none. -/
def line_step (st : line_state) (v : Nat) : Option line_state :=
  let r := shortest_path_update line_double (line_invocation st.states v)
  match r.vertex with
  | none => none
  | some state =>
    some { states := st.states.set v state,
           schedule := (r.vertices.map Int.toNat).foldl
             (fun s t => if t ∈ s then s else s ++ [t]) (st.schedule.erase v) }

/-- Modelled from the spec: the run that picks the scheduled vertices `picks`
one after the other; `none` when a pick is not scheduled or the state after a
run of the updater is not defined. -/
def line_run : line_state → List Nat → Option line_state
  | st, [] => some st
  | st, v :: rest =>
    if v ∈ st.schedule then
      match line_step st v with
      | none => none
      | some st1 => line_run st1 rest
    else none

/-- Modelled from the spec: the start of the example, distances 0 and three
times infinity (the empty state string), every vertex scheduled. -/
def line_start : line_state :=
  { states := ["0", "", "", ""], schedule := [0, 1, 2, 3] }

/-! ## One iteration of the merge loop, and the tag of a lock request -/

/-- What one iteration of the merge loop of `continue_partial_lock` does
before its lock guard: the record as updated, the vertex and the lock type of
the guard, and the local variables `inv` and `outv` for the next iteration. -/
structure walk_iteration where
  params : partiallock_cont_params
  id : Nat
  locktype : lock_type_enum
  inv : Nat
  outv : Nat
  deriving DecidableEq, Repr

/-- The four branches of the body of the merge loop, in the order of the
source; `none` when an iteration takes none of them. -/
def walk_step (g : distributed_graph) (vmax : Nat) (p : partiallock_cont_params)
    (inv outv : Nat) : Option walk_iteration :=
  let curv := p.localvid
  if p.curlocked = false ∧ curv < inv ∧ curv < outv then
    some ⟨{ p with curlocked := true }, curv, central_vertex_lock_type p.scopetype, inv, outv⟩
  else if inv < outv then
    some ⟨{ p with inidx := p.inidx + 1 }, inv, adjacent_vertex_lock_type p.scopetype,
      next_inv g vmax curv (p.inidx + 1), outv⟩
  else if outv < inv then
    some ⟨{ p with outidx := p.outidx + 1 }, outv, adjacent_vertex_lock_type p.scopetype,
      inv, next_outv g vmax curv (p.outidx + 1)⟩
  else if inv = outv then
    some ⟨{ p with inidx := p.inidx + 1, outidx := p.outidx + 1 }, outv,
      adjacent_vertex_lock_type p.scopetype,
      next_inv g vmax curv (p.inidx + 1), next_outv g vmax curv (p.outidx + 1)⟩
  else none

/-- The statements `assert(((size_t)(ptr) & 3) == 0); req.id = (size_t)(ptr) >> 2`
of `partial_lock_request_impl`: the tag stored in the lock request of the
continuation at address `ptr`, `none` when the assertion fails. The field `id`
of `deferred_rwlock::request` holds `idbits` bits. -/
def request_id_of_ptr (idbits ptr : Nat) : Option Nat :=
  if ptr % 4 = 0 then some ((ptr / 4) % 2 ^ idbits) else none

/-- The statements `size_t ptr = released->id; ptr = ptr << 2` of
`complete_release`, on a `size_t` of `w` bits: the address of the continuation
that is resumed. -/
def ptr_of_request_id (w id : Nat) : Nat :=
  (id * 4) % 2 ^ w

/-! ## Atomic numbers (`atomic.hpp`)

An `atomic<T>` of an integer type of `w` bits holds a number below `2 ^ w`.
The compiler builtins are given by their documented meaning: each changes the
stored value, `__sync_sub_and_fetch` returns the new value and
`__sync_fetch_and_sub` the value before the change. -/

/-- What a member function of `atomic<T>` leaves: the stored value and the
value returned. -/
structure atomic_result where
  value : Nat
  returned : Nat
  deriving DecidableEq, Repr

/-- The difference `x - val` in an unsigned integer type of `w` bits. -/
def wrap_sub (w x val : Nat) : Nat :=
  (x + (2 ^ w - val % 2 ^ w)) % 2 ^ w

/-- The builtin `__sync_sub_and_fetch(&value, val)`. -/
def sync_sub_and_fetch (w x val : Nat) : atomic_result :=
  ⟨wrap_sub w x val, wrap_sub w x val⟩

/-- The builtin `__sync_fetch_and_sub(&value, val)`. -/
def sync_fetch_and_sub (w x val : Nat) : atomic_result :=
  ⟨wrap_sub w x val, x⟩

/-- The member `T dec(const T val)` of an atomic with value `x`. -/
def atomic.dec (w x val : Nat) : atomic_result :=
  sync_sub_and_fetch w x val

/-- The member `T dec_ret_last(const T val)` of an atomic with value `x`. -/
def atomic.dec_ret_last (w x val : Nat) : atomic_result :=
  sync_fetch_and_sub w x val

/-! ## Caching distributed hash table (`caching_dht.hpp`)

The object of one machine. The table `data` is a finite map, given by its
lookup; the cache map is the list of its entries, pairs of key and value, and
the intrusive list `lruage` is the list of the keys of the entries linked in
it, front first: an entry is the node of the list, and deleting an entry
unlinks it (`auto_unlink`). A call that has no defined behaviour (`back()` of
an empty list) gives `none`. What the owner of a key answers to a remote `get`
is a parameter of the call. -/

/-- What the object knows of the cluster: the hash of a key, the number of
machines and the id of this machine. -/
structure dht_env (K : Type) where
  hasher : K → Nat
  numprocs : Nat
  procid : Nat

/-- The expression `hasher(key) % rpc.dc().numprocs()`. -/
def dht_env.owningmachine {K : Type} (e : dht_env K) (key : K) : Nat :=
  e.hasher key % e.numprocs

/-- The members of `caching_dht` that its functions read and write. -/
structure caching_dht (K V : Type) where
  data : K → Option V
  cache : List (K × V)
  lruage : List K
  maxcache : Nat
  reqs : Nat
  misses : Nat

/-- A remote call sent by the table. -/
inductive dht_rpc (K V : Type) where
  | set (dest : Nat) (key : K) (newval : V)
  | get (dest : Nat) (key : K)
  deriving DecidableEq, Repr

/-- The constructor: empty table and cache, the cache limit, counters at
zero. -/
def caching_dht.init {K V : Type} (max_cache_size : Nat) : caching_dht K V :=
  { data := fun _ => none, cache := [], lruage := [], maxcache := max_cache_size,
    reqs := 0, misses := 0 }

/-- The lookup `cache.find(key)`: the value of the entry, if there is one. -/
def cache_find {K V : Type} [DecidableEq K] (key : K) : List (K × V) → Option V
  | [] => none
  | entry :: rest => if entry.1 = key then some entry.2 else cache_find key rest

/-- The call `cache.erase(i)` for the entry of `key`. -/
def cache_erase {K V : Type} [DecidableEq K] (key : K) (cache : List (K × V)) :
    List (K × V) :=
  cache.filter (fun entry => decide (entry.1 ≠ key))

/-- The assignment `i->second->value = val` for the entry of `key`. -/
def cache_assign {K V : Type} [DecidableEq K] (key : K) (val : V) (cache : List (K × V)) :
    List (K × V) :=
  cache.map (fun entry => if entry.1 = key then (entry.1, val) else entry)

/-- The function `cache_size`. -/
def caching_dht.cache_size {K V : Type} (t : caching_dht K V) : Nat :=
  t.cache.length

/-- The function `invalidate`: the entry of the key, if cached, is deleted,
which unlinks it from `lruage`, and erased from the cache map. -/
def caching_dht.invalidate {K V : Type} [DecidableEq K] (t : caching_dht K V) (key : K) :
    caching_dht K V :=
  if (cache_find key t.cache).isSome then
    { t with cache := cache_erase key t.cache, lruage := t.lruage.erase key }
  else t

/-- The function `remove_lru`: the key of `lruage.back()` is looked up and its
entry deleted and erased. -/
def caching_dht.remove_lru {K V : Type} [DecidableEq K] (t : caching_dht K V) :
    Option (caching_dht K V) :=
  match t.lruage.getLast? with
  | none => none
  | some keytoerase =>
    if (cache_find keytoerase t.cache).isSome then
      some { t with cache := cache_erase keytoerase t.cache,
                    lruage := t.lruage.erase keytoerase }
    else some t

/-- The function `update_cache`. For a key that is not cached, `remove_lru`
runs when the cache is full, then `cache.insert` adds the new entry, which is
pushed to the front of `lruage` when the insertion took place; for a cached
key the value is assigned and the entry moved to the front. -/
def caching_dht.update_cache {K V : Type} [DecidableEq K] (t : caching_dht K V) (key : K)
    (val : V) : Option (caching_dht K V) :=
  match cache_find key t.cache with
  | none =>
    match (if t.cache.length ≥ t.maxcache then t.remove_lru else some t) with
    | none => none
    | some t1 =>
      if (cache_find key t1.cache).isNone then
        some { t1 with cache := (key, val) :: t1.cache, lruage := key :: t1.lruage }
      else some t1
  | some _ =>
    some { t with cache := cache_assign key val t.cache,
                  lruage := key :: t.lruage.erase key }

/-- What a call of the table leaves: the object, the remote calls sent, and
the value returned: `some v` for the pair `(true, v)`, `none` for a pair with
`first == false` and for `void`. -/
structure dht_result (K V : Type) where
  state : caching_dht K V
  rpcs : List (dht_rpc K V)
  ret : Option V

/-- The function `set`. -/
def caching_dht.set {K V : Type} [DecidableEq K] (e : dht_env K) (t : caching_dht K V)
    (key : K) (newval : V) : Option (dht_result K V) :=
  if e.owningmachine key = e.procid then
    some ⟨{ t with data := fun k => if k = key then some newval else t.data k }, [], none⟩
  else
    match t.update_cache key newval with
    | none => none
    | some t1 => some ⟨t1, [dht_rpc.set (e.owningmachine key) key newval], none⟩

/-- The function `get`; `answer` is what the owner of the key returns to the
remote request. -/
def caching_dht.get {K V : Type} [DecidableEq K] (e : dht_env K) (answer : Option V)
    (t : caching_dht K V) (key : K) : Option (dht_result K V) :=
  if e.owningmachine key = e.procid then some ⟨t, [], t.data key⟩
  else
    match answer with
    | some v =>
      match t.update_cache key v with
      | none => none
      | some t1 => some ⟨t1, [dht_rpc.get (e.owningmachine key) key], some v⟩
    | none => some ⟨t.invalidate key, [dht_rpc.get (e.owningmachine key) key], none⟩

/-- The function `get_cached`. -/
def caching_dht.get_cached {K V : Type} [DecidableEq K] (e : dht_env K) (answer : Option V)
    (t : caching_dht K V) (key : K) : Option (dht_result K V) :=
  if e.owningmachine key = e.procid then t.get e answer key
  else
    let t1 : caching_dht K V := { t with reqs := (t.reqs + 1) % size_mod }
    match cache_find key t1.cache with
    | none => caching_dht.get e answer { t1 with misses := (t1.misses + 1) % size_mod } key
    | some v => some ⟨{ t1 with lruage := key :: t1.lruage.erase key }, [], some v⟩

/-- One call of a history on the table, with the answer of the owner where a
remote `get` may be made. -/
inductive dht_call (K V : Type) where
  | set (key : K) (newval : V)
  | get (key : K) (answer : Option V)
  | get_cached (key : K) (answer : Option V)
  | invalidate (key : K)
  deriving DecidableEq, Repr

/-- The effect of one call of a history. -/
def caching_dht.call {K V : Type} [DecidableEq K] (e : dht_env K) (t : caching_dht K V) :
    dht_call K V → Option (dht_result K V)
  | dht_call.set key newval => t.set e key newval
  | dht_call.get key answer => t.get e answer key
  | dht_call.get_cached key answer => t.get_cached e answer key
  | dht_call.invalidate key => some ⟨t.invalidate key, [], none⟩

/-- A sequential history of calls on the table, from the object `t`. -/
def caching_dht.run {K V : Type} [DecidableEq K] (e : dht_env K) :
    List (dht_call K V) → caching_dht K V → Option (caching_dht K V)
  | [], t => some t
  | c :: cs, t =>
    match t.call e c with
    | none => none
    | some r => caching_dht.run e cs r.state

/-- The value of the most recent `set(key, v)` of a history, if there is
one. -/
def last_set {K V : Type} [DecidableEq K] (key : K) : List (dht_call K V) → Option V
  | [] => none
  | c :: cs =>
    match last_set key cs with
    | some v => some v
    | none =>
      match c with
      | dht_call.set k v => if k = key then some v else none
      | _ => none

/-- The key that a call touches in the cache, if any: the key that
`update_cache` inserts or whose value it updates (in `set` and in a `get` that
the owner answers with a value, for a key of another machine), or the key of a
hit of `get_cached`. -/
def caching_dht.touched {K V : Type} [DecidableEq K] (e : dht_env K) (t : caching_dht K V) :
    dht_call K V → Option K
  | dht_call.set key _ => if e.owningmachine key = e.procid then none else some key
  | dht_call.get key answer =>
    if e.owningmachine key = e.procid then none
    else if answer.isSome then some key else none
  | dht_call.get_cached key answer =>
    if e.owningmachine key = e.procid then none
    else if (cache_find key t.cache).isSome then some key
    else if answer.isSome then some key else none
  | dht_call.invalidate _ => none

/-- A history with the time of the last touch of each key: the calls are
numbered from `clock + 1` on, and `stamp k` is the number of the last call
that touched `k`. -/
def caching_dht.stamped_run {K V : Type} [DecidableEq K] (e : dht_env K) :
    List (dht_call K V) → Nat → (K → Nat) → caching_dht K V →
      Option (caching_dht K V × (K → Nat) × Nat)
  | [], clock, stamp, t => some (t, stamp, clock)
  | c :: cs, clock, stamp, t =>
    match t.call e c with
    | none => none
    | some r =>
      caching_dht.stamped_run e cs (clock + 1)
        (match t.touched e c with
          | some k => fun x => if x = k then clock + 1 else stamp x
          | none => stamp)
        r.state

/-- An environment for examples: three machines, this one is machine 0, and a
key is owned by the machine `key % 3`. -/
def example_dht_env : dht_env Nat :=
  { hasher := fun k => k, numprocs := 3, procid := 0 }

/-- The state of the cache after a sequential history: the cache holds at
most `maxcache` entries, with keys that do not repeat, `lruage` links no key
twice, and a key has an entry exactly when it is linked. -/
def cache_inv {K V : Type} (t : caching_dht K V) : Prop :=
  1 ≤ t.maxcache ∧ t.cache.length ≤ t.maxcache ∧ (t.cache.map Prod.fst).Nodup
    ∧ t.lruage.Nodup ∧ ∀ k, k ∈ t.cache.map Prod.fst ↔ k ∈ t.lruage

/-- The key of a call. -/
def dht_call.key {K V : Type} : dht_call K V → K
  | dht_call.set key _ => key
  | dht_call.get key _ => key
  | dht_call.get_cached key _ => key
  | dht_call.invalidate key => key

/-- What a call does to the entry `key` of a table `data`, for a key that this
machine owns: a `set` on the key stores the new value. -/
def data_after {K V : Type} [DecidableEq K] (key : K) (c : dht_call K V) (old : Option V) :
    Option V :=
  match c with
  | dht_call.set k v => if k = key then some v else old
  | _ => old

/-- The state of the cache together with the times of the last touches: the
invariant of the cache holds, `lruage` is ordered from the most recently
touched key to the least recently touched one, and no key was touched after
the call number `clock`. -/
def lru_inv {K V : Type} (t : caching_dht K V) (stamp : K → Nat) (clock : Nat) : Prop :=
  cache_inv t ∧ t.lruage.Pairwise (fun a b => stamp b < stamp a)
    ∧ ∀ k ∈ t.lruage, stamp k ≤ clock

/-! ## The fiber program `fibonacci` (`tests/fibo_fiber_test.cpp`)

The program is embedded from the test; the fiber group that runs it is not in
the sources and follows the description of the fiber runtime. A fiber that
runs `fibonacci` is at one of three places: launched and not yet run, in the
wait loop with the promises `left` and `right` in its frame, or returned. The
frame of a waiting fiber holds the promises of the two fibers it launched, so
the fibers of a run form a tree. The mutex `lock` of the frame guards the
fields `result_set` of the two promises: the section `lock(); result_set =
true; schedule_tid(parent_tid); unlock();` of a child and the section
`lock(); while (...) deschedule_self(&lock.m_mut)` of the parent exclude each
other, so each is one step here, and the field `lock` of the promise is not
kept. -/

/-- The struct `fibonacci_compute_promise`, without the pointer `lock`. -/
structure fibonacci_compute_promise where
  argument : Nat
  result : Nat
  parent_tid : Nat
  result_set : Bool
  deriving DecidableEq, Repr

/-- A fiber that runs `fibonacci` on `promise`, with its id: `launched` before
its first time slice; `waiting` in the loop on `left` and `right`, the fibers
launched on the two promises of its frame, `parked` after `deschedule_self`;
`exited` after the function returned. -/
inductive fibonacci_fiber where
  | launched (tid : Nat) (promise : fibonacci_compute_promise)
  | waiting (tid : Nat) (promise : fibonacci_compute_promise) (parked : Bool)
      (left right : fibonacci_fiber)
  | exited (promise : fibonacci_compute_promise)
  deriving DecidableEq, Repr

/-- The promise that a fiber runs on. -/
def fibonacci_fiber.promise : fibonacci_fiber → fibonacci_compute_promise
  | fibonacci_fiber.launched _ p => p
  | fibonacci_fiber.waiting _ p _ _ _ => p
  | fibonacci_fiber.exited p => p

/-- Whether the fiber has exited. -/
def fibonacci_fiber.is_exited : fibonacci_fiber → Bool
  | fibonacci_fiber.exited _ => true
  | _ => false

/-- The difference `x - k` of two `size_t` values, `k` at most `2 ^ 64`. -/
def size_sub (x k : Nat) : Nat :=
  if k ≤ x then x - k else (size_mod - k) + x

/-- The end of `fibonacci`: under the lock of the promise, `result_set = true`
and, when `parent_tid` is not zero, `schedule_tid(parent_tid)`; then the
function returns. The second component is the fiber id passed to
`schedule_tid`, if the call is made. -/
def fibonacci_exit (p : fibonacci_compute_promise) : fibonacci_fiber × Option Nat :=
  (fibonacci_fiber.exited { p with result_set := true },
    if p.parent_tid ≠ 0 then some p.parent_tid else none)

/-- The function `fibonacci` from its start to its first wait: for the
arguments 1 and 2 the result is 1 and the function ends; otherwise the
promises `left` and `right` are filled in, with `get_tid()` as `parent_tid`
and the field `result` not initialised (`garbage`), and a fiber is launched on
each. The ids of the two new fibers are `ltid` and `rtid`. -/
def fibonacci_start (garbage : Nat → Nat) (ltid rtid : Nat) (tid : Nat)
    (p : fibonacci_compute_promise) : fibonacci_fiber × Option Nat :=
  if p.argument = 1 ∨ p.argument = 2 then
    fibonacci_exit { p with result := 1 }
  else
    (fibonacci_fiber.waiting tid p false
      (fibonacci_fiber.launched ltid
        { argument := size_sub p.argument 1, result := garbage ltid, parent_tid := tid,
          result_set := false })
      (fibonacci_fiber.launched rtid
        { argument := size_sub p.argument 2, result := garbage rtid, parent_tid := tid,
          result_set := false }),
      none)

/-- One pass of the wait loop of `fibonacci`, with the lock held: while
`left.result_set == false || right.result_set == false` the fiber calls
`deschedule_self`, which releases the lock and parks it; otherwise
`promise->result = left.result + right.result` and the function ends. -/
def fibonacci_wait (tid : Nat) (p : fibonacci_compute_promise) (left right : fibonacci_fiber) :
    fibonacci_fiber × Option Nat :=
  if left.promise.result_set = false ∨ right.promise.result_set = false then
    (fibonacci_fiber.waiting tid p true left right, none)
  else
    fibonacci_exit { p with result := (left.promise.result + right.promise.result) % size_mod }

/-- Modelled from the spec: the fiber ids of `fiber_group` (`fiber.hpp` is not
in the sources). `get_tid` is the caller's fiber id; the ids are distinct and
not zero (the test uses `parent_tid == 0` for a fiber without a parent): the
first fiber of the group has the id 1, and the two fibers launched by the
fiber `tid` get the ids `2 * tid` and `2 * tid + 1`. -/
def fiber_group.launch_tid (tid : Nat) (second : Bool) : Nat :=
  if second then 2 * tid + 1 else 2 * tid

/-- Modelled from the spec: one time slice of a fiber of `fiber_group`
(`fiber.hpp` is not in the sources). The fiber is named by its place: `[]` is
the fiber itself, `false :: path` and `true :: path` lead into the fibers
launched on `left` and `right`. A launched fiber runs `fibonacci` up to its
first wait, a fiber that is in the wait loop and not parked runs one pass of
the loop; a parked or exited fiber is not run. The result is the new state and
the argument of a call of `schedule_tid`, if one was made. -/
def fibonacci_step (garbage : Nat → Nat) :
    List Bool → fibonacci_fiber → Option (fibonacci_fiber × Option Nat)
  | [], fibonacci_fiber.launched tid p =>
    some (fibonacci_start garbage (fiber_group.launch_tid tid false)
      (fiber_group.launch_tid tid true) tid p)
  | [], fibonacci_fiber.waiting tid p parked left right =>
    if parked then none else some (fibonacci_wait tid p left right)
  | [], fibonacci_fiber.exited _ => none
  | b :: path, fibonacci_fiber.waiting tid p parked left right =>
    if b then
      match fibonacci_step garbage path right with
      | none => none
      | some (right1, w) => some (fibonacci_fiber.waiting tid p parked left right1, w)
    else
      match fibonacci_step garbage path left with
      | none => none
      | some (left1, w) => some (fibonacci_fiber.waiting tid p parked left1 right, w)
  | _ :: _, fibonacci_fiber.launched _ _ => none
  | _ :: _, fibonacci_fiber.exited _ => none

/-- Modelled from the spec: `schedule_tid(tid)` of `fiber_group` (`fiber.hpp`
is not in the sources), "mark fiber tid as runnable": the fiber with this id,
if it is parked, is not parked any more. -/
def fiber_group.schedule_tid (tid : Nat) : fibonacci_fiber → fibonacci_fiber
  | fibonacci_fiber.launched t p => fibonacci_fiber.launched t p
  | fibonacci_fiber.waiting t p parked left right =>
    fibonacci_fiber.waiting t p (if t = tid then false else parked)
      (fiber_group.schedule_tid tid left) (fiber_group.schedule_tid tid right)
  | fibonacci_fiber.exited p => fibonacci_fiber.exited p

/-- The effect of the call of `schedule_tid` that a time slice made, if it made
one. -/
def fiber_group.wake (w : Option Nat) (t : fibonacci_fiber) : fibonacci_fiber :=
  match w with
  | none => t
  | some tid => fiber_group.schedule_tid tid t

/-- Modelled from the spec: the fibers of the group that a worker can run
(`fiber.hpp` is not in the sources): the launched fibers and the fibers in the
wait loop that are not parked, each named by its place. -/
def fiber_group.runnable : fibonacci_fiber → List (List Bool)
  | fibonacci_fiber.launched _ _ => [[]]
  | fibonacci_fiber.waiting _ _ parked left right =>
    (if parked then [] else [[]])
      ++ ((fiber_group.runnable left).map (fun path => false :: path)
        ++ (fiber_group.runnable right).map (fun path => true :: path))
  | fibonacci_fiber.exited _ => []

/-- Modelled from the spec: one step of the group (`fiber.hpp` is not in the
sources): the fiber at `path` runs for a time slice, and the call of
`schedule_tid` it made takes effect. -/
def fiber_group.step (garbage : Nat → Nat) (path : List Bool) (t : fibonacci_fiber) :
    Option fibonacci_fiber :=
  match fibonacci_step garbage path t with
  | none => none
  | some (t1, w) => some (fiber_group.wake w t1)

/-- Modelled from the spec: `join` of `fiber_group` (`fiber.hpp` is not in
the sources), "wait until all fibers in the group have exited", with the
workers running the fibers in between. The workers choose which runnable fiber
runs next: the step `i` runs the runnable fiber number `sched i`, counted
modulo the number of runnable fibers. `join` returns, with the promise of the
first fiber, once that fiber has exited (the fibers it launched have exited
before); it does not return (`none`) when no fiber is runnable before that, or
when `fuel` steps were not enough. -/
def fiber_group.join (garbage : Nat → Nat) (sched : Nat → Nat) :
    Nat → fibonacci_fiber → Option fibonacci_compute_promise
  | _, fibonacci_fiber.exited p => some p
  | 0, _ => none
  | fuel + 1, t =>
    match fiber_group.runnable t with
    | [] => none
    | path :: paths =>
      match fiber_group.step garbage
          ((path :: paths).getD (sched 0 % (paths.length + 1)) path) t with
      | none => none
      | some t1 => fiber_group.join garbage (fun i => sched (i + 1)) fuel t1

/-- The function `main` of the test for the argument `n` in place of 24: a
promise with `result_set = false`, `parent_tid = 0` and the field `result` not
initialised (`result0`); a fiber is launched on it, the first of the group,
and `join` is called. The value is the promise after `join`. -/
def fibo_fiber_test (garbage : Nat → Nat) (sched : Nat → Nat) (fuel : Nat) (n result0 : Nat) :
    Option fibonacci_compute_promise :=
  fiber_group.join garbage sched fuel
    (fibonacci_fiber.launched 1
      { argument := n, result := result0, parent_tid := 0, result_set := false })

/-- The number of steps that the fibers of `fibonacci` on the argument `n` can
take at most, counted with one more for the wake-up of the parent. -/
def fibonacci_cost : Nat → Nat
  | 0 => 2
  | 1 => 2
  | 2 => 2
  | n + 3 => fibonacci_cost (n + 2) + fibonacci_cost (n + 1) + 3

/-- The number of steps that the fibers of a tree can still take, counted with
one more for the wake-up of the parent of each fiber that has not exited. -/
def fibonacci_measure : fibonacci_fiber → Nat
  | fibonacci_fiber.launched _ p => fibonacci_cost p.argument
  | fibonacci_fiber.waiting _ _ parked left right =>
    fibonacci_measure left + fibonacci_measure right + (if parked then 0 else 1) + 1
  | fibonacci_fiber.exited _ => 0

/-- The id `x` is the id `tid` or the id of a fiber launched, directly or
through other fibers, by the fiber `tid`. -/
def tid_under (tid x : Nat) : Prop :=
  ∃ k, x / 2 ^ k = tid

/-- The states of the fibers that a run of `fibonacci` on the argument `a`
goes through, for the fiber `tid` launched by the fiber `parent` (0 for none):
no result is set before the fiber exits, a waiting fiber has an argument of at
least 3 and has launched fibers on the arguments `a - 1` and `a - 2`, a parked
fiber has a fiber that has not exited, and the result of an exited fiber is
the Fibonacci number of its argument, taken mod `2 ^ 64`. -/
def fibonacci_inv : Nat → Nat → Nat → fibonacci_fiber → Prop
  | tid, parent, a, fibonacci_fiber.launched t p =>
    t = tid ∧ p.parent_tid = parent ∧ p.argument = a ∧ p.result_set = false ∧ 1 ≤ a
  | tid, parent, a, fibonacci_fiber.waiting t p parked left right =>
    t = tid ∧ p.parent_tid = parent ∧ p.argument = a ∧ p.result_set = false ∧ 3 ≤ a
      ∧ fibonacci_inv (2 * tid) tid (a - 1) left
      ∧ fibonacci_inv (2 * tid + 1) tid (a - 2) right
      ∧ (parked = true → left.is_exited = false ∨ right.is_exited = false)
  | _, parent, a, fibonacci_fiber.exited p =>
    p.parent_tid = parent ∧ p.argument = a ∧ p.result_set = true
      ∧ p.result = Nat.fib a % size_mod ∧ 1 ≤ a

/-! Theorems -/

theorem next_inv_eq (g : distributed_graph) (vmax c i : Nat) :
    next_inv g vmax c i = ((g.in_sources c).drop i).headD vmax := by
  unfold next_inv distributed_graph.in_sources
  split
  · rename_i h
    have h2 : i < (g.in_edge_ids c).length := h
    simp [List.getD_eq_getElem _ _ h2, List.getElem?_eq_getElem h2, List.headD, List.drop_eq_getElem_cons,
      h2]
  · rename_i h
    rw [List.drop_eq_nil_of_le (by simpa using h)]
    rfl

theorem next_outv_eq (g : distributed_graph) (vmax c i : Nat) :
    next_outv g vmax c i = ((g.out_targets c).drop i).headD vmax := by
  unfold next_outv distributed_graph.out_targets
  split
  · rename_i h
    have h2 : i < (g.out_edge_ids c).length := h
    simp [List.getD_eq_getElem _ _ h2, List.getElem?_eq_getElem h2, List.headD, List.drop_eq_getElem_cons,
      h2]
  · rename_i h
    rw [List.drop_eq_nil_of_le (by simpa using h)]
    rfl

theorem in_idx_lt_iff (g : distributed_graph) (c i : Nat) :
    i < (g.in_edge_ids c).length ↔ (g.in_sources c).drop i ≠ [] := by
  simp [distributed_graph.in_sources]

theorem out_idx_lt_iff (g : distributed_graph) (c i : Nat) :
    i < (g.out_edge_ids c).length ↔ (g.out_targets c).drop i ≠ [] := by
  simp [distributed_graph.out_targets]

/-- How the union merge starts, read off the two heads with `vmax` standing
for the head of an empty list, as the merge loop does. -/
theorem umerge_head_cases (vmax : Nat) (ri ro : List Nat)
    (hi : ∀ x ∈ ri, x ≤ vmax) (ho : ∀ x ∈ ro, x ≤ vmax) (hne : ri ≠ [] ∨ ro ≠ []) :
    (ri.headD vmax < ro.headD vmax →
      ri ≠ [] ∧ umerge ri ro = ri.headD vmax :: umerge ri.tail ro) ∧
    (ro.headD vmax < ri.headD vmax →
      ro ≠ [] ∧ umerge ri ro = ro.headD vmax :: umerge ri ro.tail) ∧
    (ri.headD vmax = ro.headD vmax →
      umerge ri ro = ro.headD vmax :: umerge ri.tail ro.tail) := by
  cases ri with
  | nil =>
    cases ro with
    | nil => simp at hne
    | cons b t =>
      have hb : b ≤ vmax := ho b (by simp)
      refine ⟨?_, ?_, ?_⟩
      · intro h; simp at h; omega
      · intro _; simp [umerge]
      · intro _; simp [umerge]
  | cons a s =>
    cases ro with
    | nil =>
      have ha : a ≤ vmax := hi a (by simp)
      refine ⟨?_, ?_, ?_⟩
      · intro _; cases s <;> simp [umerge]
      · intro h; simp at h; omega
      · intro h
        simp at h
        subst h
        cases s <;> simp [umerge]
    | cons b t =>
      refine ⟨?_, ?_, ?_⟩
      · intro h; simp at h; simp [umerge, h]
      · intro h
        simp at h
        have : ¬ a < b := by omega
        simp [umerge, h, this]
      · intro h
        simp at h
        subst h
        simp [umerge]

theorem with_center_cons_of_not_lt (c : Nat) (tc ta : lock_type_enum) (x : Nat) (m : List Nat)
    (cl : Bool) (h : cl = true ∨ ¬ c < x) :
    with_center c tc ta (x :: m) cl = ⟨x, ta⟩ :: with_center c tc ta m cl := by
  cases cl with
  | true => simp [with_center]
  | false =>
    have : ¬ c < x := by simpa using h
    simp [with_center, this]

theorem with_center_cons_of_lt (c : Nat) (tc ta : lock_type_enum) (x : Nat) (m : List Nat)
    (h : c < x) :
    with_center c tc ta (x :: m) false = ⟨c, tc⟩ :: with_center c tc ta (x :: m) true := by
  simp [with_center, h]

theorem after_guard_visit (g : distributed_graph) (grant : Nat → Bool)
    (p1 : partiallock_cont_params) (id : Nat) (lt : lock_type_enum) (vs : List lock_call)
    (rest : Nat → partial_result) (hvs : visits g p1 = vs)
    (hrest : ∀ n, ((rest n).calls, visits g (rest n).params, (rest n).outcome)
      = visit_call g.localvid_is_ghost (fun i => grant (i + n)) vs) :
    ((after_guard p1 (lock_guard g (grant 0) id lt) rest).calls,
      visits g (after_guard p1 (lock_guard g (grant 0) id lt) rest).params,
      (after_guard p1 (lock_guard g (grant 0) id lt) rest).outcome)
      = visit_call g.localvid_is_ghost grant (⟨id, lt⟩ :: vs) := by
  unfold lock_guard
  by_cases hg : g.localvid_is_ghost id = true
  · have h0 := hrest 0
    simp only [Nat.add_zero] at h0
    simp [hg, after_guard, visit_call, ← h0]
  · have hg2 : g.localvid_is_ghost id = false := by simpa using hg
    by_cases hd : issue_deferred_lock (grant 0) lt = false
    · simp [hg2, hd, after_guard, visit_call, hvs]
    · have h1 := hrest 1
      simp [hg2, hd, after_guard, visit_call, ← h1]

theorem after_guard_params (Q : partiallock_cont_params → Prop) (p1 : partiallock_cont_params)
    (gd : Bool × List lock_call) (rest : Nat → partial_result)
    (h1 : Q p1) (hrest : ∀ n, Q (rest n).params) : Q (after_guard p1 gd rest).params := by
  unfold after_guard
  split
  · exact h1
  · exact hrest _

theorem finish_partial_lock_visit (g : distributed_graph) (grant : Nat → Bool)
    (p : partiallock_cont_params)
    (hi : ¬ p.inidx < (g.in_edge_ids p.localvid).length)
    (ho : ¬ p.outidx < (g.out_edge_ids p.localvid).length) :
    ((finish_partial_lock g grant p).calls, visits g (finish_partial_lock g grant p).params,
      (finish_partial_lock g grant p).outcome)
      = visit_call g.localvid_is_ghost grant (visits g p)
    ∧ same_request p (finish_partial_lock g grant p).params := by
  have hri : (g.in_sources p.localvid).drop p.inidx = [] := by
    by_contra h; exact hi ((in_idx_lt_iff g _ _).2 h)
  have hro : (g.out_targets p.localvid).drop p.outidx = [] := by
    by_contra h; exact ho ((out_idx_lt_iff g _ _).2 h)
  unfold finish_partial_lock
  by_cases hc : p.curlocked = false
  · simp only [hc, if_true]
    constructor
    · have hv : visits g p = ⟨p.localvid, central_vertex_lock_type p.scopetype⟩ :: [] := by
        simp [visits, hri, hro, hc, umerge, with_center]
      rw [hv]
      apply after_guard_visit
      · simp [visits, hri, hro, umerge, with_center]
      · intro n
        simp [visits, hri, hro, umerge, with_center, visit_call]
    · apply after_guard_params (same_request p)
      · simp [same_request]
      · intro n; simp [same_request]
  · have hc2 : p.curlocked = true := by simpa using hc
    simp [hc2, visits, hri, hro, umerge, with_center, visit_call, same_request]

theorem walk_loop_visit (g : distributed_graph) (vmax : Nat) :
    ∀ (fuel : Nat) (grant : Nat → Bool) (p : partiallock_cont_params),
      ids_in_range g vmax p.localvid → walk_measure g p < fuel →
      ((walk_loop g vmax fuel grant p (next_inv g vmax p.localvid p.inidx)
          (next_outv g vmax p.localvid p.outidx)).calls,
        visits g (walk_loop g vmax fuel grant p (next_inv g vmax p.localvid p.inidx)
          (next_outv g vmax p.localvid p.outidx)).params,
        (walk_loop g vmax fuel grant p (next_inv g vmax p.localvid p.inidx)
          (next_outv g vmax p.localvid p.outidx)).outcome)
        = visit_call g.localvid_is_ghost grant (visits g p)
      ∧ same_request p (walk_loop g vmax fuel grant p (next_inv g vmax p.localvid p.inidx)
          (next_outv g vmax p.localvid p.outidx)).params := by
  intro fuel
  induction fuel with
  | zero => intro grant p _ h; omega
  | succ fuel ih =>
    intro grant p hr hm
    rw [walk_loop]
    by_cases hloop : p.inidx < (g.in_edge_ids p.localvid).length
        ∨ p.outidx < (g.out_edge_ids p.localvid).length
    · rw [if_pos hloop]
      -- the two remaining lists and their heads
      have hne : (g.in_sources p.localvid).drop p.inidx ≠ []
          ∨ (g.out_targets p.localvid).drop p.outidx ≠ [] := by
        rcases hloop with h | h
        · exact Or.inl ((in_idx_lt_iff g _ _).1 h)
        · exact Or.inr ((out_idx_lt_iff g _ _).1 h)
      have hri : ∀ x ∈ (g.in_sources p.localvid).drop p.inidx, x ≤ vmax :=
        fun x hx => hr.1 x (List.mem_of_mem_drop hx)
      have hro : ∀ x ∈ (g.out_targets p.localvid).drop p.outidx, x ≤ vmax :=
        fun x hx => hr.2 x (List.mem_of_mem_drop hx)
      obtain ⟨c1, c2, c3⟩ := umerge_head_cases vmax _ _ hri hro hne
      rw [← next_inv_eq, ← next_outv_eq] at c1 c2 c3
      rw [List.tail_drop] at c1 c3
      rw [List.tail_drop] at c2 c3
      by_cases hb1 : p.curlocked = false ∧ p.localvid < next_inv g vmax p.localvid p.inidx
          ∧ p.localvid < next_outv g vmax p.localvid p.outidx
      · rw [if_pos hb1]
        -- the centre is next
        have hv : visits g p = ⟨p.localvid, central_vertex_lock_type p.scopetype⟩
            :: visits g { p with curlocked := true } := by
          unfold visits
          simp only [hb1.1]
          rcases Nat.lt_trichotomy (next_inv g vmax p.localvid p.inidx)
              (next_outv g vmax p.localvid p.outidx) with h | h | h
          · rw [(c1 h).2]; exact with_center_cons_of_lt _ _ _ _ _ hb1.2.1
          · rw [c3 h]; exact with_center_cons_of_lt _ _ _ _ _ hb1.2.2
          · rw [(c2 h).2]; exact with_center_cons_of_lt _ _ _ _ _ hb1.2.2
        have hm1 : walk_measure g { p with curlocked := true } < fuel := by
          simp only [walk_measure, hb1.1] at hm ⊢
          simp at hm ⊢
          omega
        constructor
        · rw [hv]
          apply after_guard_visit
          · rfl
          · intro n
            exact (ih (fun i => grant (i + n)) { p with curlocked := true } hr hm1).1
        · apply after_guard_params (same_request p)
          · simp [same_request]
          · intro n
            exact (ih (fun i => grant (i + n)) { p with curlocked := true } hr hm1).2
      · rw [if_neg hb1]
        by_cases hb2 : next_inv g vmax p.localvid p.inidx < next_outv g vmax p.localvid p.outidx
        · rw [if_pos hb2]
          have hcl : p.curlocked = true ∨ ¬ p.localvid < next_inv g vmax p.localvid p.inidx := by
            by_cases hc : p.curlocked = true
            · exact Or.inl hc
            · right; intro h; exact hb1 ⟨by simpa using hc, h, by omega⟩
          have hv : visits g p = ⟨next_inv g vmax p.localvid p.inidx,
              adjacent_vertex_lock_type p.scopetype⟩
                :: visits g { p with inidx := p.inidx + 1 } := by
            unfold visits
            rw [(c1 hb2).2]
            exact with_center_cons_of_not_lt _ _ _ _ _ _ hcl
          have hlt : p.inidx < (g.in_edge_ids p.localvid).length :=
            (in_idx_lt_iff g _ _).2 (c1 hb2).1
          have hm1 : walk_measure g { p with inidx := p.inidx + 1 } < fuel := by
            simp only [walk_measure] at hm ⊢
            omega
          constructor
          · rw [hv]
            apply after_guard_visit
            · rfl
            · intro n
              exact (ih (fun i => grant (i + n)) { p with inidx := p.inidx + 1 } hr hm1).1
          · apply after_guard_params (same_request p)
            · simp [same_request]
            · intro n
              exact (ih (fun i => grant (i + n)) { p with inidx := p.inidx + 1 } hr hm1).2
        · rw [if_neg hb2]
          by_cases hb3 : next_outv g vmax p.localvid p.outidx < next_inv g vmax p.localvid p.inidx
          · rw [if_pos hb3]
            have hcl : p.curlocked = true
                ∨ ¬ p.localvid < next_outv g vmax p.localvid p.outidx := by
              by_cases hc : p.curlocked = true
              · exact Or.inl hc
              · right; intro h; exact hb1 ⟨by simpa using hc, by omega, h⟩
            have hv : visits g p = ⟨next_outv g vmax p.localvid p.outidx,
                adjacent_vertex_lock_type p.scopetype⟩
                  :: visits g { p with outidx := p.outidx + 1 } := by
              unfold visits
              rw [(c2 hb3).2]
              exact with_center_cons_of_not_lt _ _ _ _ _ _ hcl
            have hlt : p.outidx < (g.out_edge_ids p.localvid).length :=
              (out_idx_lt_iff g _ _).2 (c2 hb3).1
            have hm1 : walk_measure g { p with outidx := p.outidx + 1 } < fuel := by
              simp only [walk_measure] at hm ⊢
              omega
            constructor
            · rw [hv]
              apply after_guard_visit
              · rfl
              · intro n
                exact (ih (fun i => grant (i + n)) { p with outidx := p.outidx + 1 } hr hm1).1
            · apply after_guard_params (same_request p)
              · simp [same_request]
              · intro n
                exact (ih (fun i => grant (i + n)) { p with outidx := p.outidx + 1 } hr hm1).2
          · rw [if_neg hb3]
            have hb4 : next_inv g vmax p.localvid p.inidx = next_outv g vmax p.localvid p.outidx := by
              omega
            rw [if_pos hb4]
            have hcl : p.curlocked = true
                ∨ ¬ p.localvid < next_outv g vmax p.localvid p.outidx := by
              by_cases hc : p.curlocked = true
              · exact Or.inl hc
              · right; intro h; exact hb1 ⟨by simpa using hc, by omega, h⟩
            have hv : visits g p = ⟨next_outv g vmax p.localvid p.outidx,
                adjacent_vertex_lock_type p.scopetype⟩
                  :: visits g { p with inidx := p.inidx + 1, outidx := p.outidx + 1 } := by
              unfold visits
              rw [c3 hb4]
              exact with_center_cons_of_not_lt _ _ _ _ _ _ hcl
            have hm1 : walk_measure g { p with inidx := p.inidx + 1, outidx := p.outidx + 1 }
                < fuel := by
              simp only [walk_measure] at hm ⊢
              omega
            constructor
            · rw [hv]
              apply after_guard_visit
              · rfl
              · intro n
                exact (ih (fun i => grant (i + n))
                  { p with inidx := p.inidx + 1, outidx := p.outidx + 1 } hr hm1).1
            · apply after_guard_params (same_request p)
              · simp [same_request]
              · intro n
                exact (ih (fun i => grant (i + n))
                  { p with inidx := p.inidx + 1, outidx := p.outidx + 1 } hr hm1).2
    · rw [if_neg hloop]
      have hi : ¬ p.inidx < (g.in_edge_ids p.localvid).length := fun h => hloop (Or.inl h)
      have ho : ¬ p.outidx < (g.out_edge_ids p.localvid).length := fun h => hloop (Or.inr h)
      exact finish_partial_lock_visit g grant p hi ho

theorem issue_deferred_lock_of_ne {granted : Bool} {lt : lock_type_enum} (h : lt ≠ NO_LOCK) :
    issue_deferred_lock granted lt = granted := by
  cases lt <;> simp [issue_deferred_lock] at h ⊢

theorem visit_call_ne_out_of_fuel (ghost : Nat → Bool) :
    ∀ (vs : List lock_call) (grant : Nat → Bool),
      (visit_call ghost grant vs).2.2 ≠ partial_outcome.out_of_fuel := by
  intro vs
  induction vs with
  | nil => intro grant; simp [visit_call]
  | cons v vs ih =>
    intro grant
    rw [visit_call]
    split
    · exact ih grant
    · split
      · simp
      · exact ih _

theorem visit_call_completed (ghost : Nat → Bool) :
    ∀ (vs : List lock_call) (grant : Nat → Bool),
      (visit_call ghost grant vs).2.2 = partial_outcome.completed →
      visit_run ghost vs = ((visit_call ghost grant vs).1, partial_outcome.completed)
        ∧ (visit_call ghost grant vs).2.1 = [] := by
  intro vs
  induction vs with
  | nil => intro grant _; simp [visit_call, visit_run]
  | cons v vs ih =>
    intro grant
    rw [visit_call, visit_run]
    by_cases hg : ghost v.id = true
    · simp only [hg, if_true]
      exact ih grant
    · simp only [hg]
      by_cases hd : issue_deferred_lock (grant 0) v.locktype = false
      · simp [hd]
      · have hne : v.locktype ≠ NO_LOCK := by
          intro h; apply hd; rw [h]; rfl
        simp only [hd, hne, if_false]
        intro h
        have := ih _ h
        simp [this.1, this.2]

theorem visit_call_suspended (ghost : Nat → Bool) :
    ∀ (vs : List lock_call) (grant : Nat → Bool) (c : lock_call),
      (visit_call ghost grant vs).2.2 = partial_outcome.suspended c →
      (c.locktype = NO_LOCK →
        visit_run ghost vs = ((visit_call ghost grant vs).1, partial_outcome.suspended c))
      ∧ (c.locktype ≠ NO_LOCK →
        visit_run ghost vs
          = ((visit_call ghost grant vs).1 ++ (visit_run ghost (visit_call ghost grant vs).2.1).1,
              (visit_run ghost (visit_call ghost grant vs).2.1).2)
        ∧ (owned_visits ghost (visit_call ghost grant vs).2.1).length
            < (owned_visits ghost vs).length) := by
  intro vs
  induction vs with
  | nil => intro grant c h; simp [visit_call] at h
  | cons v vs ih =>
    intro grant c
    rw [visit_call, visit_run]
    by_cases hg : ghost v.id = true
    · simp only [hg, if_true]
      intro h
      have := ih grant c h
      refine ⟨this.1, fun hne => ⟨(this.2 hne).1, ?_⟩⟩
      have h2 := (this.2 hne).2
      simpa [owned_visits, hg] using h2
    · simp only [hg]
      have hg2 : ghost v.id = false := by simpa using hg
      by_cases hd : issue_deferred_lock (grant 0) v.locktype = false
      · simp only [hd, if_true]
        intro h
        have hc : v = c := by simpa using h
        subst hc
        constructor
        · intro h0; simp [h0]
        · intro hne
          simp [hne, owned_visits, hg2]
      · have hne : v.locktype ≠ NO_LOCK := by
          intro h; apply hd; rw [h]; rfl
        simp only [hd, hne, if_false]
        intro h
        have := ih _ c h
        constructor
        · intro h0; simp [this.1 h0]
        · intro hn
          have h2 := this.2 hn
          refine ⟨?_, ?_⟩
          · rw [h2.1]; simp
          · have := h2.2
            simp [owned_visits, hg2] at this ⊢
            omega

theorem length_umerge_le : ∀ (ri ro : List Nat), (umerge ri ro).length ≤ ri.length + ro.length := by
  intro ri ro
  induction ri, ro using umerge.induct with
  | case1 ro => simp [umerge]
  | case2 a s => simp [umerge]
  | case3 a s b t h ih => simp [umerge, h] at ih ⊢; omega
  | case4 a s b t h1 h2 ih => simp [umerge, h1, h2] at ih ⊢; omega
  | case5 a s b t h1 h2 ih => simp [umerge, h1, h2] at ih ⊢; omega

theorem length_with_center_le (c : Nat) (tc ta : lock_type_enum) :
    ∀ (m : List Nat) (cl : Bool),
      (with_center c tc ta m cl).length ≤ m.length + (if cl then 0 else 1) := by
  intro m
  induction m with
  | nil => intro cl; cases cl <;> simp [with_center]
  | cons x m ih =>
    intro cl
    cases cl with
    | true => have := ih true; simp [with_center] at this ⊢; omega
    | false =>
      by_cases h : c < x
      · have := ih true; simp [with_center, h] at this ⊢; omega
      · have := ih false; simp [with_center, h] at this ⊢; omega

theorem length_visits_le (g : distributed_graph) (p : partiallock_cont_params) :
    (visits g p).length ≤ walk_measure g p := by
  unfold visits walk_measure
  refine le_trans (length_with_center_le _ _ _ _ _) ?_
  have := length_umerge_le ((g.in_sources p.localvid).drop p.inidx)
    ((g.out_targets p.localvid).drop p.outidx)
  simp [distributed_graph.in_sources, distributed_graph.out_targets] at this ⊢
  omega

theorem length_owned_visits_le (ghost : Nat → Bool) (vs : List lock_call) :
    (owned_visits ghost vs).length ≤ vs.length := by
  unfold owned_visits
  exact List.length_filter_le _ _

theorem walk_measure_lt_walk_fuel (g : distributed_graph) (p : partiallock_cont_params) :
    walk_measure g p < walk_fuel g p := by
  unfold walk_measure walk_fuel
  split <;> omega

/-- One call of `continue_partial_lock` is one call of the walk over the
visits left. -/
theorem continue_partial_lock_visit (g : distributed_graph) (vmax : Nat) (grant : Nat → Bool)
    (p : partiallock_cont_params) (hr : ids_in_range g vmax p.localvid) :
    ((continue_partial_lock g vmax grant p).calls,
      visits g (continue_partial_lock g vmax grant p).params,
      (continue_partial_lock g vmax grant p).outcome)
      = visit_call g.localvid_is_ghost grant (visits g p)
    ∧ same_request p (continue_partial_lock g vmax grant p).params :=
  walk_loop_visit g vmax _ grant p hr (walk_measure_lt_walk_fuel g p)

/-- The life of a partial lock is the run over its visits, whatever the
deferred locks answer. -/
theorem resume_partial_lock_visit (g : distributed_graph) (vmax : Nat) :
    ∀ (fuel : Nat) (grant : Nat → Bool) (p : partiallock_cont_params),
      ids_in_range g vmax p.localvid →
      (owned_visits g.localvid_is_ghost (visits g p)).length < fuel →
      ((resume_partial_lock g vmax fuel grant p).calls,
        (resume_partial_lock g vmax fuel grant p).outcome)
        = visit_run g.localvid_is_ghost (visits g p)
      ∧ same_request p (resume_partial_lock g vmax fuel grant p).params := by
  intro fuel
  induction fuel with
  | zero => intro grant p _ h; omega
  | succ fuel ih =>
    intro grant p hr hlen
    obtain ⟨h1, h2⟩ := continue_partial_lock_visit g vmax grant p hr
    have hcalls := congrArg Prod.fst h1
    have hrem := congrArg (fun x => x.2.1) h1
    have hout := congrArg (fun x => x.2.2) h1
    simp only at hcalls hrem hout
    rw [resume_partial_lock]
    simp only
    cases ho : (continue_partial_lock g vmax grant p).outcome with
    | completed =>
      simp only
      rw [ho] at hout
      have := (visit_call_completed _ _ _ hout.symm).1
      rw [this, ← hcalls, ho]
      exact ⟨rfl, h2⟩
    | out_of_fuel =>
      rw [ho] at hout
      exact absurd hout.symm (visit_call_ne_out_of_fuel _ _ _)
    | suspended c =>
      simp only
      rw [ho] at hout
      have hs := visit_call_suspended _ _ _ c hout.symm
      by_cases hc : c.locktype = NO_LOCK
      · rw [if_pos hc, hs.1 hc, ← hcalls, ho]
        exact ⟨rfl, h2⟩
      · rw [if_neg hc]
        obtain ⟨e1, e2⟩ := hs.2 hc
        rw [← hrem] at e1 e2
        have hr2 : ids_in_range g vmax (continue_partial_lock g vmax grant p).params.localvid := by
          rw [h2.1]; exact hr
        have := ih (fun i => grant (i + (continue_partial_lock g vmax grant p).calls.length))
          (continue_partial_lock g vmax grant p).params hr2 (by omega)
        constructor
        · rw [e1, ← hcalls, ← this.1]
        · obtain ⟨a, b, c', d⟩ := this.2
          obtain ⟨a2, b2, c2, d2⟩ := h2
          exact ⟨a.trans a2, b.trans b2, c'.trans c2, d.trans d2⟩

/-- The partial lock of a record, run to its end, is the run over its visits. -/
theorem partial_lock_run_visit (g : distributed_graph) (vmax : Nat) (grant : Nat → Bool)
    (p : partiallock_cont_params) (hr : ids_in_range g vmax p.localvid) :
    ((partial_lock_run g vmax grant p).calls, (partial_lock_run g vmax grant p).outcome)
      = visit_run g.localvid_is_ghost (visits g p)
    ∧ same_request p (partial_lock_run g vmax grant p).params := by
  apply resume_partial_lock_visit g vmax _ grant p hr
  have h1 := length_owned_visits_le g.localvid_is_ghost (visits g p)
  have h2 := length_visits_le g p
  have h3 := walk_measure_lt_walk_fuel g p
  omega

theorem mem_umerge : ∀ (ri ro : List Nat) (x : Nat), x ∈ umerge ri ro ↔ x ∈ ri ∨ x ∈ ro := by
  intro ri ro
  induction ri, ro using umerge.induct with
  | case1 ro => intro x; simp [umerge]
  | case2 a s => intro x; simp [umerge]
  | case3 a s b t h ih =>
    intro x
    simp only [umerge, h, if_true, List.mem_cons, ih]
    tauto
  | case4 a s b t h1 h2 ih =>
    intro x
    simp only [umerge, h1, h2, if_true, if_false, List.mem_cons, ih]
    tauto
  | case5 a s b t h1 h2 ih =>
    intro x
    have hab : b = a := by omega
    subst hab
    simp only [umerge, lt_irrefl, if_false, List.mem_cons, ih]
    tauto

theorem sorted_umerge : ∀ (ri ro : List Nat), ri.Sorted (· < ·) → ro.Sorted (· < ·) →
    (umerge ri ro).Sorted (· < ·) := by
  intro ri ro
  induction ri, ro using umerge.induct with
  | case1 ro => intro _ h; simpa [umerge] using h
  | case2 a s => intro h _; simpa [umerge] using h
  | case3 a s b t h ih =>
    intro h1 h2
    simp only [umerge, h, if_true]
    rw [List.sorted_cons] at h1 ⊢
    refine ⟨?_, ih h1.2 h2⟩
    intro y hy
    rcases (mem_umerge _ _ _).1 hy with hy | hy
    · exact h1.1 y hy
    · rw [List.sorted_cons] at h2
      rcases List.mem_cons.1 hy with hy | hy
      · omega
      · have := h2.1 y hy; omega
  | case4 a s b t h1 h2 ih =>
    intro k1 k2
    simp only [umerge, h1, h2, if_true, if_false]
    rw [List.sorted_cons] at k2 ⊢
    refine ⟨?_, ih k1 k2.2⟩
    intro y hy
    rcases (mem_umerge _ _ _).1 hy with hy | hy
    · rw [List.sorted_cons] at k1
      rcases List.mem_cons.1 hy with hy | hy
      · omega
      · have := k1.1 y hy; omega
    · exact k2.1 y hy
  | case5 a s b t h1 h2 ih =>
    intro k1 k2
    simp only [umerge, h1, h2, if_false]
    rw [List.sorted_cons] at k1 k2 ⊢
    refine ⟨?_, ih k1.2 k2.2⟩
    intro y hy
    rcases (mem_umerge _ _ _).1 hy with hy | hy
    · exact k1.1 y hy
    · have := k2.1 y hy; omega

theorem mem_with_center (c : Nat) (tc ta : lock_type_enum) :
    ∀ (m : List Nat) (cl : Bool) (v : lock_call),
      v ∈ with_center c tc ta m cl ↔ (cl = false ∧ v = ⟨c, tc⟩) ∨ ∃ x ∈ m, v = ⟨x, ta⟩ := by
  intro m
  induction m with
  | nil => intro cl v; cases cl <;> simp [with_center]
  | cons x m ih =>
    intro cl v
    cases cl with
    | true => simp [with_center, ih]
    | false =>
      by_cases h : c < x
      · simp [with_center, h, ih]
      · simp [with_center, h, ih]
        tauto

theorem mem_ids_with_center (c : Nat) (tc ta : lock_type_enum) (m : List Nat) (cl : Bool)
    (x : Nat) :
    x ∈ (with_center c tc ta m cl).map lock_call.id ↔ (cl = false ∧ x = c) ∨ x ∈ m := by
  rw [List.mem_map]
  constructor
  · rintro ⟨v, hv, rfl⟩
    rcases (mem_with_center c tc ta m cl v).1 hv with ⟨h1, h2⟩ | ⟨y, hy, h2⟩
    · left; exact ⟨h1, by rw [h2]⟩
    · right; rw [h2]; exact hy
  · rintro (⟨h1, h2⟩ | h)
    · exact ⟨⟨c, tc⟩, (mem_with_center c tc ta m cl _).2 (Or.inl ⟨h1, rfl⟩), h2.symm⟩
    · exact ⟨⟨x, ta⟩, (mem_with_center c tc ta m cl _).2 (Or.inr ⟨x, h, rfl⟩), rfl⟩

theorem sorted_ids_with_center (c : Nat) (tc ta : lock_type_enum) :
    ∀ (m : List Nat) (cl : Bool), m.Sorted (· < ·) → (cl = false → c ∉ m) →
      ((with_center c tc ta m cl).map lock_call.id).Sorted (· < ·) := by
  intro m
  induction m with
  | nil => intro cl _ _; cases cl <;> simp [with_center]
  | cons x m ih =>
    intro cl hs hc
    rw [List.sorted_cons] at hs
    cases cl with
    | true =>
      simp only [with_center, List.map_cons]
      rw [List.sorted_cons]
      refine ⟨?_, ih true hs.2 (by simp)⟩
      intro y hy
      rcases (mem_ids_with_center c tc ta m true y).1 hy with ⟨h, _⟩ | h
      · simp at h
      · exact hs.1 y h
    | false =>
      have hcx : c ≠ x := fun h => hc rfl (by simp [h])
      have hcm : c ∉ m := fun h => hc rfl (by simp [h])
      by_cases h : c < x
      · simp only [with_center, h, if_true, List.map_cons]
        rw [List.sorted_cons, List.sorted_cons]
        refine ⟨?_, ?_, ih true hs.2 (by simp)⟩
        · intro y hy
          rcases List.mem_cons.1 hy with hy | hy
          · omega
          · rcases (mem_ids_with_center c tc ta m true y).1 hy with ⟨h', _⟩ | h'
            · simp at h'
            · have := hs.1 y h'; omega
        · intro y hy
          rcases (mem_ids_with_center c tc ta m true y).1 hy with ⟨h', _⟩ | h'
          · simp at h'
          · exact hs.1 y h'
      · simp only [with_center, h, if_false, List.map_cons]
        rw [List.sorted_cons]
        refine ⟨?_, ih false hs.2 (fun _ => hcm)⟩
        intro y hy
        rcases (mem_ids_with_center c tc ta m false y).1 hy with ⟨_, h'⟩ | h'
        · omega
        · exact hs.1 y h'

/-- In the visits of a record every vertex but the centre has the adjacent
lock type, and the centre, when it is no neighbour of itself, the central
one. -/
theorem locktype_with_center (c : Nat) (tc ta : lock_type_enum) (m : List Nat) (cl : Bool)
    (hc : c ∉ m) (v : lock_call) (hv : v ∈ with_center c tc ta m cl) :
    v.locktype = if v.id = c then tc else ta := by
  rcases (mem_with_center c tc ta m cl v).1 hv with ⟨_, h2⟩ | ⟨y, hy, h2⟩
  · simp [h2]
  · have : y ≠ c := fun h => hc (h ▸ hy)
    simp [h2, this]

theorem visit_run_of_locks (ghost : Nat → Bool) :
    ∀ (vs : List lock_call), (∀ v ∈ vs, ghost v.id = false → v.locktype ≠ NO_LOCK) →
      visit_run ghost vs = (owned_visits ghost vs, partial_outcome.completed) := by
  intro vs
  induction vs with
  | nil => intro _; simp [visit_run, owned_visits]
  | cons v vs ih =>
    intro h
    have ih' := ih (fun w hw => h w (by simp [hw]))
    rw [visit_run]
    by_cases hg : ghost v.id = true
    · simp [hg, ih', owned_visits]
    · have hg2 : ghost v.id = false := by simpa using hg
      have := h v (by simp) hg2
      simp [hg2, this, ih', owned_visits]

theorem visit_call_all_granted (ghost : Nat → Bool) :
    ∀ (vs : List lock_call), (∀ v ∈ vs, ghost v.id = false → v.locktype ≠ NO_LOCK) →
      visit_call ghost (fun _ => true) vs
        = (owned_visits ghost vs, [], partial_outcome.completed) := by
  intro vs
  induction vs with
  | nil => intro _; simp [visit_call, owned_visits]
  | cons v vs ih =>
    intro h
    have ih' := ih (fun w hw => h w (by simp [hw]))
    rw [visit_call]
    by_cases hg : ghost v.id = true
    · simp [hg, ih', owned_visits]
    · have hg2 : ghost v.id = false := by simpa using hg
      have := h v (by simp) hg2
      simp [hg2, issue_deferred_lock_of_ne this, ih', owned_visits]

theorem central_ne_of_adjacent_ne {s : scope_range_enum}
    (h : adjacent_vertex_lock_type s ≠ NO_LOCK) : central_vertex_lock_type s ≠ NO_LOCK := by
  cases s <;> simp [adjacent_vertex_lock_type, central_vertex_lock_type] at h ⊢

/-- Under a scope kind with adjacent locking no visit has the type `NO_LOCK`. -/
theorem visits_locktype_ne (g : distributed_graph) (p : partiallock_cont_params)
    (h : adjacent_vertex_lock_type p.scopetype ≠ NO_LOCK) :
    ∀ v ∈ visits g p, v.locktype ≠ NO_LOCK := by
  intro v hv
  rcases (mem_with_center _ _ _ _ _ v).1 hv with ⟨_, h2⟩ | ⟨y, _, h2⟩
  · rw [h2]; exact central_ne_of_adjacent_ne h
  · rw [h2]; exact h

/-- The record of a fresh partial lock under a scope kind with adjacent
locking starts at both list heads. -/
theorem partial_lock_request_impl_adjacent {g : distributed_graph}
    {vmax srcproc globalvid : Nat} {s : scope_range_enum} {tag : Nat}
    {p : partiallock_cont_params} (hs : adjacent_vertex_lock_type s ≠ NO_LOCK)
    (h : partial_lock_request_impl g vmax srcproc globalvid s tag = some p) :
    p.inidx = 0 ∧ p.outidx = 0 ∧ p.curlocked = false ∧ p.scopetype = s
      ∧ g.global2localvid globalvid = some p.localvid := by
  unfold partial_lock_request_impl at h
  cases hg : g.global2localvid globalvid with
  | none => simp [hg] at h
  | some lv =>
    simp [hg, hs] at h
    subst h
    simp

theorem partial_lock_request_impl_none_adjacent {g : distributed_graph}
    {vmax srcproc globalvid : Nat} {s : scope_range_enum} {tag : Nat}
    {p : partiallock_cont_params} (hs : adjacent_vertex_lock_type s = NO_LOCK)
    (h : partial_lock_request_impl g vmax srcproc globalvid s tag = some p) :
    p.inidx = vmax ∧ p.outidx = vmax ∧ p.curlocked = false ∧ p.scopetype = s
      ∧ g.global2localvid globalvid = some p.localvid := by
  unfold partial_lock_request_impl at h
  cases hg : g.global2localvid globalvid with
  | none => simp [hg] at h
  | some lv =>
    simp [hg, hs] at h
    subst h
    simp

/-- The visits of a fresh record under a scope kind with adjacent locking. -/
theorem visits_fresh_adjacent (g : distributed_graph) (p : partiallock_cont_params)
    (h0 : p.inidx = 0) (h1 : p.outidx = 0) (h2 : p.curlocked = false) :
    visits g p = with_center p.localvid (central_vertex_lock_type p.scopetype)
      (adjacent_vertex_lock_type p.scopetype)
      (umerge (g.in_sources p.localvid) (g.out_targets p.localvid)) false := by
  simp [visits, h0, h1, h2]

/-- The visits of a fresh record under a scope kind without adjacent locking:
the centre alone. -/
theorem visits_fresh_none_adjacent (g : distributed_graph) (vmax : Nat)
    (p : partiallock_cont_params)
    (h0 : p.inidx = vmax) (h1 : p.outidx = vmax) (h2 : p.curlocked = false)
    (hi : (g.in_edge_ids p.localvid).length ≤ vmax)
    (ho : (g.out_edge_ids p.localvid).length ≤ vmax) :
    visits g p = [⟨p.localvid, central_vertex_lock_type p.scopetype⟩] := by
  have e1 : (g.in_sources p.localvid).drop vmax = [] :=
    List.drop_eq_nil_of_le (by simpa [distributed_graph.in_sources] using hi)
  have e2 : (g.out_targets p.localvid).drop vmax = [] :=
    List.drop_eq_nil_of_le (by simpa [distributed_graph.out_targets] using ho)
  simp [visits, h0, h1, h2, e1, e2, umerge, with_center]

theorem partial_lock_run_adjacent (g : distributed_graph) (vmax : Nat) (grant : Nat → Bool)
    (p : partiallock_cont_params) (hr : ids_in_range g vmax p.localvid)
    (hs : adjacent_vertex_lock_type p.scopetype ≠ NO_LOCK) :
    (partial_lock_run g vmax grant p).calls = owned_visits g.localvid_is_ghost (visits g p)
      ∧ (partial_lock_run g vmax grant p).outcome = partial_outcome.completed := by
  have h := (partial_lock_run_visit g vmax grant p hr).1
  rw [visit_run_of_locks _ _ (fun v hv _ => visits_locktype_ne g p hs v hv)] at h
  exact ⟨congrArg Prod.fst h, congrArg Prod.snd h⟩

theorem filter_not_lock_map (q : Nat) (cs : List lock_call) :
    (cs.map (scope_event.lock q)).filter (fun e => !e.is_lock) = [] := by
  induction cs with
  | nil => rfl
  | cons c cs ih => simp [scope_event.is_lock]

theorem filter_handler_map (q : Nat) (cs : List lock_call) :
    (cs.map (scope_event.lock q)).filter (fun e => e.is_handler) = [] := by
  induction cs with
  | nil => rfl
  | cons c cs ih => simp [scope_event.is_handler]

theorem filter_request_map (q : Nat) (cs : List lock_call) :
    (cs.map (scope_event.lock q)).filter (fun e => e.is_request) = [] := by
  induction cs with
  | nil => rfl
  | cons c cs ih => simp [scope_event.is_request]

/-- The scope-lock continuation of a scope kind with adjacent locking, from
replica index `i` on: one request and one completion per replica left, in
order, then the handler and the erasure. -/
theorem scope_lock_run_adjacent (cl : Nat → distributed_graph) (me vmax pmod tag : Nat)
    (grant : Nat → Nat → Bool) (v lv : Nat) (s : scope_range_enum)
    (hs : adjacent_vertex_lock_type s ≠ NO_LOCK)
    (hlen : ((cl me).localvid_to_replicas lv).length < pmod)
    (hwf : replicas_hold cl vmax v ((cl me).localvid_to_replicas lv)) :
    ∀ (fuel i : Nat), ((cl me).localvid_to_replicas lv).length - i < fuel →
      (scope_lock_run cl me vmax pmod tag grant fuel ⟨v, lv, i, s⟩).outcome
          = scope_outcome.finished
      ∧ (scope_lock_run cl me vmax pmod tag grant fuel ⟨v, lv, i, s⟩).events.filter
            (fun e => !e.is_lock)
          = (((cl me).localvid_to_replicas lv).drop i).flatMap
              (fun q => [scope_event.partial_lock_request q v s,
                scope_event.partial_lock_completion q])
            ++ [scope_event.handler v, scope_event.erase_scopelock] := by
  intro fuel
  induction fuel with
  | zero => intro i h; omega
  | succ fuel ih =>
    intro i hfuel
    by_cases hi : i < ((cl me).localvid_to_replicas lv).length
    · -- one more replica
      have hc : continue_scope_lock (cl me) me pmod ⟨v, lv, i, s⟩
          = (⟨v, lv, i + 1, s⟩,
              scope_action.request (((cl me).localvid_to_replicas lv)[i])) := by
        have hmod : (i + 1) % pmod = i + 1 := Nat.mod_eq_of_lt (by omega)
        simp [continue_scope_lock, hs, hi, hmod, List.getD_eq_getElem _ _ hi]
      obtain ⟨lq, hlq, hrng⟩ := hwf _ (List.getElem_mem hi)
      have himpl : ∃ pp, partial_lock_request_impl (cl (((cl me).localvid_to_replicas lv)[i])) vmax
          (partial_lock_request_srcproc me (((cl me).localvid_to_replicas lv)[i])) v s tag
            = some pp := by
        simp [partial_lock_request_impl, hlq]
      obtain ⟨pp, hpp⟩ := himpl
      obtain ⟨_, _, _, hps, hpl⟩ := partial_lock_request_impl_adjacent hs hpp
      have hlv : pp.localvid = lq := by
        rw [hlq] at hpl; exact (Option.some.inj hpl).symm
      have hrun := partial_lock_run_adjacent (cl (((cl me).localvid_to_replicas lv)[i])) vmax
        (grant i) pp (by rw [hlv]; exact hrng) (by rw [hps]; exact hs)
      have ih' := ih (i + 1) (by omega)
      rw [scope_lock_run]
      simp only [hc, hpp, hrun.2]
      refine ⟨ih'.1, ?_⟩
      rw [List.drop_eq_getElem_cons hi]
      simp only [List.flatMap_cons, List.filter_append, List.filter_cons, filter_not_lock_map,
        ih'.2]
      simp [scope_event.is_lock]
    · -- all replicas have answered
      have hc : continue_scope_lock (cl me) me pmod ⟨v, lv, i, s⟩
          = (⟨v, lv, i, s⟩, scope_action.done) := by
        simp [continue_scope_lock, hs, hi]
      rw [scope_lock_run]
      simp only [hc]
      rw [List.drop_eq_nil_of_le (by omega)]
      simp [scope_event.is_lock]

theorem partial_lock_run_none_adjacent (g : distributed_graph) (vmax : Nat) (grant : Nat → Bool)
    (p : partiallock_cont_params) (hr : ids_in_range g vmax p.localvid)
    (h0 : p.inidx = vmax) (h1 : p.outidx = vmax) (h2 : p.curlocked = false)
    (hi : (g.in_edge_ids p.localvid).length ≤ vmax)
    (ho : (g.out_edge_ids p.localvid).length ≤ vmax) :
    ((partial_lock_run g vmax grant p).calls, (partial_lock_run g vmax grant p).outcome)
      = visit_run g.localvid_is_ghost [⟨p.localvid, central_vertex_lock_type p.scopetype⟩] := by
  rw [(partial_lock_run_visit g vmax grant p hr).1,
    visits_fresh_none_adjacent g vmax p h0 h1 h2 hi ho]

theorem continue_scope_lock_first_none_adjacent (g : distributed_graph) (me pmod v lv : Nat)
    (s : scope_range_enum) (hs : adjacent_vertex_lock_type s = NO_LOCK) (hp : 1 < pmod) :
    continue_scope_lock g me pmod ⟨v, lv, 0, s⟩ = (⟨v, lv, 1, s⟩, scope_action.request me) := by
  have : 1 % pmod = 1 := Nat.mod_eq_of_lt hp
  simp [continue_scope_lock, hs, this]

theorem continue_scope_lock_second_none_adjacent (g : distributed_graph) (me pmod v lv : Nat)
    (s : scope_range_enum) (hs : adjacent_vertex_lock_type s = NO_LOCK) :
    continue_scope_lock g me pmod ⟨v, lv, 1, s⟩ = (⟨v, lv, 1, s⟩, scope_action.done) := by
  simp [continue_scope_lock, hs]

/-- The scope-lock continuation of a scope kind without adjacent locking, in
terms of the one partial lock it requests, on its own machine. -/
theorem scope_lock_run_none_adjacent (cl : Nat → distributed_graph) (me vmax pmod tag : Nat)
    (grant : Nat → Nat → Bool) (v lv : Nat) (s : scope_range_enum) (fuel : Nat)
    (hs : adjacent_vertex_lock_type s = NO_LOCK) (hp : 1 < pmod)
    (hv : (cl me).global2localvid v = some lv) :
    ∃ pp, partial_lock_request_impl (cl me) vmax me v s tag = some pp ∧
      scope_lock_run cl me vmax pmod tag grant (fuel + 2) ⟨v, lv, 0, s⟩
        = match (partial_lock_run (cl me) vmax (grant 0) pp).outcome with
          | partial_outcome.completed =>
            ⟨⟨v, lv, 1, s⟩,
              scope_event.partial_lock_request me v s
                :: (partial_lock_run (cl me) vmax (grant 0) pp).calls.map (scope_event.lock me)
                ++ [scope_event.partial_lock_completion me, scope_event.handler v,
                    scope_event.erase_scopelock],
              scope_outcome.finished⟩
          | partial_outcome.suspended c =>
            ⟨⟨v, lv, 1, s⟩,
              scope_event.partial_lock_request me v s
                :: (partial_lock_run (cl me) vmax (grant 0) pp).calls.map (scope_event.lock me),
              scope_outcome.blocked me c⟩
          | partial_outcome.out_of_fuel =>
            ⟨⟨v, lv, 1, s⟩,
              scope_event.partial_lock_request me v s
                :: (partial_lock_run (cl me) vmax (grant 0) pp).calls.map (scope_event.lock me),
              scope_outcome.out_of_fuel⟩ := by
  have himpl : ∃ pp, partial_lock_request_impl (cl me) vmax me v s tag = some pp := by
    simp [partial_lock_request_impl, hv]
  obtain ⟨pp, hpp⟩ := himpl
  refine ⟨pp, hpp, ?_⟩
  have hsrc : partial_lock_request_srcproc me me = me := by simp [partial_lock_request_srcproc]
  rw [scope_lock_run]
  simp only [continue_scope_lock_first_none_adjacent (cl me) me pmod v lv s hs hp, hsrc, hpp]
  cases ho : (partial_lock_run (cl me) vmax (grant 0) pp).outcome with
  | completed =>
    simp only
    rw [scope_lock_run]
    simp only [continue_scope_lock_second_none_adjacent (cl me) me pmod v lv s hs]
  | suspended c => simp only
  | out_of_fuel => simp only

theorem filter_handler_append_lock (q : Nat) (e : scope_event) (cs : List lock_call)
    (rest : List scope_event) (he : e.is_handler = false) :
    (e :: cs.map (scope_event.lock q) ++ rest).filter (fun x => x.is_handler)
      = rest.filter (fun x => x.is_handler) := by
  rw [List.cons_append, List.filter_cons, List.filter_append, filter_handler_map]
  simp [he]

theorem filter_handler_of_not_lock (es : List scope_event) :
    (es.filter (fun e => !e.is_lock)).filter (fun e => e.is_handler)
      = es.filter (fun e => e.is_handler) := by
  rw [List.filter_filter]
  congr 1
  funext e
  cases e <;> simp [scope_event.is_lock, scope_event.is_handler]

theorem filter_handler_requests (v : Nat) (s : scope_range_enum) (procs : List Nat) :
    (procs.flatMap (fun q => [scope_event.partial_lock_request q v s,
      scope_event.partial_lock_completion q])).filter (fun e => e.is_handler) = [] := by
  induction procs with
  | nil => rfl
  | cons q qs ih =>
    rw [List.flatMap_cons, List.filter_append, ih]
    simp [scope_event.is_handler]

/-- C1 (the code departs from it at the scope kind NULL): on the machine that
masters the vertex `v`, with every replica holding `v` and every read or write
request granted in the end, `scope_request(v, handler, s)` leads to exactly one
call of the handler, on `v`, for the five scope kinds other than NULL; for
NULL the handler is never called, because the partial lock stops at the call
`issue_deferred_lock(v, req, NO_LOCK)`, which answers `false` and queues
nothing. -/
theorem scope_request_handler_calls (cl : Nat → distributed_graph) (me vmax pmod tag : Nat)
    (grant : Nat → Nat → Bool) (v lv : Nat) (s : scope_range_enum)
    (hv : (cl me).global2localvid v = some lv)
    (hmaster : (cl me).localvid_is_ghost lv = false)
    (hp : 1 < pmod)
    (hlen : ((cl me).localvid_to_replicas lv).length < pmod)
    (hwf : replicas_hold cl vmax v ((cl me).localvid_to_replicas lv))
    (hme : ids_in_range (cl me) vmax lv)
    (hi : ((cl me).in_edge_ids lv).length ≤ vmax)
    (ho : ((cl me).out_edge_ids lv).length ≤ vmax) :
    ∃ r, scope_request cl me vmax pmod tag grant v s = some r
      ∧ r.events.filter (fun e => e.is_handler)
          = (if s = NULL then [] else [scope_event.handler v])
      ∧ r.outcome
          = (if s = NULL then scope_outcome.blocked me ⟨lv, NO_LOCK⟩
              else scope_outcome.finished) := by
  by_cases hs : adjacent_vertex_lock_type s = NO_LOCK
  · -- NULL and the two vertex scopes: one partial lock, on this machine
    obtain ⟨pp, hpp, hrun⟩ := scope_lock_run_none_adjacent cl me vmax pmod tag grant v lv s
      (((cl me).localvid_to_replicas lv).length) hs hp hv
    obtain ⟨h0, h1, h2, hps, hpl⟩ := partial_lock_request_impl_none_adjacent hs hpp
    have hlv : pp.localvid = lv := by
      rw [hv] at hpl; exact (Option.some.inj hpl).symm
    have hpr := partial_lock_run_none_adjacent (cl me) vmax (grant 0) pp
      (by rw [hlv]; exact hme) h0 h1 h2 (by rw [hlv]; exact hi) (by rw [hlv]; exact ho)
    rw [hlv, hps] at hpr
    refine ⟨_, by simp only [scope_request, hv]; rfl, ?_⟩
    rw [hrun]
    by_cases hn : s = NULL
    · subst hn
      have hvr : visit_run (cl me).localvid_is_ghost [⟨lv, central_vertex_lock_type NULL⟩]
          = ([⟨lv, NO_LOCK⟩], partial_outcome.suspended ⟨lv, NO_LOCK⟩) := by
        simp [visit_run, hmaster, central_vertex_lock_type]
      rw [hvr] at hpr
      have e1 := congrArg Prod.fst hpr
      have e2 := congrArg Prod.snd hpr
      simp only at e1 e2
      rw [e2]
      simp [e1, scope_event.is_handler]
    · have hc : central_vertex_lock_type s ≠ NO_LOCK := by
        cases s <;> simp_all [adjacent_vertex_lock_type, central_vertex_lock_type]
      have hvr : visit_run (cl me).localvid_is_ghost [⟨lv, central_vertex_lock_type s⟩]
          = ([⟨lv, central_vertex_lock_type s⟩], partial_outcome.completed) := by
        simp [visit_run, hmaster, hc]
      rw [hvr] at hpr
      have e1 := congrArg Prod.fst hpr
      have e2 := congrArg Prod.snd hpr
      simp only at e1 e2
      rw [e2]
      simp [e1, hn, scope_event.is_handler]
  · -- the three scopes with adjacent locking: one partial lock per replica
    have hn : s ≠ NULL := by
      intro h; apply hs; rw [h]; rfl
    obtain ⟨hfin, hev⟩ := scope_lock_run_adjacent cl me vmax pmod tag grant v lv s hs hlen hwf
      (((cl me).localvid_to_replicas lv).length + 2) 0 (by omega)
    refine ⟨_, by simp only [scope_request, hv]; rfl, ?_, ?_⟩
    · rw [← filter_handler_of_not_lock, hev, List.filter_append, List.drop_zero,
        filter_handler_requests]
      simp [hn, scope_event.is_handler]
    · rw [hfin]; simp [hn]

/-- C2 (the code departs from it): on the machine that masters `v`,
`scope_request(v, handler, NULL)` sends itself one partial-lock request, makes
the one call `issue_deferred_lock(v, req, NO_LOCK)`, which answers `false`, and
stops there for good: the handler is not called, neither at once nor later,
and the scope record is not erased. -/
theorem scope_request_null_blocked (cl : Nat → distributed_graph) (me vmax pmod tag : Nat)
    (grant : Nat → Nat → Bool) (v lv : Nat)
    (hv : (cl me).global2localvid v = some lv)
    (hmaster : (cl me).localvid_is_ghost lv = false)
    (hp : 1 < pmod)
    (hme : ids_in_range (cl me) vmax lv)
    (hi : ((cl me).in_edge_ids lv).length ≤ vmax)
    (ho : ((cl me).out_edge_ids lv).length ≤ vmax) :
    scope_request cl me vmax pmod tag grant v NULL
      = some ⟨⟨v, lv, 1, NULL⟩,
          [scope_event.partial_lock_request me v NULL, scope_event.lock me ⟨lv, NO_LOCK⟩],
          scope_outcome.blocked me ⟨lv, NO_LOCK⟩⟩ := by
  have hs : adjacent_vertex_lock_type NULL = NO_LOCK := rfl
  obtain ⟨pp, hpp, hrun⟩ := scope_lock_run_none_adjacent cl me vmax pmod tag grant v lv NULL
    (((cl me).localvid_to_replicas lv).length) hs hp hv
  obtain ⟨h0, h1, h2, hps, hpl⟩ := partial_lock_request_impl_none_adjacent hs hpp
  have hlv : pp.localvid = lv := by
    rw [hv] at hpl; exact (Option.some.inj hpl).symm
  have hpr := partial_lock_run_none_adjacent (cl me) vmax (grant 0) pp
    (by rw [hlv]; exact hme) h0 h1 h2 (by rw [hlv]; exact hi) (by rw [hlv]; exact ho)
  rw [hlv, hps] at hpr
  have hvr : visit_run (cl me).localvid_is_ghost [⟨lv, central_vertex_lock_type NULL⟩]
      = ([⟨lv, NO_LOCK⟩], partial_outcome.suspended ⟨lv, NO_LOCK⟩) := by
    simp [visit_run, hmaster, central_vertex_lock_type]
  rw [hvr] at hpr
  have e1 := congrArg Prod.fst hpr
  have e2 := congrArg Prod.snd hpr
  simp only at e1 e2
  simp only [scope_request, hv]
  rw [hrun, e2]
  simp [e1]

/-- C4: for a scope kind with adjacent locking and a vertex with the replica
list `[p0, ..., p(k-1)]`, all holding it, the scope-lock continuation sends
exactly `k` partial-lock requests, to `p0`, ..., `p(k-1)` in this order, each
one after the completion of the one before; the handler is called after the
`k`-th completion, and the record is erased then. The events other than lock
calls are listed in full. -/
theorem scope_request_replicas_in_turn (cl : Nat → distributed_graph) (me vmax pmod tag : Nat)
    (grant : Nat → Nat → Bool) (v lv : Nat) (s : scope_range_enum)
    (hs : adjacent_vertex_lock_type s ≠ NO_LOCK)
    (hv : (cl me).global2localvid v = some lv)
    (hlen : ((cl me).localvid_to_replicas lv).length < pmod)
    (hwf : replicas_hold cl vmax v ((cl me).localvid_to_replicas lv)) :
    ∃ r, scope_request cl me vmax pmod tag grant v s = some r
      ∧ r.outcome = scope_outcome.finished
      ∧ r.events.filter (fun e => !e.is_lock)
          = ((cl me).localvid_to_replicas lv).flatMap
              (fun q => [scope_event.partial_lock_request q v s,
                scope_event.partial_lock_completion q])
            ++ [scope_event.handler v, scope_event.erase_scopelock] := by
  obtain ⟨hfin, hev⟩ := scope_lock_run_adjacent cl me vmax pmod tag grant v lv s hs hlen hwf
    (((cl me).localvid_to_replicas lv).length + 2) 0 (by omega)
  refine ⟨_, by simp only [scope_request, hv], hfin, ?_⟩
  rw [hev, List.drop_zero]

/-- C5: for a scope kind without adjacent locking the scope-lock continuation
sends exactly one partial-lock request, to its own machine, whatever the
replica list of the vertex is. -/
theorem scope_request_none_adjacent_one_request (cl : Nat → distributed_graph)
    (me vmax pmod tag : Nat) (grant : Nat → Nat → Bool) (v lv : Nat) (s : scope_range_enum)
    (hs : adjacent_vertex_lock_type s = NO_LOCK) (hp : 1 < pmod)
    (hv : (cl me).global2localvid v = some lv) :
    ∃ r, scope_request cl me vmax pmod tag grant v s = some r
      ∧ r.events.filter (fun e => e.is_request)
          = [scope_event.partial_lock_request me v s] := by
  obtain ⟨pp, hpp, hrun⟩ := scope_lock_run_none_adjacent cl me vmax pmod tag grant v lv s
    (((cl me).localvid_to_replicas lv).length) hs hp hv
  refine ⟨_, by simp only [scope_request, hv]; rfl, ?_⟩
  rw [hrun]
  cases (partial_lock_run (cl me) vmax (grant 0) pp).outcome with
  | completed =>
    simp only [List.cons_append, List.filter_cons, List.filter_append, filter_request_map]
    simp [scope_event.is_request]
  | suspended c =>
    simp only [List.filter_cons, filter_request_map]
    simp [scope_event.is_request]
  | out_of_fuel =>
    simp only [List.filter_cons, filter_request_map]
    simp [scope_event.is_request]

theorem owned_visits_eq_self (ghost : Nat → Bool) (vs : List lock_call)
    (h : ∀ v ∈ vs, ghost v.id = false) : owned_visits ghost vs = vs := by
  unfold owned_visits
  rw [List.filter_eq_self]
  intro v hv
  simp [h v hv]

theorem mem_owned_visits (ghost : Nat → Bool) (vs : List lock_call) (v : lock_call) :
    v ∈ owned_visits ghost vs ↔ v ∈ vs ∧ ghost v.id = false := by
  simp [owned_visits]

theorem map_id_owned_visits (ghost : Nat → Bool) (vs : List lock_call) :
    (owned_visits ghost vs).map lock_call.id
      = (vs.map lock_call.id).filter (fun x => !ghost x) := by
  unfold owned_visits
  induction vs with
  | nil => rfl
  | cons v vs ih =>
    by_cases h : ghost v.id = true
    · simp [List.filter_cons, h, ih]
    · simp [List.filter_cons, h, ih]

theorem mem_visit_run (ghost : Nat → Bool) :
    ∀ (vs : List lock_call) (k : lock_call), k ∈ (visit_run ghost vs).1 →
      k ∈ vs ∧ ghost k.id = false := by
  intro vs
  induction vs with
  | nil => intro k h; simp [visit_run] at h
  | cons v vs ih =>
    intro k
    rw [visit_run]
    by_cases hg : ghost v.id = true
    · simp only [hg, if_true]
      intro h
      exact ⟨List.mem_cons_of_mem _ (ih k h).1, (ih k h).2⟩
    · have hg2 : ghost v.id = false := by simpa using hg
      simp only [hg]
      by_cases hn : v.locktype = NO_LOCK
      · simp only [hn, if_true]
        intro h
        have : k = v := by simpa using h
        subst this
        exact ⟨List.mem_cons_self _ _, hg2⟩
      · simp only [hn, if_false]
        intro h
        rcases List.mem_cons.1 h with h | h
        · subst h
          exact ⟨List.mem_cons_self _ _, hg2⟩
        · exact ⟨List.mem_cons_of_mem _ (ih k h).1, (ih k h).2⟩

theorem visit_call_suspended_owned (ghost : Nat → Bool) :
    ∀ (vs : List lock_call) (grant : Nat → Bool) (k : lock_call),
      (visit_call ghost grant vs).2.2 = partial_outcome.suspended k →
      ghost k.id = false ∧ k ∈ (visit_call ghost grant vs).1 := by
  intro vs
  induction vs with
  | nil => intro grant k h; simp [visit_call] at h
  | cons v vs ih =>
    intro grant k
    rw [visit_call]
    by_cases hg : ghost v.id = true
    · simp only [hg, if_true]
      exact ih grant k
    · have hg2 : ghost v.id = false := by simpa using hg
      simp only [hg]
      by_cases hd : issue_deferred_lock (grant 0) v.locktype = false
      · simp only [hd, if_true]
        intro h
        have : v = k := by simpa using h
        subst this
        exact ⟨hg2, List.mem_cons_self _ _⟩
      · simp only [hd, if_false]
        intro h
        exact ⟨(ih _ k h).1, List.mem_cons_of_mem _ (ih _ k h).2⟩

/-- The visits of a fresh record under adjacent locking, when the two
neighbour lists are strictly ascending and the vertex is not its own
neighbour: the ids are strictly ascending. -/
theorem sorted_ids_visits_fresh (g : distributed_graph) (p : partiallock_cont_params)
    (h0 : p.inidx = 0) (h1 : p.outidx = 0) (h2 : p.curlocked = false)
    (hin : (g.in_sources p.localvid).Sorted (· < ·))
    (hout : (g.out_targets p.localvid).Sorted (· < ·))
    (hself : p.localvid ∉ g.in_sources p.localvid ∧ p.localvid ∉ g.out_targets p.localvid) :
    ((visits g p).map lock_call.id).Sorted (· < ·) := by
  rw [visits_fresh_adjacent g p h0 h1 h2]
  apply sorted_ids_with_center _ _ _ _ _ (sorted_umerge _ _ hin hout)
  intro _ hm
  rcases (mem_umerge _ _ _).1 hm with h | h
  · exact hself.1 h
  · exact hself.2 h

theorem mem_ids_visits_fresh (g : distributed_graph) (p : partiallock_cont_params)
    (h0 : p.inidx = 0) (h1 : p.outidx = 0) (h2 : p.curlocked = false) (x : Nat) :
    x ∈ (visits g p).map lock_call.id
      ↔ x = p.localvid ∨ x ∈ g.in_sources p.localvid ∨ x ∈ g.out_targets p.localvid := by
  rw [visits_fresh_adjacent g p h0 h1 h2, mem_ids_with_center, mem_umerge]
  simp

/-- C6, amended: for a local vertex `c` whose in-edge source list and out-edge
target list are strictly ascending and do not contain `c` itself, one call of
`continue_partial_lock` under a scope kind with adjacent locking, all locks
granted and no ghost in the closed neighbourhood, completes; the ids of its
lock calls are strictly ascending, they are `c`, the in-sources and the
out-targets, and `c` is locked with the central lock type, every other id with
the adjacent one. -/
theorem continue_partial_lock_ascending (g : distributed_graph)
    (vmax srcproc globalvid : Nat) (s : scope_range_enum) (tag : Nat)
    (p : partiallock_cont_params)
    (hs : adjacent_vertex_lock_type s ≠ NO_LOCK)
    (hp : partial_lock_request_impl g vmax srcproc globalvid s tag = some p)
    (hin : (g.in_sources p.localvid).Sorted (· < ·))
    (hout : (g.out_targets p.localvid).Sorted (· < ·))
    (hself : p.localvid ∉ g.in_sources p.localvid ∧ p.localvid ∉ g.out_targets p.localvid)
    (hr : ids_in_range g vmax p.localvid)
    (hg : ∀ x ∈ p.localvid :: (g.in_sources p.localvid ++ g.out_targets p.localvid),
      g.localvid_is_ghost x = false) :
    (continue_partial_lock g vmax (fun _ => true) p).outcome = partial_outcome.completed
    ∧ ((continue_partial_lock g vmax (fun _ => true) p).calls.map lock_call.id).Sorted (· < ·)
    ∧ (∀ x, x ∈ (continue_partial_lock g vmax (fun _ => true) p).calls.map lock_call.id
        ↔ x = p.localvid ∨ x ∈ g.in_sources p.localvid ∨ x ∈ g.out_targets p.localvid)
    ∧ (∀ k ∈ (continue_partial_lock g vmax (fun _ => true) p).calls,
        k.locktype = if k.id = p.localvid then central_vertex_lock_type s
          else adjacent_vertex_lock_type s) := by
  obtain ⟨h0, h1, h2, hps, _⟩ := partial_lock_request_impl_adjacent hs hp
  have hs' : adjacent_vertex_lock_type p.scopetype ≠ NO_LOCK := by rw [hps]; exact hs
  have hmem := mem_ids_visits_fresh g p h0 h1 h2
  have hown : owned_visits g.localvid_is_ghost (visits g p) = visits g p := by
    apply owned_visits_eq_self
    intro v hv
    apply hg
    have := (hmem v.id).1 (List.mem_map_of_mem _ hv)
    simp only [List.mem_cons, List.mem_append]
    exact this
  have hcall := (continue_partial_lock_visit g vmax (fun _ => true) p hr).1
  rw [visit_call_all_granted _ _ (fun v hv _ => visits_locktype_ne g p hs' v hv), hown] at hcall
  have e1 : (continue_partial_lock g vmax (fun _ => true) p).calls = visits g p :=
    congrArg Prod.fst hcall
  have e2 : (continue_partial_lock g vmax (fun _ => true) p).outcome
      = partial_outcome.completed := congrArg (fun x => x.2.2) hcall
  refine ⟨e2, ?_, ?_, ?_⟩
  · rw [e1]; exact sorted_ids_visits_fresh g p h0 h1 h2 hin hout hself
  · intro x; rw [e1]; exact hmem x
  · intro k hk
    rw [e1, visits_fresh_adjacent g p h0 h1 h2] at hk
    have hc : p.localvid ∉ umerge (g.in_sources p.localvid) (g.out_targets p.localvid) := by
      intro hm
      rcases (mem_umerge _ _ _).1 hm with h | h
      · exact hself.1 h
      · exact hself.2 h
    rw [← hps]
    exact locktype_with_center _ _ _ _ _ hc k hk

/-- C7, amended: for a local vertex `c` whose in-edge source list and out-edge
target list are strictly ascending and do not contain `c` itself, in the whole
of one partial lock with adjacent locking, whatever the deferred locks answer,
no vertex id gets more than one lock call, and an id that is in both lists and
is no ghost gets exactly one. -/
theorem partial_lock_run_locks_once (g : distributed_graph)
    (vmax srcproc globalvid : Nat) (s : scope_range_enum) (tag : Nat) (grant : Nat → Bool)
    (p : partiallock_cont_params)
    (hs : adjacent_vertex_lock_type s ≠ NO_LOCK)
    (hp : partial_lock_request_impl g vmax srcproc globalvid s tag = some p)
    (hin : (g.in_sources p.localvid).Sorted (· < ·))
    (hout : (g.out_targets p.localvid).Sorted (· < ·))
    (hself : p.localvid ∉ g.in_sources p.localvid ∧ p.localvid ∉ g.out_targets p.localvid)
    (hr : ids_in_range g vmax p.localvid) :
    (∀ x, ((partial_lock_run g vmax grant p).calls.map lock_call.id).count x ≤ 1)
    ∧ (∀ x, x ∈ g.in_sources p.localvid → x ∈ g.out_targets p.localvid →
        g.localvid_is_ghost x = false →
        ((partial_lock_run g vmax grant p).calls.map lock_call.id).count x = 1) := by
  obtain ⟨h0, h1, h2, hps, _⟩ := partial_lock_request_impl_adjacent hs hp
  have hs' : adjacent_vertex_lock_type p.scopetype ≠ NO_LOCK := by rw [hps]; exact hs
  have hcalls := (partial_lock_run_adjacent g vmax grant p hr hs').1
  have hsorted := sorted_ids_visits_fresh g p h0 h1 h2 hin hout hself
  have hnodup : ((partial_lock_run g vmax grant p).calls.map lock_call.id).Nodup := by
    rw [hcalls, map_id_owned_visits]
    exact (List.Sorted.nodup hsorted).filter _
  refine ⟨fun x => List.nodup_iff_count_le_one.1 hnodup x, ?_⟩
  intro x hxi _ hgx
  apply List.count_eq_one_of_mem hnodup
  rw [hcalls, map_id_owned_visits, List.mem_filter]
  refine ⟨(mem_ids_visits_fresh g p h0 h1 h2 x).2 (Or.inr (Or.inl hxi)), ?_⟩
  simp [hgx]

/-- C8, amended: a partial lock makes no lock call on a ghost, and a call of
`continue_partial_lock` returns early only at a lock call, never at a ghost.
Under a scope kind with adjacent locking the ids that get a lock call are
exactly the ids of the closed neighbourhood that are no ghosts; under a scope
kind without adjacent locking the only id that can get one is the centre, when
it is no ghost. -/
theorem partial_lock_run_skips_ghosts (g : distributed_graph)
    (vmax srcproc globalvid : Nat) (s : scope_range_enum) (tag : Nat) (grant : Nat → Bool)
    (p : partiallock_cont_params)
    (hp : partial_lock_request_impl g vmax srcproc globalvid s tag = some p)
    (hr : ids_in_range g vmax p.localvid)
    (hi : (g.in_edge_ids p.localvid).length ≤ vmax)
    (ho : (g.out_edge_ids p.localvid).length ≤ vmax) :
    (∀ k ∈ (partial_lock_run g vmax grant p).calls, g.localvid_is_ghost k.id = false)
    ∧ (∀ (grant1 : Nat → Bool) (q : partiallock_cont_params) (k : lock_call),
        ids_in_range g vmax q.localvid →
        (continue_partial_lock g vmax grant1 q).outcome = partial_outcome.suspended k →
        g.localvid_is_ghost k.id = false ∧ k ∈ (continue_partial_lock g vmax grant1 q).calls)
    ∧ (adjacent_vertex_lock_type s ≠ NO_LOCK →
        (partial_lock_run g vmax grant p).outcome = partial_outcome.completed
        ∧ ∀ x, x ∈ (partial_lock_run g vmax grant p).calls.map lock_call.id
            ↔ g.localvid_is_ghost x = false
              ∧ (x = p.localvid ∨ x ∈ g.in_sources p.localvid
                  ∨ x ∈ g.out_targets p.localvid))
    ∧ (adjacent_vertex_lock_type s = NO_LOCK →
        ∀ x, x ∈ (partial_lock_run g vmax grant p).calls.map lock_call.id
            ↔ g.localvid_is_ghost x = false ∧ x = p.localvid) := by
  have hrun := (partial_lock_run_visit g vmax grant p hr).1
  refine ⟨?_, ?_, ?_, ?_⟩
  · intro k hk
    have : k ∈ (visit_run g.localvid_is_ghost (visits g p)).1 := by rw [← hrun]; exact hk
    exact (mem_visit_run _ _ k this).2
  · intro grant1 q k hq hk
    have hc := (continue_partial_lock_visit g vmax grant1 q hq).1
    have e1 : (continue_partial_lock g vmax grant1 q).calls
        = (visit_call g.localvid_is_ghost grant1 (visits g q)).1 := congrArg Prod.fst hc
    have e2 : (continue_partial_lock g vmax grant1 q).outcome
        = (visit_call g.localvid_is_ghost grant1 (visits g q)).2.2 :=
      congrArg (fun x => x.2.2) hc
    rw [e1]
    exact visit_call_suspended_owned _ _ _ k (by rw [← e2]; exact hk)
  · intro hs
    obtain ⟨h0, h1, h2, hps, _⟩ := partial_lock_request_impl_adjacent hs hp
    have hs' : adjacent_vertex_lock_type p.scopetype ≠ NO_LOCK := by rw [hps]; exact hs
    obtain ⟨e1, e2⟩ := partial_lock_run_adjacent g vmax grant p hr hs'
    refine ⟨e2, ?_⟩
    intro x
    rw [e1, map_id_owned_visits, List.mem_filter, mem_ids_visits_fresh g p h0 h1 h2 x]
    simp only [Bool.not_eq_true']
    tauto
  · intro hs
    obtain ⟨h0, h1, h2, _, _⟩ := partial_lock_request_impl_none_adjacent hs hp
    have e := partial_lock_run_none_adjacent g vmax grant p hr h0 h1 h2 hi ho
    have e1 : (partial_lock_run g vmax grant p).calls
        = (visit_run g.localvid_is_ghost
            [⟨p.localvid, central_vertex_lock_type p.scopetype⟩]).1 := congrArg Prod.fst e
    intro x
    rw [e1]
    by_cases hgc : g.localvid_is_ghost p.localvid = true
    · simp only [visit_run, hgc, if_true, List.map_nil, List.not_mem_nil, false_iff]
      rintro ⟨hx, rfl⟩
      rw [hgc] at hx
      exact Bool.noConfusion hx
    · have hgc2 : g.localvid_is_ghost p.localvid = false := by simpa using hgc
      by_cases hn : central_vertex_lock_type p.scopetype = NO_LOCK
      · simp only [visit_run, hgc2, hn]
        simp only [Bool.false_eq_true, if_false, if_true, List.map_cons, List.map_nil,
          List.mem_singleton]
        constructor
        · rintro rfl; exact ⟨hgc2, rfl⟩
        · rintro ⟨_, rfl⟩; rfl
      · simp only [visit_run, hgc2, hn]
        simp only [Bool.false_eq_true, if_false, List.map_cons, List.map_nil,
          List.mem_singleton]
        constructor
        · rintro rfl; exact ⟨hgc2, rfl⟩
        · rintro ⟨_, rfl⟩; rfl

theorem example_graph_source_le (e : Nat) : example_graph.source e ≤ 9 := by
  by_cases h : e < 11
  · simp only [example_graph]
    interval_cases e <;> decide
  · have h11 : 11 ≤ e := by omega
    simp only [example_graph]
    rw [List.getD_eq_default _ _ (by simpa using h11)]
    omega

theorem example_graph_target_le (e : Nat) : example_graph.target e ≤ 9 := by
  by_cases h : e < 11
  · simp only [example_graph]
    interval_cases e <;> decide
  · have h11 : 11 ≤ e := by omega
    simp only [example_graph]
    rw [List.getD_eq_default _ _ (by simpa using h11)]
    omega

theorem example_graph_ids_in_range (v : Nat) : ids_in_range example_graph 4294967295 v := by
  unfold ids_in_range distributed_graph.in_sources distributed_graph.out_targets
  constructor
  · intro x hx
    obtain ⟨e, _, rfl⟩ := List.mem_map.1 hx
    have := example_graph_source_le e
    omega
  · intro x hx
    obtain ⟨e, _, rfl⟩ := List.mem_map.1 hx
    have := example_graph_target_le e
    omega

theorem example_graph_replicas_hold (v : Nat) (procs : List Nat) :
    replicas_hold (fun _ => example_graph) 4294967295 v procs :=
  fun _ _ => ⟨v, rfl, example_graph_ids_in_range v⟩

/-- C1, at a concrete input: on the example graph the scope request on vertex
5 under NULL never calls the handler and stays blocked at the lock call of
type `NO_LOCK`. -/
theorem scope_request_handler_calls_witness :
    ∃ r, scope_request (fun _ => example_graph) 0 4294967295 65536 1000 (fun _ _ => true) 5 NULL
        = some r
      ∧ r.events.filter (fun e => e.is_handler) = []
      ∧ r.outcome = scope_outcome.blocked 0 ⟨5, NO_LOCK⟩ := by
  simpa using scope_request_handler_calls (fun _ => example_graph) 0 4294967295 65536 1000
    (fun _ _ => true) 5 5 NULL rfl rfl (by decide) (by decide)
    (example_graph_replicas_hold 5 _) (example_graph_ids_in_range 5) (by decide) (by decide)

/-- C2, at a concrete input: the scope request on vertex 5 of the example
graph under NULL. -/
theorem scope_request_null_blocked_witness :
    scope_request (fun _ => example_graph) 0 4294967295 65536 1000 (fun _ _ => true) 5 NULL
      = some ⟨⟨5, 5, 1, NULL⟩,
          [scope_event.partial_lock_request 0 5 NULL, scope_event.lock 0 ⟨5, NO_LOCK⟩],
          scope_outcome.blocked 0 ⟨5, NO_LOCK⟩⟩ :=
  scope_request_null_blocked (fun _ => example_graph) 0 4294967295 65536 1000
    (fun _ _ => true) 5 5 rfl rfl (by decide) (example_graph_ids_in_range 5)
    (by decide) (by decide)

/-- C4, at a concrete input: vertex 5 of the example graph, replicated on the
machines 0 and 2, under FULL_CONSISTENCY with every request queued first. -/
theorem scope_request_replicas_in_turn_witness :
    ∃ r, scope_request (fun _ => example_graph) 0 4294967295 65536 1000 (fun _ _ => false) 5
          FULL_CONSISTENCY = some r
      ∧ r.outcome = scope_outcome.finished
      ∧ r.events.filter (fun e => !e.is_lock)
          = [scope_event.partial_lock_request 0 5 FULL_CONSISTENCY,
              scope_event.partial_lock_completion 0,
              scope_event.partial_lock_request 2 5 FULL_CONSISTENCY,
              scope_event.partial_lock_completion 2,
              scope_event.handler 5, scope_event.erase_scopelock] :=
  scope_request_replicas_in_turn (fun _ => example_graph) 0 4294967295 65536 1000
    (fun _ _ => false) 5 5 FULL_CONSISTENCY (by decide) rfl (by decide)
    (example_graph_replicas_hold 5 _)

/-- C5, at a concrete input: vertex 5 of the example graph, replicated on the
machines 0 and 2, under VERTEX_CONSISTENCY. -/
theorem scope_request_none_adjacent_one_request_witness :
    ∃ r, scope_request (fun _ => example_graph) 0 4294967295 65536 1000 (fun _ _ => false) 5
          VERTEX_CONSISTENCY = some r
      ∧ r.events.filter (fun e => e.is_request)
          = [scope_event.partial_lock_request 0 5 VERTEX_CONSISTENCY] :=
  scope_request_none_adjacent_one_request (fun _ => example_graph) 0 4294967295 65536 1000
    (fun _ _ => false) 5 5 VERTEX_CONSISTENCY rfl (by decide) rfl

/-- C6 as stated fails on a vertex with a self-loop and on one with parallel
edges. Vertex 1 of the example graph has the in-edge source list `[1]` and the
out-edge target list `[1, 7]`, both ascending, no ghost among them; under
EDGE_CONSISTENCY with all locks granted the walk locks 1 with the adjacent
type, then 1 again with the central type, then 7. Vertex 3 has the in-edge
source list `[4, 4, 5]`, ascending, and the walk locks 3, 4, 4, 5. In both the
ids are not strictly ascending. -/
theorem continue_partial_lock_self_loop_counterexample :
    (partial_lock_request_impl example_graph 4294967295 0 1 EDGE_CONSISTENCY 0
        = some ⟨0, 0, 1, 0, 0, EDGE_CONSISTENCY, false⟩
    ∧ (example_graph.in_sources 1).Sorted (· < ·)
    ∧ (example_graph.out_targets 1).Sorted (· < ·)
    ∧ (∀ x ∈ 1 :: (example_graph.in_sources 1 ++ example_graph.out_targets 1),
        example_graph.localvid_is_ghost x = false)
    ∧ (continue_partial_lock example_graph 4294967295 (fun _ => true)
        ⟨0, 0, 1, 0, 0, EDGE_CONSISTENCY, false⟩).calls
        = [⟨1, READ_LOCK⟩, ⟨1, WRITE_LOCK⟩, ⟨7, READ_LOCK⟩]
    ∧ ¬ ((continue_partial_lock example_graph 4294967295 (fun _ => true)
        ⟨0, 0, 1, 0, 0, EDGE_CONSISTENCY, false⟩).calls.map lock_call.id).Sorted (· < ·))
    ∧ (partial_lock_request_impl example_graph 4294967295 0 3 EDGE_CONSISTENCY 0
        = some ⟨0, 0, 3, 0, 0, EDGE_CONSISTENCY, false⟩
    ∧ (example_graph.in_sources 3).Sorted (· ≤ ·)
    ∧ (example_graph.out_targets 3).Sorted (· ≤ ·)
    ∧ (∀ x ∈ 3 :: (example_graph.in_sources 3 ++ example_graph.out_targets 3),
        example_graph.localvid_is_ghost x = false)
    ∧ (continue_partial_lock example_graph 4294967295 (fun _ => true)
        ⟨0, 0, 3, 0, 0, EDGE_CONSISTENCY, false⟩).calls
        = [⟨3, WRITE_LOCK⟩, ⟨4, READ_LOCK⟩, ⟨4, READ_LOCK⟩, ⟨5, READ_LOCK⟩]
    ∧ ¬ ((continue_partial_lock example_graph 4294967295 (fun _ => true)
        ⟨0, 0, 3, 0, 0, EDGE_CONSISTENCY, false⟩).calls.map lock_call.id).Sorted (· < ·)) := by
  refine ⟨⟨rfl, by decide, by decide, by decide, by rfl, by decide⟩,
    ⟨rfl, by decide, by decide, by decide, by rfl, by decide⟩⟩

/-- C6, at a concrete input: vertex 5 of the example graph, with in-edge
sources 0 and 7 and out-edge targets 3 and 7, under EDGE_CONSISTENCY. -/
theorem continue_partial_lock_ascending_witness :
    (continue_partial_lock example_graph 4294967295 (fun _ => true)
        ⟨0, 0, 5, 0, 0, EDGE_CONSISTENCY, false⟩).outcome = partial_outcome.completed
    ∧ ((continue_partial_lock example_graph 4294967295 (fun _ => true)
        ⟨0, 0, 5, 0, 0, EDGE_CONSISTENCY, false⟩).calls.map lock_call.id).Sorted (· < ·) :=
  have h := continue_partial_lock_ascending example_graph 4294967295 0 5 EDGE_CONSISTENCY 0
    ⟨0, 0, 5, 0, 0, EDGE_CONSISTENCY, false⟩ (by decide) rfl (by decide) (by decide)
    (by decide) (example_graph_ids_in_range 5) (by decide)
  ⟨h.1, h.2.1⟩

/-- C7 as stated fails on a vertex with a self-loop and on one with parallel
edges. Vertex 2 of the example graph has the in-edge source list `[2]` and the
out-edge target list `[2]`; the id 2 is in both, and under FULL_CONSISTENCY it
gets two lock calls. Vertex 3 has the in-edge source list `[4, 4, 5]`, and the
id 4 gets two lock calls. -/
theorem partial_lock_run_self_loop_counterexample :
    (partial_lock_request_impl example_graph 4294967295 0 2 FULL_CONSISTENCY 0
        = some ⟨0, 0, 2, 0, 0, FULL_CONSISTENCY, false⟩
    ∧ (example_graph.in_sources 2).Sorted (· < ·)
    ∧ (example_graph.out_targets 2).Sorted (· < ·)
    ∧ 2 ∈ example_graph.in_sources 2 ∧ 2 ∈ example_graph.out_targets 2
    ∧ example_graph.localvid_is_ghost 2 = false
    ∧ (partial_lock_run example_graph 4294967295 (fun _ => true)
        ⟨0, 0, 2, 0, 0, FULL_CONSISTENCY, false⟩).calls
        = [⟨2, WRITE_LOCK⟩, ⟨2, WRITE_LOCK⟩]
    ∧ ((partial_lock_run example_graph 4294967295 (fun _ => true)
        ⟨0, 0, 2, 0, 0, FULL_CONSISTENCY, false⟩).calls.map lock_call.id).count 2 = 2)
    ∧ (partial_lock_request_impl example_graph 4294967295 0 3 FULL_CONSISTENCY 0
        = some ⟨0, 0, 3, 0, 0, FULL_CONSISTENCY, false⟩
    ∧ (example_graph.in_sources 3).Sorted (· ≤ ·)
    ∧ (example_graph.out_targets 3).Sorted (· ≤ ·)
    ∧ ((partial_lock_run example_graph 4294967295 (fun _ => true)
        ⟨0, 0, 3, 0, 0, FULL_CONSISTENCY, false⟩).calls.map lock_call.id).count 4 = 2) := by
  refine ⟨⟨rfl, by decide, by decide, by decide, by decide, rfl, by rfl, by rfl⟩,
    ⟨rfl, by decide, by decide, by rfl⟩⟩

/-- C7, at a concrete input: vertex 5 of the example graph; the id 7 is the
source of an in-edge and the target of an out-edge and gets one lock call. -/
theorem partial_lock_run_locks_once_witness :
    ((partial_lock_run example_graph 4294967295 (fun i => decide (i = 2))
        ⟨0, 0, 5, 0, 0, FULL_CONSISTENCY, false⟩).calls.map lock_call.id).count 7 = 1 :=
  (partial_lock_run_locks_once example_graph 4294967295 0 5 FULL_CONSISTENCY 0
    (fun i => decide (i = 2)) ⟨0, 0, 5, 0, 0, FULL_CONSISTENCY, false⟩ (by decide) rfl
    (by decide) (by decide) (by decide) (example_graph_ids_in_range 5)).2 7
    (by decide) (by decide) rfl

/-- C8 as stated fails under a scope kind without adjacent locking: for
vertex 5 of the example graph under VERTEX_CONSISTENCY the only lock call is on
5, although 0 is in its closed neighbourhood and no ghost. -/
theorem partial_lock_run_vertex_scope_counterexample :
    partial_lock_request_impl example_graph 4294967295 0 5 VERTEX_CONSISTENCY 0
        = some ⟨4294967295, 4294967295, 5, 0, 0, VERTEX_CONSISTENCY, false⟩
    ∧ 0 ∈ example_graph.in_sources 5
    ∧ example_graph.localvid_is_ghost 0 = false
    ∧ (partial_lock_run example_graph 4294967295 (fun _ => true)
        ⟨4294967295, 4294967295, 5, 0, 0, VERTEX_CONSISTENCY, false⟩).calls
        = [⟨5, WRITE_LOCK⟩]
    ∧ 0 ∉ (partial_lock_run example_graph 4294967295 (fun _ => true)
        ⟨4294967295, 4294967295, 5, 0, 0, VERTEX_CONSISTENCY, false⟩).calls.map lock_call.id := by
  refine ⟨rfl, by decide, rfl, by rfl, by decide⟩

/-- C8, at a concrete input: vertex 6 of the example graph under
READ_CONSISTENCY, with the neighbours 4 and 9, of which 9 is a ghost; the
lock calls are on 4 and 6. -/
theorem partial_lock_run_skips_ghosts_witness :
    (partial_lock_run example_graph 4294967295 (fun _ => false)
        ⟨0, 0, 6, 0, 0, READ_CONSISTENCY, false⟩).outcome = partial_outcome.completed
    ∧ ∀ x, x ∈ (partial_lock_run example_graph 4294967295 (fun _ => false)
          ⟨0, 0, 6, 0, 0, READ_CONSISTENCY, false⟩).calls.map lock_call.id
        ↔ example_graph.localvid_is_ghost x = false
          ∧ (x = 6 ∨ x ∈ example_graph.in_sources 6 ∨ x ∈ example_graph.out_targets 6) :=
  (partial_lock_run_skips_ghosts example_graph 4294967295 0 6 READ_CONSISTENCY 0
    (fun _ => false) ⟨0, 0, 6, 0, 0, READ_CONSISTENCY, false⟩ rfl
    (example_graph_ids_in_range 6) (by decide) (by decide)).2.2.1 (by decide)

/-- One call of `task_reply` on a positive count-down with a registered task:
the count-down goes down by one, the value is assigned to an empty future and
combined into any other, and the fiber is signalled exactly when the
count-down reaches zero. -/
theorem task_reply_ok {δ α : Type} (tt : Nat → Option (task_descriptor δ α))
    (d : task_descriptor δ α) (c : future_combiner α) (v : Option α)
    (hpos : 0 < c.count_down) (hd : tt c.task_id = some d) :
    task_reply tt c v
      = Except.ok
          (⟨c.param,
              if c.future_handle.isSome then d.combine c.future_handle v c.param else v,
              c.count_down - 1, c.task_id⟩,
            (if c.future_handle.isSome then reply_event.combined else reply_event.assigned)
              :: (if c.count_down - 1 = 0 then [reply_event.signalled] else [])) := by
  unfold task_reply
  simp only [gt_iff_lt, hpos, if_true]
  cases hf : c.future_handle with
  | none => simp
  | some a => simp [hd]

/-- A sequence of replies that the count-down allows: no assertion fails, the
count-down goes down by the number of replies, and the fiber is signalled
once, by the last reply, exactly when the count-down reaches zero. -/
theorem task_replies_count {δ α : Type} (tt : Nat → Option (task_descriptor δ α))
    (d : task_descriptor δ α) :
    ∀ (vals : List (Option α)) (c : future_combiner α),
      vals.length ≤ c.count_down → tt c.task_id = some d →
      ∃ c1 evs, task_replies tt c vals = Except.ok (c1, evs)
        ∧ c1.count_down = c.count_down - vals.length
        ∧ c1.task_id = c.task_id ∧ c1.param = c.param
        ∧ evs.count reply_event.signalled
            = (if vals.length = c.count_down ∧ 0 < vals.length then 1 else 0)
        ∧ (vals.length = c.count_down → 0 < vals.length →
            evs.getLast? = some reply_event.signalled) := by
  intro vals
  induction vals with
  | nil =>
    intro c _ _
    exact ⟨c, [], rfl, by simp, rfl, rfl, by simp, by simp⟩
  | cons v vs ih =>
    intro c hlen hd
    have hlen' : vs.length + 1 ≤ c.count_down := by simpa using hlen
    have hpos : 0 < c.count_down := by omega
    have h1 := task_reply_ok tt d c v hpos hd
    obtain ⟨c2, e2, hr, hcd, hid, hpar, hcount, hlast⟩ :=
      ih ⟨c.param, if c.future_handle.isSome then d.combine c.future_handle v c.param else v,
        c.count_down - 1, c.task_id⟩ (by simp only; omega) hd
    simp only at hcd hid hpar hcount hlast
    refine ⟨c2, ((if c.future_handle.isSome then reply_event.combined else reply_event.assigned)
        :: (if c.count_down - 1 = 0 then [reply_event.signalled] else [])) ++ e2,
      by rw [task_replies, h1]; simp only [hr], ?_, hid, hpar, ?_, ?_⟩
    · rw [hcd]; simp only [List.length_cons]; omega
    · have hfirst : List.count reply_event.signalled
          ((if c.future_handle.isSome then reply_event.combined else reply_event.assigned)
            :: (if c.count_down - 1 = 0 then [reply_event.signalled] else []))
          = if c.count_down - 1 = 0 then 1 else 0 := by
        cases c.future_handle.isSome <;> by_cases hz : c.count_down - 1 = 0 <;> simp [hz]
      rw [List.count_append, hcount, hfirst]
      simp only [List.length_cons]
      split_ifs <;> omega
    · intro hl _
      simp only [List.length_cons] at hl
      by_cases hvs : vs.length = 0
      · have hz : c.count_down - 1 = 0 := by omega
        have hnil : vs = [] := List.length_eq_zero.1 hvs
        subst hnil
        have he2 : e2 = [] := by
          simp only [task_replies] at hr
          have := (Except.ok.inj hr)
          exact (congrArg Prod.snd this).symm
        simp [hz, he2]
      · have hv : vs.length = c.count_down - 1 := by omega
        have := hlast hv (by omega)
        rw [List.getLast?_append_of_ne_nil _ (by
          intro h; rw [h] at this; simp at this), this]

theorem exec_task_list_append {δ α : Type} (tt : Nat → Option (task_descriptor δ α))
    (vdata : Nat → δ) (d : task_descriptor δ α) (t : task α) (hd : tt t.task_id = some d) :
    ∀ (l : List (task α)) (olds : List (task_reply_call α)),
      exec_task_list tt vdata l = Except.ok olds →
      exec_task_list tt vdata (l ++ [t])
        = Except.ok (olds ++ [⟨t.origin, t.handle, d.exec vdata t.vid t.param⟩]) := by
  intro l
  induction l with
  | nil =>
    intro olds h
    simp only [exec_task_list] at h
    have : olds = [] := (Except.ok.inj h).symm
    subst this
    simp [exec_task_list, hd]
  | cons cur rest ih =>
    intro olds h
    rw [exec_task_list] at h
    cases hc : tt cur.task_id with
    | none => simp [hc] at h
    | some dc =>
      simp only [hc] at h
      cases hr : exec_task_list tt vdata rest with
      | error e => simp [hr] at h
      | ok rs =>
        simp only [hr] at h
        have : olds = ⟨cur.origin, cur.handle, dc.exec vdata cur.vid cur.param⟩ :: rs :=
          (Except.ok.inj h).symm
        subst this
        rw [List.cons_append, exec_task_list]
        simp only [hc, ih rs hr]
        rfl

/-- A task that `rpc_receive_task` has put on its queue is answered by the
next `exec_subtasks` of that worker with exactly one call of `task_reply_rpc`,
to the caller and with the handle of the request, after the answers to the
tasks queued before it; the queue is empty afterwards. -/
theorem exec_subtasks_after_receive {δ α : Type} (tt : Nat → Option (task_descriptor δ α))
    (gq : graph_view) (sq : engine_state δ α) (c : receive_task_call δ α)
    (d : task_descriptor δ α) (olds : List (task_reply_call α))
    (hd : tt c.task_id = some d)
    (hold : exec_task_list tt (rpc_receive_task gq sq c).vdata
      (sq.local_tasks (gq.local_vid c.vid % sq.ncpus)) = Except.ok olds) :
    ∃ st1, exec_subtasks tt (rpc_receive_task gq sq c) (gq.local_vid c.vid % sq.ncpus) true
        = Except.ok (st1, olds ++ [⟨c.caller, c.handle,
            d.exec (rpc_receive_task gq sq c).vdata c.vid c.param⟩])
      ∧ st1.local_tasks (gq.local_vid c.vid % sq.ncpus) = [] := by
  have hq : (rpc_receive_task gq sq c).local_tasks (gq.local_vid c.vid % sq.ncpus)
      = sq.local_tasks (gq.local_vid c.vid % sq.ncpus)
        ++ [⟨c.vid, c.param, c.task_id, c.caller, c.handle⟩] := by
    simp [rpc_receive_task]
  have happ := exec_task_list_append tt (rpc_receive_task gq sq c).vdata d
    ⟨c.vid, c.param, c.task_id, c.caller, c.handle⟩ hd _ olds hold
  unfold exec_subtasks
  simp only [if_true, hq, happ]
  exact ⟨_, rfl, by simp⟩

/-- Replies to a future one after the other: the replies of a list followed by
the replies of a second list. -/
theorem task_replies_append {δ α : Type} (tt : Nat → Option (task_descriptor δ α)) :
    ∀ (xs ys : List (Option α)) (c : future_combiner α),
      task_replies tt c (xs ++ ys)
        = match task_replies tt c xs with
          | Except.error e => Except.error e
          | Except.ok (c1, e1) =>
            match task_replies tt c1 ys with
            | Except.error e => Except.error e
            | Except.ok (c2, e2) => Except.ok (c2, e1 ++ e2) := by
  intro xs
  induction xs with
  | nil =>
    intro ys c
    simp only [List.nil_append, task_replies]
    cases task_replies tt c ys with
    | error e => rfl
    | ok res => simp
  | cons x xs ih =>
    intro ys c
    have e : (x :: xs) ++ ys = x :: (xs ++ ys) := rfl
    rw [e]
    cases h1 : task_reply tt c x with
    | error e1 => simp only [task_replies, h1]
    | ok res =>
      obtain ⟨c1, e1⟩ := res
      simp only [task_replies, h1]
      rw [ih ys c1]
      cases h2 : task_replies tt c1 xs with
      | error e2 => rfl
      | ok res2 =>
        obtain ⟨c2, e2⟩ := res2
        simp only
        cases h3 : task_replies tt c2 ys with
        | error e3 => rfl
        | ok res3 => simp

/-- Every call of `task_reply` that returns has assigned or combined exactly
once. -/
theorem task_reply_is_reply {δ α : Type} (tt : Nat → Option (task_descriptor δ α))
    (c c1 : future_combiner α) (v : Option α) (evs : List reply_event)
    (h : task_reply tt c v = Except.ok (c1, evs)) :
    evs.countP reply_event.is_reply = 1 := by
  unfold task_reply at h
  by_cases hpos : c.count_down > 0
  · simp only [hpos, if_true] at h
    by_cases hs : c.future_handle.isSome = true
    · simp only [hs, if_true] at h
      cases hd : tt c.task_id with
      | none => simp [hd] at h
      | some d =>
        simp only [hd] at h
        have := congrArg Prod.snd (Except.ok.inj h)
        simp only at this
        rw [← this]
        by_cases hz : c.count_down - 1 = 0 <;> simp [hz, reply_event.is_reply]
    · simp only [hs, if_false] at h
      have := congrArg Prod.snd (Except.ok.inj h)
      simp only at this
      rw [← this]
      by_cases hz : c.count_down - 1 = 0 <;> simp [hz, reply_event.is_reply]
  · simp [hpos] at h

/-- The replies of a list that all return have assigned or combined once
each. -/
theorem task_replies_is_reply {δ α : Type} (tt : Nat → Option (task_descriptor δ α)) :
    ∀ (vals : List (Option α)) (c c1 : future_combiner α) (evs : List reply_event),
      task_replies tt c vals = Except.ok (c1, evs) →
      evs.countP reply_event.is_reply = vals.length := by
  intro vals
  induction vals with
  | nil =>
    intro c c1 evs h
    simp only [task_replies] at h
    have := congrArg Prod.snd (Except.ok.inj h)
    simp only at this
    rw [← this]
    rfl
  | cons v vs ih =>
    intro c c1 evs h
    rw [task_replies] at h
    cases h1 : task_reply tt c v with
    | error e => simp [h1] at h
    | ok res =>
      obtain ⟨c2, e2⟩ := res
      simp only [h1] at h
      cases h2 : task_replies tt c2 vs with
      | error e => simp [h2] at h
      | ok res2 =>
        obtain ⟨c3, e3⟩ := res2
        simp only [h2] at h
        have := congrArg Prod.snd (Except.ok.inj h)
        simp only at this
        rw [← this, List.countP_append, task_reply_is_reply tt c c2 v e2 h1,
          ih c2 c3 e3 h2, List.length_cons]
        omega

/-- The call `spawn_task` of a registered sub-task is the sequence of replies
to its fresh future: the early replies of mirrors, the reply of the local
execution, the late replies of mirrors. -/
theorem spawn_task_eq_replies {δ α : Type} (tt : Nat → Option (task_descriptor δ α))
    (d : task_descriptor δ α) (gv : graph_view) (hash : δ → Nat) (pmod : Nat)
    (st : engine_state δ α) (lvid task_id : Nat) (task_param : Option α) (handle : Nat)
    (early late : List (Option α)) (hd : tt task_id = some d) :
    spawn_task tt gv hash pmod st lvid task_id task_param handle early late
      = match task_replies tt
            (spawn_task_send gv hash pmod st lvid task_id task_param handle).1
            (early ++ d.exec
                (spawn_task_send gv hash pmod st lvid task_id task_param handle).2.1.vdata
                (gv.global_id lvid) task_param :: late) with
        | Except.error e => Except.error e
        | Except.ok (c3, evs) =>
          Except.ok
            { state := (spawn_task_send gv hash pmod st lvid task_id task_param handle).2.1,
              calls := (spawn_task_send gv hash pmod st lvid task_id task_param handle).2.2,
              combiner := c3, events := evs,
              outcome :=
                if reply_event.signalled ∈ evs then spawn_outcome.returned c3.future_handle
                else spawn_outcome.waiting } := by
  unfold spawn_task
  simp only [task_replies_append, task_replies, spawn_task_local, hd]
  cases task_replies tt (spawn_task_send gv hash pmod st lvid task_id task_param handle).1
      early with
  | error e => rfl
  | ok res =>
    obtain ⟨c1, e1⟩ := res
    simp only
    cases task_reply tt c1
        (d.exec (spawn_task_send gv hash pmod st lvid task_id task_param handle).2.1.vdata
          (gv.global_id lvid) task_param) with
    | error e => rfl
    | ok res2 =>
      obtain ⟨c2, e2⟩ := res2
      simp only
      cases task_replies tt c2 late with
      | error e => rfl
      | ok res3 =>
        obtain ⟨c3, e3⟩ := res3
        simp only [List.append_assoc]

/-- The tasks of a queue whose types are all registered are executed, and each
answer goes to the origin of a task of the queue with the handle of that
task. -/
theorem exec_task_list_ok {δ α : Type} (tt : Nat → Option (task_descriptor δ α))
    (vdata : Nat → δ) :
    ∀ (l : List (task α)), (∀ t ∈ l, (tt t.task_id).isSome = true) →
      ∃ rs, exec_task_list tt vdata l = Except.ok rs
        ∧ ∀ r ∈ rs, ∃ t ∈ l, r.dest = t.origin ∧ r.handle = t.handle := by
  intro l
  induction l with
  | nil => intro _; exact ⟨[], rfl, fun r hr => absurd hr (List.not_mem_nil _)⟩
  | cons cur rest ih =>
    intro h
    obtain ⟨rs, hrs, hmem⟩ := ih (fun t ht => h t (List.mem_cons_of_mem _ ht))
    cases hc : tt cur.task_id with
    | none =>
      have := h cur (List.mem_cons_self _ _)
      rw [hc] at this
      exact absurd this (by simp)
    | some dc =>
      refine ⟨⟨cur.origin, cur.handle, dc.exec vdata cur.vid cur.param⟩ :: rs, ?_, ?_⟩
      · rw [exec_task_list]
        simp only [hc, hrs]
      · intro r hr
        rcases List.mem_cons.1 hr with e | e
        · exact ⟨cur, List.mem_cons_self _ _, by rw [e], by rw [e]⟩
        · obtain ⟨t, ht, h1, h2⟩ := hmem r e
          exact ⟨t, List.mem_cons_of_mem _ ht, h1, h2⟩

/-- One mirror's answer: `rpc_receive_task` puts the task on the queue of a
worker, and the next `exec_subtasks` of that worker answers the tasks queued
before and then sends exactly one `task_reply_rpc` for the new task, to the
caller with the handle of the request; the queue is empty afterwards and the
other queues are as before. -/
theorem mirror_answer_step {δ α : Type} (tt : Nat → Option (task_descriptor δ α))
    (gq : graph_view) (sq : engine_state δ α) (c : receive_task_call δ α)
    (d : task_descriptor δ α) (hd : tt c.task_id = some d)
    (hq : ∀ t ∈ sq.local_tasks (gq.local_vid c.vid % sq.ncpus), (tt t.task_id).isSome = true) :
    ∃ s2 olds, exec_subtasks tt (rpc_receive_task gq sq c) (gq.local_vid c.vid % sq.ncpus) true
        = Except.ok (s2, olds ++ [⟨c.caller, c.handle,
            d.exec (rpc_receive_task gq sq c).vdata c.vid c.param⟩])
      ∧ (∀ r ∈ olds, ∃ t ∈ sq.local_tasks (gq.local_vid c.vid % sq.ncpus),
          r.dest = t.origin ∧ r.handle = t.handle)
      ∧ (∀ w, s2.local_tasks w
          = if w = gq.local_vid c.vid % sq.ncpus then [] else sq.local_tasks w) := by
  obtain ⟨olds, hold, hmem⟩ := exec_task_list_ok tt (rpc_receive_task gq sq c).vdata
    (sq.local_tasks (gq.local_vid c.vid % sq.ncpus)) hq
  have hqueue : (rpc_receive_task gq sq c).local_tasks (gq.local_vid c.vid % sq.ncpus)
      = sq.local_tasks (gq.local_vid c.vid % sq.ncpus)
        ++ [⟨c.vid, c.param, c.task_id, c.caller, c.handle⟩] := by
    simp [rpc_receive_task]
  have happ := exec_task_list_append tt (rpc_receive_task gq sq c).vdata d
    ⟨c.vid, c.param, c.task_id, c.caller, c.handle⟩ hd _ olds hold
  unfold exec_subtasks
  simp only [if_true, hqueue, happ]
  refine ⟨_, olds, rfl, hmem, ?_⟩
  intro w
  by_cases hw : w = gq.local_vid c.vid % sq.ncpus
  · simp [hw]
  · simp [hw, rpc_receive_task]

/-- The replies that reach a future, over two lists of calls. -/
theorem replies_reaching_append {α : Type} (origin handle : Nat)
    (xs ys : List (task_reply_call α)) :
    replies_reaching origin handle (xs ++ ys)
      = replies_reaching origin handle xs ++ replies_reaching origin handle ys := by
  simp [replies_reaching]

/-- Calls for other futures do not reach the future. -/
theorem replies_reaching_nil {α : Type} (origin handle : Nat)
    (xs : List (task_reply_call α))
    (h : ∀ r ∈ xs, ¬ (r.dest = origin ∧ r.handle = handle)) :
    replies_reaching origin handle xs = [] := by
  unfold replies_reaching
  rw [List.filter_eq_nil_iff.2 (fun r hr => by simp [h r hr])]
  rfl

/-- The mirrors' side of a spawn, when the queues of the machines hold only
tasks of registered types that belong to other futures: every call is
answered, and the replies that reach the future are as many as the calls. -/
theorem mirrors_answer_count {δ α : Type} (tt : Nat → Option (task_descriptor δ α))
    (d : task_descriptor δ α) (gviews : Nat → graph_view) (origin handle task_id : Nat)
    (hd : tt task_id = some d) :
    ∀ (calls : List (Nat × receive_task_call δ α)) (states : Nat → engine_state δ α),
      (∀ c ∈ calls, c.2.caller = origin ∧ c.2.handle = handle ∧ c.2.task_id = task_id) →
      (∀ q w, ∀ t ∈ (states q).local_tasks w,
        (tt t.task_id).isSome = true ∧ ¬ (t.origin = origin ∧ t.handle = handle)) →
      ∃ states1 rs, mirrors_answer tt gviews states calls = Except.ok (states1, rs)
        ∧ (replies_reaching origin handle rs).length = calls.length := by
  intro calls
  induction calls with
  | nil => intro states _ _; exact ⟨states, [], rfl, rfl⟩
  | cons qc rest ih =>
    intro states hcalls hstates
    obtain ⟨q, c⟩ := qc
    obtain ⟨hc1, hc2, hc3⟩ := hcalls (q, c) (List.mem_cons_self _ _)
    simp only at hc1 hc2 hc3
    obtain ⟨s2, olds, hex, holds, hs2⟩ := mirror_answer_step tt (gviews q) (states q) c d
      (by rw [hc3]; exact hd) (fun t ht => (hstates q _ t ht).1)
    obtain ⟨states1, rs1, hrest, hlen⟩ := ih (fun i => if i = q then s2 else states i)
      (fun x hx => hcalls x (List.mem_cons_of_mem _ hx))
      (by
        intro i w t ht
        by_cases hi : i = q
        · simp only [hi, if_true] at ht
          rw [hs2 w] at ht
          by_cases hw : w = (gviews q).local_vid c.vid % (states q).ncpus
          · rw [if_pos hw] at ht
            exact absurd ht (List.not_mem_nil _)
          · rw [if_neg hw] at ht
            exact hstates q w t ht
        · simp only [hi, if_false] at ht
          exact hstates i w t ht)
    refine ⟨states1, (olds ++ [⟨c.caller, c.handle,
        d.exec (rpc_receive_task (gviews q) (states q) c).vdata c.vid c.param⟩]) ++ rs1, ?_, ?_⟩
    · simp only [mirrors_answer, hex, hrest]
    · rw [replies_reaching_append, replies_reaching_append,
        replies_reaching_nil origin handle olds (by
          intro r hr
          obtain ⟨t, ht, h1, h2⟩ := holds r hr
          rw [h1, h2]
          exact (hstates q _ t ht).2)]
      simp only [List.nil_append, List.length_append, hlen, List.length_cons]
      have : replies_reaching origin handle
          [(⟨c.caller, c.handle,
            d.exec (rpc_receive_task (gviews q) (states q) c).vdata c.vid c.param⟩ :
              task_reply_call α)]
          = [d.exec (rpc_receive_task (gviews q) (states q) c).vdata c.vid c.param] := by
        simp [replies_reaching, hc1, hc2]
      rw [this]
      simp only [List.length_singleton]
      omega

/-- C9: a spawn on a vertex with `m` mirrors (`m + 1` fitting `procid_t`) of a
registered sub-task, when the queues of the machines hold only tasks of
registered types that belong to other futures. The count-down of the future
starts at `m + 1` and `spawn_task` sends one `rpc_receive_task` to each mirror;
the mirrors answer every call, each task enqueued being answered by exactly
one `task_reply_rpc` to the caller with the handle of the request, so that
exactly `m` replies of mirrors reach the future. With these replies arriving in
whatever order around the reply of the local execution, `spawn_task` returns:
no assertion on the count-down fails, exactly `m + 1` calls of `task_reply`
are made, the count-down after `j` of them is `m + 1 - j`, positive before the
last and zero after it, and the fiber is signalled once, by the last reply. -/
theorem spawn_task_count_down {δ α : Type} (tt : Nat → Option (task_descriptor δ α))
    (d : task_descriptor δ α) (gv : graph_view) (hash : δ → Nat) (pmod : Nat)
    (st : engine_state δ α) (lvid task_id : Nat) (task_param : Option α) (handle : Nat)
    (gviews : Nat → graph_view) (states : Nat → engine_state δ α)
    (hm : (gv.mirrors lvid).length + 1 < pmod) (hd : tt task_id = some d)
    (hstates : ∀ q w, ∀ t ∈ (states q).local_tasks w,
      (tt t.task_id).isSome = true ∧ ¬ (t.origin = st.procid ∧ t.handle = handle)) :
    (spawn_task_send gv hash pmod st lvid task_id task_param handle).1.count_down
        = (gv.mirrors lvid).length + 1
    ∧ (∀ (gq : graph_view) (sq : engine_state δ α) (q : Nat) (c : receive_task_call δ α)
        (olds : List (task_reply_call α)),
        (q, c) ∈ (spawn_task_send gv hash pmod st lvid task_id task_param handle).2.2 →
        exec_task_list tt (rpc_receive_task gq sq c).vdata
          (sq.local_tasks (gq.local_vid c.vid % sq.ncpus)) = Except.ok olds →
        ∃ st1, exec_subtasks tt (rpc_receive_task gq sq c) (gq.local_vid c.vid % sq.ncpus) true
            = Except.ok (st1, olds ++ [⟨st.procid, handle,
                d.exec (rpc_receive_task gq sq c).vdata c.vid c.param⟩])
          ∧ st1.local_tasks (gq.local_vid c.vid % sq.ncpus) = [])
    ∧ ∃ states1 rs,
        mirrors_answer tt gviews states
            (spawn_task_send gv hash pmod st lvid task_id task_param handle).2.2
          = Except.ok (states1, rs)
        ∧ (replies_reaching st.procid handle rs).length = (gv.mirrors lvid).length
        ∧ ∀ (early late : List (Option α)),
            (early ++ late).Perm (replies_reaching st.procid handle rs) →
            ∃ r, spawn_task tt gv hash pmod st lvid task_id task_param handle early late
                  = Except.ok r
              ∧ r.calls.map Prod.fst = gv.mirrors lvid
              ∧ (∀ c ∈ r.calls,
                  c.2.caller = st.procid ∧ c.2.handle = handle ∧ c.2.task_id = task_id)
              ∧ r.events.countP reply_event.is_reply = (gv.mirrors lvid).length + 1
              ∧ r.combiner.count_down = 0
              ∧ r.events.count reply_event.signalled = 1
              ∧ r.events.getLast? = some reply_event.signalled
              ∧ r.outcome = spawn_outcome.returned r.combiner.future_handle
              ∧ ∀ j, j ≤ (gv.mirrors lvid).length + 1 →
                  ∃ c1 evs,
                    task_replies tt
                      (spawn_task_send gv hash pmod st lvid task_id task_param handle).1
                      ((early ++ d.exec
                          (spawn_task_send gv hash pmod st lvid task_id task_param
                            handle).2.1.vdata
                          (gv.global_id lvid) task_param :: late).take j)
                      = Except.ok (c1, evs)
                    ∧ c1.count_down = (gv.mirrors lvid).length + 1 - j
                    ∧ evs.countP reply_event.is_reply = j
                    ∧ evs.count reply_event.signalled
                        = (if j = (gv.mirrors lvid).length + 1 then 1 else 0) := by
  have hmod : ((gv.mirrors lvid).length + 1) % pmod = (gv.mirrors lvid).length + 1 :=
    Nat.mod_eq_of_lt hm
  have hcd0 : (spawn_task_send gv hash pmod st lvid task_id task_param handle).1.count_down
      = (gv.mirrors lvid).length + 1 := by simp [spawn_task_send, hmod]
  have htid : (spawn_task_send gv hash pmod st lvid task_id task_param handle).1.task_id
      = task_id := by simp [spawn_task_send]
  have hcalls : ∀ c ∈ (spawn_task_send gv hash pmod st lvid task_id task_param handle).2.2,
      c.2.caller = st.procid ∧ c.2.handle = handle ∧ c.2.task_id = task_id := by
    intro c hc
    simp only [spawn_task_send, List.mem_map] at hc
    obtain ⟨q, _, rfl⟩ := hc
    exact ⟨rfl, rfl, rfl⟩
  have hdest : (spawn_task_send gv hash pmod st lvid task_id task_param handle).2.2.map
      Prod.fst = gv.mirrors lvid := by
    simp only [spawn_task_send, List.map_map]
    exact List.map_id _
  have hncalls : (spawn_task_send gv hash pmod st lvid task_id task_param handle).2.2.length
      = (gv.mirrors lvid).length := by
    rw [← hdest, List.length_map]
  refine ⟨hcd0, ?_, ?_⟩
  · intro gq sq q c olds hc hold
    obtain ⟨h2, h3, h1⟩ := hcalls (q, c) hc
    simp only at h1 h2 h3
    have := exec_subtasks_after_receive tt gq sq c d olds (by rw [h1]; exact hd) hold
    rw [h2, h3] at this
    exact this
  · obtain ⟨states1, rs, hans, hlen⟩ := mirrors_answer_count tt d gviews st.procid handle
      task_id hd _ states hcalls hstates
    rw [hncalls] at hlen
    refine ⟨states1, rs, hans, hlen, ?_⟩
    intro early late hperm
    have hel : early.length + late.length = (gv.mirrors lvid).length := by
      have := hperm.length_eq
      rw [List.length_append, hlen] at this
      exact this
    have hall : (early ++ d.exec
        (spawn_task_send gv hash pmod st lvid task_id task_param handle).2.1.vdata
        (gv.global_id lvid) task_param :: late).length = (gv.mirrors lvid).length + 1 := by
      simp only [List.length_append, List.length_cons]
      omega
    obtain ⟨c3, evs, hr, hcd, _, _, hcount, hlast⟩ := task_replies_count tt d
      (early ++ d.exec
        (spawn_task_send gv hash pmod st lvid task_id task_param handle).2.1.vdata
        (gv.global_id lvid) task_param :: late)
      (spawn_task_send gv hash pmod st lvid task_id task_param handle).1
      (by rw [hall, hcd0]) (by rw [htid]; exact hd)
    rw [hall, hcd0] at hcd hcount hlast
    have hsig1 : evs.count reply_event.signalled = 1 := by
      rw [hcount, if_pos ⟨rfl, Nat.succ_pos _⟩]
    have hsigmem : reply_event.signalled ∈ evs :=
      List.count_pos_iff.1 (by rw [hsig1]; exact Nat.one_pos)
    refine ⟨_, by rw [spawn_task_eq_replies tt d gv hash pmod st lvid task_id task_param
      handle early late hd, hr], hdest, hcalls, ?_, by simpa using hcd, hsig1,
      hlast rfl (Nat.succ_pos _), by simp only [hsigmem, if_true], ?_⟩
    · show evs.countP reply_event.is_reply = (gv.mirrors lvid).length + 1
      rw [task_replies_is_reply tt _ _ c3 evs hr, hall]
    · intro j hj
      have hlenj : ((early ++ d.exec
          (spawn_task_send gv hash pmod st lvid task_id task_param handle).2.1.vdata
          (gv.global_id lvid) task_param :: late).take j).length = j := by
        rw [List.length_take, hall]
        omega
      obtain ⟨c1, e1, hr1, hcd1, _, _, hcount1, _⟩ := task_replies_count tt d
        ((early ++ d.exec
          (spawn_task_send gv hash pmod st lvid task_id task_param handle).2.1.vdata
          (gv.global_id lvid) task_param :: late).take j)
        (spawn_task_send gv hash pmod st lvid task_id task_param handle).1
        (by rw [hlenj, hcd0]; exact hj) (by rw [htid]; exact hd)
      rw [hlenj, hcd0] at hcd1 hcount1
      refine ⟨c1, e1, hr1, hcd1, ?_, ?_⟩
      · rw [task_replies_is_reply tt _ _ c1 e1 hr1, hlenj]
      · rw [hcount1]
        by_cases hjj : j = (gv.mirrors lvid).length + 1
        · simp [hjj]
        · simp [hjj]

/-- Replies after the first one, when the accumulator is not empty and
`combine` never empties it: each reply calls `combine`, left to right. -/
theorem task_replies_combine {δ α : Type} (tt : Nat → Option (task_descriptor δ α))
    (d : task_descriptor δ α) (param : Option α) (task_id : Nat)
    (hd : tt task_id = some d)
    (hcomb : ∀ acc v, acc ≠ none → d.combine acc v param ≠ none) :
    ∀ (vs : List (Option α)) (acc : Option α), acc ≠ none →
      task_replies tt ⟨param, acc, vs.length, task_id⟩ vs
        = Except.ok (⟨param, vs.foldl (fun a v => d.combine a v param) acc, 0, task_id⟩,
            List.replicate vs.length reply_event.combined
              ++ (if 0 < vs.length then [reply_event.signalled] else [])) := by
  intro vs
  induction vs with
  | nil => intro acc _; simp [task_replies]
  | cons v vs ih =>
    intro acc hacc
    have hsome : acc.isSome = true := by
      cases acc with
      | none => exact absurd rfl hacc
      | some a => rfl
    have h1 := task_reply_ok tt d ⟨param, acc, (v :: vs).length, task_id⟩ v
      (by simp) hd
    simp only [hsome, if_true, List.length_cons, Nat.add_sub_cancel] at h1
    rw [task_replies]
    simp only [List.length_cons, h1, ih (d.combine acc v param) (hcomb acc v hacc)]
    by_cases hvs : vs.length = 0
    · have : vs = [] := List.length_eq_zero.1 hvs
      subst this
      simp
    · have hp : 0 < vs.length := by omega
      simp [hvs, hp, List.replicate_succ]

/-- C10, amended: for a fresh future (empty accumulator, count-down `k`, at
least 1) and reply values `v1, ..., vk` of which `v1` is not empty, with a
`combine` that never leaves the accumulator empty, after the `k` calls of
`task_reply` the accumulator is `v1` combined in place with `v2`, ..., `vk`
from left to right; the first reply assigns the accumulator without a call of
`combine`, `combine` is called exactly `k - 1` times, and the count-down is
zero. -/
theorem task_replies_fold {δ α : Type} (tt : Nat → Option (task_descriptor δ α))
    (d : task_descriptor δ α) (param : Option α) (task_id : Nat)
    (v1 : Option α) (vs : List (Option α))
    (hd : tt task_id = some d) (hv1 : v1 ≠ none)
    (hcomb : ∀ acc v, acc ≠ none → d.combine acc v param ≠ none) :
    task_replies tt ⟨param, none, vs.length + 1, task_id⟩ (v1 :: vs)
      = Except.ok (⟨param, vs.foldl (fun a v => d.combine a v param) v1, 0, task_id⟩,
          reply_event.assigned :: List.replicate vs.length reply_event.combined
            ++ [reply_event.signalled]) := by
  have h1 := task_reply_ok tt d ⟨param, none, vs.length + 1, task_id⟩ v1 (by simp) hd
  simp only [Option.isSome_none, Bool.false_eq_true, if_false, Nat.add_sub_cancel] at h1
  rw [task_replies]
  simp only [h1, task_replies_combine tt d param task_id hd hcomb vs v1 hv1]
  by_cases hvs : vs.length = 0
  · have : vs = [] := List.length_eq_zero.1 hvs
    subst this
    simp
  · have hp : 0 < vs.length := by omega
    simp [hvs, hp]

theorem sum_task_combine_ne_none (acc v param : Option Nat) (h : acc ≠ none) :
    sum_task.combine acc v param ≠ none := by
  cases acc with
  | none => exact absurd rfl h
  | some a => cases v <;> simp [sum_task]

/-- C9, at a concrete input: a spawn of the summing task on the vertex 4 of
machine 0, with mirrors on the machines 1, 3 and 5 whose queues are empty. The
count-down starts at 4, the three mirrors send one reply each, of value 1, to
machine 0 with the handle 1000, and with one of them arriving before the local
reply and two after it `spawn_task` returns after four calls of `task_reply`,
with the count-down at zero and one signal, the last event. -/
theorem spawn_task_count_down_witness :
    (spawn_task_send example_graph_view (fun x : Nat => x) 65536 (example_engine 0) 4 0 none
        1000).1.count_down = 4
    ∧ (∃ states1, mirrors_answer example_task_types (fun _ => example_graph_view)
          example_engine
          (spawn_task_send example_graph_view (fun x : Nat => x) 65536 (example_engine 0) 4 0
            none 1000).2.2
        = Except.ok (states1, [⟨0, 1000, some 1⟩, ⟨0, 1000, some 1⟩, ⟨0, 1000, some 1⟩]))
    ∧ ∃ r, spawn_task example_task_types example_graph_view (fun x : Nat => x) 65536
          (example_engine 0) 4 0 none 1000 [some 1] [some 1, some 1] = Except.ok r
        ∧ r.events.countP reply_event.is_reply = 4
        ∧ r.combiner.count_down = 0
        ∧ r.events.count reply_event.signalled = 1
        ∧ r.events.getLast? = some reply_event.signalled
        ∧ r.outcome = spawn_outcome.returned (some 4) := by
  have h := spawn_task_count_down example_task_types sum_task example_graph_view
    (fun x : Nat => x) 65536 (example_engine 0) 4 0 none 1000 (fun _ => example_graph_view)
    example_engine (by decide) rfl
    (fun q w t ht => absurd ht (by simp [example_engine]))
  obtain ⟨h1, _, states1, rs, hans, _, hspawn⟩ := h
  have hval : (match mirrors_answer example_task_types (fun _ => example_graph_view)
      example_engine
      (spawn_task_send example_graph_view (fun x : Nat => x) 65536 (example_engine 0) 4 0
        none 1000).2.2 with
      | Except.ok res => some res.2
      | Except.error _ => none)
      = some [⟨0, 1000, some 1⟩, ⟨0, 1000, some 1⟩, ⟨0, 1000, some 1⟩] := rfl
  rw [hans] at hval
  have hrs : rs = [⟨0, 1000, some 1⟩, ⟨0, 1000, some 1⟩, ⟨0, 1000, some 1⟩] :=
    Option.some.inj hval
  subst hrs
  obtain ⟨r, hr, _, _, h4, h5, h6, h7, h8, _⟩ := hspawn [some 1] [some 1, some 1]
    (List.Perm.refl _)
  have hfut : r.combiner.future_handle = some 4 := by
    have hev : spawn_task example_task_types example_graph_view (fun x : Nat => x) 65536
        (example_engine 0) 4 0 none 1000 [some 1] [some 1, some 1]
        = Except.ok r := hr
    have hcomb : (match spawn_task example_task_types example_graph_view (fun x : Nat => x)
        65536 (example_engine 0) 4 0 none 1000 [some 1] [some 1, some 1] with
        | Except.ok res => res.combiner.future_handle
        | Except.error _ => none) = some 4 := rfl
    rw [hev] at hcomb
    exact hcomb
  rw [hfut] at h8
  exact ⟨h1, ⟨states1, hans⟩, r, hr, h4, h5, h6, h7, h8⟩

/-- C10 as stated fails when the first reply value is an empty `any`: with
count-down 2 and the replies empty, 5, the first reply leaves the accumulator
empty, the second assigns it again, and `combine` is never called, not
`2 - 1` times. -/
theorem task_replies_empty_first_counterexample :
    task_replies example_task_types ⟨none, none, 2, 0⟩ [none, some 5]
        = Except.ok (⟨none, some 5, 0, 0⟩,
            [reply_event.assigned, reply_event.assigned, reply_event.signalled])
    ∧ [reply_event.assigned, reply_event.assigned, reply_event.signalled].count
        reply_event.combined ≠ 2 - 1 :=
  ⟨rfl, by decide⟩

/-- C10, at a concrete input: four replies of value 1 to a fresh future of the
summing task with count-down 4; the accumulator ends at 4 after one
assignment and three calls of `combine`. -/
theorem task_replies_fold_witness :
    task_replies example_task_types ⟨none, none, 4, 0⟩ [some 1, some 1, some 1, some 1]
      = Except.ok (⟨none, some 4, 0, 0⟩,
          [reply_event.assigned, reply_event.combined, reply_event.combined,
            reply_event.combined, reply_event.signalled]) :=
  task_replies_fold example_task_types sum_task none 0 (some 1) [some 1, some 1, some 1] rfl
    (by simp) (fun acc v h => sum_task_combine_ne_none acc v none h)

/-- The first value of a list combined with the others from left to right
does not depend on the order of the list, for an associative and commutative
operation. -/
theorem foldl_combine_perm {α : Type} (op : Option α → Option α → Option α)
    (hassoc : ∀ x y z, op (op x y) z = op x (op y z)) (hcomm : ∀ x y, op x y = op y x)
    {l1 l2 : List (Option α)} (hp : l1.Perm l2) :
    l1.tail.foldl op (l1.headD none) = l2.tail.foldl op (l2.headD none) := by
  have hr : ∀ x y z, op (op x y) z = op (op x z) y := by
    intro x y z
    rw [hassoc, hcomm y z, ← hassoc]
  induction hp with
  | nil => rfl
  | cons x h _ => exact List.Perm.foldl_eq' h (fun a _ b _ c => hr c a b) x
  | swap x y l => simp only [List.tail_cons, List.headD_cons, List.foldl_cons, hcomm y x]
  | trans _ _ ih1 ih2 => exact ih1.trans ih2

/-- The replies to a fresh future whose first value is not empty, under a
`combine` that keeps the accumulator non-empty: the accumulator ends as the
left fold of `combine` over the values. -/
theorem task_replies_fresh {δ α : Type} (tt : Nat → Option (task_descriptor δ α))
    (d : task_descriptor δ α) (param : Option α) (task_id : Nat)
    (v1 : Option α) (vs : List (Option α))
    (hd : tt task_id = some d) (hv1 : v1 ≠ none)
    (hcomb : ∀ acc v, acc ≠ none → d.combine acc v param ≠ none) :
    task_replies tt ⟨param, none, vs.length + 1, task_id⟩ (v1 :: vs)
      = Except.ok (⟨param, vs.foldl (fun a v => d.combine a v param) v1, 0, task_id⟩,
          reply_event.assigned :: List.replicate vs.length reply_event.combined
            ++ [reply_event.signalled]) := by
  have h1 := task_reply_ok tt d ⟨param, none, vs.length + 1, task_id⟩ v1 (by simp) hd
  simp only [Option.isSome_none, Bool.false_eq_true, if_false, Nat.add_sub_cancel] at h1
  rw [task_replies]
  simp only [h1, task_replies_combine tt d param task_id hd hcomb vs v1 hv1]
  by_cases hvs : vs.length = 0
  · have : vs = [] := List.length_eq_zero.1 hvs
    subst this
    simp
  · have hp : 0 < vs.length := by omega
    simp [hvs, hp]

/-- C11, amended: for a `combine` that is associative and commutative and
never leaves the accumulator empty, and three reply values `a`, `b`, `c` none
of which is an empty `any`, delivered to a fresh future with count-down 3, the
replies in any order leave the same future: the same combined value, the same
count-down, the same events. -/
theorem task_replies_permutation {δ α : Type} (tt : Nat → Option (task_descriptor δ α))
    (d : task_descriptor δ α) (param : Option α) (task_id : Nat) (a b c : Option α)
    (hd : tt task_id = some d)
    (ha : a ≠ none) (hb : b ≠ none) (hc : c ≠ none)
    (hcomb : ∀ acc v, acc ≠ none → d.combine acc v param ≠ none)
    (hassoc : ∀ x y z, d.combine (d.combine x y param) z param
      = d.combine x (d.combine y z param) param)
    (hcomm : ∀ x y, d.combine x y param = d.combine y x param)
    (l : List (Option α)) (hl : l.Perm [a, b, c]) :
    task_replies tt ⟨param, none, 3, task_id⟩ l
      = task_replies tt ⟨param, none, 3, task_id⟩ [a, b, c] := by
  have hlen : l.length = 3 := by rw [hl.length_eq]; rfl
  match l, hlen, hl with
  | [x, y, z], _, hl =>
    have hx : x ≠ none := by
      have : x ∈ [a, b, c] := hl.subset (by simp)
      simp only [List.mem_cons, List.mem_singleton, List.not_mem_nil, or_false] at this
      rcases this with h | h | h <;> rw [h] <;> assumption
    have h1 := task_replies_fresh tt d param task_id x [y, z] hd hx hcomb
    have h2 := task_replies_fresh tt d param task_id a [b, c] hd ha hcomb
    have hf := foldl_combine_perm (fun u v => d.combine u v param) hassoc hcomm hl
    simp only [List.tail_cons, List.headD_cons] at hf
    simp only [List.length_cons, List.length_nil] at h1 h2
    rw [h1, h2, hf]

theorem count_task_combine_ne_none (acc v param : Option Nat) :
    count_task.combine acc v param ≠ none := by
  simp [count_task]

/-- C11 as stated fails when a reply value is an empty `any`. The `combine` of
`count_task` is associative and commutative; with the replies empty, 5, 7 the
empty value is assigned and then overwritten by 5, and the future ends at 12;
with the replies 5, empty, 7 the empty value is combined, and the future ends
at 13. -/
theorem task_replies_permutation_counterexample :
    task_replies count_task_types ⟨none, none, 3, 0⟩ [none, some 5, some 7]
        = Except.ok (⟨none, some 12, 0, 0⟩,
            [reply_event.assigned, reply_event.assigned, reply_event.combined,
              reply_event.signalled])
    ∧ task_replies count_task_types ⟨none, none, 3, 0⟩ [some 5, none, some 7]
        = Except.ok (⟨none, some 13, 0, 0⟩,
            [reply_event.assigned, reply_event.combined, reply_event.combined,
              reply_event.signalled])
    ∧ [some 5, none, some 7].Perm [none, some 5, some 7]
    ∧ (∀ x y z : Option Nat, count_task.combine (count_task.combine x y none) z none
        = count_task.combine x (count_task.combine y z none) none)
    ∧ (∀ x y : Option Nat, count_task.combine x y none = count_task.combine y x none) := by
  refine ⟨rfl, rfl, List.Perm.swap _ _ _, ?_, ?_⟩
  · intro x y z
    simp only [count_task, Option.getD_some]
    rw [Nat.add_assoc]
  · intro x y
    simp only [count_task]
    rw [Nat.add_comm]

/-- C11, at a concrete input: the replies 7, 5, 6 and 5, 6, 7 to a fresh
future of the counting task. -/
theorem task_replies_permutation_witness :
    task_replies count_task_types ⟨none, none, 3, 0⟩ [some 7, some 5, some 6]
      = task_replies count_task_types ⟨none, none, 3, 0⟩ [some 5, some 6, some 7] :=
  task_replies_permutation count_task_types count_task none 0 (some 5) (some 6) (some 7) rfl
    (by simp) (by simp) (by simp) (fun acc v _ => count_task_combine_ne_none acc v none)
    (by intro x y z; simp only [count_task, Option.getD_some]; rw [Nat.add_assoc])
    (by intro x y; simp only [count_task]; rw [Nat.add_comm])
    [some 7, some 5, some 6]
    ((List.Perm.swap _ _ _).trans (List.Perm.cons _ (List.Perm.swap _ _ _)))

/-- The function `exec_subtasks` changes neither the vertex data nor the
cached hashes. -/
theorem exec_subtasks_frame {δ α : Type} (tt : Nat → Option (task_descriptor δ α))
    (st st1 : engine_state δ α) (worker : Nat) (got_lock : Bool)
    (replies : List (task_reply_call α))
    (h : exec_subtasks tt st worker got_lock = Except.ok (st1, replies)) :
    st1.vdata = st.vdata ∧ st1.vdata_hash = st.vdata_hash ∧ st1.procid = st.procid := by
  unfold exec_subtasks at h
  cases got_lock with
  | false =>
    simp only [Bool.false_eq_true, if_false] at h
    have := congrArg Prod.fst (Except.ok.inj h)
    subst this
    exact ⟨rfl, rfl, rfl⟩
  | true =>
    simp only [if_true] at h
    cases hl : exec_task_list tt st.vdata (st.local_tasks worker) with
    | error e => simp [hl] at h
    | ok rs =>
      simp only [hl] at h
      have := congrArg Prod.fst (Except.ok.inj h)
      subst this
      exact ⟨rfl, rfl, rfl⟩

/-- C14: when `get_next` returns a pair `(lvid, msg)` whose vertex is not
locally mastered, the pass through the loop of `vthread_start` sends, after
the replies of `exec_subtasks`, exactly one `rpc_signal` with the global id of
the vertex and the message to the owner, and the loop goes on; the update
function is not called, `num_updates` keeps its value, and the vertex data,
the cached hashes and the spin mutexes are unchanged. -/
theorem vthread_iteration_forwards {δ α σ μ : Type}
    (tt : Nat → Option (task_descriptor δ α)) (gv : graph_view) (own : ownership)
    (hash : δ → Nat) (pmod : Nat) (sched : ischeduler σ μ)
    (active_function : δ → μ → program δ α) (env : spawn_env α) (worker cpu : Nat)
    (got_lock : Bool) (s : vthread_state δ α σ) (eng1 : engine_state δ α)
    (replies : List (task_reply_call α)) (lvid : Nat) (msg : μ)
    (hsub : exec_subtasks tt s.engine worker got_lock = Except.ok (eng1, replies))
    (hnext : (sched.get_next s.scheduler cpu).1 = some (lvid, msg))
    (hmaster : own.l_is_master lvid = false) :
    ∃ res, vthread_iteration tt gv own hash pmod sched active_function env worker cpu got_lock s
        = Except.ok res
      ∧ res.outcome = iteration_outcome.next
      ∧ res.updates = []
      ∧ res.rpcs = replies.map engine_rpc.task_reply_rpc
          ++ [engine_rpc.rpc_signal (own.owner lvid) (gv.global_id lvid) msg]
      ∧ res.rpcs.filter engine_rpc.is_rpc_signal
          = [engine_rpc.rpc_signal (own.owner lvid) (gv.global_id lvid) msg]
      ∧ num_updates res.state = num_updates s
      ∧ res.state.engine.vdata = s.engine.vdata
      ∧ res.state.engine.vdata_hash = s.engine.vdata_hash
      ∧ res.state.vlocks = s.vlocks := by
  obtain ⟨hv, hh, _⟩ := exec_subtasks_frame tt s.engine eng1 worker got_lock replies hsub
  refine ⟨⟨{ s with engine := eng1, scheduler := (sched.get_next s.scheduler cpu).2 },
      replies.map engine_rpc.task_reply_rpc
        ++ [engine_rpc.rpc_signal (own.owner lvid) (gv.global_id lvid) msg], [],
      iteration_outcome.next⟩, ?_, rfl, rfl, rfl, ?_, rfl, hv, hh, rfl⟩
  · unfold vthread_iteration
    simp only [hsub, hnext, hmaster, if_true]
  · simp only [List.filter_append, List.filter_map]
    have : List.filter (engine_rpc.is_rpc_signal ∘ (engine_rpc.task_reply_rpc : _ → engine_rpc δ α μ))
        replies = [] := by
      apply List.filter_eq_nil_iff.2
      intro a _
      simp [engine_rpc.is_rpc_signal]
    rw [this]
    simp [engine_rpc.is_rpc_signal]

/-- C14, at a concrete input: the scheduler hands out the vertex 9, which
belongs to machine 2, with the message 7; the pass sends the one `rpc_signal`
to machine 2 and calls no update function. -/
theorem vthread_iteration_forwards_witness :
    ∃ res, vthread_iteration example_task_types example_graph_view example_ownership
          (fun x : Nat => x) 65536 (fifo_scheduler Nat) store_message (example_fiber.envs 0)
          0 0 true (example_machine 0 [(9, 7)]) = Except.ok res
      ∧ res.updates = []
      ∧ res.rpcs.filter engine_rpc.is_rpc_signal = [engine_rpc.rpc_signal 2 9 7]
      ∧ num_updates res.state = 0 := by
  obtain ⟨res, h1, _, h3, _, h5, h6, _⟩ := vthread_iteration_forwards example_task_types
    example_graph_view example_ownership (fun x : Nat => x) 65536 (fifo_scheduler Nat)
    store_message (example_fiber.envs 0) 0 0 true (example_machine 0 [(9, 7)])
    { example_engine 0 with local_tasks := fun i => if i = 0 then [] else [] } [] 9 7
    rfl rfl rfl
  exact ⟨res, h1, h3, h5, h6⟩

/-- Delivery of a list of calls that is the concatenation of two lists. -/
theorem deliver_all_append {δ α μ : Type} (gq : graph_view) (q : Nat) (sq : engine_state δ α)
    (l1 l2 : List (engine_rpc δ α μ)) :
    deliver_all gq q sq (l1 ++ l2) = deliver_all gq q (deliver_all gq q sq l1) l2 := by
  simp [deliver_all, List.foldl_append]

/-- The replies of `exec_subtasks` do not change a mirror. -/
theorem deliver_all_replies {δ α μ : Type} (gq : graph_view) (q : Nat) (sq : engine_state δ α)
    (replies : List (task_reply_call α)) :
    deliver_all gq q sq (replies.map (engine_rpc.task_reply_rpc : _ → engine_rpc δ α μ))
      = sq := by
  induction replies with
  | nil => rfl
  | cons r rs ih =>
    simpa [deliver_all, deliver_to_mirror] using ih

/-- The calls of `rpc_receive_task` of one spawn, delivered on the mirror `q`:
the copy of the vertex on `q` is the data sent when data was sent and `q` is
among the destinations, and is unchanged otherwise. -/
theorem deliver_all_receive_task {δ α μ : Type} (gq : graph_view) (q : Nat)
    (c : receive_task_call δ α) (ms : List Nat) :
    ∀ sq : engine_state δ α,
      (deliver_all gq q sq
          (ms.map (fun m => (engine_rpc.rpc_receive_task m c : engine_rpc δ α μ)))).vdata
          (gq.local_vid c.vid)
        = (match c.vdata with
            | some d => if q ∈ ms then d else sq.vdata (gq.local_vid c.vid)
            | none => sq.vdata (gq.local_vid c.vid)) := by
  induction ms with
  | nil =>
    intro sq
    cases c.vdata <;> simp [deliver_all]
  | cons m ms ih =>
    intro sq
    have hstep : deliver_all gq q sq
        ((m :: ms).map (fun m => (engine_rpc.rpc_receive_task m c : engine_rpc δ α μ)))
        = deliver_all gq q (if m = q then rpc_receive_task gq sq c else sq)
            (ms.map (fun m => (engine_rpc.rpc_receive_task m c : engine_rpc δ α μ))) := by
      simp [deliver_all, deliver_to_mirror]
    rw [hstep, ih]
    cases hv : c.vdata with
    | none =>
      by_cases hmq : m = q
      · simp [hmq, rpc_receive_task, hv]
      · simp [hmq]
    | some d =>
      by_cases hmq : m = q
      · subst hmq
        by_cases hin : m ∈ ms
        · simp [hin]
        · simp [hin, rpc_receive_task, hv]
      · have : (q = m) = False := by
          apply propext
          constructor
          · intro h; exact hmq h.symm
          · intro h; exact h.elim
        simp [hmq, this]

/-- The calls of `sync_vdata` of one broadcast, delivered on a mirror `q` that
is among the destinations: the copy of the vertex on `q` is the data sent. -/
theorem deliver_all_sync_vdata {δ α μ : Type} (gq : graph_view) (q gvid : Nat) (d : δ)
    (ms : List Nat) :
    ∀ sq : engine_state δ α, q ∈ ms →
      (deliver_all gq q sq
          (ms.map (fun m => (engine_rpc.sync_vdata m gvid d : engine_rpc δ α μ)))).vdata
          (gq.local_vid gvid) = d := by
  induction ms with
  | nil => intro sq h; simp at h
  | cons m ms ih =>
    intro sq hq
    have hstep : deliver_all gq q sq
        ((m :: ms).map (fun m => (engine_rpc.sync_vdata m gvid d : engine_rpc δ α μ)))
        = deliver_all gq q (if m = q then sync_vdata gq sq gvid d else sq)
            (ms.map (fun m => (engine_rpc.sync_vdata m gvid d : engine_rpc δ α μ))) := by
      simp [deliver_all, deliver_to_mirror]
    rw [hstep]
    by_cases hin : q ∈ ms
    · exact ih _ hin
    · have hmq : m = q := by
        rcases List.mem_cons.1 hq with h | h
        · exact h.symm
        · exact (hin h).elim
      subst hmq
      simp only [if_true]
      clear ih hq hstep
      induction ms generalizing sq with
      | nil => simp [deliver_all, sync_vdata, set_vdata]
      | cons a ms ih2 =>
        have ha : a ≠ m := fun h => hin (by simp [h])
        have hin2 : m ∉ ms := fun h => hin (by simp [h])
        have := ih2 sq hin2
        simpa [deliver_all, deliver_to_mirror, ha] using this

/-- The state and the calls that `spawn_task` leaves are those of its first
part. -/
theorem spawn_task_state {δ α : Type} (tt : Nat → Option (task_descriptor δ α))
    (gv : graph_view) (hash : δ → Nat) (pmod : Nat) (st : engine_state δ α)
    (lvid task_id : Nat) (task_param : Option α) (handle : Nat)
    (early late : List (Option α)) (r : spawn_result δ α)
    (h : spawn_task tt gv hash pmod st lvid task_id task_param handle early late
      = Except.ok r) :
    r.state = (spawn_task_send gv hash pmod st lvid task_id task_param handle).2.1
    ∧ r.calls = (spawn_task_send gv hash pmod st lvid task_id task_param handle).2.2 := by
  unfold spawn_task at h
  simp only at h
  cases h1 : task_replies tt
      (spawn_task_send gv hash pmod st lvid task_id task_param handle).1 early with
  | error e => simp [h1] at h
  | ok p1 =>
    obtain ⟨c1, e1⟩ := p1
    simp only [h1] at h
    cases h2 : spawn_task_local tt gv
        (spawn_task_send gv hash pmod st lvid task_id task_param handle).2.1 lvid task_id
        task_param c1 with
    | error e => simp [h2] at h
    | ok p2 =>
      obtain ⟨c2, e2⟩ := p2
      simp only [h2] at h
      cases h3 : task_replies tt c2 late with
      | error e => simp [h3] at h
      | ok p3 =>
        obtain ⟨c3, e3⟩ := p3
        simp only [h3] at h
        have := Except.ok.inj h
        subst this
        exact ⟨rfl, rfl⟩

/-- The first part of `spawn_task` keeps a mirror `q` of the vertex in step
with the cached hash: when the hash of the copy on `q` was the cached hash
before, then after the calls of `rpc_receive_task` have been delivered the hash
of the copy on `q` is the cached hash again, which now is the hash of the data
on the master; the data on the master is not changed. -/
theorem spawn_task_send_sync {δ α μ : Type} (gv gq : graph_view) (hash : δ → Nat)
    (pmod : Nat) (st sq : engine_state δ α) (lvid task_id : Nat) (task_param : Option α)
    (handle q : Nat) (hq : q ∈ gv.mirrors lvid)
    (hpre : hash (sq.vdata (gq.local_vid (gv.global_id lvid))) = st.vdata_hash lvid) :
    hash ((deliver_all gq q sq
        ((spawn_task_send gv hash pmod st lvid task_id task_param handle).2.2.map
          (fun qc => (engine_rpc.rpc_receive_task qc.1 qc.2 : engine_rpc δ α μ)))).vdata
        (gq.local_vid (gv.global_id lvid)))
      = (spawn_task_send gv hash pmod st lvid task_id task_param handle).2.1.vdata_hash lvid
    ∧ (spawn_task_send gv hash pmod st lvid task_id task_param handle).2.1.vdata = st.vdata
    := by
  by_cases hch : hash (st.vdata lvid) = st.vdata_hash lvid
  · have hcalls : (spawn_task_send gv hash pmod st lvid task_id task_param handle).2.2.map
          (fun qc => (engine_rpc.rpc_receive_task qc.1 qc.2 : engine_rpc δ α μ))
        = (gv.mirrors lvid).map (fun m => (engine_rpc.rpc_receive_task m
            ⟨task_id, gv.global_id lvid, none, task_param, st.procid, handle⟩
            : engine_rpc δ α μ)) := by
      simp [spawn_task_send, hch, Function.comp_def]
    have hst : (spawn_task_send gv hash pmod st lvid task_id task_param handle).2.1 = st := by
      simp [spawn_task_send, hch]
    rw [hcalls, hst]
    have := @deliver_all_receive_task δ α μ gq q
      ⟨task_id, gv.global_id lvid, none, task_param, st.procid, handle⟩ (gv.mirrors lvid) sq
    simp only at this
    rw [this]
    exact ⟨hpre, rfl⟩
  · have hcalls : (spawn_task_send gv hash pmod st lvid task_id task_param handle).2.2.map
          (fun qc => (engine_rpc.rpc_receive_task qc.1 qc.2 : engine_rpc δ α μ))
        = (gv.mirrors lvid).map (fun m => (engine_rpc.rpc_receive_task m
            ⟨task_id, gv.global_id lvid, some (st.vdata lvid), task_param, st.procid, handle⟩
            : engine_rpc δ α μ)) := by
      simp [spawn_task_send, hch, Function.comp_def]
    have hst : (spawn_task_send gv hash pmod st lvid task_id task_param handle).2.1
        = { st with vdata_hash := fun i => if i = lvid then hash (st.vdata lvid)
              else st.vdata_hash i } := by
      simp [spawn_task_send, hch]
    rw [hcalls, hst]
    have := @deliver_all_receive_task δ α μ gq q
      ⟨task_id, gv.global_id lvid, some (st.vdata lvid), task_param, st.procid, handle⟩
      (gv.mirrors lvid) sq
    simp only [hq, if_true] at this
    rw [this]
    simp

/-- A program run keeps a mirror `q` of its vertex in step with the cached
hash: when the hash of the copy on `q` was the cached hash before, it is so
again after the calls of `rpc_receive_task` that the program sent have been
delivered, whether the program finished or stays in a spawn. -/
theorem run_program_sync {δ α μ : Type} (tt : Nat → Option (task_descriptor δ α))
    (gv gq : graph_view) (hash : δ → Nat) (pmod : Nat) (env : spawn_env α) (lvid q : Nat)
    (hq : q ∈ gv.mirrors lvid) (p : program δ α) :
    ∀ (k : Nat) (st sq : engine_state δ α) (r : program_result δ α),
      hash (sq.vdata (gq.local_vid (gv.global_id lvid))) = st.vdata_hash lvid →
      run_program tt gv hash pmod env lvid p k st = Except.ok r →
      hash ((deliver_all gq q sq
          (r.calls.map
            (fun qc => (engine_rpc.rpc_receive_task qc.1 qc.2 : engine_rpc δ α μ)))).vdata
          (gq.local_vid (gv.global_id lvid)))
        = r.state.vdata_hash lvid := by
  induction p with
  | done =>
    intro k st sq r hpre hr
    simp only [run_program] at hr
    have := Except.ok.inj hr
    subst this
    simpa [deliver_all] using hpre
  | write d next ih =>
    intro k st sq r hpre hr
    simp only [run_program] at hr
    exact ih k { st with vdata := set_vdata st.vdata lvid d } sq r hpre hr
  | spawn task_id param next ih =>
    intro k st sq r hpre hr
    simp only [run_program] at hr
    cases hs : spawn_task tt gv hash pmod st lvid task_id param (env.handle k) (env.early k)
        (env.late k) with
    | error e => simp [hs] at hr
    | ok sr =>
      simp only [hs] at hr
      obtain ⟨hstate, hcalls⟩ := spawn_task_state tt gv hash pmod st lvid task_id param
        (env.handle k) (env.early k) (env.late k) sr hs
      have hsync := (@spawn_task_send_sync δ α μ gv gq hash pmod st sq lvid task_id param
        (env.handle k) q hq hpre).1
      rw [← hstate, ← hcalls] at hsync
      cases ho : sr.outcome with
      | waiting =>
        simp only [ho] at hr
        have := Except.ok.inj hr
        subst this
        exact hsync
      | returned v =>
        simp only [ho] at hr
        cases h2 : run_program tt gv hash pmod env lvid (next v) (k + 1) sr.state with
        | error e => simp [h2] at hr
        | ok r2 =>
          simp only [h2] at hr
          have := Except.ok.inj hr
          subst this
          simp only [List.map_append, deliver_all_append]
          exact ih v (k + 1) sr.state _ r2 hsync h2

/-- C13, amended: let a pass through the loop of `vthread_start` take the
locally mastered vertex `lvid` from the scheduler and run its program to
completion, and let `q` be a mirror of the vertex whose copy had, before the
pass, the hash that the master has cached. After all remote calls of the pass
have been delivered on `q` in order, the copy on `q` has the same hash as the
copy on the master, that hash is the cached one, and the two copies are equal
when the hash function is injective. -/
theorem vthread_iteration_mirror_sync {δ α σ μ : Type}
    (tt : Nat → Option (task_descriptor δ α)) (gv gq : graph_view) (own : ownership)
    (hash : δ → Nat) (pmod : Nat) (sched : ischeduler σ μ)
    (active_function : δ → μ → program δ α) (env : spawn_env α) (worker cpu : Nat)
    (got_lock : Bool) (s : vthread_state δ α σ) (res : iteration_result δ α σ μ)
    (lvid : Nat) (msg : μ) (q : Nat) (sq : engine_state δ α)
    (hrun : vthread_iteration tt gv own hash pmod sched active_function env worker cpu
      got_lock s = Except.ok res)
    (hnext : (sched.get_next s.scheduler cpu).1 = some (lvid, msg))
    (hmaster : own.l_is_master lvid = true)
    (hdone : res.outcome = iteration_outcome.next)
    (hq : q ∈ gv.mirrors lvid)
    (hpre : hash (sq.vdata (gq.local_vid (gv.global_id lvid))) = s.engine.vdata_hash lvid) :
    hash ((deliver_all gq q sq res.rpcs).vdata (gq.local_vid (gv.global_id lvid)))
        = hash (res.state.engine.vdata lvid)
    ∧ res.state.engine.vdata_hash lvid = hash (res.state.engine.vdata lvid)
    ∧ (Function.Injective hash →
        (deliver_all gq q sq res.rpcs).vdata (gq.local_vid (gv.global_id lvid))
          = res.state.engine.vdata lvid) := by
  have key : hash ((deliver_all gq q sq res.rpcs).vdata (gq.local_vid (gv.global_id lvid)))
        = hash (res.state.engine.vdata lvid)
      ∧ res.state.engine.vdata_hash lvid = hash (res.state.engine.vdata lvid) := by
    unfold vthread_iteration at hrun
    cases hsub : exec_subtasks tt s.engine worker got_lock with
    | error e => simp [hsub] at hrun
    | ok p1 =>
      obtain ⟨eng1, replies⟩ := p1
      obtain ⟨_, hh, _⟩ := exec_subtasks_frame tt s.engine eng1 worker got_lock replies hsub
      simp only [hsub, hnext, hmaster, Bool.true_eq_false, if_false] at hrun
      by_cases hlock : s.vlocks lvid = true
      · simp only [hlock, if_true] at hrun
        have := Except.ok.inj hrun
        subst this
        simp at hdone
      · simp only [hlock, if_false] at hrun
        cases hp : run_program tt gv hash pmod env lvid (active_function (eng1.vdata lvid) msg)
            0 eng1 with
        | error e => simp [hp] at hrun
        | ok r =>
          simp only [hp] at hrun
          have hinv := @run_program_sync δ α μ tt gv gq hash pmod env lvid q hq
            (active_function (eng1.vdata lvid) msg) 0 eng1 sq r (by rw [hh]; exact hpre) hp
          by_cases hfin : r.finished = false
          · simp only [hfin, if_true] at hrun
            have := Except.ok.inj hrun
            subst this
            simp at hdone
          · simp only [hfin, if_false] at hrun
            have := Except.ok.inj hrun
            subst this
            simp only [deliver_all_append, deliver_all_replies]
            by_cases hch : hash (r.state.vdata lvid) = r.state.vdata_hash lvid
            · have hb : decide (hash (r.state.vdata lvid) ≠ r.state.vdata_hash lvid) = false := by
                simp [hch]
              simp only [hb, Bool.false_eq_true, if_false, List.map_nil]
              refine ⟨?_, hch.symm⟩
              rw [hch, ← hinv]
              rfl
            · have hb : decide (hash (r.state.vdata lvid) ≠ r.state.vdata_hash lvid) = true := by
                simp [hch]
              simp only [hb, if_true]
              rw [deliver_all_sync_vdata gq q (gv.global_id lvid) (r.state.vdata lvid)
                (gv.mirrors lvid) _ hq]
              exact ⟨rfl, by simp⟩
  exact ⟨key.1, key.2, fun hinj => hinj key.1⟩

/-- C13 as stated fails when the hash of the new data collides with the cached
hash. The vertex 4 holds the data 0 on the master and on its mirror, machine
1, and the cached hash is the hash of 0, the low machine word. The program
stores `2 ^ 64`, whose low word is 0 as well: the pass completes the program,
sends no remote call, and the mirror keeps 0 while the master holds
`2 ^ 64`. -/
theorem vthread_iteration_hash_collision_counterexample :
    ∃ res, vthread_iteration example_task_types example_graph_view example_ownership
          word_hash 65536 (fifo_scheduler Nat) store_message (example_fiber.envs 0) 0 0 true
          (example_machine 0 [(4, 18446744073709551616)]) = Except.ok res
      ∧ res.outcome = iteration_outcome.next
      ∧ res.updates = [(4, 18446744073709551616)]
      ∧ 1 ∈ example_graph_view.mirrors 4
      ∧ (example_engine 1).vdata (example_graph_view.local_vid (example_graph_view.global_id 4))
          = (example_machine 0 [(4, 18446744073709551616)]).engine.vdata 4
      ∧ (example_machine 0 [(4, 18446744073709551616)]).engine.vdata_hash 4
          = word_hash ((example_machine 0 [(4, 18446744073709551616)]).engine.vdata 4)
      ∧ res.rpcs.length = 0
      ∧ res.state.engine.vdata 4 = 18446744073709551616
      ∧ (deliver_all example_graph_view 1 (example_engine 1) res.rpcs).vdata
          (example_graph_view.local_vid (example_graph_view.global_id 4)) = 0
      ∧ (deliver_all example_graph_view 1 (example_engine 1) res.rpcs).vdata
          (example_graph_view.local_vid (example_graph_view.global_id 4))
          ≠ res.state.engine.vdata 4 :=
  ⟨_, rfl, rfl, rfl, by decide, rfl, rfl, rfl, rfl, rfl, by decide⟩

/-- C13, at a concrete input, with the identity as hash: the program stores 7
on the vertex 4, whose mirror on machine 1 held 0 like the master; after the
remote calls of the pass the mirror holds 7. -/
theorem vthread_iteration_mirror_sync_witness :
    ∃ res, vthread_iteration example_task_types example_graph_view example_ownership
          (fun x : Nat => x) 65536 (fifo_scheduler Nat) store_message (example_fiber.envs 0)
          0 0 true (example_machine 0 [(4, 7)]) = Except.ok res
      ∧ (deliver_all example_graph_view 1 (example_engine 1) res.rpcs).vdata
          (example_graph_view.local_vid (example_graph_view.global_id 4))
          = res.state.engine.vdata 4
      ∧ res.state.engine.vdata 4 = 7 :=
  ⟨_, rfl,
    (vthread_iteration_mirror_sync example_task_types example_graph_view example_graph_view
      example_ownership (fun x : Nat => x) 65536 (fifo_scheduler Nat) store_message
      (example_fiber.envs 0) 0 0 true (example_machine 0 [(4, 7)]) _ 4 7 1 (example_engine 1)
      rfl rfl rfl rfl (by decide) rfl).2.2 (fun _ _ h => h),
    rfl⟩

/-- With empty queues `exec_subtasks` answers nothing and leaves the queues
empty. -/
theorem exec_subtasks_empty {δ α : Type} (tt : Nat → Option (task_descriptor δ α))
    (st : engine_state δ α) (worker : Nat) (got_lock : Bool)
    (hq : ∀ i, st.local_tasks i = []) :
    ∃ st1, exec_subtasks tt st worker got_lock = Except.ok (st1, [])
      ∧ ∀ i, st1.local_tasks i = [] := by
  cases got_lock with
  | false => exact ⟨st, by simp [exec_subtasks], hq⟩
  | true =>
    refine ⟨{ st with
        local_tasks := fun i => if i = worker then [] else st.local_tasks i
        tasks_completed := st.tasks_completed + (st.local_tasks worker).length }, ?_, ?_⟩
    · simp [exec_subtasks, hq worker, exec_task_list]
    · intro i
      by_cases h : i = worker
      · simp [h]
      · simp [h, hq i]

/-- On a quiescent machine whose scheduler, once empty, hands out nothing and
stays empty, a pass through the loop of `vthread_start` calls no update
function, sends nothing and leaves the loop, and the machine stays quiescent
with the same count of active fibers. -/
theorem vthread_iteration_quiescent {δ α σ μ : Type}
    (tt : Nat → Option (task_descriptor δ α)) (gv : graph_view) (own : ownership)
    (hash : δ → Nat) (pmod : Nat) (sched : ischeduler σ μ)
    (active_function : δ → μ → program δ α) (env : spawn_env α) (worker cpu : Nat)
    (got_lock : Bool) (s : vthread_state δ α σ)
    (hcontract : ∀ (x : σ) (c : Nat), sched.empty x = true →
      (sched.get_next x c).1 = none ∧ sched.empty (sched.get_next x c).2 = true)
    (hs : quiescent sched s) :
    ∃ res, vthread_iteration tt gv own hash pmod sched active_function env worker cpu got_lock s
        = Except.ok res
      ∧ res.outcome = iteration_outcome.left ∧ res.updates = [] ∧ res.rpcs = []
      ∧ quiescent sched res.state
      ∧ res.state.active_vthread_count = s.active_vthread_count := by
  obtain ⟨he, hq, hf, hp⟩ := hs
  obtain ⟨st1, hsub, hq1⟩ := exec_subtasks_empty tt s.engine worker got_lock hq
  obtain ⟨hnone, hempty⟩ := hcontract s.scheduler cpu he
  refine ⟨⟨{ s with engine := st1, scheduler := (sched.get_next s.scheduler cpu).2 }, [], [],
    iteration_outcome.left⟩, ?_, rfl, rfl, rfl, ⟨hempty, hq1, hf, hp⟩, rfl⟩
  unfold vthread_iteration
  simp only [hsub, hnone, List.map_nil]

/-- Whether a machine is quiescent does not depend on its count of active
program fibers. -/
theorem quiescent_set_count {δ α σ μ : Type} (sched : ischeduler σ μ)
    (s : vthread_state δ α σ) (c : Nat) (hs : quiescent sched s) :
    quiescent sched { s with active_vthread_count := c } := by
  obtain ⟨h1, h2, h3, h4⟩ := hs
  exact ⟨h1, h2, h3, h4⟩

/-- On a quiescent machine a program fiber with a positive bound returns
without a call of the update function, and takes one off the count of active
fibers. -/
theorem vthread_start_quiescent {δ α σ μ : Type}
    (tt : Nat → Option (task_descriptor δ α)) (gv : graph_view) (own : ownership)
    (hash : δ → Nat) (pmod : Nat) (sched : ischeduler σ μ)
    (active_function : δ → μ → program δ α) (f : fiber_params α) (s : vthread_state δ α σ)
    (hcontract : ∀ (x : σ) (c : Nat), sched.empty x = true →
      (sched.get_next x c).1 = none ∧ sched.empty (sched.get_next x c).2 = true)
    (hfuel : 0 < f.fuel) (hs : quiescent sched s) :
    ∃ r, vthread_start tt gv own hash pmod sched active_function f s = Except.ok r
      ∧ r.outcome = fiber_outcome.exited ∧ r.updates = [] ∧ r.rpcs = []
      ∧ quiescent sched r.state
      ∧ r.state.active_vthread_count = atomic_dec s.active_vthread_count := by
  obtain ⟨res, hit, hout, hup, hrp, hqs, hcnt⟩ := vthread_iteration_quiescent tt gv own hash pmod
    sched active_function (f.envs 0) f.worker f.cpu (f.got_lock 0) s hcontract hs
  obtain ⟨n, hn⟩ : ∃ n, f.fuel = n + 1 := ⟨f.fuel - 1, by omega⟩
  have hloop : vthread_loop tt gv own hash pmod sched active_function f f.fuel 0 s
      = Except.ok ⟨res.state, [], [], fiber_outcome.exited⟩ := by
    rw [hn]
    simp only [vthread_loop, hs.2.2.1, Bool.false_eq_true, if_false, hit, hout, hup, hrp]
  refine ⟨⟨{ res.state with
      active_vthread_count := atomic_dec res.state.active_vthread_count },
    [], [], fiber_outcome.exited⟩, ?_, rfl, rfl, rfl, ?_, ?_⟩
  · unfold vthread_start
    simp only [hloop]
  · exact quiescent_set_count sched res.state _ hqs
  · exact congrArg atomic_dec hcnt

/-- On a quiescent machine with no active program fiber a sub-task executor
with a positive bound returns after one pass. -/
theorem task_exec_start_quiescent {δ α σ μ : Type}
    (tt : Nat → Option (task_descriptor δ α)) (sched : ischeduler σ μ) (f : fiber_params α)
    (s : vthread_state δ α σ) (hfuel : 0 < f.fuel) (hs : quiescent sched s)
    (hcount : s.active_vthread_count = 0) :
    ∃ r : fiber_result δ α σ μ, task_exec_start tt f f.fuel 0 s = Except.ok r
      ∧ r.outcome = fiber_outcome.exited ∧ r.updates = [] ∧ r.rpcs = []
      ∧ quiescent sched r.state ∧ r.state.active_vthread_count = 0 := by
  obtain ⟨he, hq, hf, hp⟩ := hs
  obtain ⟨st1, hsub, hq1⟩ := exec_subtasks_empty tt s.engine f.worker (f.got_lock 0) hq
  obtain ⟨n, hn⟩ : ∃ n, f.fuel = n + 1 := ⟨f.fuel - 1, by omega⟩
  refine ⟨⟨{ s with engine := st1 }, [], [], fiber_outcome.exited⟩, ?_, rfl, rfl, rfl,
    ⟨he, hq1, hf, hp⟩, hcount⟩
  rw [hn]
  simp [task_exec_start, hsub, hcount]

/-- A group of fibers each of which returns without update and without remote
call, and takes the machine from stage `j + 1` of an invariant to stage `j`:
the group returns without update and without remote call, at stage 0. -/
theorem run_fibers_stages {δ α σ μ : Type}
    (run : fiber_params α → vthread_state δ α σ → Except engine_fault (fiber_result δ α σ μ))
    (P : Nat → vthread_state δ α σ → Prop) :
    ∀ (fs : List (fiber_params α)) (s : vthread_state δ α σ),
      (∀ f ∈ fs, ∀ (j : Nat) (s1 : vthread_state δ α σ), P (j + 1) s1 →
        ∃ r, run f s1 = Except.ok r ∧ r.outcome = fiber_outcome.exited ∧ r.updates = []
          ∧ r.rpcs = [] ∧ P j r.state) →
      P fs.length s →
      ∃ r, run_fibers run fs s = Except.ok r ∧ r.outcome = fiber_outcome.exited
        ∧ r.updates = [] ∧ r.rpcs = [] ∧ P 0 r.state := by
  intro fs
  induction fs with
  | nil =>
    intro s _ hP
    exact ⟨⟨s, [], [], fiber_outcome.exited⟩, rfl, rfl, rfl, rfl, hP⟩
  | cons f fs ih =>
    intro s hrun hP
    obtain ⟨r1, h1, ho1, hu1, hr1, hP1⟩ := hrun f (by simp) fs.length s hP
    obtain ⟨r2, h2, ho2, hu2, hr2, hP2⟩ := ih r1.state
      (fun g hg j s1 hj => hrun g (by simp [hg]) j s1 hj) hP1
    refine ⟨⟨r2.state, r1.rpcs ++ r2.rpcs, r1.updates ++ r2.updates, r2.outcome⟩, ?_, ho2,
      by simp [hu1, hu2], by simp [hr1, hr2], hP2⟩
    simp only [run_fibers, h1, ho1, h2]

/-- A decrement undoes an increment of an atomic counter. -/
theorem atomic_dec_inc (c : Nat) : atomic_dec (atomic_inc c) = c := by
  unfold atomic_dec atomic_inc size_mod
  by_cases h : c + 1 = 18446744073709551616
  · rw [if_pos h, if_pos rfl]
    omega
  · rw [if_neg h, if_neg (Nat.succ_ne_zero c)]
    rfl

/-- On a quiescent machine with no active program fiber, the fibers of one
round of `start` all return: the program fibers and then the sub-task
executors, without a call of the update function and without a remote call,
and the machine is quiescent with no active program fiber afterwards. -/
theorem start_round_quiescent {δ α σ μ : Type}
    (tt : Nat → Option (task_descriptor δ α)) (gv : graph_view) (own : ownership)
    (hash : δ → Nat) (pmod : Nat) (sched : ischeduler σ μ)
    (active_function : δ → μ → program δ α) (fibers : Nat → Nat → fiber_params α)
    (round num_to_spawn : Nat) (s : vthread_state δ α σ)
    (hcontract : ∀ (x : σ) (c : Nat), sched.empty x = true →
      (sched.get_next x c).1 = none ∧ sched.empty (sched.get_next x c).2 = true)
    (hfuel : ∀ i, 0 < (fibers round i).fuel)
    (hs : quiescent sched s) (hcount : s.active_vthread_count = 0) :
    ∃ r1 r2 : fiber_result δ α σ μ,
      run_fibers (vthread_start tt gv own hash pmod sched active_function)
          ((List.range num_to_spawn).map (fibers round))
          { s with
            active_vthread_count := Nat.iterate atomic_inc num_to_spawn s.active_vthread_count }
        = Except.ok r1
      ∧ r1.outcome = fiber_outcome.exited ∧ r1.updates = [] ∧ r1.rpcs = []
      ∧ run_fibers (fun f s1 => task_exec_start tt f f.fuel 0 s1)
          ((List.range s.engine.ncpus).map (fun i => fibers round (num_to_spawn + i))) r1.state
        = Except.ok r2
      ∧ r2.outcome = fiber_outcome.exited ∧ r2.updates = [] ∧ r2.rpcs = []
      ∧ quiescent sched r2.state ∧ r2.state.active_vthread_count = 0 := by
  obtain ⟨r1, h1, ho1, hu1, hr1, hq1, hc1⟩ := run_fibers_stages
    (vthread_start tt gv own hash pmod sched active_function)
    (fun j s1 => quiescent sched s1 ∧ s1.active_vthread_count = Nat.iterate atomic_inc j 0)
    ((List.range num_to_spawn).map (fibers round))
    { s with
      active_vthread_count := Nat.iterate atomic_inc num_to_spawn s.active_vthread_count }
    (by
      intro f hf j s1 hj
      obtain ⟨i, _, rfl⟩ := List.mem_map.1 hf
      obtain ⟨r, hr, ho, hu, hrp, hq, hc⟩ := vthread_start_quiescent tt gv own hash pmod sched
        active_function (fibers round i) s1 hcontract (hfuel i) hj.1
      refine ⟨r, hr, ho, hu, hrp, hq, ?_⟩
      rw [hc, hj.2, Function.iterate_succ_apply', atomic_dec_inc])
    (by
      refine ⟨quiescent_set_count sched s _ hs, ?_⟩
      simp only [List.length_map, List.length_range]
      rw [hcount])
  obtain ⟨r2, h2, ho2, hu2, hr2, hq2, hc2⟩ := run_fibers_stages
    (fun f s1 => task_exec_start tt f f.fuel 0 s1)
    (fun _ s1 => quiescent sched s1 ∧ s1.active_vthread_count = 0)
    ((List.range s.engine.ncpus).map (fun i => fibers round (num_to_spawn + i))) r1.state
    (by
      intro f hf j s1 hj
      obtain ⟨i, _, rfl⟩ := List.mem_map.1 hf
      obtain ⟨r, hr, ho, hu, hrp, hq, hc⟩ := task_exec_start_quiescent tt sched
        (fibers round (num_to_spawn + i)) s1 (hfuel _) hj.1 hj.2
      exact ⟨r, hr, ho, hu, hrp, hq, hc⟩)
    ⟨hq1, hc1⟩
  exact ⟨r1, r2, h1, ho1, hu1, hr1, h2, ho2, hu2, hr2, hq2, hc2⟩

/-- The rounds of `start` on a quiescent machine with no active program fiber,
from round `round` on, when the consensus first agrees in round `n`: the loop
is left in round `n` with `TASK_DEPLETION`, without a call of the update
function. -/
theorem start_rounds_quiescent {δ α σ μ : Type}
    (tt : Nat → Option (task_descriptor δ α)) (gv : graph_view) (own : ownership)
    (hash : δ → Nat) (pmod : Nat) (sched : ischeduler σ μ)
    (active_function : δ → μ → program δ α) (num_vthreads : Nat)
    (fibers : Nat → Nat → fiber_params α) (consensus : Nat → Bool) (n : Nat)
    (hcontract : ∀ (x : σ) (c : Nat), sched.empty x = true →
      (sched.get_next x c).1 = none ∧ sched.empty (sched.get_next x c).2 = true)
    (hfuel : ∀ k i, 0 < (fibers k i).fuel)
    (hcons : consensus n = true) :
    ∀ (fuel round num_to_spawn : Nat) (s : vthread_state δ α σ),
      quiescent sched s → s.active_vthread_count = 0 → round ≤ n → n < round + fuel →
      (∀ k, round ≤ k → k < n → consensus k = false) →
      ∃ r, start_rounds tt gv own hash pmod sched active_function num_vthreads fibers consensus
            fuel round num_to_spawn s = Except.ok r
        ∧ r.status = some execution_status.TASK_DEPLETION ∧ r.updates = [] ∧ r.rpcs = []
        ∧ r.rounds = n + 1 ∧ r.state.programs_completed = 0 ∧ r.state.finished = true := by
  intro fuel
  induction fuel with
  | zero =>
    intro round num_to_spawn s _ _ h1 h2 _
    omega
  | succ fuel ih =>
    intro round num_to_spawn s hs hcount hle hlt hbefore
    obtain ⟨r1, r2, h1, ho1, hu1, hr1, h2, ho2, hu2, hr2, hq2, hc2⟩ := start_round_quiescent tt gv
      own hash pmod sched active_function fibers round num_to_spawn s hcontract (hfuel round)
      hs hcount
    have hqe : taskqueues_empty r2.state.engine = true := by
      simp [taskqueues_empty, hq2.2.1]
    by_cases hrn : round = n
    · subst hrn
      refine ⟨⟨{ r2.state with finished := true }, r1.rpcs ++ r2.rpcs, r1.updates ++ r2.updates,
        round + 1, some execution_status.TASK_DEPLETION⟩, ?_, rfl, by simp [hu1, hu2],
        by simp [hr1, hr2], rfl, hq2.2.2.2, rfl⟩
      rw [start_rounds]
      simp only [h1, ho1, h2, ho2, hq2.1, hqe, hcons, Bool.and_self, and_self, if_true]
    · have hfalse : consensus round = false := hbefore round (Nat.le_refl _) (by omega)
      obtain ⟨r3, h3, hs3, hu3, hr3, hn3, hp3, hf3⟩ := ih (round + 1)
        (min num_vthreads (sched.approx_size r2.state.scheduler)) r2.state hq2 hc2 (by omega)
        (by omega) (fun k hk1 hk2 => hbefore k (by omega) hk2)
      refine ⟨⟨r3.state, r1.rpcs ++ r2.rpcs ++ r3.rpcs, r1.updates ++ r2.updates ++ r3.updates,
        r3.rounds, r3.status⟩, ?_, hs3, by simp [hu1, hu2, hu3], by simp [hr1, hr2, hr3], hn3,
        hp3, hf3⟩
      rw [start_rounds]
      simp only [h1, ho1, h2, ho2, hfalse, Bool.false_eq_true, and_false, if_false, h3]

/-- C15: `start` on an engine whose scheduler is empty once started and whose
sub-task queues are empty, with a scheduler that hands out nothing and stays
empty once it is empty: when the consensus first agrees in round `n` (rounds
counted from 0) and the bound of the embedding allows `n + 1` rounds, `start`
returns `TASK_DEPLETION` in that round, the update function is never called,
no remote call is sent, and `num_updates` is 0. -/
theorem start_empty_task_depletion {δ α σ μ : Type}
    (tt : Nat → Option (task_descriptor δ α)) (gv : graph_view) (own : ownership)
    (hash : δ → Nat) (pmod : Nat) (sched : ischeduler σ μ)
    (num_vthreads num_local_vertices : Nat)
    (fibers : Nat → Nat → fiber_params α) (consensus : Nat → Bool) (fuel : Nat)
    (uf : δ → μ → program δ α) (s : vthread_state δ α σ) (n : Nat)
    (hcontract : ∀ (x : σ) (c : Nat), sched.empty x = true →
      (sched.get_next x c).1 = none ∧ sched.empty (sched.get_next x c).2 = true)
    (hempty : sched.empty (sched.start s.scheduler) = true)
    (hqueues : ∀ i, s.engine.local_tasks i = [])
    (hfibers : ∀ k i, 0 < (fibers k i).fuel)
    (hcons : consensus n = true) (hbefore : ∀ k, k < n → consensus k = false)
    (hfuel : n < fuel) :
    ∃ r, start tt gv own hash pmod sched num_vthreads num_local_vertices fibers consensus fuel
          uf s = Except.ok r
      ∧ r.status = some execution_status.TASK_DEPLETION
      ∧ r.updates = []
      ∧ r.rpcs = []
      ∧ r.rounds = n + 1
      ∧ num_updates r.state = 0
      ∧ r.state.finished = true := by
  unfold start
  exact start_rounds_quiescent tt gv own hash pmod sched uf num_vthreads fibers consensus n
    hcontract hfibers hcons fuel 0 num_vthreads _ ⟨hempty, hqueues, rfl, rfl⟩ rfl (Nat.zero_le _)
    (by omega) (fun k _ hk => hbefore k hk)

/-- C15, at a concrete input: the example machine with an empty queue, three
program fibers and two sub-task executors per round, and a consensus that
agrees in the third round; `start` returns `TASK_DEPLETION` after three rounds
with no update. -/
theorem start_empty_task_depletion_witness :
    ∃ r, start example_task_types example_graph_view example_ownership (fun x : Nat => x) 65536
          (fifo_scheduler Nat) 3 10 (fun _ _ => example_fiber) (fun k => decide (2 ≤ k)) 5
          store_message (example_machine 0 []) = Except.ok r
      ∧ r.status = some execution_status.TASK_DEPLETION
      ∧ r.updates = []
      ∧ r.rounds = 3
      ∧ num_updates r.state = 0 := by
  obtain ⟨r, h1, h2, h3, _, h5, h6, _⟩ := start_empty_task_depletion example_task_types
    example_graph_view example_ownership (fun x : Nat => x) 65536 (fifo_scheduler Nat) 3 10
    (fun _ _ => example_fiber) (fun k => decide (2 ≤ k)) 5 store_message (example_machine 0 [])
    2
    (by
      intro x c hx
      cases x with
      | nil => exact ⟨rfl, rfl⟩
      | cons a l => simp [fifo_scheduler] at hx)
    rfl (fun _ => rfl) (fun _ _ => (by decide : 0 < example_fiber.fuel)) (by decide)
    (by intro k hk; simp; omega) (by decide)
  exact ⟨r, h1, h2, h3, h5, h6⟩

/-- The option loop with only the key `num_vthreads` ends without abort. -/
theorem read_engine_options_known (get_option : String → Option Nat) :
    ∀ (keys : List String) (nv : Nat), (∀ k ∈ keys, k = "num_vthreads") →
      read_engine_options get_option keys nv
        = Except.ok (if keys = [] then nv else (get_option "num_vthreads").getD nv) := by
  intro keys
  induction keys with
  | nil => intro nv _; rfl
  | cons k ks ih =>
    intro nv hk
    have hk1 : k = "num_vthreads" := hk k (by simp)
    rw [read_engine_options, if_pos hk1, ih _ (fun x hx => hk x (by simp [hx]))]
    by_cases hks : ks = []
    · simp [hks]
    · cases h : get_option "num_vthreads" <;> simp [hks, h]

/-- The option loop with a key other than `num_vthreads` aborts, and the
message names the first such key. -/
theorem read_engine_options_unknown (get_option : String → Option Nat) :
    ∀ (pre : List String) (opt : String) (post : List String) (nv : Nat),
      (∀ k ∈ pre, k = "num_vthreads") → opt ≠ "num_vthreads" →
      read_engine_options get_option (pre ++ opt :: post) nv
        = Except.error ("Unexpected Engine Option: " ++ opt) := by
  intro pre
  induction pre with
  | nil =>
    intro opt post nv _ hopt
    simp [read_engine_options, hopt, log_fatal]
  | cons k ks ih =>
    intro opt post nv hk hopt
    have hk1 : k = "num_vthreads" := hk k (by simp)
    rw [List.cons_append, read_engine_options, if_pos hk1]
    exact ih opt post _ (fun x hx => hk x (by simp [hx])) hopt

/-- C16: when the engine options contain a key other than `num_vthreads`, the
constructor aborts with the message `Unexpected Engine Option: ` followed by
the first such key; with only the key `num_vthreads`, or no key, the option
loop ends without abort, and with no key `num_vthreads` is 1000. -/
theorem gl3engine_options_unknown_key (keys : List String)
    (get_option : String → Option Nat) :
    ((∃ k ∈ keys, k ≠ "num_vthreads") →
      ∃ opt ∈ keys, opt ≠ "num_vthreads"
        ∧ gl3engine_options keys get_option
            = Except.error ("Unexpected Engine Option: " ++ opt))
    ∧ ((∀ k ∈ keys, k = "num_vthreads") →
      ∃ nv, gl3engine_options keys get_option = Except.ok nv)
    ∧ gl3engine_options [] get_option = Except.ok 1000 := by
  refine ⟨?_, ?_, rfl⟩
  · intro hbad
    have hsplit : ∀ ks : List String, (∃ k ∈ ks, k ≠ "num_vthreads") →
        ∃ pre opt post, ks = pre ++ opt :: post ∧ (∀ k ∈ pre, k = "num_vthreads")
          ∧ opt ≠ "num_vthreads" := by
      intro ks
      induction ks with
      | nil => intro h; obtain ⟨k, hk, _⟩ := h; simp at hk
      | cons a l ih =>
        intro h
        by_cases ha : a = "num_vthreads"
        · obtain ⟨k, hk, hne⟩ := h
          have hkl : k ∈ l := by
            rcases List.mem_cons.1 hk with h1 | h1
            · exact absurd (h1 ▸ ha) hne
            · exact h1
          obtain ⟨pre, opt, post, he, hp, ho⟩ := ih ⟨k, hkl, hne⟩
          refine ⟨a :: pre, opt, post, by simp [he], ?_, ho⟩
          intro x hx
          rcases List.mem_cons.1 hx with h1 | h1
          · rw [h1]; exact ha
          · exact hp x h1
        · exact ⟨[], a, l, rfl, by simp, ha⟩
    obtain ⟨pre, opt, post, he, hp, ho⟩ := hsplit keys hbad
    refine ⟨opt, by simp [he], ho, ?_⟩
    unfold gl3engine_options
    rw [he]
    exact read_engine_options_unknown get_option pre opt post 1000 hp ho
  · intro hall
    exact ⟨_, read_engine_options_known get_option keys 1000 hall⟩

/-- C16, at concrete inputs: the keys `num_vthreads`, `max_iterations` abort
with a message that names `max_iterations`; the key `num_vthreads` alone, with
the value 64, constructs an engine with 64 program fibers. -/
theorem gl3engine_options_unknown_key_witness :
    (∃ opt ∈ ["num_vthreads", "max_iterations"], opt ≠ "num_vthreads"
        ∧ gl3engine_options ["num_vthreads", "max_iterations"] (fun _ => some 64)
            = Except.error ("Unexpected Engine Option: " ++ opt))
    ∧ gl3engine_options ["num_vthreads", "max_iterations"] (fun _ => some 64)
        = Except.error "Unexpected Engine Option: max_iterations"
    ∧ (∃ nv, gl3engine_options ["num_vthreads"] (fun _ => some 64) = Except.ok nv)
    ∧ gl3engine_options ["num_vthreads"] (fun _ => some 64) = Except.ok 64 :=
  ⟨(gl3engine_options_unknown_key ["num_vthreads", "max_iterations"] (fun _ => some 64)).1
      ⟨"max_iterations", by simp, by decide⟩,
    by simp [gl3engine_options, read_engine_options, log_fatal],
    (gl3engine_options_unknown_key ["num_vthreads"] (fun _ => some 64)).2.1 (by simp),
    by simp [gl3engine_options, read_engine_options]⟩

/-- An entry of the table that no registration names is the entry of the
table before the registrations. -/
theorem foldl_register_other {δ α : Type} (id : Nat) :
    ∀ (regs : List (Nat × task_descriptor δ α)) (t : Nat → Option (task_descriptor δ α)),
      (∀ r ∈ regs, r.1 ≠ id) →
      regs.foldl (fun t r => register_map_reduce t r.1 r.2) t id = t id := by
  intro regs
  induction regs with
  | nil => intro t _; rfl
  | cons r rs ih =>
    intro t h
    rw [List.foldl_cons, ih _ (fun x hx => h x (by simp [hx]))]
    have : id ≠ r.1 := fun e => h r (by simp) e.symm
    simp [register_map_reduce, this]

/-- C17, what the code does at an id that was never registered. For an id
that is not `GL3_BROADCAST_TASK_ID` and that no call of `register_map_reduce`
names, no statement has assigned the entry of `task_types` when a sub-task is
dispatched, and `spawn_task` on the origin, `exec_subtasks` on a mirror and
the combining `task_reply` call through the entry with no test of it: none of
the three has a defined behaviour there, nothing is detected. -/
theorem unregistered_task_dispatch {δ α : Type} (broadcast_task_id : Nat)
    (broadcast : task_descriptor δ α) (regs : List (Nat × task_descriptor δ α)) (id : Nat)
    (gv : graph_view) (st : engine_state δ α) (lvid : Nat) (param : Option α)
    (c : future_combiner α) (cur : task α) (val : Option α)
    (hb : id ≠ broadcast_task_id) (hregs : ∀ r ∈ regs, r.1 ≠ id)
    (hcur : cur.task_id = id) (hc : c.task_id = id) (hcount : 0 < c.count_down)
    (hacc : c.future_handle.isSome = true) :
    registered_task_types broadcast_task_id broadcast regs id = none
    ∧ spawn_task_local (registered_task_types broadcast_task_id broadcast regs) gv st
        lvid id param c = Except.error (engine_fault.undefined_call id)
    ∧ exec_task_list (registered_task_types broadcast_task_id broadcast regs)
        st.vdata [cur] = Except.error (engine_fault.undefined_call id)
    ∧ task_reply (registered_task_types broadcast_task_id broadcast regs) c val
        = Except.error (engine_fault.undefined_call id) := by
  have hentry : registered_task_types broadcast_task_id broadcast regs id = none := by
    unfold registered_task_types
    rw [foldl_register_other id regs _ hregs]
    simp [initial_task_types, hb]
  refine ⟨hentry, ?_, ?_, ?_⟩
  · simp [spawn_task_local, hentry]
  · simp [exec_task_list, hcur, hentry]
  · simp [task_reply, hcount, hacc, hc, hentry]

/-- C17, at the failing input: the engine with the broadcast task under the id
255 and the summing task registered under the id 0; the sub-task 7 was never
registered, and its spawn on the origin, its execution on a mirror and the
combining reply each call through the entry 7, which was never assigned. The
registered sub-task 0 is dispatched to its descriptor. -/
theorem unregistered_task_dispatch_witness :
    registered_task_types 255 sum_task [(0, sum_task)] 7 = none
    ∧ spawn_task_local (registered_task_types 255 sum_task [(0, sum_task)])
        example_graph_view (example_engine 0) 4 7 none ⟨none, some 1, 1, 7⟩
      = Except.error (engine_fault.undefined_call 7)
    ∧ exec_task_list (registered_task_types 255 sum_task [(0, sum_task)])
        (example_engine 0).vdata [⟨4, none, 7, 0, 1000⟩]
      = Except.error (engine_fault.undefined_call 7)
    ∧ task_reply (registered_task_types 255 sum_task [(0, sum_task)])
        ⟨none, some 1, 1, 7⟩ (some 1)
      = Except.error (engine_fault.undefined_call 7)
    ∧ exec_task_list (registered_task_types 255 sum_task [(0, sum_task)])
        (example_engine 0).vdata [⟨4, none, 0, 0, 1000⟩]
      = Except.ok [⟨0, 1000, some 1⟩] :=
  ⟨(unregistered_task_dispatch 255 sum_task [(0, sum_task)] 7
      example_graph_view (example_engine 0) 4 none ⟨none, some 1, 1, 7⟩ ⟨4, none, 7, 0, 1000⟩
      (some 1) (by decide) (by simp) rfl rfl (by decide) rfl).1,
    (unregistered_task_dispatch 255 sum_task [(0, sum_task)] 7
      example_graph_view (example_engine 0) 4 none ⟨none, some 1, 1, 7⟩ ⟨4, none, 7, 0, 1000⟩
      (some 1) (by decide) (by simp) rfl rfl (by decide) rfl).2.1,
    (unregistered_task_dispatch 255 sum_task [(0, sum_task)] 7
      example_graph_view (example_engine 0) 4 none ⟨none, some 1, 1, 7⟩ ⟨4, none, 7, 0, 1000⟩
      (some 1) (by decide) (by simp) rfl rfl (by decide) rfl).2.2.1,
    (unregistered_task_dispatch 255 sum_task [(0, sum_task)] 7
      example_graph_view (example_engine 0) 4 none ⟨none, some 1, 1, 7⟩ ⟨4, none, 7, 0, 1000⟩
      (some 1) (by decide) (by simp) rfl rfl (by decide) rfl).2.2.2,
    rfl⟩

/-- The sum of the squares of a dense vector, written over its indices. -/
theorem sum_sqr_eq_sum_range {R : Type} [CommRing R] (c : List R) :
    sum_sqr c = ∑ i in Finset.range c.length, c.getD i 0 * c.getD i 0 := by
  induction c with
  | nil => simp [sum_sqr]
  | cons a c ih =>
    rw [List.length_cons, Finset.sum_range_succ']
    simp only [sum_sqr, List.map_cons, List.sum_cons, List.getD_cons_succ, List.getD_cons_zero]
         at ih ⊢
    rw [ih, add_comm]

/-- The loop of `calc_euclidian_distance` adds the terms of the stored
entries to the starting value. -/
theorem foldl_add_terms {R : Type} [CommRing R] (t : Nat × R → R) :
    ∀ (d : List (Nat × R)) (acc : R),
      d.foldl (fun dist nz => dist + t nz) acc = acc + (d.map t).sum := by
  intro d
  induction d with
  | nil => intro acc; simp
  | cons nz d ih =>
    intro acc
    rw [List.foldl_cons, ih, List.map_cons, List.sum_cons, add_assoc]

/-- An index that is not stored has the entry zero. -/
theorem sparse_get_not_stored {R : Type} [CommRing R] (p : Nat) :
    ∀ d : List (Nat × R), p ∉ d.map Prod.fst → sparse_get d p = 0 := by
  intro d
  induction d with
  | nil => intro _; rfl
  | cons nz d ih =>
    intro h
    have h1 : nz.1 ≠ p := fun e => h (by simp [e])
    have h2 : p ∉ d.map Prod.fst := fun e => h (by simp only [List.map_cons]; exact List.mem_cons_of_mem _ e)
    rw [sparse_get, if_neg h1, ih h2]

/-- C18, what the code computes: for a sparse data point with distinct stored
indices, all within the dimension of the dense cluster,
`calc_euclidian_distance` returns the sum over the indices of
`(d_i - c_i) ^ 2`, the square of the Euclidean norm of `d - c`; no square root
is taken. -/
theorem calc_euclidian_distance_sum_sq {R : Type} [CommRing R] (c : List R) :
    ∀ d : List (Nat × R), (d.map Prod.fst).Nodup → (∀ nz ∈ d, nz.1 < c.length) →
      calc_euclidian_distance d c
        = ∑ i in Finset.range c.length, (sparse_get d i - c.getD i 0) ^ 2 := by
  intro d hnd hr
  unfold calc_euclidian_distance
  rw [foldl_add_terms (fun nz : Nat × R =>
    (nz.2 - c.getD nz.1 0) * (nz.2 - c.getD nz.1 0) - c.getD nz.1 0 * c.getD nz.1 0),
    sum_sqr_eq_sum_range]
  induction d with
  | nil =>
    simp only [List.map_nil, List.sum_nil, add_zero, sparse_get]
    apply Finset.sum_congr rfl
    intro i _
    ring
  | cons nz d ih =>
    have hnd2 : (d.map Prod.fst).Nodup := (List.nodup_cons.1 hnd).2
    have hp : nz.1 ∉ d.map Prod.fst := (List.nodup_cons.1 hnd).1
    have hlt : nz.1 < c.length := hr nz (by simp)
    have hih := ih hnd2 (fun x hx => hr x (by simp [hx]))
    have hpoint : ∀ i ∈ Finset.range c.length,
        (sparse_get (nz :: d) i - c.getD i 0) ^ 2
          = (sparse_get d i - c.getD i 0) ^ 2
            + (if nz.1 = i then (nz.2 - c.getD nz.1 0) * (nz.2 - c.getD nz.1 0)
                - c.getD nz.1 0 * c.getD nz.1 0 else 0) := by
      intro i _
      by_cases hi : nz.1 = i
      · subst hi
        rw [sparse_get, if_pos rfl, if_pos rfl, sparse_get_not_stored _ d hp]
        ring
      · rw [sparse_get, if_neg hi, if_neg hi, add_zero]
    rw [Finset.sum_congr rfl hpoint, Finset.sum_add_distrib, Finset.sum_ite_eq,
      if_pos (Finset.mem_range.2 hlt), ← hih, List.map_cons, List.sum_cons]
    ring

/-- C18, at the failing input: the data point with the single stored entry 3
at index 0 and the cluster `(0)`, over the real numbers. The code returns 9,
the square of the distance, and the Euclidean norm of `d - c` is 3. -/
theorem calc_euclidian_distance_sum_sq_witness :
    calc_euclidian_distance ([(0, 3)] : List (Nat × ℝ)) [0] = 9
    ∧ Real.sqrt (∑ i in Finset.range 1,
        (sparse_get ([(0, 3)] : List (Nat × ℝ)) i - ([0] : List ℝ).getD i 0) ^ 2) = 3
    ∧ calc_euclidian_distance ([(0, 3)] : List (Nat × ℝ)) [0]
        ≠ Real.sqrt (∑ i in Finset.range 1,
            (sparse_get ([(0, 3)] : List (Nat × ℝ)) i - ([0] : List ℝ).getD i 0) ^ 2) := by
  have h := calc_euclidian_distance_sum_sq ([0] : List ℝ) [(0, 3)] (by simp) (by simp)
  have hsum : (∑ i in Finset.range 1,
      (sparse_get ([(0, 3)] : List (Nat × ℝ)) i - ([0] : List ℝ).getD i 0) ^ 2) = 9 := by
    simp [sparse_get]
    norm_num
  have hsq : Real.sqrt 9 = 3 := by
    rw [show (9 : ℝ) = 3 ^ 2 by norm_num]
    exact Real.sqrt_sq (by norm_num)
  simp only [List.length_singleton] at h
  rw [hsum] at h
  refine ⟨h, by rw [hsum]; exact hsq, ?_⟩
  rw [h, hsum, hsq]
  norm_num

/-- A string of length zero is the empty string. -/
theorem string_length_zero (s : String) : 0 = s.length ↔ s = "" := by
  constructor
  · intro h
    cases s with
    | mk data =>
      have : data.length = 0 := h.symm
      rw [List.length_eq_zero.1 this]
  · intro h
    rw [h]
    rfl

/-- The function `stof` gives the distance that the state string denotes. -/
theorem stof_eq_state_distance {R : Type} (m : double_model R) (s : String) :
    stof m s = state_distance m s := by
  unfold stof state_distance
  by_cases h : c_str s = ""
  · rw [if_pos ((string_length_zero _).2 h), if_pos h]
  · rw [if_neg (fun e => h ((string_length_zero _).1 e)), if_neg h]

/-- The loop over the incoming edges is the left fold of `std::min` over the
sums of source distance and edge weight. -/
theorem relax_in_edges_eq_foldl {R : Type} (m : double_model R) :
    ∀ (es : List in_edge) (d0 : R),
      relax_in_edges m es d0
        = es.foldl
            (fun d e =>
              if m.lt (m.add (state_distance m e.source_state) (m.atof (c_str e.state))) d
              then m.add (state_distance m e.source_state) (m.atof (c_str e.state)) else d)
            d0 := by
  intro es
  induction es with
  | nil => intro d0; rfl
  | cons e es ih =>
    intro d0
    rw [relax_in_edges, ih, List.foldl_cons]
    simp only [std_min, stof_eq_state_distance]

/-- The loop over the outgoing edges pushes the ids of the targets that pass
the test, in the order of the edges. -/
theorem schedule_out_edges_eq_filter {R : Type} (m : double_model R) (d : R) :
    ∀ es : List out_edge,
      schedule_out_edges m d es
        = (es.filter (fun e =>
            m.lt (m.add d (m.atof (c_str e.state))) (state_distance m e.target_state))).map
            out_edge.target_id := by
  intro es
  induction es with
  | nil => rfl
  | cons e es ih =>
    rw [schedule_out_edges]
    simp only [stof_eq_state_distance]
    by_cases h : m.lt (m.add d (m.atof (c_str e.state))) (state_distance m e.target_state)
        = true
    · simp only [h, if_true, ih, List.filter_cons, List.map_cons]
    · simp only [h, if_false, ih, List.filter_cons, Bool.false_eq_true]

/-- When the comparison is a strict total order, a left fold of `std::min` is
below the start and every candidate, and is one of them. -/
theorem foldl_std_min_spec {R E : Type} (lt : R → R → Bool) (cand : E → R)
    (hirr : ∀ a, lt a a = false)
    (htrans : ∀ a b c, lt a b = true → lt b c = true → lt a c = true)
    (htot : ∀ a b, lt a b = true ∨ a = b ∨ lt b a = true) :
    ∀ (es : List E) (d0 : R),
      lt d0 (es.foldl (fun d e => if lt (cand e) d then cand e else d) d0) = false
      ∧ (∀ e ∈ es,
          lt (cand e) (es.foldl (fun d e => if lt (cand e) d then cand e else d) d0) = false)
      ∧ (es.foldl (fun d e => if lt (cand e) d then cand e else d) d0 = d0
          ∨ ∃ e ∈ es, es.foldl (fun d e => if lt (cand e) d then cand e else d) d0 = cand e) := by
  have hle : ∀ a b c, lt b a = false → lt c b = false → lt c a = false := by
    intro a b c h1 h2
    cases h : lt c a with
    | false => rfl
    | true =>
      rcases htot b c with h3 | h3 | h3
      · rw [htrans b c a h3 h] at h1
        exact absurd h1 (by simp)
      · rw [h3, h] at h1
        exact absurd h1 (by simp)
      · rw [h3] at h2
        exact absurd h2 (by simp)
  intro es
  induction es with
  | nil => intro d0; exact ⟨hirr d0, fun e he => absurd he (List.not_mem_nil _), Or.inl rfl⟩
  | cons e es ih =>
    intro d0
    rw [List.foldl_cons]
    obtain ⟨h1, h2, h3⟩ := ih (if lt (cand e) d0 then cand e else d0)
    have hstep : lt d0 (if lt (cand e) d0 then cand e else d0) = false
        ∧ lt (cand e) (if lt (cand e) d0 then cand e else d0) = false := by
      by_cases hc : lt (cand e) d0 = true
      · rw [if_pos hc]
        refine ⟨?_, hirr _⟩
        cases h : lt d0 (cand e) with
        | false => rfl
        | true =>
          have := htrans _ _ _ h hc
          rw [hirr] at this
          exact absurd this (by simp)
      · rw [if_neg hc]
        refine ⟨hirr _, ?_⟩
        cases h : lt (cand e) d0 with
        | false => rfl
        | true => exact absurd h hc
    refine ⟨hle _ _ _ h1 hstep.1, ?_, ?_⟩
    · intro x hx
      rcases List.mem_cons.1 hx with e1 | e1
      · rw [e1]
        exact hle _ _ _ h1 hstep.2
      · exact h2 x e1
    · rcases h3 with h | ⟨x, hx, h⟩
      · by_cases hc : lt (cand e) d0 = true
        · right
          refine ⟨e, List.mem_cons_self _ _, ?_⟩
          rw [h, if_pos hc]
        · left
          rw [h, if_neg hc]
      · exact Or.inr ⟨x, List.mem_cons_of_mem _ hx, h⟩

/-- C19, what the code does. For every invocation, `shortest_path_update`
computes in `vertex_dist` the left fold of `std::min` over the distance of the
vertex and the sums `source distance + edge weight` of the incoming edges, an
empty state string denoting `1e+99`; when the comparison of the numbers is a
strict total order (no NaN) this is their minimum. It schedules, under the
updater `self`, exactly the targets of the outgoing edges, in their order,
whose distance is strictly greater than `vertex_dist + edge weight`. But the
member `vertex` of the answer is copied from the characters of a destroyed
temporary, and has no defined value. -/
theorem shortest_path_update_relaxes {R : Type} (m : double_model R) (inv : invocation) :
    (shortest_path_update m inv).vertex = none
    ∧ (shortest_path_update m inv).updater = "self"
    ∧ shortest_path_dist m inv
        = inv.in_edges.foldl
            (fun d e =>
              if m.lt (m.add (state_distance m e.source_state) (m.atof (c_str e.state))) d
              then m.add (state_distance m e.source_state) (m.atof (c_str e.state)) else d)
            (state_distance m inv.vertex_state)
    ∧ (shortest_path_update m inv).vertices
        = (inv.out_edges.filter (fun e =>
            m.lt (m.add (shortest_path_dist m inv) (m.atof (c_str e.state)))
              (state_distance m e.target_state))).map out_edge.target_id
    ∧ ((∀ a, m.lt a a = false) →
        (∀ a b c, m.lt a b = true → m.lt b c = true → m.lt a c = true) →
        (∀ a b, m.lt a b = true ∨ a = b ∨ m.lt b a = true) →
        m.lt (state_distance m inv.vertex_state) (shortest_path_dist m inv) = false
        ∧ (∀ e ∈ inv.in_edges,
            m.lt (m.add (state_distance m e.source_state) (m.atof (c_str e.state)))
              (shortest_path_dist m inv) = false)
        ∧ (shortest_path_dist m inv = state_distance m inv.vertex_state
            ∨ ∃ e ∈ inv.in_edges, shortest_path_dist m inv
                = m.add (state_distance m e.source_state) (m.atof (c_str e.state)))) := by
  have hdist : shortest_path_dist m inv
      = inv.in_edges.foldl
          (fun d e =>
            if m.lt (m.add (state_distance m e.source_state) (m.atof (c_str e.state))) d
            then m.add (state_distance m e.source_state) (m.atof (c_str e.state)) else d)
          (state_distance m inv.vertex_state) := by
    unfold shortest_path_dist
    rw [relax_in_edges_eq_foldl, stof_eq_state_distance]
  refine ⟨rfl, rfl, hdist, ?_, ?_⟩
  · show schedule_out_edges m (shortest_path_dist m inv) inv.out_edges = _
    rw [schedule_out_edges_eq_filter]
  · intro hirr htrans htot
    rw [hdist]
    exact foldl_std_min_spec m.lt
      (fun e : in_edge => m.add (state_distance m e.source_state) (m.atof (c_str e.state)))
      hirr htrans htot inv.in_edges (state_distance m inv.vertex_state)

/-- C19, at the failing input: the vertex with the state `0`, no incoming edge
and one outgoing edge of weight 1 to the vertex 1, whose state is empty. The
distance computed is 0 and the vertex 1 is scheduled, but the member `vertex`
of the answer has no defined value, where the distance 0 is expected. A state
that starts with a NUL is an empty C string. -/
theorem shortest_path_update_relaxes_witness :
    (shortest_path_update line_double ⟨"0", [], [⟨"1", 1, ""⟩]⟩).vertex = none
    ∧ shortest_path_dist line_double ⟨"0", [], [⟨"1", 1, ""⟩]⟩ = 0
    ∧ (shortest_path_update line_double ⟨"0", [], [⟨"1", 1, ""⟩]⟩).vertices = [1]
    ∧ (line_double.lt (state_distance line_double "0")
          (shortest_path_dist line_double ⟨"0", [], [⟨"1", 1, ""⟩]⟩) = false
        ∧ (∀ e ∈ ([] : List in_edge),
            line_double.lt
              (line_double.add (state_distance line_double e.source_state)
                (line_double.atof (c_str e.state)))
              (shortest_path_dist line_double ⟨"0", [], [⟨"1", 1, ""⟩]⟩) = false)
        ∧ (shortest_path_dist line_double ⟨"0", [], [⟨"1", 1, ""⟩]⟩
              = state_distance line_double "0"
            ∨ ∃ e ∈ ([] : List in_edge),
                shortest_path_dist line_double ⟨"0", [], [⟨"1", 1, ""⟩]⟩
                  = line_double.add (state_distance line_double e.source_state)
                      (line_double.atof (c_str e.state))))
    ∧ stof line_double (String.mk [Char.ofNat 0, '7']) = 10 ^ 99 :=
  ⟨(shortest_path_update_relaxes line_double ⟨"0", [], [⟨"1", 1, ""⟩]⟩).1,
    by decide, by decide,
    (shortest_path_update_relaxes line_double ⟨"0", [], [⟨"1", 1, ""⟩]⟩).2.2.2.2
      (by intro a; simp [line_double])
      (by intro a b c; simp only [line_double, decide_eq_true_eq]; omega)
      (by intro a b; simp only [line_double, decide_eq_true_eq]; omega),
    by decide⟩

/-- No run of the updater on the line graph leaves a defined state. -/
theorem line_step_undefined (st : line_state) (v : Nat) : line_step st v = none := rfl

/-- C20, what the code does on the line graph `0 -> 1 -> 2 -> 3` with weights
1, from the distances 0 and three times infinity with every vertex scheduled:
whichever scheduled vertex `v` is picked first, the member `vertex` of the
answer of `shortest_path_update`, which is to be the new state of `v`, has no
defined value, so that no run of one update or more has a defined state, and
the final distances 0, 1, 2, 3 are not reached. -/
theorem line_graph_shortest_paths (v : Nat) (rest : List Nat)
    (hv : v ∈ line_start.schedule) :
    (shortest_path_update line_double (line_invocation line_start.states v)).vertex = none
    ∧ line_step line_start v = none
    ∧ line_run line_start (v :: rest) = none := by
  refine ⟨rfl, rfl, ?_⟩
  simp only [line_run, hv, if_true, line_step_undefined]

/-- C20, at the failing input: the first update, on the vertex 0 with the
state `0` and the outgoing edge to the vertex 1. The distance computed is 0 and
the vertex 1 is to be scheduled, but the state returned for the vertex 0 is not
defined, and neither is the run in the order 0, 1, 2, 3. -/
theorem line_graph_shortest_paths_witness :
    ((shortest_path_update line_double (line_invocation line_start.states 0)).vertex = none
      ∧ line_step line_start 0 = none
      ∧ line_run line_start (0 :: [1, 2, 3]) = none)
    ∧ shortest_path_dist line_double (line_invocation line_start.states 0) = 0
    ∧ (shortest_path_update line_double (line_invocation line_start.states 0)).vertices = [1] :=
  ⟨line_graph_shortest_paths 0 [1, 2, 3] (by decide), by decide, by decide⟩

/-- The next in-source read by the loop fits `vertex_id_t`. -/
theorem next_inv_le (g : distributed_graph) (vmax c i : Nat) (hr : ids_in_range g vmax c) :
    next_inv g vmax c i ≤ vmax := by
  rw [next_inv_eq]
  cases h : (g.in_sources c).drop i with
  | nil => simp
  | cons x l =>
    simp only [List.headD_cons]
    exact hr.1 x (List.mem_of_mem_drop (by rw [h]; simp))

/-- The next out-target read by the loop fits `vertex_id_t`. -/
theorem next_outv_le (g : distributed_graph) (vmax c i : Nat) (hr : ids_in_range g vmax c) :
    next_outv g vmax c i ≤ vmax := by
  rw [next_outv_eq]
  cases h : (g.out_targets c).drop i with
  | nil => simp
  | cons x l =>
    simp only [List.headD_cons]
    exact hr.2 x (List.mem_of_mem_drop (by rw [h]; simp))

/-- An iteration of the merge loop takes one of its four branches. -/
theorem walk_step_isSome (g : distributed_graph) (vmax : Nat) (p : partiallock_cont_params)
    (inv outv : Nat) : (walk_step g vmax p inv outv).isSome = true := by
  unfold walk_step
  simp only
  split
  · rfl
  · split
    · rfl
    · split
      · rfl
      · rename_i h1 h2
        have : inv = outv := by omega
        simp [this]

/-- An iteration of the merge loop is the step followed by its lock guard and
the rest of the loop. -/
theorem walk_loop_step (g : distributed_graph) (vmax fuel : Nat) (grant : Nat → Bool)
    (p : partiallock_cont_params) (inv outv : Nat) (it : walk_iteration)
    (hloop : p.inidx < (g.in_edge_ids p.localvid).length
      ∨ p.outidx < (g.out_edge_ids p.localvid).length)
    (hit : walk_step g vmax p inv outv = some it) :
    walk_loop g vmax (fuel + 1) grant p inv outv
      = after_guard it.params (lock_guard g (grant 0) it.id it.locktype)
          (fun n => walk_loop g vmax fuel (fun i => grant (i + n)) it.params it.inv it.outv)
      := by
  rw [walk_loop, if_pos hloop]
  unfold walk_step at hit
  simp only at hit
  by_cases h1 : p.curlocked = false ∧ p.localvid < inv ∧ p.localvid < outv
  · rw [if_pos h1] at hit ⊢
    cases hit
    rfl
  · rw [if_neg h1] at hit ⊢
    by_cases h2 : inv < outv
    · rw [if_pos h2] at hit ⊢
      cases hit
      rfl
    · rw [if_neg h2] at hit ⊢
      by_cases h3 : outv < inv
      · rw [if_pos h3] at hit ⊢
        cases hit
        rfl
      · rw [if_neg h3] at hit ⊢
        have h4 : inv = outv := by omega
        rw [if_pos h4] at hit ⊢
        cases hit
        rfl

/-- An iteration of the merge loop, entered with `inv` and `outv` as the loop
keeps them, sets `curlocked` or advances an index that was inside its list,
and the measure of the record goes down. -/
theorem walk_step_measure (g : distributed_graph) (vmax : Nat) (p : partiallock_cont_params)
    (it : walk_iteration) (hr : ids_in_range g vmax p.localvid)
    (hloop : p.inidx < (g.in_edge_ids p.localvid).length
      ∨ p.outidx < (g.out_edge_ids p.localvid).length)
    (hit : walk_step g vmax p (next_inv g vmax p.localvid p.inidx)
      (next_outv g vmax p.localvid p.outidx) = some it) :
    walk_measure g it.params < walk_measure g p
    ∧ it.params.localvid = p.localvid ∧ it.params.scopetype = p.scopetype
    ∧ it.inv = next_inv g vmax p.localvid it.params.inidx
    ∧ it.outv = next_outv g vmax p.localvid it.params.outidx
    ∧ ((p.curlocked = false ∧ it.params.curlocked = true ∧ it.params.inidx = p.inidx
          ∧ it.params.outidx = p.outidx)
        ∨ (it.params.curlocked = p.curlocked
          ∧ (it.params.inidx = p.inidx + 1 ∨ it.params.outidx = p.outidx + 1))) := by
  have hi := next_inv_le g vmax p.localvid p.inidx hr
  have ho := next_outv_le g vmax p.localvid p.outidx hr
  have hin : ¬ p.inidx < (g.in_edge_ids p.localvid).length →
      next_inv g vmax p.localvid p.inidx = vmax := by
    intro h
    unfold next_inv
    rw [if_neg (by omega)]
  have hout : ¬ p.outidx < (g.out_edge_ids p.localvid).length →
      next_outv g vmax p.localvid p.outidx = vmax := by
    intro h
    unfold next_outv
    rw [if_neg (by omega)]
  unfold walk_step at hit
  simp only at hit
  by_cases h1 : p.curlocked = false ∧ p.localvid < next_inv g vmax p.localvid p.inidx
      ∧ p.localvid < next_outv g vmax p.localvid p.outidx
  · rw [if_pos h1] at hit
    cases hit
    refine ⟨?_, rfl, rfl, rfl, rfl, Or.inl ⟨h1.1, rfl, rfl, rfl⟩⟩
    simp only [walk_measure, h1.1]
    simp
  · rw [if_neg h1] at hit
    by_cases h2 : next_inv g vmax p.localvid p.inidx < next_outv g vmax p.localvid p.outidx
    · rw [if_pos h2] at hit
      cases hit
      have hlt : p.inidx < (g.in_edge_ids p.localvid).length := by
        by_contra h
        have := hin h
        omega
      refine ⟨?_, rfl, rfl, rfl, rfl, Or.inr ⟨rfl, Or.inl rfl⟩⟩
      simp only [walk_measure]
      omega
    · rw [if_neg h2] at hit
      by_cases h3 : next_outv g vmax p.localvid p.outidx < next_inv g vmax p.localvid p.inidx
      · rw [if_pos h3] at hit
        cases hit
        have hlt : p.outidx < (g.out_edge_ids p.localvid).length := by
          by_contra h
          have := hout h
          omega
        refine ⟨?_, rfl, rfl, rfl, rfl, Or.inr ⟨rfl, Or.inr rfl⟩⟩
        simp only [walk_measure]
        omega
      · rw [if_neg h3] at hit
        have h4 : next_inv g vmax p.localvid p.inidx = next_outv g vmax p.localvid p.outidx := by
          omega
        rw [if_pos h4] at hit
        cases hit
        refine ⟨?_, rfl, rfl, rfl, rfl, Or.inr ⟨rfl, Or.inl rfl⟩⟩
        simp only [walk_measure]
        rcases hloop with h | h <;> omega

/-- C29: for a local vertex whose neighbour ids fit `vertex_id_t` and every
starting record (`inidx`, `outidx`, `curlocked`), one call of
`continue_partial_lock` returns within the bound of the embedding, which is
the measure of the record plus one; an iteration of its merge loop always
takes one of the four branches, it sets `curlocked` or advances `inidx` or
`outidx`, the measure (remaining in-edges, remaining out-edges, one for the
centre not yet locked) strictly decreases, and the loop goes on from the
updated record. -/
theorem continue_partial_lock_terminates (g : distributed_graph) (vmax : Nat)
    (grant : Nat → Bool) (p : partiallock_cont_params)
    (hr : ids_in_range g vmax p.localvid) :
    (continue_partial_lock g vmax grant p).outcome ≠ partial_outcome.out_of_fuel
    ∧ (∀ q inv outv, (walk_step g vmax q inv outv).isSome = true)
    ∧ (p.inidx < (g.in_edge_ids p.localvid).length
        ∨ p.outidx < (g.out_edge_ids p.localvid).length →
      ∃ it, walk_step g vmax p (next_inv g vmax p.localvid p.inidx)
            (next_outv g vmax p.localvid p.outidx) = some it
        ∧ walk_measure g it.params < walk_measure g p
        ∧ ((p.curlocked = false ∧ it.params.curlocked = true)
            ∨ it.params.inidx = p.inidx + 1 ∨ it.params.outidx = p.outidx + 1)
        ∧ it.inv = next_inv g vmax p.localvid it.params.inidx
        ∧ it.outv = next_outv g vmax p.localvid it.params.outidx
        ∧ ∀ fuel grant1,
            walk_loop g vmax (fuel + 1) grant1 p (next_inv g vmax p.localvid p.inidx)
                (next_outv g vmax p.localvid p.outidx)
              = after_guard it.params (lock_guard g (grant1 0) it.id it.locktype)
                  (fun n => walk_loop g vmax fuel (fun i => grant1 (i + n)) it.params
                    it.inv it.outv)) := by
  refine ⟨?_, fun q inv outv => walk_step_isSome g vmax q inv outv, ?_⟩
  · have h := (continue_partial_lock_visit g vmax grant p hr).1
    have e : (continue_partial_lock g vmax grant p).outcome
        = (visit_call g.localvid_is_ghost grant (visits g p)).2.2 :=
      congrArg (fun x => x.2.2) h
    rw [e]
    exact visit_call_ne_out_of_fuel _ _ _
  · intro hloop
    obtain ⟨it, hit⟩ := Option.isSome_iff_exists.1
      (walk_step_isSome g vmax p (next_inv g vmax p.localvid p.inidx)
        (next_outv g vmax p.localvid p.outidx))
    obtain ⟨hm, _, _, hinv, houtv, hadv⟩ := walk_step_measure g vmax p it hr hloop hit
    refine ⟨it, hit, hm, ?_, hinv, houtv, ?_⟩
    · rcases hadv with ⟨a, b, _, _⟩ | ⟨_, c | c⟩
      · exact Or.inl ⟨a, b⟩
      · exact Or.inr (Or.inl c)
      · exact Or.inr (Or.inr c)
    · intro fuel grant1
      exact walk_loop_step g vmax fuel grant1 p _ _ it hloop hit

/-- C29, at a concrete input: the vertex 5 of the example graph, from the
record with `inidx` 1, `outidx` 0 and the centre not locked; the call returns,
and the first iteration goes from measure 4 to measure 3. -/
theorem continue_partial_lock_terminates_witness :
    (continue_partial_lock example_graph 4294967295 (fun _ => true)
        ⟨1, 0, 5, 0, 1000, EDGE_CONSISTENCY, false⟩).outcome ≠ partial_outcome.out_of_fuel
    ∧ ∃ it, walk_step example_graph 4294967295 ⟨1, 0, 5, 0, 1000, EDGE_CONSISTENCY, false⟩
          (next_inv example_graph 4294967295 5 1) (next_outv example_graph 4294967295 5 0)
          = some it
        ∧ walk_measure example_graph it.params
            < walk_measure example_graph ⟨1, 0, 5, 0, 1000, EDGE_CONSISTENCY, false⟩ := by
  have h := continue_partial_lock_terminates example_graph 4294967295 (fun _ => true)
    ⟨1, 0, 5, 0, 1000, EDGE_CONSISTENCY, false⟩ (example_graph_ids_in_range 5)
  obtain ⟨it, h1, h2, _⟩ := h.2.2 (by decide)
  exact ⟨h.1, it, h1, h2⟩

/-- A lock call made by one call of the walk is on a vertex that is no
ghost. -/
theorem mem_visit_call (ghost : Nat → Bool) :
    ∀ (vs : List lock_call) (grant : Nat → Bool) (k : lock_call),
      k ∈ (visit_call ghost grant vs).1 → k ∈ vs ∧ ghost k.id = false := by
  intro vs
  induction vs with
  | nil => intro grant k h; simp [visit_call] at h
  | cons v vs ih =>
    intro grant k
    rw [visit_call]
    by_cases hg : ghost v.id = true
    · simp only [hg, if_true]
      intro h
      exact ⟨List.mem_cons_of_mem _ (ih grant k h).1, (ih grant k h).2⟩
    · have hg2 : ghost v.id = false := by simpa using hg
      simp only [hg]
      by_cases hd : issue_deferred_lock (grant 0) v.locktype = false
      · simp only [hd, if_true]
        intro h
        have : k = v := by simpa using h
        subst this
        exact ⟨List.mem_cons_self _ _, hg2⟩
      · simp only [hd, if_false]
        intro h
        rcases List.mem_cons.1 h with h | h
        · subst h
          exact ⟨List.mem_cons_self _ _, hg2⟩
        · exact ⟨List.mem_cons_of_mem _ (ih _ k h).1, (ih _ k h).2⟩

/-- C30: when the ghosts of the local store are exactly the local ids from
`n_owned` on, so that the owned vertices are `0 .. n_owned - 1` and the vector
`locks` has `n_owned` entries, every lock call of `continue_partial_lock`,
from any record, and every lock call of a whole partial lock is on an id below
`n_owned`. -/
theorem continue_partial_lock_in_range (g : distributed_graph) (vmax n_owned : Nat)
    (grant : Nat → Bool) (p : partiallock_cont_params)
    (hr : ids_in_range g vmax p.localvid)
    (hlayout : ∀ id, g.localvid_is_ghost id = true ↔ n_owned ≤ id) :
    (∀ k ∈ (continue_partial_lock g vmax grant p).calls, k.id < n_owned)
    ∧ (∀ k ∈ (partial_lock_run g vmax grant p).calls, k.id < n_owned) := by
  have hlt : ∀ id, g.localvid_is_ghost id = false → id < n_owned := by
    intro id h
    by_contra hge
    have := (hlayout id).2 (by omega)
    rw [h] at this
    exact Bool.noConfusion this
  constructor
  · intro k hk
    have hc := (continue_partial_lock_visit g vmax grant p hr).1
    have e1 : (continue_partial_lock g vmax grant p).calls
        = (visit_call g.localvid_is_ghost grant (visits g p)).1 := congrArg Prod.fst hc
    rw [e1] at hk
    exact hlt _ (mem_visit_call _ _ _ k hk).2
  · intro k hk
    have hrun := (partial_lock_run_visit g vmax grant p hr).1
    have e1 : (partial_lock_run g vmax grant p).calls
        = (visit_run g.localvid_is_ghost (visits g p)).1 := congrArg Prod.fst hrun
    rw [e1] at hk
    exact hlt _ (mem_visit_run _ _ k hk).2

/-- C30, at a concrete input: the example graph owns the vertices 0 to 7; the
partial lock of vertex 6 under `FULL_CONSISTENCY`, whose out-neighbour 9 is a
ghost, makes its lock calls on ids below 8. -/
theorem continue_partial_lock_in_range_witness :
    (partial_lock_run example_graph 4294967295 (fun _ => true)
        ⟨0, 0, 6, 0, 1000, FULL_CONSISTENCY, false⟩).calls.all
      (fun k => decide (k.id < 8)) = true :=
  List.all_eq_true.2 (fun k hk => decide_eq_true
    ((continue_partial_lock_in_range example_graph 4294967295 8 (fun _ => true)
      ⟨0, 0, 6, 0, 1000, FULL_CONSISTENCY, false⟩ (example_graph_ids_in_range 6)
      (by intro id; simp [example_graph])).2 k hk))

/-- The scope kinds other than `NULL` lock the centre. -/
theorem central_ne_of_ne_null {s : scope_range_enum} (h : s ≠ NULL) :
    central_vertex_lock_type s ≠ NO_LOCK := by
  cases s <;> simp [central_vertex_lock_type] at h ⊢

/-- The record that `partial_lock_request_impl` builds carries the source
machine and the tag it was given. -/
theorem partial_lock_request_impl_tag {g : distributed_graph}
    {vmax srcproc globalvid : Nat} {s : scope_range_enum} {tag : Nat}
    {p : partiallock_cont_params}
    (h : partial_lock_request_impl g vmax srcproc globalvid s tag = some p) :
    p.srcproc = srcproc ∧ p.src_tag = tag ∧ p.scopetype = s := by
  unfold partial_lock_request_impl at h
  cases hg : g.global2localvid globalvid with
  | none => simp [hg] at h
  | some lv =>
    simp [hg] at h
    subst h
    simp

/-- The visits of a fresh record, under every scope kind: with adjacent
locking the merge with the centre, else the centre alone. -/
theorem visits_fresh_locktype (g : distributed_graph) (vmax srcproc globalvid : Nat)
    (s : scope_range_enum) (tag : Nat) (p : partiallock_cont_params)
    (hp : partial_lock_request_impl g vmax srcproc globalvid s tag = some p)
    (hi : (g.in_edge_ids p.localvid).length ≤ vmax)
    (ho : (g.out_edge_ids p.localvid).length ≤ vmax) (hs : s ≠ NULL) :
    ∀ v ∈ visits g p, v.locktype ≠ NO_LOCK := by
  by_cases ha : adjacent_vertex_lock_type s = NO_LOCK
  · obtain ⟨h0, h1, h2, hps, _⟩ := partial_lock_request_impl_none_adjacent ha hp
    rw [visits_fresh_none_adjacent g vmax p h0 h1 h2 hi ho]
    intro v hv
    have : v = ⟨p.localvid, central_vertex_lock_type p.scopetype⟩ := by simpa using hv
    rw [this, hps]
    exact central_ne_of_ne_null hs
  · obtain ⟨_, _, _, hps, _⟩ := partial_lock_request_impl_adjacent ha hp
    exact visits_locktype_ne g p (by rw [hps]; exact ha)

/-- C25, what the code does: for the record of a fresh partial lock, the lock
calls of its whole life and its outcome do not depend on which requests are
granted at once and which are queued and resumed: they are those of the run
in which every request is granted. The record keeps the source machine and
the tag received. Under every scope kind but `NULL` that run is one call of
`continue_partial_lock`, and the partial lock ends by reporting the
completion, after its last lock call. Under `NULL` on a vertex that is no
ghost the one call with `NO_LOCK` answers `false` and the completion is never
reported. -/
theorem partial_lock_run_grant_independent (g : distributed_graph)
    (vmax srcproc globalvid : Nat) (s : scope_range_enum) (tag : Nat) (grant : Nat → Bool)
    (p : partiallock_cont_params)
    (hp : partial_lock_request_impl g vmax srcproc globalvid s tag = some p)
    (hr : ids_in_range g vmax p.localvid)
    (hi : (g.in_edge_ids p.localvid).length ≤ vmax)
    (ho : (g.out_edge_ids p.localvid).length ≤ vmax) :
    (partial_lock_run g vmax grant p).calls = (partial_lock_run g vmax (fun _ => true) p).calls
    ∧ (partial_lock_run g vmax grant p).outcome
        = (partial_lock_run g vmax (fun _ => true) p).outcome
    ∧ (partial_lock_run g vmax grant p).params.srcproc = srcproc
    ∧ (partial_lock_run g vmax grant p).params.src_tag = tag
    ∧ (s ≠ NULL →
        (partial_lock_run g vmax grant p).outcome = partial_outcome.completed
        ∧ (continue_partial_lock g vmax (fun _ => true) p).outcome = partial_outcome.completed
        ∧ (partial_lock_run g vmax grant p).calls
            = (continue_partial_lock g vmax (fun _ => true) p).calls)
    ∧ (s = NULL → g.localvid_is_ghost p.localvid = false →
        (partial_lock_run g vmax grant p).calls = [⟨p.localvid, NO_LOCK⟩]
        ∧ (partial_lock_run g vmax grant p).outcome
            = partial_outcome.suspended ⟨p.localvid, NO_LOCK⟩) := by
  obtain ⟨hsrc, htag, hps⟩ := partial_lock_request_impl_tag hp
  obtain ⟨hrun, hsame⟩ := partial_lock_run_visit g vmax grant p hr
  obtain ⟨hrun1, _⟩ := partial_lock_run_visit g vmax (fun _ => true) p hr
  have hcalls : (partial_lock_run g vmax grant p).calls
      = (visit_run g.localvid_is_ghost (visits g p)).1 := congrArg Prod.fst hrun
  have hout : (partial_lock_run g vmax grant p).outcome
      = (visit_run g.localvid_is_ghost (visits g p)).2 := congrArg Prod.snd hrun
  have hcalls1 : (partial_lock_run g vmax (fun _ => true) p).calls
      = (visit_run g.localvid_is_ghost (visits g p)).1 := congrArg Prod.fst hrun1
  have hout1 : (partial_lock_run g vmax (fun _ => true) p).outcome
      = (visit_run g.localvid_is_ghost (visits g p)).2 := congrArg Prod.snd hrun1
  refine ⟨by rw [hcalls, hcalls1], by rw [hout, hout1], ?_, ?_, ?_, ?_⟩
  · rw [hsame.2.2.1, hsrc]
  · rw [hsame.2.2.2, htag]
  · intro hs
    have hlocks := visits_fresh_locktype g vmax srcproc globalvid s tag p hp hi ho hs
    have hvr := visit_run_of_locks g.localvid_is_ghost (visits g p)
      (fun v hv _ => hlocks v hv)
    have hvc := visit_call_all_granted g.localvid_is_ghost (visits g p)
      (fun v hv _ => hlocks v hv)
    have hc := (continue_partial_lock_visit g vmax (fun _ => true) p hr).1
    have e1 : (continue_partial_lock g vmax (fun _ => true) p).calls
        = (visit_call g.localvid_is_ghost (fun _ => true) (visits g p)).1 :=
      congrArg Prod.fst hc
    have e2 : (continue_partial_lock g vmax (fun _ => true) p).outcome
        = (visit_call g.localvid_is_ghost (fun _ => true) (visits g p)).2.2 :=
      congrArg (fun x => x.2.2) hc
    refine ⟨by rw [hout, hvr], by rw [e2, hvc], by rw [hcalls, hvr, e1, hvc]⟩
  · intro hs hg
    have ha : adjacent_vertex_lock_type s = NO_LOCK := by rw [hs]; rfl
    obtain ⟨h0, h1, h2, hps2, _⟩ := partial_lock_request_impl_none_adjacent ha hp
    have hv := visits_fresh_none_adjacent g vmax p h0 h1 h2 hi ho
    have hc : central_vertex_lock_type p.scopetype = NO_LOCK := by rw [hps2, hs]; rfl
    rw [hcalls, hout, hv, hc]
    simp [visit_run, hg]

/-- C25, at concrete inputs on the example graph: the partial lock of vertex 5
under `EDGE_CONSISTENCY`, with every second request queued, makes the lock
calls of the run with every request granted and reports the completion; under
`NULL` the one call on vertex 5 is made and the completion is never
reported. -/
theorem partial_lock_run_grant_independent_witness :
    (partial_lock_run example_graph 4294967295 (fun i => decide (i % 2 = 0))
        ⟨0, 0, 5, 0, 1000, EDGE_CONSISTENCY, false⟩).calls
      = (continue_partial_lock example_graph 4294967295 (fun _ => true)
          ⟨0, 0, 5, 0, 1000, EDGE_CONSISTENCY, false⟩).calls
    ∧ (partial_lock_run example_graph 4294967295 (fun i => decide (i % 2 = 0))
        ⟨0, 0, 5, 0, 1000, EDGE_CONSISTENCY, false⟩).outcome = partial_outcome.completed
    ∧ (partial_lock_run example_graph 4294967295 (fun _ => true)
        ⟨4294967295, 4294967295, 5, 0, 1000, NULL, false⟩).outcome
      = partial_outcome.suspended ⟨5, NO_LOCK⟩ := by
  have h1 := (partial_lock_run_grant_independent example_graph 4294967295 0 5
    EDGE_CONSISTENCY 1000 (fun i => decide (i % 2 = 0))
    ⟨0, 0, 5, 0, 1000, EDGE_CONSISTENCY, false⟩ rfl (example_graph_ids_in_range 5)
    (by decide) (by decide)).2.2.2.2.1 (by decide)
  have h2 := (partial_lock_run_grant_independent example_graph 4294967295 0 5
    NULL 1000 (fun _ => true)
    ⟨4294967295, 4294967295, 5, 0, 1000, NULL, false⟩ rfl (example_graph_ids_in_range 5)
    (by decide) (by decide)).2.2.2.2.2 rfl rfl
  exact ⟨h1.2.2, h1.1, h2.2⟩

/-- C26: for a `size_t` of `w` bits and a request field `id` of at least
`w - 2` bits, a continuation address whose two low bits are zero is stored as
`ptr >> 2` and decoded by `complete_release` as `id << 2` to exactly the
address. -/
theorem ptr_of_request_id_of_ptr (w idbits ptr : Nat) (hid : w ≤ idbits + 2)
    (hptr : ptr < 2 ^ w) (halign : ptr % 4 = 0) :
    ∃ id, request_id_of_ptr idbits ptr = some id ∧ id = ptr / 4
      ∧ ptr_of_request_id w id = ptr := by
  have hpow : 2 ^ w ≤ 2 ^ idbits * 4 := by
    calc 2 ^ w ≤ 2 ^ (idbits + 2) := Nat.pow_le_pow_right (by decide) hid
      _ = 2 ^ idbits * 4 := by rw [Nat.pow_add]
  have hdiv : ptr / 4 < 2 ^ idbits := by
    apply Nat.div_lt_of_lt_mul
    rw [Nat.mul_comm]
    exact Nat.lt_of_lt_of_le hptr hpow
  have hmul : ptr / 4 * 4 = ptr := Nat.div_mul_cancel (Nat.dvd_of_mod_eq_zero halign)
  refine ⟨ptr / 4, ?_, rfl, ?_⟩
  · unfold request_id_of_ptr
    rw [if_pos halign, Nat.mod_eq_of_lt hdiv]
  · unfold ptr_of_request_id
    rw [hmul, Nat.mod_eq_of_lt hptr]

/-- C26, at a concrete input: with 64-bit words and a 62-bit field the
address `0x7f3b6b8010` is stored as `0x1fcedae004` and decoded to itself. -/
theorem ptr_of_request_id_of_ptr_witness :
    request_id_of_ptr 62 546457747472 = some 136614436868
    ∧ ptr_of_request_id 64 136614436868 = 546457747472 := by
  obtain ⟨id, h1, h2, h3⟩ := ptr_of_request_id_of_ptr 64 62 546457747472 (by decide)
    (by norm_num) (by norm_num)
  have hid : id = 136614436868 := by rw [h2]
  rw [hid] at h1 h3
  exact ⟨h1, h3⟩

/-- A decrement by an amount that is not zero changes the value. -/
theorem wrap_sub_ne (w x val : Nat) (hx : x < 2 ^ w) (hv : val % 2 ^ w ≠ 0) :
    wrap_sub w x val ≠ x := by
  unfold wrap_sub
  have hlt : val % 2 ^ w < 2 ^ w := Nat.mod_lt _ (Nat.pos_of_ne_zero (by positivity))
  by_cases hxv : val % 2 ^ w ≤ x
  · have e : x + (2 ^ w - val % 2 ^ w) = (x - val % 2 ^ w) + 2 ^ w := by omega
    rw [e, Nat.add_mod_right, Nat.mod_eq_of_lt (by omega)]
    omega
  · rw [Nat.mod_eq_of_lt (by omega)]
    omega

/-- C23, what the code does: `dec_ret_last(val)` on an atomic of `w` bits with
value `x` stores `x - val` (mod `2 ^ w`), as `dec(val)` does, but it returns
`x`, the value before the decrement, where `dec(val)` returns the new value;
the two differ whenever `val` is not zero (mod `2 ^ w`). -/
theorem dec_ret_last_returns_old (w x val : Nat) :
    (atomic.dec_ret_last w x val).value = wrap_sub w x val
    ∧ (atomic.dec_ret_last w x val).returned = x
    ∧ (atomic.dec w x val).value = wrap_sub w x val
    ∧ (atomic.dec w x val).returned = wrap_sub w x val
    ∧ (x < 2 ^ w → val % 2 ^ w ≠ 0 →
        (atomic.dec_ret_last w x val).returned ≠ (atomic.dec_ret_last w x val).value) := by
  refine ⟨rfl, rfl, rfl, rfl, ?_⟩
  intro hx hv h
  exact wrap_sub_ne w x val hx hv h.symm

/-- C23, at the failing input: a 64-bit atomic with value 5 and `val` 2;
`dec_ret_last(2)` stores 3 and returns 5, and the new value is 3. -/
theorem dec_ret_last_returns_old_witness :
    (atomic.dec_ret_last 64 5 2).value = 3
    ∧ (atomic.dec_ret_last 64 5 2).returned = 5
    ∧ (atomic.dec 64 5 2).returned = 3
    ∧ (atomic.dec_ret_last 64 5 2).returned ≠ (atomic.dec_ret_last 64 5 2).value := by
  have h := dec_ret_last_returns_old 64 5 2
  refine ⟨?_, h.2.1, ?_, h.2.2.2.2 (by norm_num) (by norm_num)⟩
  · rw [h.1]; decide
  · rw [h.2.2.2.1]; decide

/-- A key has no entry exactly when it is not among the keys of the cache. -/
theorem cache_find_eq_none {K V : Type} [DecidableEq K] (key : K) :
    ∀ cache : List (K × V), cache_find key cache = none ↔ key ∉ cache.map Prod.fst := by
  intro cache
  induction cache with
  | nil => simp [cache_find]
  | cons entry rest ih =>
    by_cases h : entry.1 = key
    · simp [cache_find, h]
    · have h2 : ¬ key = entry.1 := fun e => h e.symm
      simp [cache_find, h, h2, ih]

/-- A key has an entry exactly when it is among the keys of the cache. -/
theorem cache_find_isSome {K V : Type} [DecidableEq K] (key : K) (cache : List (K × V)) :
    (cache_find key cache).isSome = true ↔ key ∈ cache.map Prod.fst := by
  rw [← not_iff_not, ← cache_find_eq_none]
  cases cache_find key cache <;> simp

/-- The keys that are left after an erasure. -/
theorem mem_keys_cache_erase {K V : Type} [DecidableEq K] (key k : K) (cache : List (K × V)) :
    k ∈ (cache_erase key cache).map Prod.fst ↔ k ≠ key ∧ k ∈ cache.map Prod.fst := by
  simp only [cache_erase, List.mem_map, List.mem_filter, decide_eq_true_eq]
  constructor
  · rintro ⟨a, ⟨ha, hne⟩, rfl⟩
    exact ⟨hne, a, ha, rfl⟩
  · rintro ⟨hne, a, ha, rfl⟩
    exact ⟨a, ⟨ha, hne⟩, rfl⟩

/-- An erasure leaves the keys without repetition. -/
theorem nodup_keys_cache_erase {K V : Type} [DecidableEq K] (key : K) (cache : List (K × V))
    (h : (cache.map Prod.fst).Nodup) : ((cache_erase key cache).map Prod.fst).Nodup := by
  unfold cache_erase
  exact (List.Nodup.sublist ((List.filter_sublist cache).map Prod.fst) h)

/-- The erasure of a cached key takes one entry away. -/
theorem length_cache_erase {K V : Type} [DecidableEq K] (key : K) :
    ∀ cache : List (K × V), (cache.map Prod.fst).Nodup → key ∈ cache.map Prod.fst →
      (cache_erase key cache).length + 1 = cache.length := by
  intro cache
  induction cache with
  | nil => intro _ h; simp at h
  | cons entry rest ih =>
    intro hnd hmem
    have hnd2 : (rest.map Prod.fst).Nodup := (List.nodup_cons.1 hnd).2
    have hnot : entry.1 ∉ rest.map Prod.fst := (List.nodup_cons.1 hnd).1
    by_cases h : entry.1 = key
    · have hrest : cache_erase key rest = rest := by
        unfold cache_erase
        apply List.filter_eq_self.2
        intro a ha
        have : a.1 ≠ key := by
          intro e
          apply hnot
          rw [h, ← e]
          exact List.mem_map_of_mem _ ha
        simpa using this
      have : cache_erase key (entry :: rest) = cache_erase key rest := by
        simp [cache_erase, h]
      rw [this, hrest]
      simp
    · have hmem2 : key ∈ rest.map Prod.fst := by
        simp only [List.map_cons, List.mem_cons] at hmem
        rcases hmem with e | e
        · exact absurd e.symm h
        · exact e
      have : cache_erase key (entry :: rest) = entry :: cache_erase key rest := by
        simp [cache_erase, h]
      rw [this]
      simp only [List.length_cons]
      have := ih hnd2 hmem2
      omega

/-- The keys of the cache after an assignment. -/
theorem keys_cache_assign {K V : Type} [DecidableEq K] (key : K) (val : V)
    (cache : List (K × V)) :
    (cache_assign key val cache).map Prod.fst = cache.map Prod.fst := by
  unfold cache_assign
  rw [List.map_map]
  apply List.map_congr_left
  intro a _
  by_cases h : a.1 = key <;> simp [h]

/-- The lookup of another key after an erasure. -/
theorem cache_find_cache_erase {K V : Type} [DecidableEq K] (key k : K) (hk : k ≠ key) :
    ∀ cache : List (K × V), cache_find k (cache_erase key cache) = cache_find k cache := by
  intro cache
  induction cache with
  | nil => rfl
  | cons entry rest ih =>
    by_cases h : entry.1 = key
    · have : cache_erase key (entry :: rest) = cache_erase key rest := by
        simp [cache_erase, h]
      have hne : ¬ entry.1 = k := fun e => hk (by rw [← e, h])
      rw [this, ih, cache_find, if_neg hne]
    · have : cache_erase key (entry :: rest) = entry :: cache_erase key rest := by
        simp [cache_erase, h]
      rw [this, cache_find, cache_find, ih]

/-- The function `invalidate` keeps the invariant of the cache. -/
theorem invalidate_inv {K V : Type} [DecidableEq K] (t : caching_dht K V) (key : K)
    (h : cache_inv t) : cache_inv (t.invalidate key)
      ∧ (t.invalidate key).maxcache = t.maxcache ∧ (t.invalidate key).data = t.data := by
  obtain ⟨h1, h2, h3, h4, h5⟩ := h
  unfold caching_dht.invalidate
  by_cases hf : (cache_find key t.cache).isSome = true
  · rw [if_pos hf]
    have hmem := (cache_find_isSome key t.cache).1 hf
    have hlen := length_cache_erase key t.cache h3 hmem
    refine ⟨⟨h1, ?_, nodup_keys_cache_erase key t.cache h3, h4.erase key, ?_⟩, rfl, rfl⟩
    · show (cache_erase key t.cache).length ≤ t.maxcache
      omega
    · intro k
      show k ∈ (cache_erase key t.cache).map Prod.fst ↔ k ∈ t.lruage.erase key
      rw [mem_keys_cache_erase, h4.mem_erase_iff, h5]
  · rw [if_neg hf]
    exact ⟨⟨h1, h2, h3, h4, h5⟩, rfl, rfl⟩

/-- On a cache that holds an entry, `remove_lru` is defined: it deletes the
entry of the key at the back of `lruage`. -/
theorem remove_lru_spec {K V : Type} [DecidableEq K] (t : caching_dht K V)
    (h : cache_inv t) (hne : 0 < t.cache.length) :
    ∃ victim, t.lruage.getLast? = some victim ∧ victim ∈ t.cache.map Prod.fst
      ∧ t.remove_lru = some { t with cache := cache_erase victim t.cache,
                                     lruage := t.lruage.erase victim } := by
  obtain ⟨h1, h2, h3, h4, h5⟩ := h
  have hl : t.lruage ≠ [] := by
    intro hnil
    cases hc : t.cache with
    | nil => rw [hc] at hne; simp at hne
    | cons a l =>
      have : a.1 ∈ t.lruage := (h5 a.1).1 (by rw [hc]; simp)
      rw [hnil] at this
      simp at this
  have hlast : t.lruage.getLast? = some (t.lruage.getLast hl) := List.getLast?_eq_getLast _ hl
  have hmem : t.lruage.getLast hl ∈ t.cache.map Prod.fst :=
    (h5 _).2 (List.getLast_mem hl)
  refine ⟨t.lruage.getLast hl, hlast, hmem, ?_⟩
  unfold caching_dht.remove_lru
  rw [hlast]
  simp only
  rw [if_pos ((cache_find_isSome _ _).2 hmem)]

/-- The function `update_cache` is defined on a cache that satisfies the
invariant, with `maxcache` at least 1, and keeps the invariant; the table
`data` is not touched and the key is cached with the value afterwards. -/
theorem update_cache_inv {K V : Type} [DecidableEq K] (t : caching_dht K V) (key : K)
    (val : V) (h : cache_inv t) :
    ∃ t1, t.update_cache key val = some t1 ∧ cache_inv t1 ∧ t1.maxcache = t.maxcache
      ∧ t1.data = t.data ∧ t1.lruage.head? = some key := by
  have h' := h
  obtain ⟨h1, h2, h3, h4, h5⟩ := h
  unfold caching_dht.update_cache
  cases hf : cache_find key t.cache with
  | some v =>
    simp only
    have hmem : key ∈ t.cache.map Prod.fst :=
      (cache_find_isSome key t.cache).1 (by rw [hf]; rfl)
    refine ⟨_, rfl, ⟨h1, ?_, ?_, ?_, ?_⟩, rfl, rfl, rfl⟩
    · show (cache_assign key val t.cache).length ≤ t.maxcache
      simpa [cache_assign] using h2
    · show ((cache_assign key val t.cache).map Prod.fst).Nodup
      rw [keys_cache_assign]; exact h3
    · show (key :: t.lruage.erase key).Nodup
      exact List.nodup_cons.2 ⟨fun hin => ((h4.mem_erase_iff).1 hin).1 rfl, h4.erase key⟩
    · intro k
      show k ∈ (cache_assign key val t.cache).map Prod.fst ↔ k ∈ key :: t.lruage.erase key
      rw [keys_cache_assign, List.mem_cons, h4.mem_erase_iff, h5]
      constructor
      · intro hk
        by_cases e : k = key
        · exact Or.inl e
        · exact Or.inr ⟨e, hk⟩
      · rintro (e | ⟨_, hk⟩)
        · rw [e]; exact (h5 key).1 hmem
        · exact hk
  | none =>
    simp only
    have hnot : key ∉ t.cache.map Prod.fst := (cache_find_eq_none key t.cache).1 hf
    by_cases hfull : t.cache.length ≥ t.maxcache
    · rw [if_pos hfull]
      obtain ⟨victim, _, hvm, hrem⟩ := remove_lru_spec t h' (by omega)
      rw [hrem]
      simp only
      have hlen := length_cache_erase victim t.cache h3 hvm
      have hnot1 : key ∉ (cache_erase victim t.cache).map Prod.fst := by
        intro hin
        exact hnot ((mem_keys_cache_erase victim key t.cache).1 hin).2
      rw [if_pos (by rw [(cache_find_eq_none key _).2 hnot1]; rfl)]
      refine ⟨_, rfl, ⟨h1, ?_, ?_, ?_, ?_⟩, rfl, rfl, rfl⟩
      · show ((key, val) :: cache_erase victim t.cache).length ≤ t.maxcache
        simp only [List.length_cons]
        omega
      · show (((key, val) :: cache_erase victim t.cache).map Prod.fst).Nodup
        rw [List.map_cons]
        exact List.nodup_cons.2 ⟨hnot1, nodup_keys_cache_erase victim t.cache h3⟩
      · show (key :: t.lruage.erase victim).Nodup
        refine List.nodup_cons.2 ⟨?_, h4.erase victim⟩
        intro hin
        exact hnot ((h5 key).2 ((h4.mem_erase_iff).1 hin).2)
      · intro k
        show k ∈ ((key, val) :: cache_erase victim t.cache).map Prod.fst
          ↔ k ∈ key :: t.lruage.erase victim
        rw [List.map_cons, List.mem_cons, List.mem_cons, mem_keys_cache_erase,
          h4.mem_erase_iff, h5]
    · rw [if_neg hfull]
      simp only
      rw [if_pos (by rw [hf]; rfl)]
      refine ⟨_, rfl, ⟨h1, ?_, ?_, ?_, ?_⟩, rfl, rfl, rfl⟩
      · show ((key, val) :: t.cache).length ≤ t.maxcache
        simp only [List.length_cons]
        omega
      · show (((key, val) :: t.cache).map Prod.fst).Nodup
        rw [List.map_cons]
        exact List.nodup_cons.2 ⟨hnot, h3⟩
      · show (key :: t.lruage).Nodup
        exact List.nodup_cons.2 ⟨fun hin => hnot ((h5 key).2 hin), h4⟩
      · intro k
        show k ∈ ((key, val) :: t.cache).map Prod.fst ↔ k ∈ key :: t.lruage
        rw [List.map_cons, List.mem_cons, List.mem_cons, h5]

/-- A hit of `get_cached` keeps the invariant of the cache. -/
theorem touch_inv {K V : Type} [DecidableEq K] (t : caching_dht K V) (key : K) (reqs : Nat)
    (h : cache_inv t) (hmem : key ∈ t.cache.map Prod.fst) :
    cache_inv { t with reqs := reqs, lruage := key :: t.lruage.erase key } := by
  obtain ⟨h1, h2, h3, h4, h5⟩ := h
  refine ⟨h1, h2, h3, ?_, ?_⟩
  · show (key :: t.lruage.erase key).Nodup
    exact List.nodup_cons.2 ⟨fun hin => ((h4.mem_erase_iff).1 hin).1 rfl, h4.erase key⟩
  · intro k
    show k ∈ t.cache.map Prod.fst ↔ k ∈ key :: t.lruage.erase key
    rw [List.mem_cons, h4.mem_erase_iff, h5]
    constructor
    · intro hk
      by_cases e : k = key
      · exact Or.inl e
      · exact Or.inr ⟨e, hk⟩
    · rintro (e | ⟨_, hk⟩)
      · rw [e]; exact (h5 key).1 hmem
      · exact hk

/-- The counters are no part of the invariant of the cache. -/
theorem cache_inv_counters {K V : Type} (t : caching_dht K V) (reqs misses : Nat)
    (h : cache_inv t) : cache_inv { t with reqs := reqs, misses := misses } := h

/-- With `maxcache` at least 1, every call is defined on a table whose cache
satisfies the invariant, and keeps the invariant, the cache limit, and, for a
key that this machine owns, the entry of `data` up to a `set` on that key. -/
theorem call_inv {K V : Type} [DecidableEq K] (e : dht_env K) (t : caching_dht K V)
    (c : dht_call K V) (h : cache_inv t) :
    ∃ r, t.call e c = some r ∧ cache_inv r.state ∧ r.state.maxcache = t.maxcache
      ∧ ∀ key, e.owningmachine key = e.procid →
          r.state.data key = data_after key c (t.data key) := by
  cases c with
  | set k v =>
    simp only [caching_dht.call, caching_dht.set]
    by_cases ho : e.owningmachine k = e.procid
    · rw [if_pos ho]
      refine ⟨_, rfl, h, rfl, ?_⟩
      intro key _
      simp only [data_after]
      by_cases hk : k = key
      · simp [hk]
      · have : ¬ key = k := fun x => hk x.symm
        simp [hk, this]
    · rw [if_neg ho]
      obtain ⟨t1, h1, h2, h3, h4, _⟩ := update_cache_inv t k v h
      rw [h1]
      refine ⟨_, rfl, h2, h3, ?_⟩
      intro key hkey
      have hk : ¬ k = key := fun x => ho (by rw [x]; exact hkey)
      simp only [data_after, if_neg hk, h4]
  | get k answer =>
    simp only [caching_dht.call, caching_dht.get]
    by_cases ho : e.owningmachine k = e.procid
    · rw [if_pos ho]
      exact ⟨_, rfl, h, rfl, fun key _ => rfl⟩
    · rw [if_neg ho]
      cases answer with
      | some v =>
        obtain ⟨t1, h1, h2, h3, h4, _⟩ := update_cache_inv t k v h
        simp only [h1]
        exact ⟨_, rfl, h2, h3, fun key _ => by simp only [data_after, h4]⟩
      | none =>
        obtain ⟨h2, h3, h4⟩ := invalidate_inv t k h
        exact ⟨_, rfl, h2, h3, fun key _ => by simp only [data_after, h4]⟩
  | get_cached k answer =>
    simp only [caching_dht.call, caching_dht.get_cached]
    by_cases ho : e.owningmachine k = e.procid
    · rw [if_pos ho]
      simp only [caching_dht.get, if_pos ho]
      exact ⟨_, rfl, h, rfl, fun key _ => rfl⟩
    · rw [if_neg ho]
      cases hf : cache_find k t.cache with
      | some v =>
        have hmem : k ∈ t.cache.map Prod.fst :=
          (cache_find_isSome k t.cache).1 (by rw [hf]; rfl)
        exact ⟨_, rfl, touch_inv t k _ h hmem, rfl, fun key _ => rfl⟩
      | none =>
        simp only [caching_dht.get, if_neg ho]
        cases answer with
        | some v =>
          obtain ⟨t1, h1, h2, h3, h4, _⟩ := update_cache_inv
            { t with reqs := (t.reqs + 1) % size_mod, misses := (t.misses + 1) % size_mod }
            k v (cache_inv_counters t _ _ h)
          simp only [h1]
          exact ⟨_, rfl, h2, h3, fun key _ => by simp only [data_after, h4]⟩
        | none =>
          obtain ⟨h2, h3, h4⟩ := invalidate_inv
            { t with reqs := (t.reqs + 1) % size_mod, misses := (t.misses + 1) % size_mod }
            k (cache_inv_counters t _ _ h)
          exact ⟨_, rfl, h2, h3, fun key _ => by simp only [data_after, h4]⟩
  | invalidate k =>
    obtain ⟨h2, h3, h4⟩ := invalidate_inv t k h
    exact ⟨_, rfl, h2, h3, fun key _ => by simp only [data_after, h4]⟩

/-- The most recent `set` on a key in a history that starts with the call
`c`. -/
theorem last_set_cons {K V : Type} [DecidableEq K] (key : K) (c : dht_call K V)
    (cs : List (dht_call K V)) (old : Option V) :
    (last_set key (c :: cs)).orElse (fun _ => old)
      = (last_set key cs).orElse (fun _ => data_after key c old) := by
  cases h : last_set key cs with
  | some v => simp [last_set, h]
  | none =>
    cases c with
    | set k v =>
      by_cases hk : k = key <;> simp [last_set, h, data_after, hk]
    | get k a => simp [last_set, h, data_after]
    | get_cached k a => simp [last_set, h, data_after]
    | invalidate k => simp [last_set, h, data_after]

/-- With `maxcache` at least 1, every sequential history is defined and keeps
the invariant of the cache; the entry of `data` of a key that this machine
owns is the value of the most recent `set` on it, when there is one. -/
theorem run_inv {K V : Type} [DecidableEq K] (e : dht_env K) :
    ∀ (calls : List (dht_call K V)) (t : caching_dht K V), cache_inv t →
      ∃ t1, caching_dht.run e calls t = some t1 ∧ cache_inv t1 ∧ t1.maxcache = t.maxcache
        ∧ ∀ key, e.owningmachine key = e.procid →
            t1.data key = (last_set key calls).orElse (fun _ => t.data key) := by
  intro calls
  induction calls with
  | nil =>
    intro t h
    exact ⟨t, rfl, h, rfl, fun key _ => rfl⟩
  | cons c cs ih =>
    intro t h
    obtain ⟨r, h1, h2, h3, h4⟩ := call_inv e t c h
    obtain ⟨t1, h5, h6, h7, h8⟩ := ih r.state h2
    refine ⟨t1, ?_, h6, h7.trans h3, ?_⟩
    · rw [caching_dht.run, h1]
      exact h5
    · intro key hkey
      rw [h8 key hkey, h4 key hkey, last_set_cons]

/-- The table as constructed satisfies the invariant of the cache. -/
theorem init_inv {K V : Type} (max_cache_size : Nat) (h : 1 ≤ max_cache_size) :
    cache_inv (caching_dht.init max_cache_size : caching_dht K V) := by
  refine ⟨h, Nat.zero_le _, ?_, ?_, ?_⟩
  · simp [caching_dht.init]
  · simp [caching_dht.init]
  · intro k; simp [caching_dht.init]

/-- C22: for every `max_cache_size` at least 1 and every sequential history
of `set`, `get`, `get_cached` and `invalidate` on a table as constructed,
whatever the owners answer, every call is defined, `cache_size()` is at most
`max_cache_size` afterwards, no key has two entries in the cache map, and each
entry of the cache map is linked in `lruage` exactly once, `lruage` linking
nothing else. -/
theorem cache_size_le_maxcache {K V : Type} [DecidableEq K] (e : dht_env K)
    (calls : List (dht_call K V)) (max_cache_size : Nat) (hmax : 1 ≤ max_cache_size) :
    ∃ t, caching_dht.run e calls (caching_dht.init max_cache_size) = some t
      ∧ t.cache_size ≤ max_cache_size
      ∧ t.maxcache = max_cache_size
      ∧ (t.cache.map Prod.fst).Nodup
      ∧ (∀ entry ∈ t.cache, t.lruage.count entry.1 = 1)
      ∧ (∀ k ∈ t.lruage, k ∈ t.cache.map Prod.fst) := by
  obtain ⟨t, h1, ⟨_, h3, h4, h5, h6⟩, h7, _⟩ := run_inv e calls
    (caching_dht.init max_cache_size) (init_inv max_cache_size hmax)
  have hm : t.maxcache = max_cache_size := h7
  refine ⟨t, h1, ?_, hm, h4, ?_, ?_⟩
  · show t.cache.length ≤ max_cache_size
    rw [← hm]; exact h3
  · intro entry hentry
    exact List.count_eq_one_of_mem h5 ((h6 entry.1).1 (List.mem_map_of_mem _ hentry))
  · intro k hk
    exact (h6 k).2 hk

/-- C22, at a concrete input: with a cache of two entries on machine 0 of
three, after sets on the keys 1, 2 and 4, a cached read of 1 and a read of 5,
the cache holds two entries. -/
theorem cache_size_le_maxcache_witness :
    ∃ t, caching_dht.run example_dht_env
          [dht_call.set 1 10, dht_call.set 2 20, dht_call.get_cached 1 none,
            dht_call.set 4 40, dht_call.get 5 (some 50)] (caching_dht.init 2) = some t
      ∧ t.cache_size ≤ 2
      ∧ t.cache = [(5, 50), (4, 40)]
      ∧ t.lruage = [5, 4] := by
  obtain ⟨t, h1, h2, _⟩ := cache_size_le_maxcache example_dht_env
    [dht_call.set 1 10, dht_call.set 2 20, dht_call.get_cached 1 none,
      dht_call.set 4 40, dht_call.get 5 (some 50)] 2 (by decide)
  have hrun : caching_dht.run example_dht_env
      [dht_call.set 1 10, dht_call.set 2 20, dht_call.get_cached 1 none,
        dht_call.set 4 40, dht_call.get 5 (some 50)] (caching_dht.init 2)
      = some ⟨fun _ => none, [(5, 50), (4, 40)], [5, 4], 2, 1, 0⟩ := by
    simp [caching_dht.run, caching_dht.call, caching_dht.set, caching_dht.get,
      caching_dht.get_cached, caching_dht.update_cache, caching_dht.remove_lru,
      caching_dht.init, cache_find, cache_erase, example_dht_env, dht_env.owningmachine,
      size_mod]
  rw [hrun] at h1
  have := Option.some.inj h1
  subst this
  exact ⟨_, hrun, h2, rfl, rfl⟩

/-- A call on a key that this machine owns is defined whatever the cache
limit, and changes the table `data` only by a `set`. -/
theorem call_owned {K V : Type} [DecidableEq K] (e : dht_env K) (t : caching_dht K V)
    (c : dht_call K V) (ho : e.owningmachine c.key = e.procid) :
    ∃ r, t.call e c = some r
      ∧ ∀ key, r.state.data key = data_after key c (t.data key) := by
  cases c with
  | set k v =>
    have ho' : e.owningmachine k = e.procid := ho
    simp only [caching_dht.call, caching_dht.set, if_pos ho']
    refine ⟨_, rfl, ?_⟩
    intro key
    simp only [data_after]
    by_cases hk : k = key
    · simp [hk]
    · have : ¬ key = k := fun x => hk x.symm
      simp [hk, this]
  | get k answer =>
    have ho' : e.owningmachine k = e.procid := ho
    simp only [caching_dht.call, caching_dht.get, if_pos ho']
    exact ⟨_, rfl, fun key => rfl⟩
  | get_cached k answer =>
    have ho' : e.owningmachine k = e.procid := ho
    simp only [caching_dht.call, caching_dht.get_cached, caching_dht.get, if_pos ho']
    exact ⟨_, rfl, fun key => rfl⟩
  | invalidate k =>
    refine ⟨_, rfl, ?_⟩
    intro key
    simp only [data_after, caching_dht.invalidate]
    split <;> rfl

/-- A history of calls on keys that this machine owns is defined whatever the
cache limit. -/
theorem run_owned {K V : Type} [DecidableEq K] (e : dht_env K) :
    ∀ (calls : List (dht_call K V)) (t : caching_dht K V),
      (∀ c ∈ calls, e.owningmachine c.key = e.procid) →
      ∃ t1, caching_dht.run e calls t = some t1
        ∧ ∀ key, t1.data key = (last_set key calls).orElse (fun _ => t.data key) := by
  intro calls
  induction calls with
  | nil => intro t _; exact ⟨t, rfl, fun key => rfl⟩
  | cons c cs ih =>
    intro t h
    obtain ⟨r, h1, h2⟩ := call_owned e t c (h c (by simp))
    obtain ⟨t1, h3, h4⟩ := ih r.state (fun x hx => h x (by simp [hx]))
    refine ⟨t1, ?_, ?_⟩
    · rw [caching_dht.run, h1]
      exact h3
    · intro key
      rw [h4 key, h2 key, last_set_cons]

/-- The most recent `set` on a key does not depend on the calls on other
keys. -/
theorem last_set_filter {K V : Type} [DecidableEq K] (key : K) :
    ∀ calls : List (dht_call K V),
      last_set key (calls.filter (fun c => decide (c.key = key))) = last_set key calls := by
  intro calls
  induction calls with
  | nil => rfl
  | cons c cs ih =>
    by_cases hk : c.key = key
    · have hf : List.filter (fun c => decide (c.key = key)) (c :: cs)
          = c :: List.filter (fun c => decide (c.key = key)) cs :=
        List.filter_cons_of_pos (by simpa using hk)
      rw [hf]
      cases c <;> simp only [last_set, ih]
    · have hf : List.filter (fun c => decide (c.key = key)) (c :: cs)
          = List.filter (fun c => decide (c.key = key)) cs :=
        List.filter_cons_of_neg (by simpa using hk)
      rw [hf, ih]
      cases h : last_set key cs with
      | some v => cases c <;> simp only [last_set, h]
      | none =>
        cases c with
        | set k v =>
          have : ¬ k = key := hk
          simp only [last_set, h, if_neg this]
        | get k a => simp only [last_set, h]
        | get_cached k a => simp only [last_set, h]
        | invalidate k => simp only [last_set, h]

/-- C21: on the machine that owns the key `key`, after every sequential
history of calls on a table as constructed, with a cache limit of at least 1
or with all calls on keys of this machine (as on a one-machine cluster),
`get(key)` and `get_cached(key)` return `(true, v)` for the value `v` of the
most recent `set(key, v)`, whatever the calls on other keys were, and a pair
with `first == false` when the key was never set; no remote call is made and
the table is not changed. -/
theorem get_returns_last_set {K V : Type} [DecidableEq K] (e : dht_env K)
    (calls : List (dht_call K V)) (key : K) (answer : Option V) (max_cache_size : Nat)
    (howns : e.owningmachine key = e.procid)
    (hdef : 1 ≤ max_cache_size ∨ ∀ c ∈ calls, e.owningmachine c.key = e.procid) :
    ∃ t, caching_dht.run e calls (caching_dht.init max_cache_size) = some t
      ∧ t.get e answer key = some ⟨t, [], last_set key calls⟩
      ∧ t.get_cached e answer key = some ⟨t, [], last_set key calls⟩
      ∧ last_set key calls = last_set key (calls.filter (fun c => decide (c.key = key))) := by
  have hrun : ∃ t, caching_dht.run e calls (caching_dht.init max_cache_size) = some t
      ∧ t.data key = last_set key calls := by
    rcases hdef with h | h
    · obtain ⟨t, h1, _, _, h4⟩ := run_inv e calls (caching_dht.init max_cache_size)
        (init_inv max_cache_size h)
      refine ⟨t, h1, ?_⟩
      rw [h4 key howns]
      cases last_set key calls <;> rfl
    · obtain ⟨t, h1, h4⟩ := run_owned e calls (caching_dht.init max_cache_size) h
      refine ⟨t, h1, ?_⟩
      rw [h4 key]
      cases last_set key calls <;> rfl
  obtain ⟨t, h1, h2⟩ := hrun
  refine ⟨t, h1, ?_, ?_, (last_set_filter key calls).symm⟩
  · simp only [caching_dht.get, if_pos howns, h2]
  · simp only [caching_dht.get_cached, caching_dht.get, if_pos howns, h2]

/-- C21, at a concrete input: machine 0 of three owns the keys 3 and 6; after
sets on 3, on the key 1 of another machine, on 6 and again on 3, `get(3)`
returns the last value 31 and `get(9)`, never set, returns nothing. -/
theorem get_returns_last_set_witness :
    (∃ t, caching_dht.run example_dht_env
          [dht_call.set 3 30, dht_call.set 1 10, dht_call.set 6 60, dht_call.set 3 31]
          (caching_dht.init 2) = some t
        ∧ t.get example_dht_env none 3 = some ⟨t, [], some 31⟩)
    ∧ (∃ t, caching_dht.run example_dht_env
          [dht_call.set 3 30, dht_call.set 1 10, dht_call.set 6 60, dht_call.set 3 31]
          (caching_dht.init 2) = some t
        ∧ t.get example_dht_env none 9 = some ⟨t, [], none⟩) := by
  obtain ⟨t, h1, h2, _⟩ := get_returns_last_set example_dht_env
    [dht_call.set 3 30, dht_call.set 1 10, dht_call.set 6 60, dht_call.set 3 31] 3 none 2
    rfl (Or.inl (by decide))
  obtain ⟨t9, h3, h4, _⟩ := get_returns_last_set example_dht_env
    [dht_call.set 3 30, dht_call.set 1 10, dht_call.set 6 60, dht_call.set 3 31] 9 none 2
    rfl (Or.inl (by decide))
  exact ⟨⟨t, h1, h2⟩, ⟨t9, h3, h4⟩⟩

/-- What `update_cache` does on a cache that satisfies the invariant: a cached
key gets the value and moves to the front; a new key is put in front, after
the entry of the key at the back of `lruage` has been removed when the cache
was full. -/
theorem update_cache_spec {K V : Type} [DecidableEq K] (t : caching_dht K V) (key : K)
    (val : V) (h : cache_inv t) :
    ((cache_find key t.cache).isSome = true →
      t.update_cache key val
        = some { t with cache := cache_assign key val t.cache,
                        lruage := key :: t.lruage.erase key })
    ∧ (cache_find key t.cache = none → t.cache.length < t.maxcache →
      t.update_cache key val
        = some { t with cache := (key, val) :: t.cache, lruage := key :: t.lruage })
    ∧ (cache_find key t.cache = none → t.cache.length ≥ t.maxcache →
      ∃ victim, t.lruage.getLast? = some victim ∧ victim ∈ t.cache.map Prod.fst
        ∧ victim ≠ key
        ∧ t.update_cache key val
          = some { t with cache := (key, val) :: cache_erase victim t.cache,
                          lruage := key :: t.lruage.erase victim }) := by
  refine ⟨?_, ?_, ?_⟩
  · intro hs
    unfold caching_dht.update_cache
    cases hf : cache_find key t.cache with
    | none => rw [hf] at hs; exact absurd hs (by simp)
    | some v => rfl
  · intro hf hlt
    unfold caching_dht.update_cache
    rw [hf]
    simp only
    rw [if_neg (by omega)]
    simp only
    rw [if_pos (by rw [hf]; rfl)]
  · intro hf hfull
    have hnot : key ∉ t.cache.map Prod.fst := (cache_find_eq_none key t.cache).1 hf
    obtain ⟨victim, hlast, hvm, hrem⟩ := remove_lru_spec t h (by
      have := h.1
      omega)
    refine ⟨victim, hlast, hvm, fun e => hnot (e ▸ hvm), ?_⟩
    unfold caching_dht.update_cache
    rw [hf]
    simp only
    rw [if_pos hfull, hrem]
    simp only
    have hnot1 : key ∉ (cache_erase victim t.cache).map Prod.fst := by
      intro hin
      exact hnot ((mem_keys_cache_erase victim key t.cache).1 hin).2
    rw [if_pos (by rw [(cache_find_eq_none key _).2 hnot1]; rfl)]

/-- After `update_cache` the key is at the front of `lruage`, and the rest of
`lruage` is what was linked before, in the same order, without the key. -/
theorem update_cache_lruage {K V : Type} [DecidableEq K] (t t1 : caching_dht K V) (key : K)
    (val : V) (h : cache_inv t) (hu : t.update_cache key val = some t1) :
    ∃ rest, t1.lruage = key :: rest ∧ rest.Sublist t.lruage ∧ key ∉ rest := by
  obtain ⟨h1, h2, h3⟩ := update_cache_spec t key val h
  obtain ⟨_, _, _, hnd, hiff⟩ := h
  cases hf : cache_find key t.cache with
  | some v =>
    rw [h1 (by rw [hf]; rfl)] at hu
    have := Option.some.inj hu
    subst this
    exact ⟨_, rfl, List.erase_sublist _ _, fun hin => ((hnd.mem_erase_iff).1 hin).1 rfl⟩
  | none =>
    have hnot : key ∉ t.lruage := fun hin =>
      (cache_find_eq_none key t.cache).1 hf ((hiff key).2 hin)
    by_cases hfull : t.cache.length ≥ t.maxcache
    · obtain ⟨victim, _, _, _, he⟩ := h3 hf hfull
      rw [he] at hu
      have := Option.some.inj hu
      subst this
      exact ⟨_, rfl, List.erase_sublist _ _, fun hin => hnot (List.mem_of_mem_erase hin)⟩
    · rw [h2 hf (by omega)] at hu
      have := Option.some.inj hu
      subst this
      exact ⟨_, rfl, List.Sublist.refl _, hnot⟩

/-- After `invalidate`, `lruage` is what was linked before, in the same order,
possibly without the key. -/
theorem invalidate_lruage {K V : Type} [DecidableEq K] (t : caching_dht K V) (key : K) :
    (t.invalidate key).lruage.Sublist t.lruage := by
  unfold caching_dht.invalidate
  split
  · exact List.erase_sublist _ _
  · exact List.Sublist.refl _

/-- A key touched at the time `clock + 1` and put in front of keys that were
linked before keeps `lruage` ordered by the time of the last touch. -/
theorem lru_order_touch {K : Type} [DecidableEq K] (stamp : K → Nat) (clock : Nat) (key : K)
    (old rest : List K) (hp : old.Pairwise (fun a b => stamp b < stamp a))
    (hb : ∀ k ∈ old, stamp k ≤ clock) (hs : rest.Sublist old) (hk : key ∉ rest) :
    (key :: rest).Pairwise
        (fun a b => (if b = key then clock + 1 else stamp b)
          < (if a = key then clock + 1 else stamp a))
    ∧ ∀ k ∈ key :: rest, (if k = key then clock + 1 else stamp k) ≤ clock + 1 := by
  have hne : ∀ b ∈ rest, b ≠ key := fun b hb' e => hk (e ▸ hb')
  constructor
  · refine List.pairwise_cons.2 ⟨?_, ?_⟩
    · intro b hb'
      have := hb b (hs.subset hb')
      simp only [if_neg (hne b hb'), if_true]
      omega
    · have hp2 := hp.sublist hs
      refine List.Pairwise.imp_of_mem ?_ hp2
      intro a b ha hb' hab
      simp only [if_neg (hne a ha), if_neg (hne b hb')]
      exact hab
  · intro k hk'
    rcases List.mem_cons.1 hk' with e | e
    · simp [e]
    · have := hb k (hs.subset e)
      simp only [if_neg (hne k e)]
      omega

/-- A call that touches no key and leaves linked only keys that were linked
before keeps `lruage` ordered by the time of the last touch. -/
theorem lru_order_keep {K : Type} (stamp : K → Nat) (clock : Nat) (old new : List K)
    (hp : old.Pairwise (fun a b => stamp b < stamp a))
    (hb : ∀ k ∈ old, stamp k ≤ clock) (hs : new.Sublist old) :
    new.Pairwise (fun a b => stamp b < stamp a) ∧ ∀ k ∈ new, stamp k ≤ clock + 1 :=
  ⟨hp.sublist hs, fun k hk => Nat.le_succ_of_le (hb k (hs.subset hk))⟩

/-- What a call does to `lruage`: the key that the call touches is put at the
front of keys that were linked before; a call that touches no key links no new
key and keeps the order. -/
theorem call_lruage {K V : Type} [DecidableEq K] (e : dht_env K) (t : caching_dht K V)
    (c : dht_call K V) (r : dht_result K V) (h : cache_inv t) (hc : t.call e c = some r) :
    match t.touched e c with
    | some k => ∃ rest, r.state.lruage = k :: rest ∧ rest.Sublist t.lruage ∧ k ∉ rest
    | none => r.state.lruage.Sublist t.lruage := by
  have hupd : ∀ (t0 : caching_dht K V) (key : K) (v : V) (rp : List (dht_rpc K V))
      (ret : Option V), cache_inv t0 → t0.lruage = t.lruage →
      (match t0.update_cache key v with
        | none => none
        | some t1 => some (dht_result.mk t1 rp ret)) = some r →
      ∃ rest, r.state.lruage = key :: rest ∧ rest.Sublist t.lruage ∧ key ∉ rest := by
    intro t0 key v rp ret h0 hl hm
    cases hu : t0.update_cache key v with
    | none => rw [hu] at hm; exact absurd hm (by simp)
    | some t1 =>
      rw [hu] at hm
      have := Option.some.inj hm
      subst this
      obtain ⟨rest, h1, h2, h3⟩ := update_cache_lruage t0 t1 key v h0 hu
      exact ⟨rest, h1, hl ▸ h2, h3⟩
  cases c with
  | set key newval =>
    by_cases ho : e.owningmachine key = e.procid
    · simp only [caching_dht.call, caching_dht.set, if_pos ho] at hc
      have := Option.some.inj hc
      subst this
      simp only [caching_dht.touched, if_pos ho]
      exact List.Sublist.refl _
    · simp only [caching_dht.call, caching_dht.set, if_neg ho] at hc
      simp only [caching_dht.touched, if_neg ho]
      exact hupd t key newval _ _ h rfl hc
  | get key answer =>
    by_cases ho : e.owningmachine key = e.procid
    · simp only [caching_dht.call, caching_dht.get, if_pos ho] at hc
      have := Option.some.inj hc
      subst this
      simp only [caching_dht.touched, if_pos ho]
      exact List.Sublist.refl _
    · cases answer with
      | none =>
        simp only [caching_dht.call, caching_dht.get, if_neg ho] at hc
        have := Option.some.inj hc
        subst this
        simp only [caching_dht.touched, if_neg ho, Option.isSome_none, Bool.false_eq_true,
          if_false]
        exact invalidate_lruage t key
      | some v =>
        simp only [caching_dht.call, caching_dht.get, if_neg ho] at hc
        simp only [caching_dht.touched, if_neg ho, Option.isSome_some, if_true]
        exact hupd t key v _ _ h rfl hc
  | get_cached key answer =>
    by_cases ho : e.owningmachine key = e.procid
    · simp only [caching_dht.call, caching_dht.get_cached, caching_dht.get, if_pos ho] at hc
      have := Option.some.inj hc
      subst this
      simp only [caching_dht.touched, if_pos ho]
      exact List.Sublist.refl _
    · cases hf : cache_find key t.cache with
      | some v =>
        simp only [caching_dht.call, caching_dht.get_cached, if_neg ho, hf] at hc
        have := Option.some.inj hc
        subst this
        simp only [caching_dht.touched, if_neg ho, hf, Option.isSome_some, if_true]
        exact ⟨_, rfl, List.erase_sublist _ _,
          fun hin => ((h.2.2.2.1.mem_erase_iff).1 hin).1 rfl⟩
      | none =>
        cases answer with
        | none =>
          simp only [caching_dht.call, caching_dht.get_cached, caching_dht.get, if_neg ho,
            hf] at hc
          have := Option.some.inj hc
          subst this
          simp only [caching_dht.touched, if_neg ho, hf, Option.isSome_none,
            Bool.false_eq_true, if_false]
          exact invalidate_lruage
            { t with reqs := (t.reqs + 1) % size_mod,
                     misses := (t.misses + 1) % size_mod } key
        | some v =>
          simp only [caching_dht.call, caching_dht.get_cached, caching_dht.get, if_neg ho,
            hf] at hc
          simp only [caching_dht.touched, if_neg ho, hf, Option.isSome_none,
            Bool.false_eq_true, if_false, Option.isSome_some, if_true]
          exact hupd
            { t with reqs := (t.reqs + 1) % size_mod,
                     misses := (t.misses + 1) % size_mod } key v _ _
            (cache_inv_counters t _ _ h) rfl hc
  | invalidate key =>
    simp only [caching_dht.call] at hc
    have := Option.some.inj hc
    subst this
    simp only [caching_dht.touched]
    exact invalidate_lruage t key

/-- Every call keeps the invariant of the cache with the times of the last
touches, when the key that the call touches gets the number of the call. -/
theorem call_lru_inv {K V : Type} [DecidableEq K] (e : dht_env K) (t : caching_dht K V)
    (c : dht_call K V) (stamp : K → Nat) (clock : Nat) (h : lru_inv t stamp clock) :
    ∃ r, t.call e c = some r
      ∧ lru_inv r.state
          (match t.touched e c with
            | some k => fun x => if x = k then clock + 1 else stamp x
            | none => stamp)
          (clock + 1) := by
  obtain ⟨hinv, hp, hb⟩ := h
  obtain ⟨r, hc, hinv1, _, _⟩ := call_inv e t c hinv
  refine ⟨r, hc, hinv1, ?_⟩
  have hl := call_lruage e t c r hinv hc
  cases ht : t.touched e c with
  | none =>
    rw [ht] at hl
    exact lru_order_keep stamp clock t.lruage r.state.lruage hp hb hl
  | some k =>
    rw [ht] at hl
    obtain ⟨rest, h1, h2, h3⟩ := hl
    rw [h1]
    exact lru_order_touch stamp clock k t.lruage rest hp hb h2 h3

/-- A history with the times of the last touches is defined, follows the
history itself, and keeps the invariant. -/
theorem stamped_run_inv {K V : Type} [DecidableEq K] (e : dht_env K) :
    ∀ (calls : List (dht_call K V)) (clock : Nat) (stamp : K → Nat) (t : caching_dht K V),
      lru_inv t stamp clock →
      ∃ t1 stamp1, caching_dht.stamped_run e calls clock stamp t
          = some (t1, stamp1, clock + calls.length)
        ∧ caching_dht.run e calls t = some t1
        ∧ lru_inv t1 stamp1 (clock + calls.length) := by
  intro calls
  induction calls with
  | nil =>
    intro clock stamp t h
    exact ⟨t, stamp, rfl, rfl, h⟩
  | cons c cs ih =>
    intro clock stamp t h
    obtain ⟨r, hc, hinv⟩ := call_lru_inv e t c stamp clock h
    obtain ⟨t1, stamp1, h1, h2, h3⟩ := ih (clock + 1) _ r.state hinv
    have hlen : clock + 1 + cs.length = clock + (c :: cs).length := by
      simp only [List.length_cons]
      omega
    rw [hlen] at h1 h3
    refine ⟨t1, stamp1, ?_, ?_, h3⟩
    · simp only [caching_dht.stamped_run, hc]
      exact h1
    · simp only [caching_dht.run, hc]
      exact h2

/-- The empty cache satisfies the invariant with every key untouched. -/
theorem init_lru_inv {K V : Type} (max_cache_size : Nat) (h : 1 ≤ max_cache_size) :
    lru_inv (caching_dht.init max_cache_size : caching_dht K V) (fun _ => 0) 0 :=
  ⟨init_inv max_cache_size h, List.Pairwise.nil, fun _ hk => absurd hk (List.not_mem_nil _)⟩

/-- In a list ordered by a relation, every other member is related to the
last one. -/
theorem pairwise_getLast {A : Type} (R : A → A → Prop) :
    ∀ (l : List A) (x : A), l.Pairwise R → l.getLast? = some x →
      ∀ a ∈ l, a ≠ x → R a x := by
  intro l
  induction l with
  | nil => intro x _ hl; simp at hl
  | cons b rest ih =>
    intro x hp hl a ha hne
    cases rest with
    | nil =>
      simp only [List.getLast?_singleton, Option.some.injEq] at hl
      simp only [List.mem_singleton] at ha
      exact absurd (ha.trans hl) hne
    | cons b2 rest2 =>
      rw [List.getLast?_cons_cons] at hl
      have hp2 := List.pairwise_cons.1 hp
      rcases List.mem_cons.1 ha with e1 | e1
      · rw [e1]
        exact hp2.1 x (List.mem_of_mem_getLast? hl)
      · exact ih x hp2.2 hl a e1 hne

/-- On a full cache with the invariant, `update_cache` of a new key removes the
entry of the key with the oldest last touch, and only that entry. -/
theorem update_cache_evicts {K V : Type} [DecidableEq K] (t : caching_dht K V)
    (stamp : K → Nat) (clock : Nat) (key : K) (val : V) (h : lru_inv t stamp clock)
    (hnew : cache_find key t.cache = none) (hfull : t.cache.length ≥ t.maxcache) :
    ∃ victim t1, t.update_cache key val = some t1
      ∧ victim ∈ t.cache.map Prod.fst
      ∧ (∀ k ∈ t.cache.map Prod.fst, k ≠ victim → stamp victim < stamp k)
      ∧ t1.cache = (key, val) :: cache_erase victim t.cache
      ∧ cache_find victim t1.cache = none
      ∧ ∀ k, k ≠ victim → k ≠ key → cache_find k t1.cache = cache_find k t.cache := by
  obtain ⟨hinv, hp, _⟩ := h
  obtain ⟨victim, hlast, hvm, hvk, he⟩ := (update_cache_spec t key val hinv).2.2 hnew hfull
  refine ⟨victim, _, he, hvm, ?_, rfl, ?_, ?_⟩
  · intro k hk hne
    exact pairwise_getLast _ t.lruage victim hp hlast k ((hinv.2.2.2.2 k).1 hk) hne
  · simp only [cache_find, if_neg (Ne.symm hvk)]
    refine (cache_find_eq_none victim _).2 ?_
    intro hin
    exact ((mem_keys_cache_erase victim victim t.cache).1 hin).1 rfl
  · intro k hk1 hk2
    simp only [cache_find, if_neg (Ne.symm hk2)]
    exact cache_find_cache_erase victim k hk1 t.cache

/-- Claim C28: after every sequential history on a `caching_dht` with
`max_cache_size` at least 1, with `stamp k` the number of the last call that
touched the key `k` (an insertion or a value update by `update_cache`, or a hit
of `get_cached`), a call that caches a new key `key` while the cache is full is
defined and removes the entry of one cached key `victim`, whose last touch is
older than the last touch of every other cached key; the new cache is the
entry of `key` followed by the old entries without the one of `victim`, and
every other key finds the same value as before. -/
theorem full_cache_evicts_least_recently_used {K V : Type} [DecidableEq K] (e : dht_env K)
    (calls : List (dht_call K V)) (max_cache_size : Nat) (c : dht_call K V) (key : K)
    (hmax : 1 ≤ max_cache_size) :
    ∃ t stamp,
      caching_dht.stamped_run e calls 0 (fun _ => 0) (caching_dht.init max_cache_size)
          = some (t, stamp, calls.length)
      ∧ caching_dht.run e calls (caching_dht.init max_cache_size) = some t
      ∧ (t.touched e c = some key → cache_find key t.cache = none →
          t.cache.length ≥ t.maxcache →
          ∃ victim r v, t.call e c = some r
            ∧ victim ∈ t.cache.map Prod.fst
            ∧ (∀ k ∈ t.cache.map Prod.fst, k ≠ victim → stamp victim < stamp k)
            ∧ r.state.cache = (key, v) :: cache_erase victim t.cache
            ∧ cache_find victim r.state.cache = none
            ∧ ∀ k, k ≠ victim → k ≠ key →
                cache_find k r.state.cache = cache_find k t.cache) := by
  obtain ⟨t, stamp, h1, h2, h3⟩ :=
    stamped_run_inv e calls 0 (fun _ => 0) (caching_dht.init max_cache_size)
      (init_lru_inv max_cache_size hmax)
  rw [Nat.zero_add] at h1 h3
  refine ⟨t, stamp, h1, h2, ?_⟩
  intro ht hnew hfull
  have hupd : ∀ (t0 : caching_dht K V) (v : V) (rp : List (dht_rpc K V)) (ret : Option V),
      lru_inv t0 stamp calls.length → t0.cache = t.cache → t0.maxcache = t.maxcache →
      ∃ victim r v1,
        (match t0.update_cache key v with
          | none => none
          | some t1 => some (dht_result.mk t1 rp ret)) = some r
        ∧ victim ∈ t.cache.map Prod.fst
        ∧ (∀ k ∈ t.cache.map Prod.fst, k ≠ victim → stamp victim < stamp k)
        ∧ r.state.cache = (key, v1) :: cache_erase victim t.cache
        ∧ cache_find victim r.state.cache = none
        ∧ ∀ k, k ≠ victim → k ≠ key →
            cache_find k r.state.cache = cache_find k t.cache := by
    intro t0 v rp ret h0 hcache hm
    obtain ⟨victim, t1, hu, a1, a2, a3, a4, a5⟩ :=
      update_cache_evicts t0 stamp calls.length key v h0 (by rw [hcache]; exact hnew)
        (by rw [hcache, hm]; exact hfull)
    rw [hcache] at a1 a2 a3 a5
    refine ⟨victim, ⟨t1, rp, ret⟩, v, ?_, a1, a2, a3, a4, a5⟩
    rw [hu]
  cases c with
  | set k newval =>
    by_cases ho : e.owningmachine k = e.procid
    · simp only [caching_dht.touched, if_pos ho] at ht
      exact absurd ht (by simp)
    · simp only [caching_dht.touched, if_neg ho, Option.some.injEq] at ht
      subst ht
      simp only [caching_dht.call, caching_dht.set, if_neg ho]
      exact hupd t newval _ _ h3 rfl rfl
  | get k answer =>
    by_cases ho : e.owningmachine k = e.procid
    · simp only [caching_dht.touched, if_pos ho] at ht
      exact absurd ht (by simp)
    · cases answer with
      | none =>
        simp only [caching_dht.touched, if_neg ho, Option.isSome_none, Bool.false_eq_true,
          if_false] at ht
        exact absurd ht (by simp)
      | some v =>
        simp only [caching_dht.touched, if_neg ho, Option.isSome_some, if_true,
          Option.some.injEq] at ht
        subst ht
        simp only [caching_dht.call, caching_dht.get, if_neg ho]
        exact hupd t v _ _ h3 rfl rfl
  | get_cached k answer =>
    by_cases ho : e.owningmachine k = e.procid
    · simp only [caching_dht.touched, if_pos ho] at ht
      exact absurd ht (by simp)
    · cases answer with
      | none =>
        by_cases hk : k = key
        · subst hk
          simp only [caching_dht.touched, if_neg ho, hnew, Option.isSome_none,
            Bool.false_eq_true, if_false] at ht
          exact absurd ht (by simp)
        · have : t.touched e (dht_call.get_cached k none) = some k ∨
              t.touched e (dht_call.get_cached k none) = none := by
            simp only [caching_dht.touched, if_neg ho, Option.isSome_none, Bool.false_eq_true,
              if_false]
            by_cases hs : (cache_find k t.cache).isSome = true
            · exact Or.inl (by rw [if_pos hs])
            · exact Or.inr (by rw [if_neg hs])
          rcases this with h4 | h4
          · rw [h4] at ht
            exact absurd (Option.some.inj ht) hk
          · rw [h4] at ht
            exact absurd ht (by simp)
      | some v =>
        have hk : k = key := by
          simp only [caching_dht.touched, if_neg ho, Option.isSome_some, if_true,
            ite_self, Option.some.injEq] at ht
          exact ht
        subst hk
        simp only [caching_dht.call, caching_dht.get_cached, caching_dht.get, if_neg ho, hnew]
        exact hupd
          { t with reqs := (t.reqs + 1) % size_mod, misses := (t.misses + 1) % size_mod }
          v _ _ h3 rfl rfl
  | invalidate k =>
    simp only [caching_dht.touched] at ht
    exact absurd ht (by simp)

/-- With room for two entries on machine 0 of three, after `set(1, 10)`,
`set(2, 20)` and a hit of `get_cached(1)`, the call `set(4, 40)` finds the cache
full and removes the entry of the key 2, touched by the call 2, and keeps the
entry of the key 1, inserted first and touched last by the call 3. -/
theorem full_cache_evicts_least_recently_used_witness :
    (1 ≤ 2)
    ∧ (∃ (t : caching_dht Nat Nat) (stamp : Nat → Nat),
        caching_dht.stamped_run example_dht_env
            [dht_call.set 1 10, dht_call.set 2 20, dht_call.get_cached 1 none] 0
            (fun _ => 0) (caching_dht.init 2)
          = some (t, stamp,
              [dht_call.set 1 10, dht_call.set 2 20, dht_call.get_cached 1 (none : Option Nat)].length)
        ∧ caching_dht.run example_dht_env
            [dht_call.set 1 10, dht_call.set 2 20, dht_call.get_cached 1 none]
            (caching_dht.init 2) = some t
        ∧ (t.touched example_dht_env (dht_call.set 4 40) = some 4 →
            cache_find 4 t.cache = none → t.cache.length ≥ t.maxcache →
            ∃ victim r v, t.call example_dht_env (dht_call.set 4 40) = some r
              ∧ victim ∈ t.cache.map Prod.fst
              ∧ (∀ k ∈ t.cache.map Prod.fst, k ≠ victim → stamp victim < stamp k)
              ∧ r.state.cache = (4, v) :: cache_erase victim t.cache
              ∧ cache_find victim r.state.cache = none
              ∧ ∀ k, k ≠ victim → k ≠ 4 →
                  cache_find k r.state.cache = cache_find k t.cache))
    ∧ (caching_dht.run example_dht_env
          [dht_call.set 1 10, dht_call.set 2 20, dht_call.get_cached 1 none]
          (caching_dht.init 2)).map (fun t => (t.cache, t.lruage, t.cache.length ≥ t.maxcache))
        = some ([(2, 20), (1, 10)], [1, 2], True)
    ∧ (caching_dht.run example_dht_env
          [dht_call.set 1 10, dht_call.set 2 20, dht_call.get_cached 1 none,
            dht_call.set 4 40]
          (caching_dht.init 2)).map (fun t => (t.cache, t.lruage))
        = some ([(4, 40), (1, 10)], [4, 1]) :=
  ⟨by decide,
    full_cache_evicts_least_recently_used example_dht_env
      [dht_call.set 1 10, dht_call.set 2 20, dht_call.get_cached 1 none] 2
      (dht_call.set 4 40) 4 (by decide),
    by simp [caching_dht.run, caching_dht.call, caching_dht.set, caching_dht.get_cached,
      caching_dht.update_cache, caching_dht.remove_lru, caching_dht.init, cache_find,
      cache_erase, cache_assign, example_dht_env, dht_env.owningmachine],
    by simp [caching_dht.run, caching_dht.call, caching_dht.set, caching_dht.get_cached,
      caching_dht.update_cache, caching_dht.remove_lru, caching_dht.init, cache_find,
      cache_erase, cache_assign, example_dht_env, dht_env.owningmachine]⟩

/-- A small run of the test: `fibonacci` on 3 takes six steps when the
workers always run the first runnable fiber. -/
theorem fibo_fiber_test_three :
    fibo_fiber_test (fun _ => 7) (fun _ => 0) 7 3 9
      = some { argument := 3, result := 2, parent_tid := 0, result_set := true } := by
  decide

/-- Every id is under itself. -/
theorem tid_under_refl (tid : Nat) : tid_under tid tid := ⟨0, by simp⟩

/-- An id under `tid` is at least `tid`. -/
theorem tid_under_le {tid x : Nat} (h : tid_under tid x) : tid ≤ x := by
  obtain ⟨k, hk⟩ := h
  rw [← hk]
  exact Nat.div_le_self _ _

/-- An id under the first fiber launched by `tid` is under `tid`. -/
theorem tid_under_left {tid x : Nat} (h : tid_under (2 * tid) x) : tid_under tid x := by
  obtain ⟨k, hk⟩ := h
  refine ⟨k + 1, ?_⟩
  rw [pow_succ, ← Nat.div_div_eq_div_mul, hk]
  omega

/-- An id under the second fiber launched by `tid` is under `tid`. -/
theorem tid_under_right {tid x : Nat} (h : tid_under (2 * tid + 1) x) : tid_under tid x := by
  obtain ⟨k, hk⟩ := h
  refine ⟨k + 1, ?_⟩
  rw [pow_succ, ← Nat.div_div_eq_div_mul, hk]
  omega

/-- No id is under both fibers launched by a fiber. -/
theorem tid_under_disjoint {tid x : Nat} (ht : 1 ≤ tid) (hl : tid_under (2 * tid) x)
    (hr : tid_under (2 * tid + 1) x) : False := by
  obtain ⟨k, hk⟩ := hl
  obtain ⟨j, hj⟩ := hr
  rcases Nat.le_total k j with h | h
  · obtain ⟨m, rfl⟩ := Nat.exists_eq_add_of_le h
    rw [pow_add, ← Nat.div_div_eq_div_mul, hk] at hj
    have := Nat.div_le_self (2 * tid) (2 ^ m)
    omega
  · obtain ⟨m, rfl⟩ := Nat.exists_eq_add_of_le h
    rw [pow_add, ← Nat.div_div_eq_div_mul, hj] at hk
    cases m with
    | zero => simp at hk
    | succ m =>
      rw [pow_succ', ← Nat.div_div_eq_div_mul] at hk
      have h2 : (2 * tid + 1) / 2 = tid := by omega
      rw [h2] at hk
      have := Nat.div_le_self tid (2 ^ m)
      omega

/-- The call `schedule_tid` changes nothing among exited fibers. -/
theorem schedule_tid_exited (x : Nat) (t : fibonacci_fiber) (h : t.is_exited = true) :
    fiber_group.schedule_tid x t = t := by
  cases t with
  | launched tid p => rfl
  | waiting tid p parked l r => simp [fibonacci_fiber.is_exited] at h
  | exited p => rfl

/-- The call `schedule_tid(x)` changes nothing in the tree of a fiber that `x`
is not under. -/
theorem schedule_tid_not_under (x : Nat) :
    ∀ (t : fibonacci_fiber) (tid parent a : Nat), fibonacci_inv tid parent a t →
      ¬ tid_under tid x → fiber_group.schedule_tid x t = t := by
  intro t
  induction t with
  | launched t p => intro _ _ _ _ _; rfl
  | waiting t p parked l r ihl ihr =>
    intro tid parent a hinv hx
    simp only [fibonacci_inv] at hinv
    obtain ⟨ht, _, _, _, _, hl, hr, _⟩ := hinv
    have hne : ¬ t = x := by
      intro e
      apply hx
      rw [← e, ht]
      exact tid_under_refl tid
    simp only [fiber_group.schedule_tid, if_neg hne]
    rw [ihl _ _ _ hl (fun h => hx (tid_under_left h)),
      ihr _ _ _ hr (fun h => hx (tid_under_right h))]
  | exited p => intro _ _ _ _ _; rfl

/-- In a run of `fibonacci` the result of a promise is set exactly when its
fiber has exited. -/
theorem fibonacci_inv_result_set {tid parent a : Nat} {t : fibonacci_fiber}
    (h : fibonacci_inv tid parent a t) : t.promise.result_set = t.is_exited := by
  cases t with
  | launched t p =>
    simp only [fibonacci_inv] at h
    simp [fibonacci_fiber.promise, fibonacci_fiber.is_exited, h.2.2.2.1]
  | waiting t p parked l r =>
    simp only [fibonacci_inv] at h
    simp [fibonacci_fiber.promise, fibonacci_fiber.is_exited, h.2.2.2.1]
  | exited p =>
    simp only [fibonacci_inv] at h
    simp [fibonacci_fiber.promise, fibonacci_fiber.is_exited, h.2.2.1]

/-- The result of an exited fiber of a run is the Fibonacci number of its
argument. -/
theorem fibonacci_inv_result {tid parent a : Nat} {t : fibonacci_fiber}
    (h : fibonacci_inv tid parent a t) (he : t.is_exited = true) :
    t.promise.result = Nat.fib a % size_mod ∧ fibonacci_measure t = 0 := by
  cases t with
  | launched t p => simp [fibonacci_fiber.is_exited] at he
  | waiting t p parked l r => simp [fibonacci_fiber.is_exited] at he
  | exited p =>
    simp only [fibonacci_inv] at h
    exact ⟨h.2.2.2.1, rfl⟩

/-- The cost is at least 2. -/
theorem fibonacci_cost_ge (a : Nat) : 2 ≤ fibonacci_cost a := by
  match a with
  | 0 => simp [fibonacci_cost]
  | 1 => simp [fibonacci_cost]
  | 2 => simp [fibonacci_cost]
  | n + 3 => simp [fibonacci_cost]

/-- The cost of an argument of at least 3. -/
theorem fibonacci_cost_rec (a : Nat) (h : 3 ≤ a) :
    fibonacci_cost a = fibonacci_cost (a - 1) + fibonacci_cost (a - 2) + 3 := by
  obtain ⟨n, rfl⟩ : ∃ n, a = n + 3 := ⟨a - 3, by omega⟩
  simp [fibonacci_cost]

/-- The cost of the arguments 1 and 2. -/
theorem fibonacci_cost_base (a : Nat) (h : a = 1 ∨ a = 2) : fibonacci_cost a = 2 := by
  rcases h with rfl | rfl <;> rfl

/-- The sum of the Fibonacci numbers of `a - 1` and `a - 2`, each reduced, is
the Fibonacci number of `a`, reduced. -/
theorem fib_add_mod (m a : Nat) (h : 3 ≤ a) :
    (Nat.fib (a - 1) % m + Nat.fib (a - 2) % m) % m = Nat.fib a % m := by
  obtain ⟨n, rfl⟩ : ∃ n, a = n + 3 := ⟨a - 3, by omega⟩
  have h1 : n + 3 - 1 = n + 2 := by omega
  have h2 : n + 3 - 2 = n + 1 := by omega
  rw [h1, h2, ← Nat.add_mod, Nat.add_comm]
  have : Nat.fib (n + 3) = Nat.fib (n + 1) + Nat.fib (n + 2) := Nat.fib_add_two
  rw [this]

/-- A fiber of a run that has not exited can still take a step. -/
theorem fibonacci_measure_pos {tid parent a : Nat} {t : fibonacci_fiber}
    (h : fibonacci_inv tid parent a t) (he : t.is_exited = false) :
    1 ≤ fibonacci_measure t := by
  cases t with
  | launched t p =>
    have := fibonacci_cost_ge p.argument
    simp only [fibonacci_measure]
    omega
  | waiting t p parked l r =>
    simp only [fibonacci_measure]
    omega
  | exited p => simp [fibonacci_fiber.is_exited] at he

/-- A call of `schedule_tid` made under the first fiber launched by a waiting
fiber takes effect under that fiber only. -/
theorem wake_waiting_left (w : Option Nat) (tid parent a : Nat) (p : fibonacci_compute_promise)
    (parked : Bool) (l r : fibonacci_fiber) (ht : 1 ≤ tid)
    (hw : ∀ x, w = some x → tid_under (2 * tid) x) (hr : fibonacci_inv (2 * tid + 1) parent a r) :
    fiber_group.wake w (fibonacci_fiber.waiting tid p parked l r)
      = fibonacci_fiber.waiting tid p parked (fiber_group.wake w l) r := by
  cases w with
  | none => rfl
  | some x =>
    have hx := hw x rfl
    have hle := tid_under_le hx
    have hne : ¬ tid = x := by omega
    simp only [fiber_group.wake, fiber_group.schedule_tid, if_neg hne]
    rw [schedule_tid_not_under x r _ _ _ hr (fun h => tid_under_disjoint ht hx h)]

/-- A call of `schedule_tid` made under the second fiber launched by a waiting
fiber takes effect under that fiber only. -/
theorem wake_waiting_right (w : Option Nat) (tid parent a : Nat)
    (p : fibonacci_compute_promise) (parked : Bool) (l r : fibonacci_fiber) (ht : 1 ≤ tid)
    (hw : ∀ x, w = some x → tid_under (2 * tid + 1) x)
    (hl : fibonacci_inv (2 * tid) parent a l) :
    fiber_group.wake w (fibonacci_fiber.waiting tid p parked l r)
      = fibonacci_fiber.waiting tid p parked l (fiber_group.wake w r) := by
  cases w with
  | none => rfl
  | some x =>
    have hx := hw x rfl
    have hle := tid_under_le hx
    have hne : ¬ tid = x := by omega
    simp only [fiber_group.wake, fiber_group.schedule_tid, if_neg hne]
    rw [schedule_tid_not_under x l _ _ _ hl (fun h => tid_under_disjoint ht h hx)]

/-- The call `schedule_tid(tid)` made by a fiber that `tid` launched, when it
exits, unparks the fiber `tid` and changes nothing else. -/
theorem wake_waiting_self (tid a b : Nat) (p : fibonacci_compute_promise) (parked : Bool)
    (l r : fibonacci_fiber) (ht : 1 ≤ tid) (hl : fibonacci_inv (2 * tid) tid a l)
    (hr : fibonacci_inv (2 * tid + 1) tid b r) :
    fiber_group.wake (if tid ≠ 0 then some tid else none)
        (fibonacci_fiber.waiting tid p parked l r)
      = fibonacci_fiber.waiting tid p false l r := by
  have hne : tid ≠ 0 := by omega
  rw [if_pos hne]
  simp only [fiber_group.wake, fiber_group.schedule_tid, if_true]
  rw [schedule_tid_not_under tid l _ _ _ hl (fun h => by have := tid_under_le h; omega),
    schedule_tid_not_under tid r _ _ _ hr (fun h => by have := tid_under_le h; omega)]

/-- The first time slice of a launched fiber of a run: it exits at once, with
the call of `schedule_tid` for its parent, or it launches two fibers and is in
the wait loop. -/
theorem fibonacci_start_spec (garbage : Nat → Nat) (tid parent a : Nat)
    (p : fibonacci_compute_promise)
    (hinv : fibonacci_inv tid parent a (fibonacci_fiber.launched tid p)) :
    ∃ t1 w, fibonacci_start garbage (fiber_group.launch_tid tid false)
          (fiber_group.launch_tid tid true) tid p = (t1, w)
      ∧ ((t1.is_exited = false ∧ w = none ∧ fibonacci_inv tid parent a t1
            ∧ fibonacci_measure t1 < fibonacci_cost p.argument)
        ∨ (t1.is_exited = true ∧ w = (if parent ≠ 0 then some parent else none)
            ∧ fibonacci_inv tid parent a t1 ∧ 2 ≤ fibonacci_cost p.argument)) := by
  simp only [fibonacci_inv] at hinv
  obtain ⟨_, hp, ha, hrs, h1⟩ := hinv
  by_cases hb : p.argument = 1 ∨ p.argument = 2
  · simp only [fibonacci_start, if_pos hb, fibonacci_exit]
    refine ⟨_, _, rfl, Or.inr ?_⟩
    refine ⟨rfl, by simp only [hp], ?_, fibonacci_cost_ge _⟩
    simp only [fibonacci_inv]
    refine ⟨hp, ha, trivial, ?_, h1⟩
    rw [← ha]
    rcases hb with e | e <;> rw [e] <;> decide
  · have h3 : 3 ≤ p.argument := by omega
    simp only [fibonacci_start, if_neg hb]
    refine ⟨_, _, rfl, Or.inl ?_⟩
    have e1 : size_sub p.argument 1 = a - 1 := by
      simp only [size_sub]
      rw [if_pos (by omega), ha]
    have e2 : size_sub p.argument 2 = a - 2 := by
      simp only [size_sub]
      rw [if_pos (by omega), ha]
    refine ⟨rfl, rfl, ?_, ?_⟩
    · simp only [fibonacci_inv, fiber_group.launch_tid, Bool.false_eq_true, if_false, if_true]
      refine ⟨trivial, hp, ha, hrs, by omega, ⟨trivial, trivial, e1, trivial, by omega⟩,
        ⟨trivial, trivial, e2, trivial, by omega⟩, ?_⟩
      intro h
      exact absurd h (by simp)
    · simp only [fibonacci_measure, e1, e2]
      rw [fibonacci_cost_rec p.argument h3, ha]
      simp

/-- One pass of the wait loop of a fiber of a run: it parks while a fiber it
launched has not exited, and exits with the sum of the two results
otherwise. -/
theorem fibonacci_wait_spec (tid parent a : Nat) (p : fibonacci_compute_promise)
    (l r : fibonacci_fiber)
    (hinv : fibonacci_inv tid parent a (fibonacci_fiber.waiting tid p false l r)) :
    ∃ t1 w, fibonacci_wait tid p l r = (t1, w)
      ∧ ((t1.is_exited = false ∧ w = none ∧ fibonacci_inv tid parent a t1
            ∧ fibonacci_measure t1
                < fibonacci_measure (fibonacci_fiber.waiting tid p false l r))
        ∨ (t1.is_exited = true ∧ w = (if parent ≠ 0 then some parent else none)
            ∧ fibonacci_inv tid parent a t1
            ∧ 2 ≤ fibonacci_measure (fibonacci_fiber.waiting tid p false l r))) := by
  simp only [fibonacci_inv] at hinv
  obtain ⟨_, hp, ha, hrs, h3, hl, hr, _⟩ := hinv
  have hls := fibonacci_inv_result_set hl
  have hrs2 := fibonacci_inv_result_set hr
  by_cases hc : l.promise.result_set = false ∨ r.promise.result_set = false
  · simp only [fibonacci_wait, if_pos hc]
    refine ⟨_, _, rfl, Or.inl ?_⟩
    refine ⟨rfl, rfl, ?_, ?_⟩
    · simp only [fibonacci_inv]
      refine ⟨trivial, hp, ha, hrs, h3, hl, hr, ?_⟩
      intro _
      rw [← hls, ← hrs2]
      exact hc
    · simp only [fibonacci_measure, Bool.false_eq_true, if_false, if_true]
      omega
  · have hle : l.is_exited = true := by
      rw [← hls]
      cases h : l.promise.result_set
      · exact absurd (Or.inl h) hc
      · rfl
    have hre : r.is_exited = true := by
      rw [← hrs2]
      cases h : r.promise.result_set
      · exact absurd (Or.inr h) hc
      · rfl
    simp only [fibonacci_wait, if_neg hc, fibonacci_exit]
    refine ⟨_, _, rfl, Or.inr ?_⟩
    refine ⟨rfl, by simp only [hp], ?_, ?_⟩
    · simp only [fibonacci_inv]
      refine ⟨hp, ha, trivial, ?_, by omega⟩
      rw [(fibonacci_inv_result hl hle).1, (fibonacci_inv_result hr hre).1]
      exact fib_add_mod size_mod a h3
    · simp only [fibonacci_measure, Bool.false_eq_true, if_false]
      omega

/-- A time slice of a runnable fiber of a run is defined. Either the fiber at
the root of the tree has not exited afterwards: then the call of
`schedule_tid`, if one was made, named a fiber of the tree, and after it the
tree is again a state of the run and fewer steps remain. Or the fiber at the
root exits: then the call of `schedule_tid` names its parent. -/
theorem fibonacci_step_spec (garbage : Nat → Nat) :
    ∀ (t : fibonacci_fiber) (path : List Bool) (tid parent a : Nat), 1 ≤ tid →
      fibonacci_inv tid parent a t → path ∈ fiber_group.runnable t →
      ∃ t1 w, fibonacci_step garbage path t = some (t1, w)
        ∧ (((∀ x, w = some x → tid_under tid x)
              ∧ fibonacci_inv tid parent a (fiber_group.wake w t1)
              ∧ fibonacci_measure (fiber_group.wake w t1) < fibonacci_measure t
              ∧ (fiber_group.wake w t1).is_exited = false)
          ∨ (t1.is_exited = true ∧ w = (if parent ≠ 0 then some parent else none)
              ∧ fibonacci_inv tid parent a t1 ∧ 2 ≤ fibonacci_measure t)) := by
  intro t
  induction t with
  | launched t p =>
    intro path tid parent a _ hinv hpath
    simp only [fiber_group.runnable, List.mem_singleton] at hpath
    subst hpath
    have ht : t = tid := by
      simp only [fibonacci_inv] at hinv
      exact hinv.1
    subst ht
    obtain ⟨t1, w, hs, hcase⟩ := fibonacci_start_spec garbage t parent a p hinv
    refine ⟨t1, w, by simp only [fibonacci_step, hs], ?_⟩
    rcases hcase with ⟨h1, h2, h3, h4⟩ | ⟨h1, h2, h3, h4⟩
    · subst h2
      exact Or.inl ⟨fun x hx => absurd hx (by simp), h3, h4, h1⟩
    · exact Or.inr ⟨h1, h2, h3, h4⟩
  | waiting t p parked l r ihl ihr =>
    intro path tid parent a htid hinv hpath
    have hinv0 := hinv
    simp only [fibonacci_inv] at hinv
    obtain ⟨ht, hp, ha, hrs, h3, hl, hr, hpk⟩ := hinv
    subst ht
    simp only [fiber_group.runnable, List.mem_append, List.mem_map] at hpath
    rcases hpath with h | ⟨q, hq, rfl⟩ | ⟨q, hq, rfl⟩
    · cases parked with
      | true => simp at h
      | false =>
        simp only [Bool.false_eq_true, if_false, List.mem_singleton] at h
        subst h
        obtain ⟨t1, w, hs, hcase⟩ := fibonacci_wait_spec t parent a p l r hinv0
        refine ⟨t1, w, by simp only [fibonacci_step, Bool.false_eq_true, if_false, hs], ?_⟩
        rcases hcase with ⟨h1, h2, h4, h5⟩ | ⟨h1, h2, h4, h5⟩
        · subst h2
          exact Or.inl ⟨fun x hx => absurd hx (by simp), h4, h5, h1⟩
        · exact Or.inr ⟨h1, h2, h4, h5⟩
    · obtain ⟨l1, w, hs, hcase⟩ := ihl q (2 * t) t (a - 1) (by omega) hl hq
      refine ⟨fibonacci_fiber.waiting t p parked l1 r, w,
        by simp only [fibonacci_step, Bool.false_eq_true, if_false, hs], Or.inl ?_⟩
      rcases hcase with ⟨h1, h2, h4, h5⟩ | ⟨h1, h2, h4, h5⟩
      · rw [wake_waiting_left w t t (a - 2) p parked l1 r htid h1 hr]
        refine ⟨fun x hx => tid_under_left (h1 x hx), ?_, ?_, rfl⟩
        · simp only [fibonacci_inv]
          exact ⟨trivial, hp, ha, hrs, h3, h2, hr, fun _ => Or.inl h5⟩
        · simp only [fibonacci_measure]
          omega
      · have hw : w = (if t ≠ 0 then some t else none) := h2
        rw [hw, wake_waiting_self t (a - 1) (a - 2) p parked l1 r htid h4 hr]
        refine ⟨?_, ?_, ?_, rfl⟩
        · intro x hx
          rw [if_pos (by omega)] at hx
          rw [← Option.some.inj hx]
          exact tid_under_refl t
        · simp only [fibonacci_inv]
          exact ⟨trivial, hp, ha, hrs, h3, h4, hr, fun h => absurd h (by simp)⟩
        · have := (fibonacci_inv_result h4 h1).2
          simp only [fibonacci_measure, Bool.false_eq_true, if_false]
          split <;> omega
    · obtain ⟨r1, w, hs, hcase⟩ := ihr q (2 * t + 1) t (a - 2) (by omega) hr hq
      refine ⟨fibonacci_fiber.waiting t p parked l r1, w,
        by simp only [fibonacci_step, if_true, hs], Or.inl ?_⟩
      rcases hcase with ⟨h1, h2, h4, h5⟩ | ⟨h1, h2, h4, h5⟩
      · rw [wake_waiting_right w t t (a - 1) p parked l r1 htid h1 hl]
        refine ⟨fun x hx => tid_under_right (h1 x hx), ?_, ?_, rfl⟩
        · simp only [fibonacci_inv]
          exact ⟨trivial, hp, ha, hrs, h3, hl, h2, fun _ => Or.inr h5⟩
        · simp only [fibonacci_measure]
          omega
      · have hw : w = (if t ≠ 0 then some t else none) := h2
        rw [hw, wake_waiting_self t (a - 1) (a - 2) p parked l r1 htid hl h4]
        refine ⟨?_, ?_, ?_, rfl⟩
        · intro x hx
          rw [if_pos (by omega)] at hx
          rw [← Option.some.inj hx]
          exact tid_under_refl t
        · simp only [fibonacci_inv]
          exact ⟨trivial, hp, ha, hrs, h3, hl, h4, fun h => absurd h (by simp)⟩
        · have := (fibonacci_inv_result h4 h1).2
          simp only [fibonacci_measure, Bool.false_eq_true, if_false]
          split <;> omega
  | exited p =>
    intro path tid parent a _ _ hpath
    simp [fiber_group.runnable] at hpath

/-- A tree of a run whose first fiber has not exited has a runnable fiber: the
fibers do not all wait for each other. -/
theorem fibonacci_runnable :
    ∀ (t : fibonacci_fiber) (tid parent a : Nat), fibonacci_inv tid parent a t →
      t.is_exited = false → fiber_group.runnable t ≠ [] := by
  intro t
  induction t with
  | launched t p => intro _ _ _ _ _; simp [fiber_group.runnable]
  | waiting t p parked l r ihl ihr =>
    intro tid parent a hinv _
    simp only [fibonacci_inv] at hinv
    obtain ⟨_, _, _, _, _, hl, hr, hpk⟩ := hinv
    cases parked with
    | false => simp [fiber_group.runnable]
    | true =>
      rcases hpk rfl with h | h
      · have := ihl _ _ _ hl h
        simp [fiber_group.runnable, this]
      · have := ihr _ _ _ hr h
        simp [fiber_group.runnable, this]
  | exited p => intro _ _ _ _ he; simp [fibonacci_fiber.is_exited] at he

/-- What `join` does while the first fiber has not exited. -/
theorem join_step (garbage : Nat → Nat) (sched : Nat → Nat) (fuel : Nat) (t : fibonacci_fiber)
    (he : t.is_exited = false) :
    fiber_group.join garbage sched (fuel + 1) t
      = match fiber_group.runnable t with
        | [] => none
        | path :: paths =>
          match fiber_group.step garbage
              ((path :: paths).getD (sched 0 % (paths.length + 1)) path) t with
          | none => none
          | some t1 => fiber_group.join garbage (fun i => sched (i + 1)) fuel t1 := by
  cases t with
  | launched t p => rfl
  | waiting t p parked l r => rfl
  | exited p => simp [fibonacci_fiber.is_exited] at he

/-- From every state of the run of `fibonacci` on `n` in the first fiber,
`join` returns when the fuel covers the steps that remain, with the result set
and equal to the Fibonacci number of `n`, whichever fibers the workers
choose. -/
theorem join_returns (garbage : Nat → Nat) (n : Nat) :
    ∀ (fuel : Nat) (sched : Nat → Nat) (t : fibonacci_fiber), fibonacci_inv 1 0 n t →
      fibonacci_measure t ≤ fuel →
      fiber_group.join garbage sched fuel t
        = some { argument := n, result := Nat.fib n % size_mod, parent_tid := 0,
                 result_set := true } := by
  have hexit : ∀ (fuel : Nat) (sched : Nat → Nat) (t : fibonacci_fiber),
      fibonacci_inv 1 0 n t → t.is_exited = true →
      fiber_group.join garbage sched fuel t
        = some { argument := n, result := Nat.fib n % size_mod, parent_tid := 0,
                 result_set := true } := by
    intro fuel sched t hinv he
    cases t with
    | launched t p => simp [fibonacci_fiber.is_exited] at he
    | waiting t p parked l r => simp [fibonacci_fiber.is_exited] at he
    | exited p =>
      simp only [fibonacci_inv] at hinv
      obtain ⟨h1, h2, h3, h4, _⟩ := hinv
      have hp : p = { argument := n, result := Nat.fib n % size_mod, parent_tid := 0,
                      result_set := true } := by
        cases p
        simp only at h1 h2 h3 h4
        simp only [h1, h2, h3, h4]
      rw [hp]
      cases fuel <;> rfl
  intro fuel
  induction fuel with
  | zero =>
    intro sched t hinv hm
    cases he : t.is_exited with
    | true => exact hexit 0 sched t hinv he
    | false =>
      have := fibonacci_measure_pos hinv he
      omega
  | succ fuel ih =>
    intro sched t hinv hm
    cases he : t.is_exited with
    | true => exact hexit (fuel + 1) sched t hinv he
    | false =>
      rw [join_step garbage sched fuel t he]
      cases hrun : fiber_group.runnable t with
      | nil => exact absurd hrun (fibonacci_runnable t 1 0 n hinv he)
      | cons path paths =>
        simp only
        have hmem : (path :: paths).getD (sched 0 % (paths.length + 1)) path
            ∈ fiber_group.runnable t := by
          rw [hrun]
          have hlt : sched 0 % (paths.length + 1) < (path :: paths).length := by
            simp only [List.length_cons]
            exact Nat.mod_lt _ (Nat.succ_pos _)
          rw [List.getD_eq_getElem _ _ hlt]
          exact List.getElem_mem hlt
        obtain ⟨t1, w, hs, hcase⟩ := fibonacci_step_spec garbage t _ 1 0 n (Nat.le_refl 1)
          hinv hmem
        simp only [fiber_group.step, hs]
        rcases hcase with ⟨_, h2, h3, _⟩ | ⟨h1, h2, h3, _⟩
        · exact ih _ _ h2 (by omega)
        · have hw : w = none := by
            rw [h2]
            simp
          subst hw
          exact hexit fuel _ t1 h3 h1

/-- Claim C24: for every argument `n` of at least 1, whatever the workers
choose to run, whatever the fields that are not initialised hold, the test
program, which launches `fibonacci` on a promise with the argument `n` and
joins, returns from `join` within `fibonacci_cost n` steps of the fibers, with
`result_set == true` and `result` equal to the `n`-th Fibonacci number mod
`2 ^ 64`. -/
theorem fibonacci_computes_fib (garbage : Nat → Nat) (sched : Nat → Nat)
    (fuel n result0 : Nat) (hn : 1 ≤ n) (hfuel : fibonacci_cost n ≤ fuel) :
    fibo_fiber_test garbage sched fuel n result0
      = some { argument := n, result := Nat.fib n % size_mod, parent_tid := 0,
               result_set := true } := by
  unfold fibo_fiber_test
  refine join_returns garbage n fuel sched _ ?_ hfuel
  simp only [fibonacci_inv]
  exact ⟨trivial, trivial, trivial, trivial, hn⟩

/-- The test itself: for the argument 24, as in `main`, with the workers
choosing the runnable fiber number `i` at the step `i`, `join` returns with
`result_set == true` and the result 46368, the 24th Fibonacci number. -/
theorem fibonacci_computes_fib_witness :
    (1 ≤ 24) ∧ fibonacci_cost 24 ≤ fibonacci_cost 24
    ∧ fibo_fiber_test (fun _ => 7) (fun i => i) (fibonacci_cost 24) 24 9
        = some { argument := 24, result := Nat.fib 24 % size_mod, parent_tid := 0,
                 result_set := true }
    ∧ Nat.fib 24 % size_mod = 46368 ∧ Nat.fib 1 = 1 ∧ Nat.fib 2 = 1 :=
  ⟨by decide, Nat.le_refl _,
    fibonacci_computes_fib (fun _ => 7) (fun i => i) (fibonacci_cost 24) 24 9 (by decide)
      (Nat.le_refl _),
    by decide, by decide, by decide⟩

end graphlab
